import Mathlib

/-!
# libgif: a shallow embedding of `gif_parse`, `gif_free`, `gif_image_get_palette`

The definitions below follow `src/src/gif.c` and `src/include/gif.h` statement by
statement.  Conventions of the embedding:

* machine integers are natural numbers; a wrap-around is written `% 2 ^ w` where the C
  type can overflow (`gu16 len`, `gu16 tmplen`);
* the cursor `struct vec` (remaining size, read pointer) is the list of the bytes that
  remain; `VEC_AT_UNSAFE` is an `Option`-style read whose out-of-range branch is the
  trap `Trap.input`, and `VEC_ADVANCE_UNSAFE` past the end is the trap `Trap.advance`;
* memory whose contents C leaves unspecified is a parameter (`Uninit`): the automatic
  array `code_table[4096]`, the variable-length array `stack` and the scratch
  block of the de-interlacer, each with contents of its own every time it is created;
* accesses to `code_table`, `stack` and `indices` are bounds-checked in the model; a
  failed check is a trap (`Trap.code_table`, `Trap.stack`, `Trap.indices`), which is
  how the model records that the C program would access memory out of bounds;
* `malloc` and `realloc` are taken to succeed (the `GIF_ERR_NOMEM` returns are not
  modelled); releasing memory has no observable effect in the model;
* loops are structural recursions on a fuel argument chosen by the caller from the
  loop's own bound; running out of fuel is the trap `Trap.fuel`.
-/

namespace LibGif

/-! ## Constants of `gif.h` -/

def GIF_VERSION_87A : Nat := 0
def GIF_VERSION_89A : Nat := 1

def GIF_SUCCESS : Int := 0
def GIF_ERR_NOMEM : Int := -1
def GIF_ERR_EOF : Int := -2
def GIF_ERR_BAD_DATA : Int := -3
def GIF_ERR_FAULT : Int := -4

def GIF_FLAG_GCT : Nat := 1
def GIF_CODE_NO_PREFIX : Nat := 0xFFFF
def GIF_IMAGE_FLAG_LCT : Nat := 1 <<< 0
def GIF_IMAGE_FLAG_FRAME : Nat := 1 <<< 1
def GIF_FRAME_FLAG_TRANSPARENT : Nat := 1 <<< 0
def GIF_FRAME_FLAG_USER_INPUT : Nat := 1 <<< 1
def GIF_FRAME_DISPOSE_NONE : Nat := 1
def GIF_FRAME_DISPOSE_ALL : Nat := 2
def GIF_FRAME_DISPOSE_RESTORE : Nat := 3

/-! ## Data model of `gif.h` -/

/-- The `struct gif_color_table`: `colors` is `none` for a NULL pointer. -/
structure gif_color_table where
  num_colors : Nat
  colors : Option (List UInt8)
deriving DecidableEq, Repr

/-- The `struct gif_code`, one entry of the LZW code table. -/
structure gif_code where
  len : Nat
  prefix_code : Nat
  inuse : Nat
  index : Nat
  first_index : Nat
deriving DecidableEq, Repr

/-- The `struct gif_frame`, the metadata of a Graphic Control Extension. -/
structure gif_frame where
  flags : Nat
  disposal_method : Nat
  delay_time : Nat
  transparent_index : Nat
deriving DecidableEq, Repr

/-- The `struct gif_image`.  The back pointer `gif` to the container is not stored:
`gif_image_get_palette` receives the container it points to as an argument. -/
structure gif_image where
  x : Nat
  y : Nat
  width : Nat
  height : Nat
  flags : Nat
  lct : gif_color_table
  frame : gif_frame
  indices : List Nat
deriving DecidableEq, Repr

/-- The `struct gif`.  The array `images` holds `num_images` records; a NULL `images`
pointer is the empty list together with `images_cap = 0`. -/
structure gif where
  version : Nat
  width : Nat
  height : Nat
  flags : Nat
  bg_index : Nat
  gct : gif_color_table
  num_images : Nat
  images_cap : Nat
  images : List gif_image
deriving DecidableEq, Repr

/-- The all-zero container, the effect of `memset (gif, 0, sizeof (struct gif))`. -/
def gif_zero : gif :=
  { version := 0, width := 0, height := 0, flags := 0, bg_index := 0,
    gct := { num_colors := 0, colors := none },
    num_images := 0, images_cap := 0, images := [] }

/-- The all-zero frame, `struct gif_frame frame = { 0 }`. -/
def frame_zero : gif_frame :=
  { flags := 0, disposal_method := 0, delay_time := 0, transparent_index := 0 }

/-- The all-zero image, `struct gif_image img = { 0 }`. -/
def image_zero : gif_image :=
  { x := 0, y := 0, width := 0, height := 0, flags := 0,
    lct := { num_colors := 0, colors := none }, frame := frame_zero, indices := [] }

/-- The function `gif_free` (gif.c 572-592): the owned buffers are released, which the
model does not observe, and the container is zeroed by the final `memset`. -/
def gif_free (_g : gif) : gif := gif_zero

/-- The function `gif_image_get_palette` (gif.c 614-624).  `parent` is the target of the
image's back pointer `image->gif` (`none` when it is NULL); the result is `none` for the
NULL return. -/
def gif_image_get_palette (parent : Option gif) (image : gif_image) :
    Option gif_color_table :=
  if image.flags &&& GIF_IMAGE_FLAG_LCT ≠ 0 then some image.lct
  else match parent with
    | none => none
    | some g => if g.flags &&& GIF_FLAG_GCT = 0 then none else some g.gct

/-! ## Outcomes -/

/-- The ways the model leaves the defined behaviour of the C program. -/
inductive Trap where
  | input       -- a read of the input buffer at or beyond its end
  | advance     -- an unchecked cursor advance beyond the end of the input
  | code_table  -- an access to `code_table` at an index of 4096 or more
  | stack       -- a write to the array `stack` outside `0 .. tmplen - 1`
  | indices     -- a write to `indices` at a position of `req_indices` or more
  | fuel        -- a loop of the model ran out of fuel
deriving DecidableEq, Repr

/-- The result of a run of `gif_parse`: either the function returns `code` and leaves the
container `g`, or the run traps. -/
inductive Outcome where
  | ret (code : Int) (g : gif)
  | trap (t : Trap)
deriving DecidableEq, Repr

/-- Unspecified memory contents a run depends on.  The automatic array `code_table`
(gif.c 226) and the scratch block `tmpindices` (gif.c 451) are created without a value
once per image, the variable-length array `stack` (gif.c 352, 381) once per code; what
they hold then is not fixed by the program and need not be the same twice.
`code_tables k` is what `code_table` holds before it is written in the image decoded
`k` images from here on, `stack_arrays k n` is what a `stack` declared in that image
holds when `n` indices have been written, and `scratch_blocks k` is what the scratch
block of that image holds.  Fields are read modulo the width of their C type. -/
structure Uninit where
  code_tables : Nat → Nat → gif_code
  stack_arrays : Nat → Nat → Nat → Nat
  scratch_blocks : Nat → Nat → Nat

/-- The array `code_table` as the image at hand finds it. -/
def Uninit.code_table (u : Uninit) : Nat → gif_code := u.code_tables 0

/-- The array `stack` as the image at hand finds it when it is declared with `n` indices
written. -/
def Uninit.stack (u : Uninit) (n : Nat) : Nat → Nat := u.stack_arrays 0 n

/-- The scratch block as the image at hand finds it. -/
def Uninit.scratch (u : Uninit) : Nat → Nat := u.scratch_blocks 0

/-- The unspecified memory from the image on that is decoded `k` images from here. -/
def Uninit.image (u : Uninit) (k : Nat) : Uninit :=
  { code_tables := fun j => u.code_tables (j + k)
    stack_arrays := fun j => u.stack_arrays (j + k)
    scratch_blocks := fun j => u.scratch_blocks (j + k) }

/-- An `Uninit` whose every byte is zero. -/
def Uninit.zero : Uninit :=
  { code_tables := fun _ _ => ⟨0, 0, 0, 0, 0⟩, stack_arrays := fun _ _ _ => 0,
    scratch_blocks := fun _ _ => 0 }

/-! ## The cursor (gif.c 29-67) -/

/-- The macro `VEC_AT_UNSAFE (V, I)`: the byte at offset `I` of the remaining input. -/
def VEC_AT_UNSAFE (v : List UInt8) (i : Nat) : Except Outcome Nat :=
  match v[i]? with
  | some b => .ok b.toNat
  | none => .error (.trap .input)

/-- The macro `VEC_AT_U16_LE_UNSAFE (V, I)`: the two bytes at offsets `I`, `I + 1` read as
a `gu16` on a little-endian host. -/
def VEC_AT_U16_LE_UNSAFE (v : List UInt8) (i : Nat) : Except Outcome Nat := do
  let lo ← VEC_AT_UNSAFE v i
  let hi ← VEC_AT_UNSAFE v (i + 1)
  pure (lo + 256 * hi)

/-- The macro `VEC_ADVANCE_UNSAFE (V, N)`: drop `N` bytes without a check. -/
def VEC_ADVANCE_UNSAFE (v : List UInt8) (n : Nat) : Except Outcome (List UInt8) :=
  if n ≤ v.length then .ok (v.drop n) else .error (.trap .advance)

/-- The macro `VEC_MUST (V, S)`: return `GIF_ERR_EOF` after `gif_free` when fewer than `S`
bytes remain. -/
def VEC_MUST (g : gif) (v : List UInt8) (s : Nat) : Except Outcome Unit :=
  if v.length < s then .error (.ret GIF_ERR_EOF (gif_free g)) else .ok ()

/-- The macro `VEC_ADVANCE (V, N)`: the checked advance. -/
def VEC_ADVANCE (g : gif) (v : List UInt8) (n : Nat) : Except Outcome (List UInt8) :=
  if v.length < n then .error (.ret GIF_ERR_EOF (gif_free g)) else .ok (v.drop n)

/-- The `memcpy` of `n` bytes from the read pointer into a fresh buffer. -/
def copy_bytes (v : List UInt8) (n : Nat) : Except Outcome (List UInt8) :=
  if n ≤ v.length then .ok (v.take n) else .error (.trap .input)

/-! ## The dispatcher state -/

/-- The variables that live across iterations of `read_block`: the container, the
pending frame, the flag `is_frame`, and the cursor. -/
structure DState where
  g : gif
  frame : gif_frame
  is_frame : Nat
  v : List UInt8

/-- The statement `switch (version_byte)` (gif.c 86-94). -/
def set_version (g : gif) (version_byte : Nat) : gif :=
  if version_byte = 0x37 then { g with version := GIF_VERSION_87A }
  else if version_byte = 0x39 then { g with version := GIF_VERSION_89A }
  else g

/-- The header stage (gif.c 72-131): signature, logical screen descriptor and the global
color table. -/
def parse_header (buf : List UInt8) : Except Outcome DState := do
  let v := buf
  let g := gif_zero
  VEC_MUST g v 0xD
  let version_byte ← VEC_AT_UNSAFE v 4
  let b0 ← VEC_AT_UNSAFE v 0
  let b1 ← VEC_AT_UNSAFE v 1
  let b2 ← VEC_AT_UNSAFE v 2
  let b3 ← VEC_AT_UNSAFE v 3
  let b5 ← VEC_AT_UNSAFE v 5
  if b0 ≠ 0x47 ∨ b1 ≠ 0x49 ∨ b2 ≠ 0x46 ∨ b3 ≠ 0x38
      ∨ (version_byte ≠ 0x37 ∧ version_byte ≠ 0x39) ∨ b5 ≠ 0x61 then
    .error (.ret GIF_ERR_BAD_DATA g)
  else do
    let g := set_version g version_byte
    let w ← VEC_AT_U16_LE_UNSAFE v 6
    let h ← VEC_AT_U16_LE_UNSAFE v 8
    let packed_byte ← VEC_AT_UNSAFE v 0xA
    let bg ← VEC_AT_UNSAFE v 0xB
    let g := { g with width := w, height := h, num_images := 0, images_cap := 0,
                      images := [], bg_index := bg }
    let v ← VEC_ADVANCE_UNSAFE v 0xD
    if packed_byte &&& 0x80 ≠ 0 then
      let num_colors := 1 <<< ((packed_byte &&& 0x7) + 1)
      let g := { g with flags := g.flags ||| GIF_FLAG_GCT,
                        gct := { g.gct with num_colors := num_colors } }
      if bg ≥ num_colors then
        .error (.ret GIF_ERR_BAD_DATA g)
      else do
        let num_bytes := num_colors * 3
        VEC_MUST g v num_bytes
        let colors ← copy_bytes v num_bytes
        let v ← VEC_ADVANCE_UNSAFE v num_bytes
        pure { g := { g with gct := { g.gct with colors := some colors } },
               frame := frame_zero, is_frame := 0, v := v }
    else
      pure { g := g, frame := frame_zero, is_frame := 0, v := v }

/-! ## The LZW stage (gif.c 224-445) -/

/-- The values fixed before the code stream of one image is read. -/
structure lzw_params where
  min_lzw_code_size : Nat
  num_colors : Nat
  req_indices : Nat

/-- The local variables of the code-stream loop.  `indices` is the written part
`imgp->indices[0 .. num_indices - 1]` of the index buffer, so `num_indices` is its
length.  `prev_code` is declared without a value in C and is not read before the first
code has been stored in it. -/
structure lzw_state where
  code_table : Nat → gif_code
  first_code : Nat
  lzw_code_size : Nat
  prev_code : Nat
  code : Nat
  code_off : Nat
  bit_off : Nat
  next_code : Nat
  indices : List Nat

/-- The counter `num_indices`. -/
def lzw_state.num_indices (st : lzw_state) : Nat := st.indices.length

/-- How one completed code leaves the loop body: back to the loop (`end_code` or
`continue`), or `goto end_code_stream` with the index buffer and the cursor. -/
inductive Step where
  | next (st : lzw_state)
  | end_code_stream (indices : List Nat) (v : List UInt8)

/-- How the inner `while (bytes)` loop ends: the sub-block is used up, or
`goto end_code_stream`. -/
inductive Flow where
  | more (st : lzw_state) (v : List UInt8)
  | end_code_stream (indices : List Nat) (v : List UInt8)

/-- An unspecified `struct gif_code` read through its field types. -/
def gif_code.wrap (c : gif_code) : gif_code :=
  { len := c.len % 65536, prefix_code := c.prefix_code % 65536, inuse := c.inuse % 256,
    index := c.index % 256, first_index := c.first_index % 256 }

/-- A read of `code_table[i]`. -/
def code_table_at (t : Nat → gif_code) (i : Nat) : Except Outcome gif_code :=
  if i < 4096 then .ok (t i) else .error (.trap .code_table)

/-- A write of `code_table[i]`. -/
def code_table_set (t : Nat → gif_code) (i : Nat) (e : gif_code) :
    Except Outcome (Nat → gif_code) :=
  if i < 4096 then .ok (fun j => if j = i then e else t j) else .error (.trap .code_table)

/-- A write of `stack[pos]` for the array `gu8 stack[tmplen]`. -/
def stack_set (stack : Nat → Nat) (tmplen : Nat) (pos : Int) (x : Nat) :
    Except Outcome (Nat → Nat) :=
  if 0 ≤ pos ∧ pos < (tmplen : Int) then
    .ok (fun j => if j = pos.toNat then x else stack j)
  else .error (.trap .stack)

/-- The write `imgp->indices[num_indices++] = x`. -/
def indices_put (req_indices : Nat) (indices : List Nat) (x : Nat) :
    Except Outcome (List Nat) :=
  if indices.length < req_indices then .ok (indices ++ [x]) else .error (.trap .indices)

/-- The two initialisation loops (gif.c 254-264) applied to the unspecified array. -/
def init_code_table (u : Uninit) (num_colors : Nat) : Nat → gif_code := fun i =>
  if i < num_colors then
    { len := 1, prefix_code := GIF_CODE_NO_PREFIX, inuse := 1, index := i % 256,
      first_index := i % 256 }
  else if i < 4096 then { (u.code_table i).wrap with inuse := 0 }
  else (u.code_table i).wrap

/-- The reset loop of the clear code (gif.c 308-309). -/
def clear_code_table (t : Nat → gif_code) (num_colors : Nat) : Nat → gif_code := fun i =>
  if num_colors ≤ i ∧ i < 4096 then { t i with inuse := 0 } else t i

/-- The prefix-chain walk, the `do ... while (tmpc != GIF_CODE_NO_PREFIX)` loops
(gif.c 357-370 and 388-401).  At most `tmplen` iterations pass the guard. -/
def walk (g : gif) (t : Nat → gif_code) (tmplen : Nat) :
    Nat → (Nat → Nat) → Nat → Nat → Except Outcome (Nat → Nat)
  | 0, _, _, _ => .error (.trap .fuel)
  | fuel + 1, stack, tmpc, tmpi =>
    if tmpc > 4095 ∨ tmpi ≥ tmplen then .error (.ret GIF_ERR_FAULT (gif_free g))
    else do
      let e ← code_table_at t tmpc
      let stack ← stack_set stack tmplen (((tmplen : Int) - (tmpi : Int)) - 1) e.index
      let tmpi := tmpi + 1
      let tmpc := e.prefix_code
      if tmpc ≠ GIF_CODE_NO_PREFIX then walk g t tmplen fuel stack tmpc tmpi
      else pure stack

/-- The loop `for (gu16 i = 0; i < tmplen; i++) imgp->indices[num_indices++] = stack[i]`,
with `k` iterations left from position `i`. -/
def emit (req_indices : Nat) (stack : Nat → Nat) :
    Nat → Nat → List Nat → Except Outcome (List Nat)
  | 0, _, indices => .ok indices
  | k + 1, i, indices => do
    let indices ← indices_put req_indices indices (stack i)
    emit req_indices stack k (i + 1) indices

/-- A fresh variable-length array `gu8 stack[tmplen]`, declared when `n` indices have
been written.  Two declarations in one image have different `n`: a code body that
returns to the loop after its declaration has written an index. -/
def fresh_stack (u : Uninit) (n : Nat) : Nat → Nat := fun i => u.stack n i % 256

/-- The label `end_code` (gif.c 427-430). -/
def end_code (st : lzw_state) : lzw_state :=
  { st with prev_code := st.code, code := 0, code_off := 0 }

/-- The tail of the code body after the string of a code has been written
(gif.c 407-431): the new table entry, the growth of the code width, `end_code`.
`len`, `prefix_code`, `index` are the locals of those names and `first_index` is
`code_table[prev_code].first_index`, whose field is not overwritten before it is read
even when `next_code == prev_code`. -/
def insert_code (p : lzw_params) (st : lzw_state) (len prefix_code index first_index : Nat)
    (v : List UInt8) : Except Outcome Step :=
  if st.num_indices > p.req_indices then .ok (.end_code_stream st.indices v)
  else if st.next_code = 4096 then .ok (.next (end_code st))
  else do
    let table ← code_table_set st.code_table st.next_code
      { len := len, prefix_code := prefix_code, inuse := 1, index := index,
        first_index := first_index }
    let st := { st with code_table := table, next_code := (st.next_code + 1) % 65536 }
    if st.next_code = 4096 then pure (.next (end_code st))
    else if st.next_code = 1 <<< st.lzw_code_size then
      pure (.next (end_code { st with lzw_code_size := (st.lzw_code_size + 1) % 256 }))
    else pure (.next (end_code st))

/-- The branch `if (code_table[code].inuse)` (gif.c 346-374) followed by the common
tail. -/
def decode_inuse (p : lzw_params) (u : Uninit) (g : gif) (st : lzw_state)
    (prev centry : gif_code) (v : List UInt8) : Except Outcome Step :=
  let len := (prev.len + 1) % 65536
  let index := centry.first_index
  let tmplen := centry.len
  let stack := fresh_stack u st.num_indices
  if st.num_indices + tmplen > p.req_indices then .ok (.end_code_stream st.indices v)
  else do
    let stack ← walk g st.code_table tmplen (tmplen + 1) stack st.code 0
    let indices ← emit p.req_indices stack tmplen 0 st.indices
    insert_code p { st with indices := indices } len st.prev_code index prev.first_index v

/-- The branch `else` of `if (code_table[code].inuse)` (gif.c 375-405) followed by the
common tail. -/
def decode_unused (p : lzw_params) (u : Uninit) (g : gif) (st : lzw_state)
    (prev : gif_code) (v : List UInt8) : Except Outcome Step := do
  let len := (prev.len + 1) % 65536
  let index := prev.first_index
  let tmplen := (prev.len + 1) % 65536
  let stack := fresh_stack u st.num_indices
  let stack ← stack_set stack tmplen ((tmplen : Int) - 1) index
  if st.num_indices + tmplen > p.req_indices then pure (.end_code_stream st.indices v)
  else do
    let stack ← walk g st.code_table tmplen (tmplen + 1) stack st.prev_code 1
    let indices ← emit p.req_indices stack tmplen 0 st.indices
    insert_code p { st with indices := indices } len st.prev_code index prev.first_index v

/-- The body run when a code is complete, `if (code_off == lzw_code_size)`
(gif.c 290-431).  `bytes` and `v` are the sub-block counter and the cursor after the bit
reader has moved them. -/
def decode_code (p : lzw_params) (u : Uninit) (g : gif) (st : lzw_state) (bytes : Nat)
    (v : List UInt8) : Except Outcome Step :=
  if st.code = (1 <<< p.min_lzw_code_size) + 1 then
    -- EOI code
    if bytes ≠ 0 then do
      let v ← VEC_ADVANCE_UNSAFE v bytes
      pure (.end_code_stream st.indices v)
    else pure (.end_code_stream st.indices v)
  else if st.code = 1 <<< p.min_lzw_code_size then
    -- clear code
    pure (.next { st with
      first_code := 1
      lzw_code_size := (p.min_lzw_code_size + 1) % 256
      next_code := ((1 <<< p.min_lzw_code_size) + 2) % 65536
      code_table := clear_code_table st.code_table p.num_colors
      code := 0
      code_off := 0 })
  else if st.first_code ≠ 0 then
    if st.code ≥ p.num_colors then .error (.ret GIF_ERR_BAD_DATA (gif_free g))
    else if st.num_indices ≥ p.req_indices then pure (.end_code_stream st.indices v)
    else do
      let indices ← indices_put p.req_indices st.indices (st.code % 256)
      pure (.next (end_code { st with indices := indices, first_code := 0 }))
  else do
    let prev ← code_table_at st.code_table st.prev_code
    if st.code > 4095 then .error (.ret GIF_ERR_FAULT (gif_free g))
    else do
      let centry ← code_table_at st.code_table st.code
      if centry.inuse ≠ 0 then decode_inuse p u g st prev centry v
      else decode_unused p u g st prev v

/-- The local `bits` (gif.c 274-276): `8 - bit_off`, lowered to the number of bits the code
still needs.  The C expression `lzw_code_size - code_off` is never negative:
`code_off` returns to 0 whenever it reaches `lzw_code_size`. -/
def num_bits (st : lzw_state) : Nat :=
  if st.lzw_code_size - st.code_off < 8 - st.bit_off then st.lzw_code_size - st.code_off
  else 8 - st.bit_off

/-- The bit reader (gif.c 274-288): take `bits` bits of the current byte into `code`, and
step to the next byte when the current one is used up. -/
def read_bits (st : lzw_state) (bytes : Nat) (v : List UInt8) :
    Except Outcome (lzw_state × Nat × List UInt8) := do
  let bits := num_bits st
  let b ← VEC_AT_UNSAFE v 0
  let code := (st.code ||| (((b >>> st.bit_off) &&& ((1 <<< bits) - 1))
    <<< st.code_off)) % 65536
  let bit_off := st.bit_off + bits
  let code_off := st.code_off + bits
  if bit_off = 8 then do
    let v ← VEC_ADVANCE_UNSAFE v 1
    pure ({ st with code := code, bit_off := 0, code_off := code_off }, bytes - 1, v)
  else
    pure ({ st with code := code, bit_off := bit_off, code_off := code_off }, bytes, v)

/-- The inner loop `while (bytes)` over the bits of one sub-block (gif.c 272-432).  Every
iteration takes at least one bit of the `8 * bytes` bits that are left. -/
def code_loop (p : lzw_params) (u : Uninit) (g : gif) :
    Nat → lzw_state → Nat → List UInt8 → Except Outcome Flow
  | 0, _, _, _ => .error (.trap .fuel)
  | fuel + 1, st, bytes, v =>
    if bytes = 0 then .ok (.more st v)
    else match read_bits st bytes v with
      | .error e => .error e
      | .ok (st, bytes, v) =>
        if st.code_off = st.lzw_code_size then
          match decode_code p u g st bytes v with
          | .error e => .error e
          | .ok (.end_code_stream indices v) => .ok (.end_code_stream indices v)
          | .ok (.next st) => code_loop p u g fuel st bytes v
        else code_loop p u g fuel st bytes v

/-- The outer loop `while (bytes)` over the sub-blocks of the image data
(gif.c 266-435); the result is the state at the label `end_code_stream`. -/
def sub_blocks (p : lzw_params) (u : Uninit) (g : gif) :
    Nat → lzw_state → Nat → List UInt8 → Except Outcome (List Nat × List UInt8)
  | 0, _, _, _ => .error (.trap .fuel)
  | fuel + 1, st, bytes, v =>
    if bytes = 0 then .ok (st.indices, v)
    else match VEC_MUST g v (bytes + 2) >>= fun _ => VEC_ADVANCE_UNSAFE v 1 with
      | .error e => .error e
      | .ok v =>
        match code_loop p u g (8 * bytes + 1) st bytes v with
        | .error e => .error e
        | .ok (.end_code_stream indices v) => .ok (indices, v)
        | .ok (.more st v) =>
          match VEC_AT_UNSAFE v 0 with
          | .error e => .error e
          | .ok bytes => sub_blocks p u g fuel st bytes v

/-! ## The de-interlacer (gif.c 447-500) -/

/-- The table `row_increments` paired with the table `row_offsets`. -/
def interlace_passes : List (Nat × Nat) := [(8, 0), (8, 4), (4, 2), (2, 1)]

/-- The call `memcpy (dst + d, src + s, n)` on buffers held as lists. -/
def memcpy_at (dst : List Nat) (d : Nat) (src : List Nat) (s n : Nat) :
    Except Outcome (List Nat) :=
  if d + n ≤ dst.length ∧ s + n ≤ src.length then
    .ok (dst.take d ++ (src.drop s).take n ++ dst.drop (d + n))
  else .error (.trap .indices)

/-- The loop `for (gu32 j = 0; j < num_rows; j++)` (gif.c 476-493), with `k` iterations
left from row `j`.  The products stay below `2 ^ 32`. -/
def copy_rows (g : gif) (indices : List Nat) (indices_len row_stride row_increment
    row_offset g_row_offset : Nat) : Nat → Nat → List Nat → Except Outcome (List Nat)
  | 0, _, tmpindices => .ok tmpindices
  | k + 1, j, tmpindices =>
    if (row_increment * j + row_offset) * row_stride ≥ indices_len
        ∨ (j + g_row_offset) * row_stride ≥ indices_len then
      .error (.ret GIF_ERR_FAULT (gif_free g))
    else match memcpy_at tmpindices ((row_increment * j + row_offset) * row_stride)
        indices ((j + g_row_offset) * row_stride) row_stride with
      | .error e => .error e
      | .ok tmpindices =>
        copy_rows g indices indices_len row_stride row_increment row_offset g_row_offset
          k (j + 1) tmpindices

/-- The loop over the four passes (gif.c 465-496). -/
def copy_passes (g : gif) (indices : List Nat) (indices_len row_stride height : Nat) :
    List (Nat × Nat) → Nat → List Nat → Except Outcome (List Nat)
  | [], _, tmpindices => .ok tmpindices
  | (row_increment, row_offset) :: rest, g_row_offset, tmpindices =>
    if height ≤ row_offset then
      copy_passes g indices indices_len row_stride height rest g_row_offset tmpindices
    else
      let num_rows := ((height - row_offset) - 1) / row_increment + 1
      match copy_rows g indices indices_len row_stride row_increment row_offset
          g_row_offset num_rows 0 tmpindices with
      | .error e => .error e
      | .ok tmpindices =>
        copy_passes g indices indices_len row_stride height rest
          (g_row_offset + num_rows) tmpindices

/-- The block `if (is_interlaced)` (gif.c 447-500): the rows are copied into the scratch
block `tmpindices`, which is then copied back over `imgp->indices`. -/
def deinterlace (u : Uninit) (g : gif) (width height : Nat) (indices : List Nat) :
    Except Outcome (List Nat) :=
  let indices_len := width * height
  let tmpindices := (List.range indices_len).map (fun i => u.scratch i % 256)
  copy_passes g indices indices_len width height interlace_passes 0 tmpindices

/-! ## The image descriptor (gif.c 141-503) -/

/-- What the descriptor stage hands to the image-data stage: the container with the new
image appended, the image record, `num_colors`, `is_interlaced`, `is_frame`, and the
cursor. -/
structure ImageSetup where
  g : gif
  img : gif_image
  num_colors : Nat
  is_interlaced : Nat
  is_frame : Nat
  v : List UInt8

/-- The statement `if (gif->num_images == gif->images_cap) { ... }` (gif.c 149-163) with a
`realloc` that succeeds. -/
def grow_images (g : gif) : gif :=
  if g.num_images = g.images_cap then { g with images_cap := g.images_cap + 8 } else g

/-- The statement `if (is_frame) { ... }` (gif.c 214-219) on the image record. -/
def attach_frame (s : DState) (img : gif_image) : gif_image :=
  if s.is_frame ≠ 0 then
    { img with flags := img.flags ||| GIF_IMAGE_FLAG_FRAME, frame := s.frame }
  else img

/-- The statement `gif->images[gif->num_images++] = img` (gif.c 221). -/
def push_image (g : gif) (img : gif_image) : gif :=
  { g with images := g.images ++ [img], num_images := g.num_images + 1 }

/-- The first half of `case 0x2C` (gif.c 143-222): the descriptor, the local color table,
the pending frame, and the append to `gif->images`. -/
def image_descriptor (s : DState) : Except Outcome ImageSetup := do
  let g := s.g
  let v := s.v
  VEC_MUST g v 0xA
  let g := grow_images g
  let x ← VEC_AT_U16_LE_UNSAFE v 1
  let y ← VEC_AT_U16_LE_UNSAFE v 3
  let width ← VEC_AT_U16_LE_UNSAFE v 5
  let height ← VEC_AT_U16_LE_UNSAFE v 7
  let img := { image_zero with x := x, y := y, width := width, height := height }
  if img.width = 0 ∨ img.height = 0 ∨ img.x + img.width > g.width
      ∨ img.y + img.height > g.height then
    .error (.ret GIF_ERR_BAD_DATA (gif_free g))
  else do
    let packed_byte ← VEC_AT_UNSAFE v 9
    let v ← VEC_ADVANCE_UNSAFE v 0xA
    let is_interlaced := if packed_byte &&& 0x40 ≠ 0 then 1 else 0
    let is_frame := if s.is_frame ≠ 0 then 0 else s.is_frame
    if packed_byte &&& 0x80 ≠ 0 then do
      let num_colors := 1 <<< ((packed_byte &&& 0x7) + 1)
      let num_bytes := num_colors * 3
      VEC_MUST g v num_bytes
      let colors ← copy_bytes v num_bytes
      let img := { img with lct := { num_colors := num_colors, colors := some colors } }
      let v ← VEC_ADVANCE_UNSAFE v num_bytes
      let img := attach_frame s img
      pure { g := push_image g img, img := img, num_colors := num_colors,
             is_interlaced := is_interlaced, is_frame := is_frame, v := v }
    else if g.flags &&& GIF_FLAG_GCT = 0 then
      .error (.ret GIF_ERR_BAD_DATA (gif_free g))
    else
      let img := attach_frame s img
      pure { g := push_image g img, img := img, num_colors := g.gct.num_colors,
             is_interlaced := is_interlaced, is_frame := is_frame, v := v }

/-- The state of the code-stream loop on entry (gif.c 226-264). -/
def lzw_start (u : Uninit) (min_lzw_code_size num_colors : Nat) : lzw_state :=
  { code_table := init_code_table u num_colors
    first_code := 1
    lzw_code_size := (min_lzw_code_size + 1) % 256
    prev_code := 0
    code := 0
    code_off := 0
    bit_off := 0
    next_code := ((1 <<< min_lzw_code_size) + 2) % 65536
    indices := [] }

/-- The image data up to the label `end_code_stream` (gif.c 224-435): the minimum code
size, the validation, and the code stream.  The result is the written part of the index
buffer and the cursor. -/
def image_data (u : Uninit) (i : ImageSetup) :
    Except Outcome (List Nat × List UInt8) := do
  let g := i.g
  let v := i.v
  VEC_MUST g v 2
  let req_indices := i.img.width * i.img.height
  let min_lzw_code_size ← VEC_AT_UNSAFE v 0
  let v ← VEC_ADVANCE_UNSAFE v 1
  let bytes ← VEC_AT_UNSAFE v 0
  if bytes = 0 ∨ (min_lzw_code_size < 2 ∨ min_lzw_code_size > 8)
      ∨ i.num_colors > 1 <<< min_lzw_code_size then
    .error (.ret GIF_ERR_BAD_DATA (gif_free g))
  else
    sub_blocks
      { min_lzw_code_size := min_lzw_code_size, num_colors := i.num_colors,
        req_indices := req_indices }
      u g (v.length + 1) (lzw_start u min_lzw_code_size i.num_colors) bytes v

/-- The buffer `imgp->indices` of the image appended last, `imgp = gif->images +
(gif->num_images - 1)`, receives its final contents. -/
def set_imgp_indices (g : gif) (indices : List Nat) : gif :=
  match g.images.getLast? with
  | none => g
  | some img => { g with images := g.images.dropLast ++ [{ img with indices := indices }] }

/-- From the label `end_code_stream` to the `break` (gif.c 437-502): the count check, the
checked advance over one byte, the de-interlacer. -/
def image_finish (u : Uninit) (frame : gif_frame) (i : ImageSetup) (indices : List Nat)
    (v : List UInt8) : Except Outcome DState :=
  let g := i.g
  if indices.length ≠ i.img.width * i.img.height then
    .error (.ret GIF_ERR_BAD_DATA (gif_free g))
  else do
    let v ← VEC_ADVANCE g v 1
    if i.is_interlaced ≠ 0 then do
      let indices ← deinterlace u g i.img.width i.img.height indices
      pure { g := set_imgp_indices g indices, frame := frame, is_frame := i.is_frame,
             v := v }
    else
      pure { g := set_imgp_indices g indices, frame := frame, is_frame := i.is_frame,
             v := v }

/-- The whole `case 0x2C` (gif.c 141-503).  The image is number `gif->num_images` of the
run, counted from 0, and its arrays hold the unspecified contents of that number. -/
def parse_image (u : Uninit) (s : DState) : Except Outcome DState :=
  match image_descriptor s with
  | .error e => .error e
  | .ok i =>
    match image_data (u.image s.g.num_images) i with
    | .error e => .error e
    | .ok (indices, v) => image_finish (u.image s.g.num_images) s.frame i indices v

/-! ## Extensions (gif.c 504-557) -/

/-- The loop `while (bytes)` that skips a chain of sub-blocks (gif.c 548-553). -/
def skip_sub_blocks (g : gif) : Nat → Nat → List UInt8 → Except Outcome (List UInt8)
  | 0, _, _ => .error (.trap .fuel)
  | fuel + 1, bytes, v =>
    if bytes = 0 then .ok v
    else match VEC_MUST g v (bytes + 2) >>= fun _ => VEC_ADVANCE_UNSAFE v (bytes + 1) with
      | .error e => .error e
      | .ok v =>
        match VEC_AT_UNSAFE v 0 with
        | .error e => .error e
        | .ok bytes => skip_sub_blocks g fuel bytes v

/-- The statements on `frame.disposal_method` (gif.c 519-522). -/
def gce_disposal (frame : gif_frame) (packed_byte : Nat) : gif_frame :=
  let d := (packed_byte >>> 2) &&& 7
  if d = 0 ∨ d > 3 then { frame with disposal_method := GIF_FRAME_DISPOSE_NONE }
  else { frame with disposal_method := d }

/-- The statement `if (packed_byte & 2) frame.flags |= GIF_FRAME_FLAG_USER_INPUT`
(gif.c 524-525). -/
def gce_user_input (frame : gif_frame) (packed_byte : Nat) : gif_frame :=
  if packed_byte &&& 2 ≠ 0 then
    { frame with flags := frame.flags ||| GIF_FRAME_FLAG_USER_INPUT }
  else frame

/-- The statement `if (packed_byte & 1) { ... }` (gif.c 527-531); `t` is the byte at
offset 4, which is read only when the bit is set. -/
def gce_transparent (frame : gif_frame) (packed_byte : Nat) (v : List UInt8) :
    Except Outcome gif_frame :=
  if packed_byte &&& 1 ≠ 0 then do
    let t ← VEC_AT_UNSAFE v 4
    pure { frame with flags := frame.flags ||| GIF_FRAME_FLAG_TRANSPARENT,
                      transparent_index := t }
  else pure frame

/-- The Graphic Control Extension (gif.c 514-545); `v` is the cursor at the block size
byte and `bytes` is that byte, 4. -/
def graphic_control (s : DState) (bytes : Nat) (v : List UInt8) :
    Except Outcome DState := do
  let g := s.g
  VEC_MUST g v (bytes + 2)
  let packed_byte ← VEC_AT_UNSAFE v 1
  let frame := gce_disposal s.frame packed_byte
  let frame := gce_user_input frame packed_byte
  let frame ← gce_transparent frame packed_byte v
  let delay_time ← VEC_AT_U16_LE_UNSAFE v 2
  let frame := { frame with delay_time := delay_time }
  let v ← VEC_ADVANCE_UNSAFE v (bytes + 1)
  let bytes ← VEC_AT_UNSAFE v 0
  if bytes ≠ 0 then .error (.ret GIF_ERR_BAD_DATA (gif_free g))
  else do
    let v ← VEC_ADVANCE g v 1
    pure { g := g, frame := frame, is_frame := 1, v := v }

/-- The whole `case 0x21` (gif.c 504-557). -/
def parse_extension (s : DState) : Except Outcome DState := do
  let g := s.g
  let v := s.v
  VEC_MUST g v 3
  let label ← VEC_AT_UNSAFE v 1
  let v ← VEC_ADVANCE_UNSAFE v 2
  let bytes ← VEC_AT_UNSAFE v 0
  if label = 0xF9 ∧ bytes = 0x4 then graphic_control s bytes v
  else do
    let v ← skip_sub_blocks g (v.length + 1) bytes v
    let v ← VEC_ADVANCE g v 1
    pure { s with v := v }

/-! ## The dispatcher (gif.c 133-570) -/

/-- One pass through `read_block`: `some s` when the `switch` ends in `break` and control
returns to `read_block` with state `s`, `none` at the trailer (`goto finish`). -/
def block (u : Uninit) (s : DState) : Except Outcome (Option DState) := do
  VEC_MUST s.g s.v 1
  let separator ← VEC_AT_UNSAFE s.v 0
  if separator = 0x2C then (parse_image u s).map some
  else if separator = 0x21 then (parse_extension s).map some
  else if separator = 0x3B then pure none
  else .error (.ret GIF_ERR_BAD_DATA (gif_free s.g))

/-- The loop `read_block: ... goto read_block` (gif.c 133-566).  Every pass takes at least
one byte of input. -/
def read_block (u : Uninit) : Nat → DState → Outcome
  | 0, _ => .trap .fuel
  | fuel + 1, s =>
    match block u s with
    | .error e => e
    | .ok none => .ret GIF_SUCCESS s.g
    | .ok (some s) => read_block u fuel s

/-- The function `gif_parse` (gif.c 69-570) on the input buffer `buf`, started on any
container: the container is zeroed first. -/
def gif_parse (u : Uninit) (buf : List UInt8) : Outcome :=
  match parse_header buf with
  | .error e => e
  | .ok s => read_block u (s.v.length + 1) s

/-! ## Predicates used in the proofs -/

/-- An outcome of a whole run that is neither an out-of-range input access nor an
exhausted fuel. -/
def Benign (e : Outcome) : Prop :=
  e ≠ .trap .input ∧ e ≠ .trap .advance ∧ e ≠ .trap .fuel

/-- An error exit of a stage: a return with an error code, or an out-of-bounds access to
`code_table`, `stack` or `indices`. -/
def Fine (e : Outcome) : Prop :=
  match e with
  | .ret c _ => c ≠ GIF_SUCCESS
  | .trap t => t = .code_table ∨ t = .stack ∨ t = .indices

/-- A computation whose errors are `Fine` and whose results satisfy `P`. -/
def Post {α : Type} (r : Except Outcome α) (P : α → Prop) : Prop :=
  match r with
  | .ok a => P a
  | .error e => Fine e

/-- The geometry an image descriptor must have inside the logical screen of `g`. -/
def ImgGeom (g : gif) (img : gif_image) : Prop :=
  img.x + img.width ≤ g.width ∧ img.y + img.height ≤ g.height
    ∧ 0 < img.width ∧ 0 < img.height

/-- The fields of the container outside the image list agree. -/
def SameScreen (g g' : gif) : Prop :=
  g'.version = g.version ∧ g'.width = g.width ∧ g'.height = g.height
    ∧ g'.flags = g.flags ∧ g'.bg_index = g.bg_index ∧ g'.gct = g.gct

/-- The dispatcher states a run of `gif_parse` on `buf` passes through at the label
`read_block`: the state after the header, and the state after every pass that ends in
`break`. -/
inductive Reaches (u : Uninit) (buf : List UInt8) : DState → Prop where
  | start (s : DState) : parse_header buf = .ok s → Reaches u buf s
  | step (s s' : DState) : Reaches u buf s → block u s = .ok (some s') → Reaches u buf s'

/-- The byte at offset `i`, as a number. -/
def byte (v : List UInt8) (i : Nat) : Nat := (v.getD i 0).toNat

/-- The little-endian 16-bit number at offsets `i`, `i + 1`. -/
def u16_le (v : List UInt8) (i : Nat) : Nat := byte v i + 256 * byte v (i + 1)

/-- What a completed code leaves behind: the bit offset is kept and a new code starts,
or the cursor has not moved backwards. -/
def StepPost (st : lzw_state) (v : List UInt8) (r : Step) : Prop :=
  match r with
  | .next st' => st'.bit_off = st.bit_off ∧ st'.code_off = 0 ∧ 0 < st'.lzw_code_size
  | .end_code_stream _ v' => v'.length ≤ v.length

/-- What the inner loop leaves behind. -/
def FlowPost (v : List UInt8) (r : Flow) : Prop :=
  match r with
  | .more st' v' => 1 ≤ v'.length ∧ v'.length ≤ v.length ∧ st'.bit_off < 8
      ∧ st'.code_off < st'.lzw_code_size
  | .end_code_stream _ v' => v'.length ≤ v.length

/-- What one pass of the dispatcher does to the state: the cursor moves forward and
the screen fields stay; an image may have been appended. -/
def BlockPost (s s' : DState) : Prop :=
  s'.v.length < s.v.length ∧ SameScreen s.g s'.g
    ∧ (s'.g.images = s.g.images
        ∨ ∃ img, s'.g.images = s.g.images ++ [img] ∧ ImgGeom s.g img
            ∧ img.indices.length = img.width * img.height)

/-- Every image lies inside the logical screen and owns exactly `width * height`
indices. -/
def ImagesOk (g : gif) : Prop :=
  ∀ img ∈ g.images, ImgGeom g img ∧ img.indices.length = img.width * img.height

/-! ## A code stream that drives a stored length to 65535 -/

/-- The table entry of the single-index string `i`, as the first initialisation loop writes
it. -/
def root (i : Nat) : gif_code :=
  { len := 1, prefix_code := GIF_CODE_NO_PREFIX, inuse := 1, index := i, first_index := i }

/-- The arithmetic of the bit reader on plain numbers: the new `code`, `code_off` and
`bit_off` before the byte boundary is handled. -/
def take_bits (size code_off bit_off code b : Nat) : Nat × Nat × Nat :=
  let bits := if size - code_off < 8 - bit_off then size - code_off else 8 - bit_off
  ((code ||| (((b >>> bit_off) &&& ((1 <<< bits) - 1)) <<< code_off)) % 65536,
    code_off + bits, bit_off + bits)

/-- The table `T` with entry `i` replaced by `e`, the effect of `code_table_set`. -/
def upd (T : Nat → gif_code) (i : Nat) (e : gif_code) : Nat → gif_code :=
  fun j => if j = i then e else T j

/-- The code table after one round `0, 7, 0, clear, clear` run from a cleared state. -/
def round_table (T : Nat → gif_code) : Nat → gif_code :=
  clear_code_table (clear_code_table
    (upd (upd T 6 ⟨2, 0, 1, 0, 0⟩) 7
      ⟨((upd T 6 ⟨2, 0, 1, 0, 0⟩ 7).len + 1) % 65536, 7, 1, 0,
        (upd T 6 ⟨2, 0, 1, 0, 0⟩ 7).first_index⟩) 4) 4

/-- A table in which the root 0 is intact and entry 7 is not in use and has length
`L`. -/
def Ready (T : Nat → gif_code) (L : Nat) : Prop :=
  T 0 = root 0 ∧ (T 7).inuse = 0 ∧ (T 7).len = L

/-- The bytes of `k` rounds `0, 7, 0, clear, clear`, followed by `v`. -/
def rounds : Nat → List UInt8 → List UInt8
  | 0, v => v
  | k + 1, v => 0x38 :: 0x88 :: rounds k v

/-- A sub-block of 142 bytes holding 71 rounds, followed by `v`. -/
def hack_block (v : List UInt8) : List UInt8 := 142 :: rounds 71 v

/-- A chain of `n` such sub-blocks, followed by `v`. -/
def hack_blocks : Nat → List UInt8 → List UInt8
  | 0, v => v
  | n + 1, v => hack_block (hack_blocks n v)

/-- A 512x512 image over a 4-color global table whose code stream is 0, 0, 0, clear,
clear (which assigns entry 7 with length 2), then `n` sub-blocks of 71 rounds
`0, 7, 0, clear, clear`, then `0, 7, 7`. -/
def len_wrap_input (n : Nat) : List UInt8 :=
  [0x47, 0x49, 0x46, 0x38, 0x39, 0x61, 0, 2, 0, 2, 0x81, 0, 0,
   0, 0, 0, 255, 255, 255, 1, 1, 1, 2, 2, 2]
  ++ ([0x2C, 0, 0, 0, 0, 0, 2, 0, 2, 0]
  ++ ([2, 2, 0x00, 0x88]
  ++ hack_blocks n [2, 0xF8, 0x01, 0, 0x3B]))

/-- The input `len_wrap_input` with 923 sub-blocks: every round reads the unassigned
code 7 and re-assigns entry 7 with its own stale length plus one, so that the length
is 2 + 923 * 71 = 65535 when the last three codes are read. -/
def input_len_wrap : List UInt8 := len_wrap_input 923

/-- The container after the header of `input_len_wrap`. -/
def len_wrap_gif : gif :=
  { gif_zero with version := GIF_VERSION_89A, width := 512, height := 512,
                  flags := GIF_FLAG_GCT,
                  gct := { num_colors := 4,
                           colors := some [0, 0, 0, 255, 255, 255, 1, 1, 1, 2, 2, 2] } }

/-! ## Concrete inputs

Code streams are written least significant bit first; with minimum code size 2 the
clear code is 4, the end-of-information code is 5, the first free code is 6 and codes
are 3 bits wide until code 7 has been assigned. -/

/-- A 1x1 GIF87a image: 2-color global table, one image whose code stream is
clear, 1, end-of-information (bytes `4C 01`), trailer. -/
def input_min : List UInt8 :=
  [0x47, 0x49, 0x46, 0x38, 0x37, 0x61, 1, 0, 1, 0, 0x80, 0, 0,
   0, 0, 0, 255, 255, 255,
   0x2C, 0, 0, 0, 0, 1, 0, 1, 0, 0,
   2, 2, 0x4C, 0x01, 0,
   0x3B]

/-- The input `input_min` with a 2x1 screen and a 2x1 image: the same code stream now
ends one index short. -/
def input_short : List UInt8 :=
  [0x47, 0x49, 0x46, 0x38, 0x37, 0x61, 2, 0, 1, 0, 0x80, 0, 0,
   0, 0, 0, 255, 255, 255,
   0x2C, 0, 0, 0, 0, 2, 0, 1, 0, 0,
   2, 2, 0x4C, 0x01, 0,
   0x3B]

/-- The input `input_min` with an image of width 2 on the 1x1 screen. -/
def input_wide : List UInt8 :=
  [0x47, 0x49, 0x46, 0x38, 0x37, 0x61, 1, 0, 1, 0, 0x80, 0, 0,
   0, 0, 0, 255, 255, 255,
   0x2C, 0, 0, 0, 0, 2, 0, 1, 0, 0,
   2, 2, 0x4C, 0x01, 0,
   0x3B]

/-- A 13-byte header that declares a 2-color global table and background index 2. -/
def input_bad_bg : List UInt8 :=
  [0x47, 0x49, 0x46, 0x38, 0x39, 0x61, 1, 0, 1, 0, 0x80, 2, 0]

/-- A GIF89a without a global table whose only image declares a 2-color local table
(packed byte `0x80`); the code stream is clear, 1, end-of-information. -/
def input_lct : List UInt8 :=
  [0x47, 0x49, 0x46, 0x38, 0x39, 0x61, 1, 0, 1, 0, 0x00, 0, 0,
   0x2C, 0, 0, 0, 0, 1, 0, 1, 0, 0x80,
   0, 0, 0, 255, 255, 255,
   2, 2, 0x4C, 0x01, 0,
   0x3B]

/-- Two frames: a Graphic Control Extension with packed byte `0x03` (user input and
transparency, transparent index 1, delay 10) and a 1x1 image, then a Graphic Control
Extension with packed byte `0x00` (delay 20) at offset 42 and a second 1x1 image. -/
def input_two_frames : List UInt8 :=
  [0x47, 0x49, 0x46, 0x38, 0x39, 0x61, 1, 0, 1, 0, 0x80, 0, 0,
   0, 0, 0, 255, 255, 255,
   0x21, 0xF9, 4, 0x03, 10, 0, 1, 0,
   0x2C, 0, 0, 0, 0, 1, 0, 1, 0, 0,
   2, 2, 0x4C, 0x01, 0,
   0x21, 0xF9, 4, 0x00, 20, 0, 0, 0,
   0x2C, 0, 0, 0, 0, 1, 0, 1, 0, 0,
   2, 2, 0x4C, 0x01, 0,
   0x3B]

/-- A 3x1 image over a 4-color global table whose code stream is 0, 7,
end-of-information (bytes `78 01`): code 7 is read when the next code to assign
is 6. -/
def input_unassigned : List UInt8 :=
  [0x47, 0x49, 0x46, 0x38, 0x39, 0x61, 3, 0, 1, 0, 0x81, 0, 0,
   0, 0, 0, 255, 255, 255, 1, 1, 1, 2, 2, 2,
   0x2C, 0, 0, 0, 0, 3, 0, 1, 0, 0,
   2, 2, 0x78, 0x01, 0,
   0x3B]

/-- A 10x1 image over a 4-color global table whose code stream is 0, 0, 0, clear (4
bits), 0, 7, 0, 7 (4 bits) (bytes `00 08 C7 01`).  Codes 6 and 7 are assigned
before the clear code; after it code 7 is read while the next code is 6, and is then
assigned with itself as prefix. -/
def input_fault : List UInt8 :=
  [0x47, 0x49, 0x46, 0x38, 0x39, 0x61, 10, 0, 1, 0, 0x81, 0, 0,
   0, 0, 0, 255, 255, 255, 1, 1, 1, 2, 2, 2,
   0x2C, 0, 0, 0, 0, 10, 0, 1, 0, 0,
   2, 4, 0x00, 0x08, 0xC7, 0x01, 0,
   0x3B]

/-- A 5x1 image over a 2-color global table whose code stream is 0, 7, 7,
end-of-information (4 bits) (bytes `F8 0B`): code 7 is read while the next code is 6
and becomes `prev_code`, so the next code reads the entry `code_table[7]`, which
nothing has written. -/
def input_unassigned_twice : List UInt8 :=
  [0x47, 0x49, 0x46, 0x38, 0x39, 0x61, 5, 0, 1, 0, 0x80, 0, 0,
   0, 0, 0, 255, 255, 255,
   0x2C, 0, 0, 0, 0, 5, 0, 1, 0, 0,
   2, 2, 0xF8, 0x0B, 0,
   0x3B]

/-- Unspecified memory in which `code_table[7]` holds what an earlier image with 8 or
more colors leaves in that entry: a root entry with index 7. -/
def uninit_stale : Uninit :=
  { code_tables := fun _ i =>
      if i = 7 then ⟨1, GIF_CODE_NO_PREFIX, 1, 7, 7⟩ else ⟨0, 0, 0, 0, 0⟩
    stack_arrays := fun _ _ _ => 0
    scratch_blocks := fun _ _ => 0 }

/-- Unspecified memory in which the field `len` of `code_table[7]` holds `0xFFFF`. -/
def uninit_len_max : Uninit :=
  { code_tables := fun _ i => if i = 7 then ⟨0xFFFF, 0, 0, 0, 0⟩ else ⟨0, 0, 0, 0, 0⟩
    stack_arrays := fun _ _ _ => 0
    scratch_blocks := fun _ _ => 0 }

/-! ## Blocks, frames, the interlace order, appended input

What the statements about whole runs are written with: the kinds of block the
dispatcher tells apart and the run as a sequence of them, the interlace order of the
rows, and a stage's input with bytes appended. -/

/-- The signature test of the header (gif.c 80-83) passes. -/
def signature_ok (buf : List UInt8) : Prop :=
  byte buf 0 = 0x47 ∧ byte buf 1 = 0x49 ∧ byte buf 2 = 0x46 ∧ byte buf 3 = 0x38
    ∧ (byte buf 4 = 0x37 ∨ byte buf 4 = 0x39) ∧ byte buf 5 = 0x61

instance (buf : List UInt8) : Decidable (signature_ok buf) := by
  unfold signature_ok
  infer_instance

/-- The container after the 13 bytes of the header, before the global color table. -/
def header_gif (buf : List UInt8) : gif :=
  { gif_zero with
    version := if byte buf 4 = 0x39 then GIF_VERSION_89A else GIF_VERSION_87A
    width := u16_le buf 6, height := u16_le buf 8, bg_index := byte buf 11 }

/-- The kinds of block the dispatcher tells apart. -/
inductive Kind where
  | image   -- separator `0x2C`
  | gce     -- separator `0x21`, label `0xF9`, block size 4
  | other   -- any other extension
deriving DecidableEq, Repr

/-- The kind of the block at the cursor of `s`, read off the bytes the dispatcher tests
(gif.c 139, 512). -/
def block_kind (s : DState) : Kind :=
  if byte s.v 0 = 0x2C then .image
  else if byte s.v 0 = 0x21 ∧ byte s.v 1 = 0xF9 ∧ byte s.v 2 = 0x4 then .gce
  else .other

/-- A run of the dispatcher on `buf` together with the kinds of the blocks it has
passed, in stream order. -/
inductive Trace (u : Uninit) (buf : List UInt8) : List Kind → DState → Prop where
  | start (s : DState) : parse_header buf = .ok s → Trace u buf [] s
  | step (ks : List Kind) (s s' : DState) : Trace u buf ks s →
      block u s = .ok (some s') → Trace u buf (ks ++ [block_kind s]) s'

/-- The cursor a flow result carries. -/
def Flow.cursor : Flow → List UInt8
  | .more _ v => v
  | .end_code_stream _ v => v

/-- Whether each image of a block sequence finds a Graphic Control Extension pending;
`p` tells whether one is pending at the start. -/
def attached : Bool → List Kind → List Bool
  | _, [] => []
  | p, .image :: ks => p :: attached false ks
  | _, .gce :: ks => attached true ks
  | p, .other :: ks => attached p ks

/-- Whether a Graphic Control Extension is pending after a block sequence. -/
def pending : Bool → List Kind → Bool
  | p, [] => p
  | _, .image :: ks => pending false ks
  | _, .gce :: ks => pending true ks
  | p, .other :: ks => pending p ks

/-- The stored disposal method is one of the three constants of `gif.h`. -/
def DisposalOk (d : Nat) : Prop :=
  d = GIF_FRAME_DISPOSE_NONE ∨ d = GIF_FRAME_DISPOSE_ALL ∨ d = GIF_FRAME_DISPOSE_RESTORE

/-- What the run has established about frames: a pending frame and every attached frame
hold a defined disposal method. -/
def FramesOk (s : DState) : Prop :=
  (s.is_frame ≠ 0 → DisposalOk s.frame.disposal_method)
    ∧ ∀ img ∈ s.g.images, img.flags &&& GIF_IMAGE_FLAG_FRAME ≠ 0 →
        DisposalOk img.frame.disposal_method

/-- What one pass of the dispatcher does to the frame variables, by the kind of the
block. -/
def KindPost (s s' : DState) : Prop :=
  match block_kind s with
  | .image => s'.frame = s.frame ∧ s'.is_frame = 0
      ∧ ∃ img, s'.g.images = s.g.images ++ [img]
          ∧ (img.flags &&& GIF_IMAGE_FLAG_FRAME ≠ 0 ↔ s.is_frame ≠ 0)
          ∧ (s.is_frame ≠ 0 → img.frame = s.frame)
  | .gce => s'.g = s.g ∧ s'.is_frame = 1
      ∧ s'.frame.disposal_method = (gce_disposal s.frame (byte s.v 3)).disposal_method
  | .other => s'.g = s.g ∧ s'.is_frame = s.is_frame ∧ s'.frame = s.frame

/-- A 1x1 image over a 2-color global table whose code stream is clear, 1, 1,
end-of-information (bytes `4C 0A`): the third code would write a second index.  The
sub-block chain is well-formed and the trailer follows its terminator. -/
def input_overrun : List UInt8 :=
  [0x47, 0x49, 0x46, 0x38, 0x39, 0x61, 1, 0, 1, 0, 0x80, 0, 0,
   0, 0, 0, 255, 255, 255,
   0x2C, 0, 0, 0, 0, 1, 0, 1, 0, 0,
   2, 2, 0x4C, 0x0A, 0,
   0x3B]

/-- The input `input_min` as a GIF89a with a second sub-block of one byte after the
sub-block that holds the end-of-information code, then the terminator and the
trailer. -/
def input_eoi_more : List UInt8 :=
  [0x47, 0x49, 0x46, 0x38, 0x39, 0x61, 1, 0, 1, 0, 0x80, 0, 0,
   0, 0, 0, 255, 255, 255,
   0x2C, 0, 0, 0, 0, 1, 0, 1, 0, 0,
   2, 2, 0x4C, 0x01, 1, 0x00, 0,
   0x3B]

/-- The dispatcher state `s` with the bytes `x` appended to the input. -/
def DState.ext (x : List UInt8) (s : DState) : DState := { s with v := s.v ++ x }

/-- The descriptor result `i` with the bytes `x` appended to the input. -/
def ImageSetup.ext (x : List UInt8) (i : ImageSetup) : ImageSetup := { i with v := i.v ++ x }

/-- A step result with the bytes `x` appended to the input. -/
def Step.ext (x : List UInt8) : Step → Step
  | .next st => .next st
  | .end_code_stream indices v => .end_code_stream indices (v ++ x)

/-- A flow result with the bytes `x` appended to the input. -/
def Flow.ext (x : List UInt8) : Flow → Flow
  | .more st v => .more st (v ++ x)
  | .end_code_stream indices v => .end_code_stream indices (v ++ x)

/-- How the result `r'` of a stage on an input with bytes appended relates to its
result `r` on the input itself: the same result with the cursor moved along, or the
same error, unless the shorter input makes the stage return `GIF_ERR_EOF`. -/
def Ext {α : Type} (f : α → α) (r r' : Except Outcome α) : Prop :=
  match r with
  | .ok a => r' = .ok (f a)
  | .error e => e = .ret GIF_ERR_EOF gif_zero ∨ r' = .error e

/-- The passes of the dispatcher that lead from one state to another. -/
inductive Steps (u : Uninit) : DState → DState → Prop where
  | refl (s : DState) : Steps u s s
  | head (s s' t : DState) : block u s = .ok (some s') → Steps u s' t → Steps u s t

/-- The input `input_min` with the minimum code size 1. -/
def input_bad_code_size : List UInt8 :=
  [0x47, 0x49, 0x46, 0x38, 0x37, 0x61, 1, 0, 1, 0, 0x80, 0, 0,
   0, 0, 0, 255, 255, 255,
   0x2C, 0, 0, 0, 0, 1, 0, 1, 0, 0,
   1, 2, 0x4C, 0x01, 0,
   0x3B]

/-- A dispatcher state at a Graphic Control Extension whose packed byte is `0x08`
(raw disposal 2). -/
def state_at_gce : DState :=
  { g := gif_zero, frame := frame_zero, is_frame := 0,
    v := [0x21, 0xF9, 4, 0x08, 10, 0, 0, 0, 0x3B] }

/-! ## Codes, the textbook decoder, the bit stream, replaced input

What the statements about the code stream are written with: the calls of `free`, the
states of the code-stream loop, the body of a completed code run on a list of codes and
the textbook decoder it is compared with, the bit stream of a chain of sub-blocks and
the loops with a record of the codes, and a stage's input with its tail replaced. -/

/-- One call of `free` in `gif_free`, named by the pointer it receives. -/
inductive FreeCall where
  | gct_colors
  | lct_colors (i : Nat)
  | indices (i : Nat)
  | images
deriving DecidableEq, Repr

/-- The calls of `free` that `gif_free` makes on the container `g` (gif.c 575-589), in
order: the global table when `GIF_FLAG_GCT` is set, for each `i < num_images` the local
table of image `i` when its `GIF_IMAGE_FLAG_LCT` is set and then its index buffer, and
the image array when `num_images` is not zero. -/
def gif_free_calls (g : gif) : List FreeCall :=
  (if g.flags &&& GIF_FLAG_GCT ≠ 0 then [FreeCall.gct_colors] else [])
    ++ ((List.range g.num_images).flatMap fun i =>
          (if (g.images.getD i image_zero).flags &&& GIF_IMAGE_FLAG_LCT ≠ 0 then
            [FreeCall.lct_colors i] else []) ++ [FreeCall.indices i])
    ++ (if g.num_images ≠ 0 then [FreeCall.images] else [])

/-- The code width `w = lzw_code_size` and `next_code` for the minimum code size `m`:
`m + 1 ≤ w ≤ 12`, `2^m + 2 ≤ next_code ≤ 4096`, `next_code < 2^w` unless
`next_code = 4096` and `w = 12`, and `2^(w-1) ≤ next_code` unless `w = m + 1`. -/
def WidthInv (m : Nat) (st : lzw_state) : Prop :=
  m + 1 ≤ st.lzw_code_size ∧ st.lzw_code_size ≤ 12
    ∧ 2 ^ m + 2 ≤ st.next_code ∧ st.next_code ≤ 4096
    ∧ (st.next_code < 2 ^ st.lzw_code_size ∨ (st.next_code = 4096 ∧ st.lzw_code_size = 12))
    ∧ (st.lzw_code_size = m + 1 ∨ 2 ^ (st.lzw_code_size - 1) ≤ st.next_code)

/-- The states of the code-stream loop: the state on entry, and every state that the bit
reader or the body of a completed code produces from one of them, for any sub-block
counter and cursor. -/
inductive LzwReaches (p : lzw_params) (u : Uninit) (g : gif) : lzw_state → Prop where
  | start : LzwReaches p u g (lzw_start u p.min_lzw_code_size p.num_colors)
  | bits (st st' : lzw_state) (bytes bytes' : Nat) (v v' : List UInt8) :
      LzwReaches p u g st → read_bits st bytes v = .ok (st', bytes', v') →
      LzwReaches p u g st'
  | code (st st' : lzw_state) (bytes : Nat) (v : List UInt8) :
      LzwReaches p u g st → decode_code p u g st bytes v = .ok (.next st') →
      LzwReaches p u g st'

/-- The body of a completed code (gif.c 290-431) run on the code `c`: the state is the one
the bit reader leaves when it has just completed `c`.  The sub-block counter is 0 and
the cursor is empty, so that the clear code and the end code leave the cursor alone. -/
def feed_code (p : lzw_params) (u : Uninit) (g : gif) (st : lzw_state) (c : Nat) :
    Except Outcome Step :=
  decode_code p u g { st with code := c, code_off := st.lzw_code_size } 0 []

/-- The codes of a list handed to the body of a completed code one after the other,
until one of them leaves the loop. -/
def decode_codes (p : lzw_params) (u : Uninit) (g : gif) :
    lzw_state → List Nat → Except Outcome Step
  | st, [] => .ok (.next st)
  | st, c :: cs =>
    match feed_code p u g st c with
    | .error e => .error e
    | .ok (.end_code_stream indices v) => .ok (.end_code_stream indices v)
    | .ok (.next st) => decode_codes p u g st cs

/-- The state of the textbook decoder: the dictionary of explicit strings, the next code
to assign, the previous code (`none` while the first code after a clear code is
awaited), and the indices emitted so far. -/
structure naive_state where
  strings : Nat → List Nat
  next : Nat
  previous : Option Nat
  output : List Nat

/-- What the textbook decoder does with one code: it goes on, it stops at the end code,
or the code is not one it can decode. -/
inductive naive_result where
  | next (ns : naive_state)
  | done (output : List Nat)
  | invalid

/-- The textbook decoder before the first code: every color `c` stands for the string
`[c]`, and the next code is `CLEAR + 2`. -/
def naive_start (m : Nat) : naive_state :=
  { strings := fun c => [c], next := 2 ^ m + 2, previous := none, output := [] }

/-- A code of the textbook decoder that stands for a string: a color, or a code that
has been assigned since the last clear code. -/
def naive_in_use (m nc next c : Nat) : Prop :=
  c < nc ∨ (2 ^ m + 2 ≤ c ∧ c < next)

instance (m nc next c : Nat) : Decidable (naive_in_use m nc next c) := by
  unfold naive_in_use
  exact inferInstance

/-- The textbook decoder assigns the string `s` to the next code, unless all 4096 codes
are assigned. -/
def naive_add (ns : naive_state) (s : List Nat) : naive_state :=
  if ns.next = 4096 then ns
  else { ns with strings := fun j => if j = ns.next then s else ns.strings j,
                 next := ns.next + 1 }

/-- One code of the textbook decoder for minimum code size `m` and `nc` colors: the end
code stops; the clear code forgets the assigned codes; the first code after a clear code
must be a color and is emitted; a code in use emits its string and adds
`string(previous) ++ [first(string(code))]`; the code `next` emits and adds
`string(previous) ++ [first(string(previous))]`. -/
def naive_step (m nc : Nat) (ns : naive_state) (c : Nat) : naive_result :=
  if c = 2 ^ m + 1 then .done ns.output
  else if c = 2 ^ m then .next { ns with next := 2 ^ m + 2, previous := none }
  else match ns.previous with
    | none =>
      if c < nc then .next { ns with previous := some c, output := ns.output ++ [c] }
      else .invalid
    | some q =>
      if naive_in_use m nc ns.next c then
        .next (naive_add { ns with previous := some c,
                                   output := ns.output ++ ns.strings c }
          (ns.strings q ++ [(ns.strings c).headD 0]))
      else if c = ns.next then
        .next (naive_add { ns with previous := some c,
                                   output := ns.output
                                     ++ (ns.strings q ++ [(ns.strings q).headD 0]) }
          (ns.strings q ++ [(ns.strings q).headD 0]))
      else .invalid

/-- The textbook decoder on a list of codes. -/
def naive_run (m nc : Nat) : naive_state → List Nat → naive_result
  | ns, [] => .next ns
  | ns, c :: cs =>
    match naive_step m nc ns c with
    | .next ns => naive_run m nc ns cs
    | .done output => .done output
    | .invalid => .invalid

/-- The indices along the prefix chain of the code `c` in the table `t`, the root first;
`fuel` bounds the number of entries visited. -/
def chain_string (t : Nat → gif_code) : Nat → Nat → List Nat
  | 0, _ => []
  | fuel + 1, c =>
    if (t c).prefix_code = GIF_CODE_NO_PREFIX then [(t c).index]
    else chain_string t fuel (t c).prefix_code ++ [(t c).index]

/-- The code table `t` holds the dictionary `strs` with next code `next`: an entry in
use has the length, the first index and the last index of its string and a prefix in
use that stands for the rest, and no other entry from `nc` on is in use. -/
def Agrees (m nc : Nat) (t : Nat → gif_code) (strs : Nat → List Nat) (next : Nat) : Prop :=
  ∀ c, c < 4096 →
    (naive_in_use m nc next c →
      (t c).inuse ≠ 0 ∧ (t c).len = (strs c).length ∧ (t c).len ≤ c + 1
        ∧ (strs c).head? = some (t c).first_index
        ∧ ((c < nc ∧ (t c).prefix_code = GIF_CODE_NO_PREFIX ∧ (t c).index = c
              ∧ strs c = [c])
          ∨ (nc ≤ c ∧ (t c).prefix_code < c ∧ naive_in_use m nc next (t c).prefix_code
              ∧ strs c = strs (t c).prefix_code ++ [(t c).index])))
    ∧ (¬ naive_in_use m nc next c → (t c).inuse = 0)

/-- The arena decoder in state `st` and the textbook decoder in state `ns` stand at the
same point. -/
def Sim (m nc : Nat) (st : lzw_state) (ns : naive_state) : Prop :=
  Agrees m nc st.code_table ns.strings ns.next ∧ st.next_code = ns.next
    ∧ 2 ^ m + 2 ≤ ns.next ∧ ns.next ≤ 4096 ∧ st.indices = ns.output
    ∧ match ns.previous with
      | none => st.first_code ≠ 0
      | some q => st.first_code = 0 ∧ st.prev_code = q ∧ q < 4096
          ∧ naive_in_use m nc ns.next q

/-- The code table after the codes `x, x, x, clear` for four colors: the entries 6 and 7
that the second and third code have written, with `inuse` reset by the clear code. -/
def stale_table (T : Nat → gif_code) (x : Nat) : Nat → gif_code :=
  clear_code_table (upd (upd T 6 ⟨2, x, 1, x, x⟩) 7 ⟨2, x, 1, x, x⟩) 4

/-- A 9x1 image over a 4-color global table whose code stream is 0, 0, 0, clear (4
bits), 0, 7, 7, end (4 bits) (bytes `00 08 7F 01`).  Codes 6 and 7 are assigned before
the clear code; after it code 7 is read twice while it is not assigned. -/
def input_stale_zero : List UInt8 :=
  [0x47, 0x49, 0x46, 0x38, 0x39, 0x61, 9, 0, 1, 0, 0x81, 0, 0,
   0, 0, 0, 255, 255, 255, 1, 1, 1, 2, 2, 2,
   0x2C, 0, 0, 0, 0, 9, 0, 1, 0, 0,
   2, 4, 0x00, 0x08, 0x7F, 0x01, 0,
   0x3B]

/-- The file `input_stale_zero` with the three codes before the clear code changed from
0 to 1 (bytes `49 08 7F 01`); the clear code and the codes after it are the same. -/
def input_stale_one : List UInt8 :=
  [0x47, 0x49, 0x46, 0x38, 0x39, 0x61, 9, 0, 1, 0, 0x81, 0, 0,
   0, 0, 0, 255, 255, 255, 1, 1, 1, 2, 2, 2,
   0x2C, 0, 0, 0, 0, 9, 0, 1, 0, 0,
   2, 4, 0x49, 0x08, 0x7F, 0x01, 0,
   0x3B]

/-- Bit `j` of the bytes `P` read as a little-endian bit stream: bit `j mod 8` of byte
`j div 8`. -/
def stream_bit (P : List UInt8) (j : Nat) : Nat := (byte P (j / 8) >>> (j % 8)) % 2

/-- The number held by the bits `[o, o + w)` of the bit stream `P`, the bit at `o` being
the least significant. -/
def stream_bits (P : List UInt8) : Nat → Nat → Nat
  | _, 0 => 0
  | o, w + 1 => stream_bit P o + 2 * stream_bits P (o + 1) w

/-- The bytes of a chain of sub-blocks with the payloads `blocks`: each payload after its
length byte, then the zero-length sub-block. -/
def sub_block_chain : List (List UInt8) → List UInt8
  | [] => [0]
  | b :: bs => UInt8.ofNat b.length :: (b ++ sub_block_chain bs)

/-- The inner loop `while (bytes)` (gif.c 272-432) with a record of the codes it hands
to the body of a completed code, each with the code width `lzw_code_size` in force. -/
def code_loop_log (p : lzw_params) (u : Uninit) (g : gif) :
    Nat → lzw_state → Nat → List UInt8 → List (Nat × Nat) × Except Outcome Flow
  | 0, _, _, _ => ([], .error (.trap .fuel))
  | fuel + 1, st, bytes, v =>
    if bytes = 0 then ([], .ok (.more st v))
    else match read_bits st bytes v with
      | .error e => ([], .error e)
      | .ok (st, bytes, v) =>
        if st.code_off = st.lzw_code_size then
          match decode_code p u g st bytes v with
          | .error e => ([(st.code, st.lzw_code_size)], .error e)
          | .ok (.end_code_stream indices v) =>
            ([(st.code, st.lzw_code_size)], .ok (.end_code_stream indices v))
          | .ok (.next st') =>
            ((st.code, st.lzw_code_size) :: (code_loop_log p u g fuel st' bytes v).1,
              (code_loop_log p u g fuel st' bytes v).2)
        else code_loop_log p u g fuel st bytes v

/-- The outer loop `while (bytes)` (gif.c 266-435) with the record of the codes handed
to the body of a completed code. -/
def sub_blocks_log (p : lzw_params) (u : Uninit) (g : gif) :
    Nat → lzw_state → Nat → List UInt8
      → List (Nat × Nat) × Except Outcome (List Nat × List UInt8)
  | 0, _, _, _ => ([], .error (.trap .fuel))
  | fuel + 1, st, bytes, v =>
    if bytes = 0 then ([], .ok (st.indices, v))
    else match VEC_MUST g v (bytes + 2) >>= fun _ => VEC_ADVANCE_UNSAFE v 1 with
      | .error e => ([], .error e)
      | .ok v =>
        match code_loop_log p u g (8 * bytes + 1) st bytes v with
        | (l, .error e) => (l, .error e)
        | (l, .ok (.end_code_stream indices v)) => (l, .ok (indices, v))
        | (l, .ok (.more st v)) =>
          match VEC_AT_UNSAFE v 0 with
          | .error e => (l, .error e)
          | .ok bytes =>
            (l ++ (sub_blocks_log p u g fuel st bytes v).1,
              (sub_blocks_log p u g fuel st bytes v).2)

/-- The record `l` of codes and widths lies in the bit stream `P` from offset `o` on:
each code is the number in the next `w` bits, and the next code starts where it ends. -/
def LogAt (P : List UInt8) : Nat → List (Nat × Nat) → Prop
  | _, [] => True
  | o, (c, w) :: l => c = stream_bits P o w ∧ LogAt P (o + w) l

/-- The number of bits the codes of a record take. -/
def log_width : List (Nat × Nat) → Nat
  | [] => 0
  | (_, w) :: l => w + log_width l

/-- The cursor `v'` is at least as long as `v` and holds the same first `k` bytes. -/
def Agree (k : Nat) (v v' : List UInt8) : Prop :=
  v.length ≤ v'.length ∧ ∀ i, i < k → v'[i]? = v[i]?

/-- A step of the code body with the cursor replaced by `w`. -/
def Step.put (w : List UInt8) : Step → Step
  | .next st => .next st
  | .end_code_stream indices _ => .end_code_stream indices w

/-- A step of the code body taken on the cursor `v'` instead of `v`: the cursor of an
exit has dropped as many bytes of `v'` as it had dropped of `v`. -/
def Step.move (v v' : List UInt8) : Step → Step
  | .next st => .next st
  | .end_code_stream indices w => .end_code_stream indices (v'.drop (v.length - w.length))

/-- An exit of the inner loop with the cursor replaced by `w`. -/
def Flow.put (w : List UInt8) : Flow → Flow
  | .more st _ => .more st w
  | .end_code_stream indices _ => .end_code_stream indices w

/-- Two states of the textbook decoder that differ only in what no code in use stands
for and in the output: the same next code and previous code, the same string for every
code in use, and a previous code that is in use. -/
def NaiveSame (m nc : Nat) (a b : naive_state) : Prop :=
  a.next = b.next ∧ a.previous = b.previous ∧ 2 ^ m + 2 ≤ a.next
    ∧ (∀ c, naive_in_use m nc a.next c → a.strings c = b.strings c)
    ∧ ∀ q, a.previous = some q → naive_in_use m nc a.next q


/-! ## Inputs that are read on past a code stream, memory a run leaves

The inputs and the memory that the statements about truncated input, appended input,
frames and inserted extensions are evaluated on. -/

/-- A 1x1 image over a 2-color global table whose chain has two sub-blocks, `4C 0A 3B` and
`00 00`.  The code stream is clear, 1, 1: the third code would write a second index, and
the byte after it is `3B`.  The chain ends at offset 37 and the trailer is at offset
38. -/
def input_chain_cut : List UInt8 :=
  [0x47, 0x49, 0x46, 0x38, 0x39, 0x61, 1, 0, 1, 0, 0x80, 0, 0,
   0, 0, 0, 255, 255, 255,
   0x2C, 0, 0, 0, 0, 1, 0, 1, 0, 0,
   2, 3, 0x4C, 0x0A, 0x3B, 2, 0, 0, 0,
   0x3B]

/-- Unspecified memory that holds what the run of `gif_parse` on
`input_unassigned_twice` under `uninit_stale` leaves in `code_table`: the two colors,
the entry 6 written by the first code 7 and the entry 7 written by the second. -/
def uninit_left : Uninit :=
  { code_tables := fun _ i =>
      if i = 7 then ⟨2, 7, 1, 7, 7⟩
      else if i = 6 then ⟨2, 0, 1, 0, 0⟩
      else if i < 2 then ⟨1, GIF_CODE_NO_PREFIX, 1, i, i⟩
      else ⟨0, 0, 0, 0, 0⟩
    stack_arrays := fun _ _ _ => 0
    scratch_blocks := fun _ _ => 0 }

/-- Two 1x1 images over a 2-color global table with a Graphic Control Extension
(packed byte `05`, delay 10, transparent index 1) between them.  The chain of the first
image is the one sub-block `4C 0A 21 FE 08`: the code stream is clear, 1, 1, and the
third code would write a second index. -/
def input_gce_swallowed : List UInt8 :=
  [0x47, 0x49, 0x46, 0x38, 0x39, 0x61, 1, 0, 1, 0, 0x80, 0, 0,
   0, 0, 0, 255, 255, 255,
   0x2C, 0, 0, 0, 0, 1, 0, 1, 0, 0,
   2, 5, 0x4C, 0x0A, 0x21, 0xFE, 0x08, 0,
   0x21, 0xF9, 4, 0x05, 10, 0, 1, 0,
   0x2C, 0, 0, 0, 0, 1, 0, 1, 0, 0,
   2, 2, 0x4C, 0x01, 0,
   0x3B]

/-- Two 1x1 images over a 2-color global table with a comment extension `41 42`
between them and no Graphic Control Extension.  The chain of the first image is the one
sub-block `4C 0A 21 F9 04 05 0A 00 01 00 21 FE 06`: the code stream is clear, 1, 1, and
the third code would write a second index. -/
def input_gce_forged : List UInt8 :=
  [0x47, 0x49, 0x46, 0x38, 0x39, 0x61, 1, 0, 1, 0, 0x80, 0, 0,
   0, 0, 0, 255, 255, 255,
   0x2C, 0, 0, 0, 0, 1, 0, 1, 0, 0,
   2, 13, 0x4C, 0x0A, 0x21, 0xF9, 4, 0x05, 10, 0, 1, 0, 0x21, 0xFE, 6, 0,
   0x21, 0xFE, 2, 0x41, 0x42, 0,
   0x2C, 0, 0, 0, 0, 1, 0, 1, 0, 0,
   2, 2, 0x4C, 0x01, 0,
   0x3B]
/-! ## The cursor and the stages: what an exit can be -/

@[simp]
theorem bind_ok_eq {α β : Type} (a : α) (f : α → Except Outcome β) :
    (Except.ok a >>= f) = f a := rfl

@[simp]
theorem bind_error_eq {α β : Type} (e : Outcome) (f : α → Except Outcome β) :
    (Except.error e >>= f) = Except.error e := rfl

@[simp]
theorem pure_eq_ok {α : Type} (a : α) : (pure a : Except Outcome α) = .ok a := rfl

@[simp]
theorem map_ok_eq {α β : Type} (a : α) (f : α → β) :
    (Except.ok a : Except Outcome α).map f = .ok (f a) := rfl

@[simp]
theorem map_error_eq {α β : Type} (e : Outcome) (f : α → β) :
    (Except.error e : Except Outcome α).map f = .error e := rfl

theorem fine_ret (c : Int) (g : gif) (hc : c ≠ GIF_SUCCESS) : Fine (.ret c g) := hc

theorem fine_benign {e : Outcome} (h : Fine e) : Benign e := by
  cases e with
  | ret c g => simp [Benign]
  | trap t =>
    have ht : t = .code_table ∨ t = .stack ∨ t = .indices := h
    rcases ht with h | h | h <;> subst h <;> simp [Benign]

theorem fine_not_success {e : Outcome} (h : Fine e) (g : gif) : e ≠ .ret GIF_SUCCESS g := by
  intro he
  subst he
  exact h rfl

theorem byte_lt (v : List UInt8) (i : Nat) : byte v i < 256 :=
  UInt8.toNat_lt_size _

theorem VEC_AT_UNSAFE_ok {v : List UInt8} {i : Nat} (h : i < v.length) :
    VEC_AT_UNSAFE v i = .ok (byte v i) := by
  simp [VEC_AT_UNSAFE, byte, List.getD, List.getElem?_eq_getElem h]

theorem VEC_AT_U16_LE_UNSAFE_ok {v : List UInt8} {i : Nat} (h : i + 1 < v.length) :
    VEC_AT_U16_LE_UNSAFE v i = .ok (byte v i + 256 * byte v (i + 1)) := by
  have h0 : i < v.length := by omega
  simp [VEC_AT_U16_LE_UNSAFE, VEC_AT_UNSAFE_ok h, VEC_AT_UNSAFE_ok h0]

theorem VEC_ADVANCE_UNSAFE_ok {v : List UInt8} {n : Nat} (h : n ≤ v.length) :
    VEC_ADVANCE_UNSAFE v n = .ok (v.drop n) := by
  simp [VEC_ADVANCE_UNSAFE, h]

theorem copy_bytes_ok {v : List UInt8} {n : Nat} (h : n ≤ v.length) :
    copy_bytes v n = .ok (v.take n) := by
  simp [copy_bytes, h]

theorem post_ok {α : Type} {a : α} {P : α → Prop} (h : P a) :
    Post (.ok a : Except Outcome α) P := h

theorem post_ret {α : Type} (c : Int) (g : gif) (P : α → Prop) (hc : c ≠ GIF_SUCCESS) :
    Post (.error (.ret c g) : Except Outcome α) P := hc

theorem post_trap_code_table {α : Type} (P : α → Prop) :
    Post (.error (.trap .code_table) : Except Outcome α) P := by simp [Post, Fine]

theorem post_trap_stack {α : Type} (P : α → Prop) :
    Post (.error (.trap .stack) : Except Outcome α) P := by simp [Post, Fine]

theorem post_trap_indices {α : Type} (P : α → Prop) :
    Post (.error (.trap .indices) : Except Outcome α) P := by simp [Post, Fine]

theorem post_bind {α β : Type} {x : Except Outcome α} {f : α → Except Outcome β}
    {P : α → Prop} {Q : β → Prop} (hx : Post x P) (hf : ∀ a, P a → Post (f a) Q) :
    Post (x >>= f) Q := by
  cases x with
  | error e => exact hx
  | ok a => exact hf a hx

theorem post_mono {α : Type} {x : Except Outcome α} {P Q : α → Prop} (hx : Post x P)
    (h : ∀ a, P a → Q a) : Post x Q := by
  cases x with
  | error e => exact hx
  | ok a => exact h a hx

theorem code_table_at_post (t : Nat → gif_code) (i : Nat) :
    Post (code_table_at t i) (fun e => e = t i ∧ i < 4096) := by
  unfold code_table_at
  split
  · exact post_ok ⟨rfl, by assumption⟩
  · exact post_trap_code_table _

theorem code_table_set_post (t : Nat → gif_code) (i : Nat) (e : gif_code) :
    Post (code_table_set t i e) (fun _ => True) := by
  unfold code_table_set
  split
  · exact post_ok trivial
  · exact post_trap_code_table _

theorem stack_set_post (stack : Nat → Nat) (tmplen : Nat) (pos : Int) (x : Nat) :
    Post (stack_set stack tmplen pos x) (fun _ => True) := by
  unfold stack_set
  split
  · exact post_ok trivial
  · exact post_trap_stack _

theorem indices_put_post (req : Nat) (indices : List Nat) (x : Nat) :
    Post (indices_put req indices x) (fun _ => True) := by
  unfold indices_put
  split
  · exact post_ok trivial
  · exact post_trap_indices _

theorem walk_post (g : gif) (t : Nat → gif_code) (tmplen : Nat) :
    ∀ (fuel : Nat) (stack : Nat → Nat) (tmpc tmpi : Nat), tmplen - tmpi < fuel →
      Post (walk g t tmplen fuel stack tmpc tmpi) (fun _ => True) := by
  intro fuel
  induction fuel with
  | zero => intro _ _ _ h; omega
  | succ n ih =>
    intro stack tmpc tmpi h
    unfold walk
    split
    · exact post_ret _ _ _ (by decide)
    · rename_i hg
      refine post_bind (code_table_at_post t tmpc) (fun e _ => ?_)
      refine post_bind (stack_set_post _ _ _ _) (fun st _ => ?_)
      dsimp only
      split
      · exact ih _ _ _ (by omega)
      · exact post_ok trivial

theorem emit_post (req : Nat) (stack : Nat → Nat) :
    ∀ (k i : Nat) (indices : List Nat), Post (emit req stack k i indices) (fun _ => True) := by
  intro k
  induction k with
  | zero => intro _ _; exact post_ok trivial
  | succ n ih =>
    intro i indices
    unfold emit
    exact post_bind (indices_put_post _ _ _) (fun a _ => ih _ _)

theorem shl_one_lt (l : Nat) (h : 1 <<< l < 65536) : l < 16 := by
  rw [Nat.one_shiftLeft] at h
  by_contra hc
  have : 2 ^ 16 ≤ 2 ^ l := Nat.pow_le_pow_right (by norm_num) (by omega)
  omega

theorem insert_code_post (p : lzw_params) (st : lzw_state) (len pc index fi : Nat)
    (v : List UInt8) (hl : 0 < st.lzw_code_size) :
    Post (insert_code p st len pc index fi v) (StepPost st v) := by
  unfold insert_code
  split
  · exact post_ok (Nat.le_refl _)
  · split
    · exact post_ok ⟨rfl, rfl, hl⟩
    · refine post_bind (code_table_set_post _ _ _) (fun tb _ => ?_)
      simp only []
      split
      · exact post_ok ⟨rfl, rfl, hl⟩
      · split
        · rename_i h
          have h16 : st.lzw_code_size < 16 := by
            apply shl_one_lt
            rw [← h]
            exact Nat.mod_lt _ (by norm_num)
          refine post_ok ⟨rfl, rfl, ?_⟩
          show 0 < (st.lzw_code_size + 1) % 256
          omega
        · exact post_ok ⟨rfl, rfl, hl⟩

theorem decode_inuse_post (p : lzw_params) (u : Uninit) (g : gif) (st : lzw_state)
    (prev centry : gif_code) (v : List UInt8) (hl : 0 < st.lzw_code_size) :
    Post (decode_inuse p u g st prev centry v) (StepPost st v) := by
  unfold decode_inuse
  dsimp only
  split
  · exact post_ok (Nat.le_refl _)
  · refine post_bind (walk_post _ _ _ _ _ _ _ (by omega)) (fun stack _ => ?_)
    refine post_bind (emit_post _ _ _ _ _) (fun ind _ => ?_)
    exact insert_code_post p { st with indices := ind } _ _ _ _ v hl

theorem decode_unused_post (p : lzw_params) (u : Uninit) (g : gif) (st : lzw_state)
    (prev : gif_code) (v : List UInt8) (hl : 0 < st.lzw_code_size) :
    Post (decode_unused p u g st prev v) (StepPost st v) := by
  unfold decode_unused
  dsimp only
  refine post_bind (stack_set_post _ _ _ _) (fun stack0 _ => ?_)
  split
  · exact post_ok (Nat.le_refl _)
  · refine post_bind (walk_post _ _ _ _ _ _ _ (by omega)) (fun stack _ => ?_)
    refine post_bind (emit_post _ _ _ _ _) (fun ind _ => ?_)
    exact insert_code_post p { st with indices := ind } _ _ _ _ v hl

theorem decode_code_post (p : lzw_params) (u : Uninit) (g : gif) (st : lzw_state)
    (bytes : Nat) (v : List UInt8) (hb : bytes ≤ v.length) (hl : 0 < st.lzw_code_size)
    (hm : p.min_lzw_code_size ≤ 8) :
    Post (decode_code p u g st bytes v) (StepPost st v) := by
  unfold decode_code
  split
  · split
    · rw [VEC_ADVANCE_UNSAFE_ok hb]
      refine post_ok ?_
      show (v.drop bytes).length ≤ v.length
      simp
    · exact post_ok (Nat.le_refl _)
  · split
    · refine post_ok ⟨rfl, rfl, ?_⟩
      show 0 < (p.min_lzw_code_size + 1) % 256
      omega
    · split
      · split
        · exact post_ret _ _ _ (by decide)
        · split
          · exact post_ok (Nat.le_refl _)
          · refine post_bind (indices_put_post _ _ _) (fun ind _ => ?_)
            exact post_ok ⟨rfl, rfl, hl⟩
      · refine post_bind (code_table_at_post _ _) (fun prev _ => ?_)
        split
        · exact post_ret _ _ _ (by decide)
        · refine post_bind (code_table_at_post _ _) (fun centry _ => ?_)
          split
          · exact decode_inuse_post p u g st prev centry v hl
          · exact decode_unused_post p u g st prev v hl

theorem num_bits_bounds (st : lzw_state) (h8 : st.bit_off < 8)
    (hc : st.code_off < st.lzw_code_size) :
    1 ≤ num_bits st ∧ st.bit_off + num_bits st ≤ 8
      ∧ st.code_off + num_bits st ≤ st.lzw_code_size := by
  unfold num_bits
  split <;> omega

theorem read_bits_post (st : lzw_state) (bytes : Nat) (v : List UInt8) (hb : 0 < bytes)
    (hv : bytes + 1 ≤ v.length) (h8 : st.bit_off < 8) (hc : st.code_off < st.lzw_code_size) :
    Post (read_bits st bytes v) (fun r =>
      r.2.1 + 1 ≤ r.2.2.length ∧ r.2.2.length ≤ v.length
      ∧ 8 * r.2.1 - r.1.bit_off < 8 * bytes - st.bit_off
      ∧ r.1.bit_off < 8 ∧ r.1.code_off ≤ r.1.lzw_code_size ∧ 0 < r.1.lzw_code_size) := by
  unfold read_bits
  have hn := num_bits_bounds st h8 hc
  generalize num_bits st = bits at hn
  rw [VEC_AT_UNSAFE_ok (by omega)]
  simp only [bind_ok_eq]
  split
  · rw [VEC_ADVANCE_UNSAFE_ok (by omega)]
    refine post_ok ?_
    simp only [List.length_drop]
    omega
  · refine post_ok ?_
    dsimp only
    omega

theorem code_loop_post (p : lzw_params) (u : Uninit) (g : gif)
    (hm : p.min_lzw_code_size ≤ 8) :
    ∀ (fuel : Nat) (st : lzw_state) (bytes : Nat) (v : List UInt8),
      bytes + 1 ≤ v.length → st.bit_off < 8 → st.code_off < st.lzw_code_size →
      8 * bytes - st.bit_off < fuel →
      Post (code_loop p u g fuel st bytes v) (FlowPost v) := by
  intro fuel
  induction fuel with
  | zero => intro _ _ _ _ _ _ h; omega
  | succ n ih =>
    intro st bytes v hv h8 hc hf
    unfold code_loop
    split
    · exact post_ok ⟨by omega, Nat.le_refl _, h8, hc⟩
    · rename_i hb
      have hr := read_bits_post st bytes v (by omega) hv h8 hc
      split
      · rename_i e he
        rw [he] at hr
        exact hr
      · rename_i st1 bytes1 v1 he
        rw [he] at hr
        obtain ⟨hv1, hle, hms, h81, hc1, hl1⟩ := hr
        dsimp only at hv1 hle hms h81 hc1 hl1
        split
        · have hd := decode_code_post p u g st1 bytes1 v1 (by omega) hl1 hm
          split
          · rename_i e he2
            rw [he2] at hd
            exact hd
          · rename_i ind v2 he2
            rw [he2] at hd
            exact post_ok (Nat.le_trans hd hle)
          · rename_i st2 he2
            rw [he2] at hd
            obtain ⟨hb2, hc2, hl2⟩ := hd
            refine post_mono (ih st2 bytes1 v1 hv1 (by omega) (by omega) (by omega)) ?_
            intro r hr
            cases r with
            | more a b => exact ⟨hr.1, Nat.le_trans hr.2.1 hle, hr.2.2⟩
            | end_code_stream a b => exact Nat.le_trans hr hle
        · rename_i hne
          refine post_mono (ih st1 bytes1 v1 hv1 h81 (by omega) (by omega)) ?_
          intro r hr
          cases r with
          | more a b => exact ⟨hr.1, Nat.le_trans hr.2.1 hle, hr.2.2⟩
          | end_code_stream a b => exact Nat.le_trans hr hle

theorem VEC_MUST_post (g : gif) (v : List UInt8) (n : Nat) :
    Post (VEC_MUST g v n) (fun _ => n ≤ v.length) := by
  unfold VEC_MUST
  split
  · exact post_ret _ _ _ (by decide)
  · exact post_ok (by omega)

theorem VEC_ADVANCE_post (g : gif) (v : List UInt8) (n : Nat) :
    Post (VEC_ADVANCE g v n) (fun v' => v'.length + n = v.length) := by
  unfold VEC_ADVANCE
  split
  · exact post_ret _ _ _ (by decide)
  · refine post_ok ?_
    simp only [List.length_drop]
    omega

theorem sub_blocks_post (p : lzw_params) (u : Uninit) (g : gif)
    (hm : p.min_lzw_code_size ≤ 8) :
    ∀ (fuel : Nat) (st : lzw_state) (bytes : Nat) (v : List UInt8),
      v.length < fuel → st.bit_off < 8 → st.code_off < st.lzw_code_size →
      Post (sub_blocks p u g fuel st bytes v) (fun r => r.2.length ≤ v.length) := by
  intro fuel
  induction fuel with
  | zero => intro _ _ _ h; omega
  | succ n ih =>
    intro st bytes v hf h8 hc
    unfold sub_blocks
    split
    · exact post_ok (Nat.le_refl _)
    · by_cases hlen : v.length < bytes + 2
      · simp only [VEC_MUST, hlen, if_true, bind_error_eq]
        exact post_ret _ _ _ (by decide)
      · simp only [VEC_MUST, hlen, if_false, bind_ok_eq]
        rw [VEC_ADVANCE_UNSAFE_ok (by omega)]
        dsimp only
        have hd : (v.drop 1).length = v.length - 1 := by simp
        have hl := code_loop_post p u g hm (8 * bytes + 1) st bytes (v.drop 1)
          (by omega) h8 hc (by omega)
        split
        · rename_i e he
          rw [he] at hl
          exact hl
        · rename_i ind v2 he
          rw [he] at hl
          refine post_ok ?_
          have : v2.length ≤ (v.drop 1).length := hl
          show v2.length ≤ v.length
          omega
        · rename_i st2 v2 he
          rw [he] at hl
          obtain ⟨h1, h2, h3, h4⟩ := hl
          rw [VEC_AT_UNSAFE_ok (by omega)]
          dsimp only
          refine post_mono (ih st2 _ v2 (by omega) h3 h4) ?_
          intro r hr
          show r.2.length ≤ v.length
          omega

theorem skip_sub_blocks_post (g : gif) :
    ∀ (fuel bytes : Nat) (v : List UInt8), v.length < fuel →
      Post (skip_sub_blocks g fuel bytes v) (fun v' => v'.length ≤ v.length) := by
  intro fuel
  induction fuel with
  | zero => intro _ _ h; omega
  | succ n ih =>
    intro bytes v hf
    unfold skip_sub_blocks
    split
    · exact post_ok (Nat.le_refl _)
    · by_cases hlen : v.length < bytes + 2
      · simp only [VEC_MUST, hlen, if_true, bind_error_eq]
        exact post_ret _ _ _ (by decide)
      · simp only [VEC_MUST, hlen, if_false, bind_ok_eq]
        rw [VEC_ADVANCE_UNSAFE_ok (by omega)]
        dsimp only
        have hd : (v.drop (bytes + 1)).length = v.length - (bytes + 1) := by simp
        rw [VEC_AT_UNSAFE_ok (by omega)]
        dsimp only
        refine post_mono (ih _ _ (by omega)) ?_
        intro r hr
        omega

theorem memcpy_at_post (dst : List Nat) (d : Nat) (src : List Nat) (s n : Nat) :
    Post (memcpy_at dst d src s n) (fun r => r.length = dst.length) := by
  unfold memcpy_at
  split
  · rename_i h
    refine post_ok ?_
    simp only [List.length_append, List.length_take, List.length_drop]
    omega
  · exact post_trap_indices _

theorem copy_rows_post (g : gif) (indices : List Nat) (len stride inc off gro : Nat) :
    ∀ (k j : Nat) (tmp : List Nat),
      Post (copy_rows g indices len stride inc off gro k j tmp)
        (fun r => r.length = tmp.length) := by
  intro k
  induction k with
  | zero => intro _ _; exact post_ok rfl
  | succ n ih =>
    intro j tmp
    unfold copy_rows
    split
    · exact post_ret _ _ _ (by decide)
    · have hm := memcpy_at_post tmp ((inc * j + off) * stride) indices ((j + gro) * stride)
        stride
      split
      · rename_i e he
        rw [he] at hm
        exact hm
      · rename_i tmp2 he
        rw [he] at hm
        refine post_mono (ih (j + 1) tmp2) ?_
        intro r hr
        rw [hr]
        exact hm

theorem copy_passes_post (g : gif) (indices : List Nat) (len stride height : Nat) :
    ∀ (passes : List (Nat × Nat)) (gro : Nat) (tmp : List Nat),
      Post (copy_passes g indices len stride height passes gro tmp)
        (fun r => r.length = tmp.length) := by
  intro passes
  induction passes with
  | nil => intro _ _; exact post_ok rfl
  | cons pass rest ih =>
    intro gro tmp
    obtain ⟨inc, off⟩ := pass
    unfold copy_passes
    split
    · exact ih _ _
    · dsimp only
      have hr := copy_rows_post g indices len stride inc off gro
        ((height - off - 1) / inc + 1) 0 tmp
      split
      · rename_i e he
        rw [he] at hr
        exact hr
      · rename_i tmp2 he
        rw [he] at hr
        refine post_mono (ih _ tmp2) ?_
        intro r hr2
        rw [hr2]
        exact hr

theorem deinterlace_post (u : Uninit) (g : gif) (width height : Nat) (indices : List Nat) :
    Post (deinterlace u g width height indices) (fun r => r.length = width * height) := by
  unfold deinterlace
  refine post_mono (copy_passes_post _ _ _ _ _ _ _ _) ?_
  intro r hr
  rw [hr]
  simp

@[simp]
theorem grow_images_width (g : gif) : (grow_images g).width = g.width := by
  unfold grow_images; split <;> rfl

@[simp]
theorem grow_images_height (g : gif) : (grow_images g).height = g.height := by
  unfold grow_images; split <;> rfl

@[simp]
theorem grow_images_images (g : gif) : (grow_images g).images = g.images := by
  unfold grow_images; split <;> rfl

@[simp]
theorem attach_frame_x (s : DState) (img : gif_image) :
    (attach_frame s img).x = img.x := by
  unfold attach_frame; split <;> rfl

@[simp]
theorem attach_frame_y (s : DState) (img : gif_image) :
    (attach_frame s img).y = img.y := by
  unfold attach_frame; split <;> rfl

@[simp]
theorem attach_frame_width (s : DState) (img : gif_image) :
    (attach_frame s img).width = img.width := by
  unfold attach_frame; split <;> rfl

@[simp]
theorem attach_frame_height (s : DState) (img : gif_image) :
    (attach_frame s img).height = img.height := by
  unfold attach_frame; split <;> rfl

theorem image_descriptor_post (s : DState) :
    Post (image_descriptor s) (fun i =>
      i.v.length + 10 ≤ s.v.length ∧ i.g = push_image (grow_images s.g) i.img
        ∧ ImgGeom s.g i.img) := by
  unfold image_descriptor
  by_cases hlen : s.v.length < 0xA
  · simp only [VEC_MUST, hlen, if_true, bind_error_eq]
    exact post_ret _ _ _ (by decide)
  · have h10 : 10 ≤ s.v.length := by omega
    simp (disch := omega) only [VEC_MUST, hlen, if_false, bind_ok_eq,
      VEC_AT_U16_LE_UNSAFE_ok, VEC_AT_UNSAFE_ok, VEC_ADVANCE_UNSAFE_ok, pure_eq_ok]
    split
    · exact post_ret _ _ _ (by decide)
    · rename_i hgeo
      simp only [grow_images_width, grow_images_height] at hgeo
      have hd : (s.v.drop 10).length = s.v.length - 10 := by simp
      split
      · by_cases hl2 : (s.v.drop 10).length < 1 <<< ((byte s.v 9 &&& 7) + 1) * 3
        · simp only [hl2, if_true, bind_error_eq]
          exact post_ret _ _ _ (by decide)
        · simp (disch := omega) only [hl2, if_false, bind_ok_eq, copy_bytes_ok,
            VEC_ADVANCE_UNSAFE_ok]
          refine post_ok ⟨?_, rfl, ?_⟩
          · simp only [List.length_drop]
            omega
          · simp only [ImgGeom, attach_frame_x, attach_frame_y, attach_frame_width,
              attach_frame_height]
            omega
      · split
        · exact post_ret _ _ _ (by decide)
        · refine post_ok ⟨?_, rfl, ?_⟩
          · show (s.v.drop 10).length + 10 ≤ s.v.length
            omega
          · simp only [ImgGeom, attach_frame_x, attach_frame_y, attach_frame_width,
              attach_frame_height]
            omega

theorem set_imgp_indices_push (g : gif) (img : gif_image) (ind : List Nat) :
    set_imgp_indices (push_image g img) ind
      = { push_image g img with images := g.images ++ [{ img with indices := ind }] } := by
  simp [set_imgp_indices, push_image]

theorem image_data_post (u : Uninit) (i : ImageSetup) :
    Post (image_data u i) (fun r => r.2.length ≤ i.v.length) := by
  unfold image_data
  by_cases hlen : i.v.length < 2
  · simp only [VEC_MUST, hlen, if_true, bind_error_eq]
    exact post_ret _ _ _ (by decide)
  · have hd : (i.v.drop 1).length = i.v.length - 1 := by simp
    simp (disch := omega) only [VEC_MUST, hlen, if_false, bind_ok_eq, VEC_AT_UNSAFE_ok,
      VEC_ADVANCE_UNSAFE_ok]
    split
    · exact post_ret _ _ _ (by decide)
    · rename_i hc
      refine post_mono (sub_blocks_post _ u i.g (by simp only; omega) _ _ _ _
        (Nat.lt_succ_self _) (by simp [lzw_start]) ?_) ?_
      · show 0 < (byte i.v 0 + 1) % 256
        omega
      · intro r hr
        omega

theorem image_finish_post (u : Uninit) (frame : gif_frame) (i : ImageSetup)
    (indices : List Nat) (v : List UInt8) :
    Post (image_finish u frame i indices v) (fun s' =>
      s'.v.length + 1 = v.length ∧ s'.frame = frame ∧ s'.is_frame = i.is_frame
        ∧ ∃ ind, s'.g = set_imgp_indices i.g ind
            ∧ ind.length = i.img.width * i.img.height) := by
  unfold image_finish
  dsimp only
  split
  · exact post_ret _ _ _ (by decide)
  · rename_i hlen
    refine post_bind (VEC_ADVANCE_post _ _ _) (fun v' hv' => ?_)
    split
    · refine post_bind (deinterlace_post _ _ _ _ _) (fun ind hind => ?_)
      exact post_ok ⟨hv', rfl, rfl, ind, rfl, hind⟩
    · exact post_ok ⟨hv', rfl, rfl, indices, rfl, by omega⟩

theorem parse_image_post (u : Uninit) (s : DState) :
    Post (parse_image u s) (fun s' =>
      s'.v.length < s.v.length ∧ s'.frame = s.frame ∧ SameScreen s.g s'.g
        ∧ ∃ img, s'.g.images = s.g.images ++ [img] ∧ ImgGeom s.g img
            ∧ img.indices.length = img.width * img.height) := by
  unfold parse_image
  have hd := image_descriptor_post s
  split
  · rename_i e he
    rw [he] at hd
    exact hd
  · rename_i i he
    rw [he] at hd
    obtain ⟨hv, hg, hgeo⟩ := hd
    have hdat := image_data_post (u.image s.g.num_images) i
    split
    · rename_i e he2
      rw [he2] at hdat
      exact hdat
    · rename_i ind v he2
      rw [he2] at hdat
      refine post_mono (image_finish_post (u.image s.g.num_images) s.frame i ind v) ?_
      rintro s' ⟨h1, h2, h3, ind', h4, h5⟩
      have hv2 : v.length ≤ i.v.length := hdat
      refine ⟨by omega, h2, ?_, { i.img with indices := ind' }, ?_, hgeo, h5⟩
      · rw [h4, hg, set_imgp_indices_push]
        simp [SameScreen, push_image, grow_images]
        split <;> simp
      · rw [h4, hg, set_imgp_indices_push]
        simp

theorem gce_transparent_post (frame : gif_frame) (packed_byte : Nat) (v : List UInt8)
    (h : 5 ≤ v.length) : Post (gce_transparent frame packed_byte v) (fun _ => True) := by
  unfold gce_transparent
  split
  · rw [VEC_AT_UNSAFE_ok (by omega)]
    exact post_ok trivial
  · exact post_ok trivial

theorem graphic_control_post (s : DState) (v : List UInt8) :
    Post (graphic_control s 4 v) (fun s' =>
      s'.v.length + 6 = v.length ∧ s'.g = s.g ∧ s'.is_frame = 1) := by
  unfold graphic_control
  by_cases hlen : v.length < 4 + 2
  · simp only [VEC_MUST, hlen, if_true, bind_error_eq]
    exact post_ret _ _ _ (by decide)
  · have hd : (v.drop 5).length = v.length - 5 := by simp
    simp (disch := omega) only [VEC_MUST, hlen, if_false, bind_ok_eq, VEC_AT_UNSAFE_ok,
      VEC_AT_U16_LE_UNSAFE_ok, VEC_ADVANCE_UNSAFE_ok]
    refine post_bind (gce_transparent_post _ _ _ (by omega)) (fun frame _ => ?_)
    have hd2 : (v.drop (4 + 1)).length = v.length - 5 := by simp
    rw [VEC_AT_UNSAFE_ok (by omega)]
    simp only [bind_ok_eq]
    split
    · exact post_ret _ _ _ (by decide)
    · refine post_bind (VEC_ADVANCE_post _ _ _) (fun v' hv' => ?_)
      refine post_ok ⟨?_, rfl, rfl⟩
      show v'.length + 6 = v.length
      omega

theorem parse_extension_post (s : DState) :
    Post (parse_extension s) (fun s' => s'.v.length < s.v.length ∧ s'.g = s.g) := by
  unfold parse_extension
  by_cases hlen : s.v.length < 3
  · simp only [VEC_MUST, hlen, if_true, bind_error_eq]
    exact post_ret _ _ _ (by decide)
  · have hd : (s.v.drop 2).length = s.v.length - 2 := by simp
    simp (disch := omega) only [VEC_MUST, hlen, if_false, bind_ok_eq, VEC_AT_UNSAFE_ok,
      VEC_ADVANCE_UNSAFE_ok]
    split
    · rename_i h
      rw [h.2]
      refine post_mono (graphic_control_post s _) ?_
      rintro s' ⟨h1, h2, _⟩
      exact ⟨by omega, h2⟩
    · refine post_bind (skip_sub_blocks_post _ _ _ _ (Nat.lt_succ_self _)) (fun v1 hv1 => ?_)
      refine post_bind (VEC_ADVANCE_post _ _ _) (fun v2 hv2 => ?_)
      refine post_ok ⟨?_, rfl⟩
      show v2.length < s.v.length
      omega

theorem post_map_some {α : Type} {x : Except Outcome α} {P : α → Prop} (hx : Post x P) :
    Post (x.map some) (fun r => ∀ a, r = some a → P a) := by
  cases x with
  | error e => exact hx
  | ok a =>
    intro b hb
    cases hb
    exact hx

theorem sameScreen_refl (g : gif) : SameScreen g g :=
  ⟨rfl, rfl, rfl, rfl, rfl, rfl⟩

theorem block_post (u : Uninit) (s : DState) :
    Post (block u s) (fun r => ∀ s', r = some s' → BlockPost s s') := by
  unfold block
  by_cases hlen : s.v.length < 1
  · simp only [VEC_MUST, hlen, if_true, bind_error_eq]
    exact post_ret _ _ _ (by decide)
  · simp (disch := omega) only [VEC_MUST, hlen, if_false, bind_ok_eq, VEC_AT_UNSAFE_ok]
    split
    · refine post_mono (post_map_some (parse_image_post u s)) ?_
      intro r hr s' hs'
      obtain ⟨h1, _, h3, h4⟩ := hr s' hs'
      exact ⟨h1, h3, Or.inr h4⟩
    · split
      · refine post_mono (post_map_some (parse_extension_post s)) ?_
        intro r hr s' hs'
        obtain ⟨h1, h2⟩ := hr s' hs'
        refine ⟨h1, ?_, Or.inl (by rw [h2])⟩
        rw [h2]
        exact sameScreen_refl _
      · split
        · refine post_ok ?_
          intro s' hs'
          cases hs'
        · exact post_ret _ _ _ (by decide)

theorem block_some {u : Uninit} {s s' : DState} (h : block u s = .ok (some s')) :
    BlockPost s s' := by
  have hb := block_post u s
  rw [h] at hb
  exact hb s' rfl

theorem block_error {u : Uninit} {s : DState} {e : Outcome} (h : block u s = .error e) :
    Fine e := by
  have hb := block_post u s
  rw [h] at hb
  exact hb

theorem read_block_benign (u : Uninit) :
    ∀ (fuel : Nat) (s : DState), s.v.length < fuel → Benign (read_block u fuel s) := by
  intro fuel
  induction fuel with
  | zero => intro _ h; omega
  | succ n ih =>
    intro s hf
    unfold read_block
    split
    · rename_i e he
      exact fine_benign (block_error he)
    · simp [Benign]
    · rename_i s' he
      have := (block_some he).1
      exact ih s' (by omega)

theorem read_block_fuel (u : Uninit) :
    ∀ (f1 f2 : Nat) (s : DState), s.v.length < f1 → s.v.length < f2 →
      read_block u f1 s = read_block u f2 s := by
  intro f1
  induction f1 with
  | zero => intro _ _ h; omega
  | succ n ih =>
    intro f2 s h1 h2
    cases f2 with
    | zero => omega
    | succ m =>
      unfold read_block
      split
      · rfl
      · rfl
      · rename_i s' he
        have := (block_some he).1
        exact ih m s' (by omega) (by omega)

theorem parse_header_post (buf : List UInt8) :
    Post (parse_header buf) (fun s => s.v.length + 13 ≤ buf.length ∧ s.g.images = []
      ∧ s.g.width = u16_le buf 6 ∧ s.g.height = u16_le buf 8) := by
  unfold parse_header
  by_cases h : buf.length < 0xD
  · simp only [VEC_MUST, h, if_true, bind_error_eq]
    exact post_ret _ _ _ (by decide)
  · have hd : (buf.drop 13).length = buf.length - 13 := by simp
    simp (disch := omega) only [VEC_MUST, h, VEC_AT_UNSAFE_ok, VEC_AT_U16_LE_UNSAFE_ok,
      VEC_ADVANCE_UNSAFE_ok, bind_ok_eq, pure_eq_ok, if_false]
    split
    · exact post_ret _ _ _ (by decide)
    · split
      · split
        · exact post_ret _ _ _ (by decide)
        · by_cases hl2 : (buf.drop 13).length < 1 <<< ((byte buf 10 &&& 7) + 1) * 3
          · simp only [hl2, if_true, bind_error_eq]
            exact post_ret _ _ _ (by decide)
          · simp (disch := omega) only [hl2, if_false, bind_ok_eq, copy_bytes_ok,
              VEC_ADVANCE_UNSAFE_ok]
            refine post_ok ⟨?_, rfl, rfl, rfl⟩
            simp only [List.length_drop]
            omega
      · refine post_ok ⟨?_, rfl, rfl, rfl⟩
        show (buf.drop 13).length + 13 ≤ buf.length
        omega

theorem Uninit.image_zero (u : Uninit) : u.image 0 = u := rfl

theorem parse_header_images (buf : List UInt8) :
    Post (parse_header buf) (fun s => s.g.num_images = 0) := by
  unfold parse_header
  by_cases h : buf.length < 0xD
  · simp only [VEC_MUST, h, if_true, bind_error_eq]
    exact post_ret _ _ _ (by decide)
  · have hd : (buf.drop 13).length = buf.length - 13 := by simp
    simp (disch := omega) only [VEC_MUST, h, VEC_AT_UNSAFE_ok, VEC_AT_U16_LE_UNSAFE_ok,
      VEC_ADVANCE_UNSAFE_ok, bind_ok_eq, pure_eq_ok, if_false]
    split
    · exact post_ret _ _ _ (by decide)
    · split
      · split
        · exact post_ret _ _ _ (by decide)
        · by_cases hl2 : (buf.drop 13).length < 1 <<< ((byte buf 10 &&& 7) + 1) * 3
          · simp only [hl2, if_true, bind_error_eq]
            exact post_ret _ _ _ (by decide)
          · simp (disch := omega) only [hl2, if_false, bind_ok_eq, copy_bytes_ok,
              VEC_ADVANCE_UNSAFE_ok]
            exact post_ok rfl
      · exact post_ok rfl

theorem parse_header_num_images {buf : List UInt8} {s : DState}
    (h : parse_header buf = .ok s) : s.g.num_images = 0 := by
  have := parse_header_images buf
  rw [h] at this
  exact this

theorem parse_header_error {buf : List UInt8} {e : Outcome}
    (h : parse_header buf = .error e) : Fine e := by
  have hh := parse_header_post buf
  rw [h] at hh
  exact hh

theorem gif_parse_benign (u : Uninit) (buf : List UInt8) : Benign (gif_parse u buf) := by
  unfold gif_parse
  split
  · rename_i e he
    exact fine_benign (parse_header_error he)
  · rename_i s he
    exact read_block_benign u _ s (Nat.lt_succ_self _)

theorem reaches_run {u : Uninit} {buf : List UInt8} {s : DState} (h : Reaches u buf s) :
    gif_parse u buf = read_block u (s.v.length + 1) s := by
  induction h with
  | start s hs =>
    unfold gif_parse
    rw [hs]
  | step s s' _ hb ih =>
    rw [ih]
    have hlt := (block_some hb).1
    conv => lhs; unfold read_block
    rw [hb]
    exact read_block_fuel u _ _ s' hlt (Nat.lt_succ_self _)

theorem imgGeom_sameScreen {g g' : gif} (h : SameScreen g g') (img : gif_image)
    (hi : ImgGeom g img) : ImgGeom g' img := by
  obtain ⟨_, hw, hh, _⟩ := h
  unfold ImgGeom at *
  rw [hw, hh]
  exact hi

theorem imagesOk_step {s s' : DState} (h : BlockPost s s') (hi : ImagesOk s.g) :
    ImagesOk s'.g := by
  obtain ⟨_, hs, himg⟩ := h
  intro img hmem
  rcases himg with h1 | ⟨img', h1, h2, h3⟩
  · rw [h1] at hmem
    exact ⟨imgGeom_sameScreen hs img (hi img hmem).1, (hi img hmem).2⟩
  · rw [h1] at hmem
    rcases List.mem_append.mp hmem with hm | hm
    · exact ⟨imgGeom_sameScreen hs img (hi img hm).1, (hi img hm).2⟩
    · have : img = img' := by simpa using hm
      subst this
      exact ⟨imgGeom_sameScreen hs img h2, h3⟩

theorem read_block_imagesOk (u : Uninit) :
    ∀ (fuel : Nat) (s : DState) (g : gif), ImagesOk s.g →
      read_block u fuel s = .ret GIF_SUCCESS g → ImagesOk g := by
  intro fuel
  induction fuel with
  | zero =>
    intro s g _ h
    simp [read_block] at h
  | succ n ih =>
    intro s g hi h
    unfold read_block at h
    split at h
    · rename_i e he
      exact absurd h (fine_not_success (block_error he) g)
    · cases h
      exact hi
    · rename_i s' he
      exact ih s' g (imagesOk_step (block_some he) hi) h

theorem gif_parse_imagesOk {u : Uninit} {buf : List UInt8} {g : gif}
    (h : gif_parse u buf = .ret GIF_SUCCESS g) : ImagesOk g := by
  unfold gif_parse at h
  split at h
  · rename_i e he
    exact absurd h (fine_not_success (parse_header_error he) g)
  · rename_i s he
    refine read_block_imagesOk u _ s g ?_ h
    have hh := parse_header_post buf
    rw [he] at hh
    intro img hmem
    rw [hh.2.1] at hmem
    cases hmem

theorem reaches_screen {u : Uninit} {buf : List UInt8} {s : DState} (h : Reaches u buf s) :
    s.g.width = u16_le buf 6 ∧ s.g.height = u16_le buf 8 := by
  induction h with
  | start s hs =>
    have hh := parse_header_post buf
    rw [hs] at hh
    exact hh.2.2
  | step s s' _ hb ih =>
    obtain ⟨_, ⟨_, hw, hh, _⟩, _⟩ := block_some hb
    rw [hw, hh]
    exact ih

theorem image_descriptor_bad_geometry (s : DState) (h10 : 10 ≤ s.v.length)
    (hbad : u16_le s.v 5 = 0 ∨ u16_le s.v 7 = 0 ∨ u16_le s.v 1 + u16_le s.v 5 > s.g.width
      ∨ u16_le s.v 3 + u16_le s.v 7 > s.g.height) :
    image_descriptor s = .error (.ret GIF_ERR_BAD_DATA gif_zero) := by
  unfold image_descriptor
  have hlen : ¬ s.v.length < 0xA := by omega
  simp (disch := omega) only [VEC_MUST, hlen, if_false, bind_ok_eq,
    VEC_AT_U16_LE_UNSAFE_ok, VEC_AT_UNSAFE_ok, VEC_ADVANCE_UNSAFE_ok, pure_eq_ok]
  rw [if_pos]
  · rfl
  · simp only [grow_images_width, grow_images_height]
    exact hbad

theorem block_image (u : Uninit) (s : DState) (h1 : 1 ≤ s.v.length)
    (hsep : byte s.v 0 = 0x2C) : block u s = (parse_image u s).map some := by
  unfold block
  have hlen : ¬ s.v.length < 1 := by omega
  simp (disch := omega) only [VEC_MUST, hlen, if_false, bind_ok_eq, VEC_AT_UNSAFE_ok]
  rw [if_pos hsep]

theorem run_error {u : Uninit} {buf : List UInt8} {s : DState} {e : Outcome}
    (h : Reaches u buf s) (hb : block u s = .error e) : gif_parse u buf = e := by
  rw [reaches_run h]
  unfold read_block
  rw [hb]

/-- Every loop of the model is given enough fuel: a run of `gif_parse` never ends in
the fuel trap. -/
theorem gif_parse_fuel (u : Uninit) (buf : List UInt8) : gif_parse u buf ≠ .trap .fuel :=
  (gif_parse_benign u buf).2.2

/-! ## Symbolic runs of the code stream -/

theorem read_bits_cons (T : Nat → gif_code) (fc size pv code code_off bit_off nx : Nat)
    (ind : List Nat) (bytes : Nat) (b : UInt8) (v : List UInt8) :
    read_bits ⟨T, fc, size, pv, code, code_off, bit_off, nx, ind⟩ bytes (b :: v) =
      if (take_bits size code_off bit_off code b.toNat).2.2 = 8 then
        .ok (⟨T, fc, size, pv, (take_bits size code_off bit_off code b.toNat).1,
              (take_bits size code_off bit_off code b.toNat).2.1, 0, nx, ind⟩, bytes - 1, v)
      else
        .ok (⟨T, fc, size, pv, (take_bits size code_off bit_off code b.toNat).1,
              (take_bits size code_off bit_off code b.toNat).2.1,
              (take_bits size code_off bit_off code b.toNat).2.2, nx, ind⟩, bytes, b :: v) := by
  simp only [read_bits, num_bits, take_bits, VEC_AT_UNSAFE, VEC_ADVANCE_UNSAFE,
    List.getElem?_cons_zero, bind_ok_eq, pure_eq_ok]
  split <;> simp

theorem tb1 : take_bits 3 0 0 0 56 = (0, 3, 3) := by decide

theorem tb2 : take_bits 3 0 3 0 56 = (7, 3, 6) := by decide

theorem tb3 : take_bits 3 0 6 0 56 = (0, 2, 8) := by decide

theorem tb4 : take_bits 3 2 0 0 136 = (0, 3, 1) := by decide

theorem tb5 : take_bits 4 0 1 0 136 = (4, 4, 5) := by decide

theorem tb6 : take_bits 3 0 5 0 136 = (4, 3, 8) := by decide

theorem code_loop_code (p : lzw_params) (u : Uninit) (g : gif) (fuel : Nat)
    (st st1 st2 : lzw_state) (bytes bytes1 : Nat) (v v1 : List UInt8) (hb : bytes ≠ 0)
    (hr : read_bits st bytes v = .ok (st1, bytes1, v1))
    (hc : st1.code_off = st1.lzw_code_size)
    (hd : decode_code p u g st1 bytes1 v1 = .ok (.next st2)) :
    code_loop p u g (fuel + 1) st bytes v = code_loop p u g fuel st2 bytes1 v1 := by
  rw [code_loop]
  simp only [hb, if_false, hr, hc, if_true, hd]

theorem code_loop_part (p : lzw_params) (u : Uninit) (g : gif) (fuel : Nat)
    (st st1 : lzw_state) (bytes bytes1 : Nat) (v v1 : List UInt8) (hb : bytes ≠ 0)
    (hr : read_bits st bytes v = .ok (st1, bytes1, v1))
    (hc : st1.code_off ≠ st1.lzw_code_size) :
    code_loop p u g (fuel + 1) st bytes v = code_loop p u g fuel st1 bytes1 v1 := by
  rw [code_loop]
  simp only [hb, if_false, hr, hc]

theorem decode_first (u : Uninit) (g : gif) (req : Nat) (T : Nat → gif_code)
    (sz pv co bo nx : Nat) (ind : List Nat) (bytes : Nat) (v : List UInt8)
    (hreq : ind.length < req) :
    decode_code ⟨2, 4, req⟩ u g ⟨T, 1, sz, pv, 0, co, bo, nx, ind⟩ bytes v
      = .ok (.next ⟨T, 0, sz, 0, 0, 0, bo, nx, ind ++ [0]⟩) := by
  have e1 : ¬ (req ≤ ind.length) := by omega
  simp [decode_code, lzw_state.num_indices, indices_put, end_code, e1, hreq]

theorem decode_clear (u : Uninit) (g : gif) (req : Nat) (T : Nat → gif_code)
    (fc sz pv co bo nx : Nat) (ind : List Nat) (bytes : Nat) (v : List UInt8) :
    decode_code ⟨2, 4, req⟩ u g ⟨T, fc, sz, pv, 4, co, bo, nx, ind⟩ bytes v
      = .ok (.next ⟨clear_code_table T 4, 1, 3, pv, 0, 0, bo, 6, ind⟩) := by
  simp [decode_code]

theorem decode_hack (u : Uninit) (g : gif) (req : Nat) (T : Nat → gif_code)
    (co bo : Nat) (ind : List Nat) (bytes : Nat) (v : List UInt8)
    (h0 : T 0 = root 0) (h7 : (T 7).inuse = 0) (hreq : ind.length + 2 ≤ req) :
    decode_code ⟨2, 4, req⟩ u g ⟨T, 0, 3, 0, 7, co, bo, 6, ind⟩ bytes v
      = .ok (.next ⟨upd T 6 ⟨2, 0, 1, 0, 0⟩, 0, 3, 7, 0, 0, bo, 7, ind ++ [0, 0]⟩) := by
  have e1 : ¬ (req < ind.length + 2) := by omega
  have e2 : ind.length < req := by omega
  have e3 : ind.length + 1 < req := by omega
  have e4 : ¬ (req < ind.length + 1 + 1) := by omega
  simp [decode_code, decode_unused, code_table_at, h0, h7, root, lzw_state.num_indices, e1,
    e2, e3, e4, stack_set, walk, GIF_CODE_NO_PREFIX, emit, indices_put, insert_code,
    code_table_set, end_code]
  rfl

theorem decode_root (u : Uninit) (g : gif) (req : Nat) (T : Nat → gif_code)
    (pv co bo nx : Nat) (ind : List Nat) (bytes : Nat) (v : List UInt8)
    (h0 : T 0 = root 0) (hpv : pv < 4096) (hnx : nx = 6 ∨ nx = 7)
    (hreq : ind.length + 1 ≤ req) :
    decode_code ⟨2, 4, req⟩ u g ⟨T, 0, 3, pv, 0, co, bo, nx, ind⟩ bytes v
      = .ok (.next ⟨upd T nx ⟨((T pv).len + 1) % 65536, pv, 1, 0, (T pv).first_index⟩, 0,
          if nx = 7 then 4 else 3, 0, 0, 0, bo, nx + 1, ind ++ [0]⟩) := by
  have e1 : ¬ (req < ind.length + 1) := by omega
  have e2 : ind.length < req := by omega
  rcases hnx with h | h <;> subst h <;>
  simp [decode_code, decode_inuse, code_table_at, h0, root, lzw_state.num_indices, e1,
    e2, hpv, stack_set, walk, GIF_CODE_NO_PREFIX, emit, indices_put, insert_code,
    code_table_set, end_code] <;>
  rfl

theorem round_step (u : Uninit) (g : gif) (req : Nat) (T : Nat → gif_code) (pv : Nat)
    (ind : List Nat) (fuel bytes : Nat) (v : List UInt8)
    (h0 : T 0 = root 0) (h7 : (T 7).inuse = 0) (hreq : ind.length + 4 ≤ req) :
    code_loop ⟨2, 4, req⟩ u g (fuel + 6) ⟨T, 1, 3, pv, 0, 0, 0, 6, ind⟩ (bytes + 2)
        (0x38 :: 0x88 :: v)
      = code_loop ⟨2, 4, req⟩ u g fuel
          ⟨round_table T, 1, 3, 0, 0, 0, 0, 6, ind ++ [0, 0, 0, 0]⟩ bytes v := by
  have r1 : read_bits ⟨T, 1, 3, pv, 0, 0, 0, 6, ind⟩ (bytes + 2) (0x38 :: 0x88 :: v)
      = .ok (⟨T, 1, 3, pv, 0, 3, 3, 6, ind⟩, bytes + 2, 0x38 :: 0x88 :: v) := by
    simp [read_bits_cons, tb1, UInt8.size]
  have r2 : read_bits ⟨T, 0, 3, 0, 0, 0, 3, 6, ind ++ [0]⟩ (bytes + 2) (0x38 :: 0x88 :: v)
      = .ok (⟨T, 0, 3, 0, 7, 3, 6, 6, ind ++ [0]⟩, bytes + 2, 0x38 :: 0x88 :: v) := by
    simp [read_bits_cons, tb2, UInt8.size]
  have r3 : read_bits ⟨upd T 6 ⟨2, 0, 1, 0, 0⟩, 0, 3, 7, 0, 0, 6, 7, ind ++ [0] ++ [0, 0]⟩
        (bytes + 2) (0x38 :: 0x88 :: v)
      = .ok (⟨upd T 6 ⟨2, 0, 1, 0, 0⟩, 0, 3, 7, 0, 2, 0, 7, ind ++ [0] ++ [0, 0]⟩,
          bytes + 1, 0x88 :: v) := by
    simp [read_bits_cons, tb3, UInt8.size]
  have r4 : read_bits ⟨upd T 6 ⟨2, 0, 1, 0, 0⟩, 0, 3, 7, 0, 2, 0, 7, ind ++ [0] ++ [0, 0]⟩
        (bytes + 1) (0x88 :: v)
      = .ok (⟨upd T 6 ⟨2, 0, 1, 0, 0⟩, 0, 3, 7, 0, 3, 1, 7, ind ++ [0] ++ [0, 0]⟩,
          bytes + 1, 0x88 :: v) := by
    simp [read_bits_cons, tb4, UInt8.size]
  have hT6 : upd T 6 ⟨2, 0, 1, 0, 0⟩ 0 = root 0 := by simp [upd, h0]
  rw [show fuel + 6 = (fuel + 5) + 1 from rfl,
    code_loop_code _ u g (fuel + 5) _ _ _ _ _ _ _ (by omega) r1 rfl
      (decode_first u g req T 3 pv 3 3 6 ind _ _ (by omega)),
    show fuel + 5 = (fuel + 4) + 1 from rfl,
    code_loop_code _ u g (fuel + 4) _ _ _ _ _ _ _ (by omega) r2 rfl
      (decode_hack u g req T 3 6 (ind ++ [0]) _ _ h0 h7 (by simp; omega)),
    show fuel + 4 = (fuel + 3) + 1 from rfl,
    code_loop_part _ u g (fuel + 3) _ _ _ _ _ _ (by omega) r3 (by simp),
    show fuel + 3 = (fuel + 2) + 1 from rfl,
    code_loop_code _ u g (fuel + 2) _ _ _ _ _ _ _ (by omega) r4 rfl
      (decode_root u g req _ 7 3 1 7 (ind ++ [0] ++ [0, 0]) _ _ hT6 (by omega)
        (Or.inr rfl) (by simp; omega))]
  simp only [if_true, show (7 : Nat) + 1 = 8 from rfl]
  have r5 : ∀ (T' : Nat → gif_code) (ind' : List Nat),
      read_bits ⟨T', 0, 4, 0, 0, 0, 1, 8, ind'⟩ (bytes + 1) (0x88 :: v)
        = .ok (⟨T', 0, 4, 0, 4, 4, 5, 8, ind'⟩, bytes + 1, 0x88 :: v) := by
    intro T' ind'
    simp [read_bits_cons, tb5, UInt8.size]
  have r6 : ∀ (T' : Nat → gif_code) (ind' : List Nat),
      read_bits ⟨T', 1, 3, 0, 0, 0, 5, 6, ind'⟩ (bytes + 1) (0x88 :: v)
        = .ok (⟨T', 1, 3, 0, 4, 3, 0, 6, ind'⟩, bytes, v) := by
    intro T' ind'
    simp [read_bits_cons, tb6, UInt8.size]
  rw [show fuel + 2 = (fuel + 1) + 1 from rfl,
    code_loop_code _ u g (fuel + 1) _ _ _ _ _ _ _ (by omega) (r5 _ _) rfl
      (decode_clear u g req _ 0 4 0 4 5 8 _ _ _),
    code_loop_code _ u g fuel _ _ _ _ _ _ _ (by omega) (r6 _ _) rfl
      (decode_clear u g req _ 1 3 0 3 0 6 _ _ _)]
  simp [round_table]

theorem ready_round {T : Nat → gif_code} {L : Nat} (h : Ready T L) (hL : L + 1 < 65536) :
    Ready (round_table T) (L + 1) := by
  obtain ⟨h0, h7, hl⟩ := h
  refine ⟨?_, ?_, ?_⟩
  · simp [round_table, clear_code_table, upd, h0]
  · simp [round_table, clear_code_table, upd]
  · simp [round_table, clear_code_table, upd, hl]
    omega

theorem rounds_length (k : Nat) (v : List UInt8) : (rounds k v).length = 2 * k + v.length := by
  induction k with
  | zero => simp [rounds]
  | succ n ih => simp [rounds, ih]; omega

theorem rounds_loop (u : Uninit) (g : gif) (req : Nat) :
    ∀ (k : Nat) (T : Nat → gif_code) (L pv : Nat) (ind : List Nat) (fuel bytes : Nat)
      (v : List UInt8), Ready T L → L + k < 65536 → ind.length + 4 * k ≤ req →
      ∃ T' pv' ind', Ready T' (L + k) ∧ ind'.length = ind.length + 4 * k
        ∧ code_loop ⟨2, 4, req⟩ u g (fuel + 6 * k) ⟨T, 1, 3, pv, 0, 0, 0, 6, ind⟩
            (bytes + 2 * k) (rounds k v)
          = code_loop ⟨2, 4, req⟩ u g fuel ⟨T', 1, 3, pv', 0, 0, 0, 6, ind'⟩ bytes v := by
  intro k
  induction k with
  | zero =>
    intro T L pv ind fuel bytes v hr _ _
    exact ⟨T, pv, ind, hr, rfl, rfl⟩
  | succ n ih =>
    intro T L pv ind fuel bytes v hr hL hreq
    obtain ⟨T', pv', ind', hr', hlen, heq⟩ := ih (round_table T) (L + 1) 0
      (ind ++ [0, 0, 0, 0]) fuel bytes v (ready_round hr (by omega)) (by omega)
      (by simp; omega)
    refine ⟨T', pv', ind', ?_, ?_, ?_⟩
    · rw [show L + (n + 1) = L + 1 + n by omega]
      exact hr'
    · rw [hlen]
      simp
      omega
    · rw [show fuel + 6 * (n + 1) = (fuel + 6 * n) + 6 by omega,
        show bytes + 2 * (n + 1) = (bytes + 2 * n) + 2 by omega]
      show code_loop _ u g _ _ _ (0x38 :: 0x88 :: rounds n v) = _
      rw [round_step u g req T pv ind _ _ _ hr.1 hr.2.1 (by omega)]
      exact heq

theorem hack_blocks_length (n : Nat) (v : List UInt8) :
    (hack_blocks n v).length = 143 * n + v.length := by
  induction n with
  | zero => simp [hack_blocks]
  | succ n ih => simp [hack_blocks, hack_block, rounds_length, ih]; omega

theorem code_loop_done (p : lzw_params) (u : Uninit) (g : gif) (fuel : Nat) (st : lzw_state)
    (v : List UInt8) : code_loop p u g (fuel + 1) st 0 v = .ok (.more st v) := by
  rw [code_loop]
  simp

theorem sub_blocks_succ (p : lzw_params) (u : Uninit) (g : gif) (fuel : Nat)
    (st : lzw_state) (bytes : Nat) (b : UInt8) (v : List UInt8) (hb : bytes ≠ 0)
    (hlen : bytes + 1 ≤ v.length) :
    sub_blocks p u g (fuel + 1) st bytes (b :: v) =
      match code_loop p u g (8 * bytes + 1) st bytes v with
      | .error e => .error e
      | .ok (.end_code_stream indices v) => .ok (indices, v)
      | .ok (.more st v) =>
        match VEC_AT_UNSAFE v 0 with
        | .error e => .error e
        | .ok bytes => sub_blocks p u g fuel st bytes v := by
  rw [sub_blocks]
  have h1 : ¬ (v.length < bytes + 1) := by omega
  simp [hb, VEC_MUST, h1, VEC_ADVANCE_UNSAFE]

theorem block_step (u : Uninit) (g : gif) (req : Nat) (T : Nat → gif_code)
    (L pv : Nat) (ind : List Nat) (fuel : Nat) (v : List UInt8) (hr : Ready T L)
    (hL : L + 71 < 65536) (hreq : ind.length + 284 ≤ req) (hv : 1 ≤ v.length) :
    ∃ T' pv' ind', Ready T' (L + 71) ∧ ind'.length = ind.length + 284
      ∧ sub_blocks ⟨2, 4, req⟩ u g (fuel + 1) ⟨T, 1, 3, pv, 0, 0, 0, 6, ind⟩ 142
          (hack_block v)
        = sub_blocks ⟨2, 4, req⟩ u g fuel ⟨T', 1, 3, pv', 0, 0, 0, 6, ind'⟩ (byte v 0) v := by
  obtain ⟨T', pv', ind', hr', hlen, heq⟩ := rounds_loop u g req 71 T L pv ind 711 0 v hr hL
    (by omega)
  refine ⟨T', pv', ind', hr', by omega, ?_⟩
  unfold hack_block
  rw [sub_blocks_succ _ u g fuel _ 142 142 _ (by decide) (by rw [rounds_length]; omega)]
  have h2 : code_loop ⟨2, 4, req⟩ u g (8 * 142 + 1) ⟨T, 1, 3, pv, 0, 0, 0, 6, ind⟩ 142
      (rounds 71 v) = .ok (.more ⟨T', 1, 3, pv', 0, 0, 0, 6, ind'⟩ v) := by
    have := heq
    rw [show 711 + 6 * 71 = 8 * 142 + 1 by norm_num, show 0 + 2 * 71 = 142 by norm_num,
      code_loop_done] at this
    exact this
  rw [h2]
  simp only []
  rw [VEC_AT_UNSAFE_ok (by omega)]

theorem blocks_loop (u : Uninit) (g : gif) (req : Nat) :
    ∀ (n : Nat) (T : Nat → gif_code) (L pv : Nat) (ind : List Nat) (fuel : Nat)
      (v : List UInt8), Ready T L → L + 71 * n < 65536 → ind.length + 284 * n ≤ req →
      1 ≤ v.length →
      ∃ T' pv' ind', Ready T' (L + 71 * n) ∧ ind'.length = ind.length + 284 * n
        ∧ sub_blocks ⟨2, 4, req⟩ u g (fuel + n) ⟨T, 1, 3, pv, 0, 0, 0, 6, ind⟩
            (byte (hack_blocks n v) 0) (hack_blocks n v)
          = sub_blocks ⟨2, 4, req⟩ u g fuel ⟨T', 1, 3, pv', 0, 0, 0, 6, ind'⟩ (byte v 0) v := by
  intro n
  induction n with
  | zero =>
    intro T L pv ind fuel v hr _ _ _
    exact ⟨T, pv, ind, hr, rfl, rfl⟩
  | succ m ih =>
    intro T L pv ind fuel v hr hL hreq hv
    obtain ⟨T1, pv1, ind1, hr1, hlen1, heq1⟩ := block_step u g req T L pv ind (fuel + m)
      (hack_blocks m v) hr (by omega) (by omega) (by rw [hack_blocks_length]; omega)
    obtain ⟨T2, pv2, ind2, hr2, hlen2, heq2⟩ := ih T1 (L + 71) pv1 ind1 fuel v hr1 (by omega)
      (by omega) hv
    refine ⟨T2, pv2, ind2, ?_, by omega, ?_⟩
    · rw [show L + 71 * (m + 1) = L + 71 + 71 * m by omega]
      exact hr2
    · have hb : byte (hack_blocks (m + 1) v) 0 = 142 := by
        simp [hack_blocks, hack_block, byte]
      rw [hb]
      show sub_blocks _ u g (fuel + m + 1) _ 142 (hack_block (hack_blocks m v)) = _
      rw [heq1, heq2]

theorem code_loop_error (p : lzw_params) (u : Uninit) (g : gif) (fuel : Nat)
    (st st1 : lzw_state) (bytes bytes1 : Nat) (v v1 : List UInt8) (e : Outcome)
    (hb : bytes ≠ 0) (hr : read_bits st bytes v = .ok (st1, bytes1, v1))
    (hc : st1.code_off = st1.lzw_code_size)
    (hd : decode_code p u g st1 bytes1 v1 = .error e) :
    code_loop p u g (fuel + 1) st bytes v = .error e := by
  rw [code_loop]
  simp only [hb, if_false, hr, hc, if_true, hd]

theorem tb7 : take_bits 3 0 0 0 0 = (0, 3, 3) := by decide

theorem tb8 : take_bits 3 0 3 0 0 = (0, 3, 6) := by decide

theorem tb9 : take_bits 3 0 6 0 0 = (0, 2, 8) := by decide

theorem tb10 : take_bits 3 0 0 0 248 = (0, 3, 3) := by decide

theorem tb11 : take_bits 3 0 3 0 248 = (7, 3, 6) := by decide

theorem tb12 : take_bits 3 0 6 0 248 = (3, 2, 8) := by decide

theorem tb13 : take_bits 3 2 0 3 1 = (7, 3, 1) := by decide

theorem decode_wrap (u : Uninit) (g : gif) (req : Nat) (T : Nat → gif_code)
    (co bo : Nat) (ind : List Nat) (bytes : Nat) (v : List UInt8)
    (h7 : (T 7).inuse = 0) (hl : (T 7).len = 65535) :
    decode_code ⟨2, 4, req⟩ u g ⟨T, 0, 3, 7, 7, co, bo, 7, ind⟩ bytes v
      = .error (.trap .stack) := by
  simp [decode_code, decode_unused, code_table_at, h7, hl, stack_set]

theorem final_block (u : Uninit) (g : gif) (req : Nat) (T : Nat → gif_code) (pv : Nat)
    (ind : List Nat) (fuel : Nat) (w : List UInt8) (hr : Ready T 65535)
    (hreq : ind.length + 3 ≤ req) (hw : 1 ≤ w.length) :
    sub_blocks ⟨2, 4, req⟩ u g (fuel + 1) ⟨T, 1, 3, pv, 0, 0, 0, 6, ind⟩ 2
        (2 :: 0xF8 :: 0x01 :: w) = .error (.trap .stack) := by
  obtain ⟨h0, h7, hl⟩ := hr
  rw [sub_blocks_succ _ u g fuel _ 2 2 _ (by decide) (by simp; omega)]
  have r1 : read_bits ⟨T, 1, 3, pv, 0, 0, 0, 6, ind⟩ 2 (0xF8 :: 0x01 :: w)
      = .ok (⟨T, 1, 3, pv, 0, 3, 3, 6, ind⟩, 2, 0xF8 :: 0x01 :: w) := by
    simp [read_bits_cons, tb10, UInt8.size]
  have r2 : read_bits ⟨T, 0, 3, 0, 0, 0, 3, 6, ind ++ [0]⟩ 2 (0xF8 :: 0x01 :: w)
      = .ok (⟨T, 0, 3, 0, 7, 3, 6, 6, ind ++ [0]⟩, 2, 0xF8 :: 0x01 :: w) := by
    simp [read_bits_cons, tb11, UInt8.size]
  have r3 : read_bits ⟨upd T 6 ⟨2, 0, 1, 0, 0⟩, 0, 3, 7, 0, 0, 6, 7, ind ++ [0] ++ [0, 0]⟩
        2 (0xF8 :: 0x01 :: w)
      = .ok (⟨upd T 6 ⟨2, 0, 1, 0, 0⟩, 0, 3, 7, 3, 2, 0, 7, ind ++ [0] ++ [0, 0]⟩,
          1, 0x01 :: w) := by
    simp [read_bits_cons, tb12, UInt8.size]
  have r4 : read_bits ⟨upd T 6 ⟨2, 0, 1, 0, 0⟩, 0, 3, 7, 3, 2, 0, 7, ind ++ [0] ++ [0, 0]⟩
        1 (0x01 :: w)
      = .ok (⟨upd T 6 ⟨2, 0, 1, 0, 0⟩, 0, 3, 7, 7, 3, 1, 7, ind ++ [0] ++ [0, 0]⟩,
          1, 0x01 :: w) := by
    simp [read_bits_cons, tb13, UInt8.size]
  have hc : code_loop ⟨2, 4, req⟩ u g (8 * 2 + 1) ⟨T, 1, 3, pv, 0, 0, 0, 6, ind⟩ 2
      (0xF8 :: 0x01 :: w) = .error (.trap .stack) := by
    rw [show 8 * 2 + 1 = 16 + 1 from rfl,
      code_loop_code _ u g 16 _ _ _ _ _ _ _ (by decide) r1 rfl
        (decode_first u g req T 3 pv 3 3 6 ind _ _ (by omega)),
      show (16 : Nat) = 15 + 1 from rfl,
      code_loop_code _ u g 15 _ _ _ _ _ _ _ (by decide) r2 rfl
        (decode_hack u g req T 3 6 (ind ++ [0]) _ _ h0 h7 (by simp; omega)),
      show (15 : Nat) = 14 + 1 from rfl,
      code_loop_part _ u g 14 _ _ _ _ _ _ (by decide) r3 (by simp),
      show (14 : Nat) = 13 + 1 from rfl,
      code_loop_error _ u g 13 _ _ _ _ _ _ _ (by decide) r4 rfl
        (decode_wrap u g req _ 3 1 _ _ _ (by simp [upd, h7]) (by simp [upd, hl]))]
  rw [hc]

theorem init_block (u : Uninit) (g : gif) (req : Nat) (fuel : Nat) (v : List UInt8)
    (hreq : 3 ≤ req) (hv : 1 ≤ v.length) :
    ∃ T pv ind, Ready T 2 ∧ ind.length = 3
      ∧ sub_blocks ⟨2, 4, req⟩ u g (fuel + 1) (lzw_start u 2 4) 2 (2 :: 0x00 :: 0x88 :: v)
        = sub_blocks ⟨2, 4, req⟩ u g fuel ⟨T, 1, 3, pv, 0, 0, 0, 6, ind⟩ (byte v 0) v := by
  have hs : lzw_start u 2 4 = ⟨init_code_table u 4, 1, 3, 0, 0, 0, 0, 6, []⟩ := rfl
  have h0 : init_code_table u 4 0 = root 0 := by simp [init_code_table, root]
  have r1 : ∀ (T : Nat → gif_code) (ind : List Nat),
      read_bits ⟨T, 1, 3, 0, 0, 0, 0, 6, ind⟩ 2 (0x00 :: 0x88 :: v)
        = .ok (⟨T, 1, 3, 0, 0, 3, 3, 6, ind⟩, 2, 0x00 :: 0x88 :: v) := by
    intro T ind
    simp [read_bits_cons, tb7, UInt8.size]
  have r2 : ∀ (T : Nat → gif_code) (ind : List Nat),
      read_bits ⟨T, 0, 3, 0, 0, 0, 3, 6, ind⟩ 2 (0x00 :: 0x88 :: v)
        = .ok (⟨T, 0, 3, 0, 0, 3, 6, 6, ind⟩, 2, 0x00 :: 0x88 :: v) := by
    intro T ind
    simp [read_bits_cons, tb8, UInt8.size]
  have r3 : ∀ (T : Nat → gif_code) (ind : List Nat),
      read_bits ⟨T, 0, 3, 0, 0, 0, 6, 7, ind⟩ 2 (0x00 :: 0x88 :: v)
        = .ok (⟨T, 0, 3, 0, 0, 2, 0, 7, ind⟩, 1, 0x88 :: v) := by
    intro T ind
    simp [read_bits_cons, tb9, UInt8.size]
  have r4 : ∀ (T : Nat → gif_code) (ind : List Nat),
      read_bits ⟨T, 0, 3, 0, 0, 2, 0, 7, ind⟩ 1 (0x88 :: v)
        = .ok (⟨T, 0, 3, 0, 0, 3, 1, 7, ind⟩, 1, 0x88 :: v) := by
    intro T ind
    simp [read_bits_cons, tb4, UInt8.size]
  have r5 : ∀ (T : Nat → gif_code) (ind : List Nat),
      read_bits ⟨T, 0, 4, 0, 0, 0, 1, 8, ind⟩ 1 (0x88 :: v)
        = .ok (⟨T, 0, 4, 0, 4, 4, 5, 8, ind⟩, 1, 0x88 :: v) := by
    intro T ind
    simp [read_bits_cons, tb5, UInt8.size]
  have r6 : ∀ (T : Nat → gif_code) (ind : List Nat),
      read_bits ⟨T, 1, 3, 0, 0, 0, 5, 6, ind⟩ 1 (0x88 :: v)
        = .ok (⟨T, 1, 3, 0, 4, 3, 0, 6, ind⟩, 0, v) := by
    intro T ind
    simp [read_bits_cons, tb6, UInt8.size]
  have h1 : upd (init_code_table u 4) 6
      ⟨((init_code_table u 4 0).len + 1) % 65536, 0, 1, 0,
        (init_code_table u 4 0).first_index⟩ 0 = root 0 := by
    simp [upd, h0]
  refine ⟨?T, ?pv, ?ind, ?h1, ?h2, ?h3⟩
  case h3 =>
    rw [sub_blocks_succ _ u g fuel _ 2 2 _ (by decide) (by simp; omega), hs,
      show 8 * 2 + 1 = 16 + 1 from rfl,
      code_loop_code _ u g 16 _ _ _ _ _ _ _ (by decide) (r1 _ _) rfl
        (decode_first u g req _ 3 0 3 3 6 [] _ _ (by simp; omega)),
      show (16 : Nat) = 15 + 1 from rfl,
      code_loop_code _ u g 15 _ _ _ _ _ _ _ (by decide) (r2 _ _) rfl
        (decode_root u g req _ 0 3 6 6 _ _ _ h0 (by decide) (Or.inl rfl) (by simp; omega))]
    simp only [show ¬ ((6 : Nat) = 7) by decide, if_false, show (6 : Nat) + 1 = 7 from rfl]
    rw [show (15 : Nat) = 14 + 1 from rfl,
      code_loop_part _ u g 14 _ _ _ _ _ _ (by decide) (r3 _ _) (by simp),
      show (14 : Nat) = 13 + 1 from rfl,
      code_loop_code _ u g 13 _ _ _ _ _ _ _ (by decide) (r4 _ _) rfl
        (decode_root u g req _ 0 3 1 7 _ _ _ h1 (by decide) (Or.inr rfl) (by simp; omega))]
    simp only [if_true, show (7 : Nat) + 1 = 8 from rfl]
    rw [show (13 : Nat) = 12 + 1 from rfl,
      code_loop_code _ u g 12 _ _ _ _ _ _ _ (by decide) (r5 _ _) rfl
        (decode_clear u g req _ 0 4 0 4 5 8 _ _ _),
      show (12 : Nat) = 11 + 1 from rfl,
      code_loop_code _ u g 11 _ _ _ _ _ _ _ (by decide) (r6 _ _) rfl
        (decode_clear u g req _ 1 3 0 3 0 6 _ _ _),
      code_loop_done]
    simp only []
    rw [VEC_AT_UNSAFE_ok (by omega)]
    exact rfl
  case h1 =>
    refine ⟨?_, ?_, ?_⟩
    · simp [clear_code_table, upd, h0]
    · simp [clear_code_table, upd]
    · simp [clear_code_table, upd, h0, root]
  case h2 => simp

theorem len_wrap_header (w : List UInt8) :
    parse_header ([0x47, 0x49, 0x46, 0x38, 0x39, 0x61, 0, 2, 0, 2, 0x81, 0, 0,
        0, 0, 0, 255, 255, 255, 1, 1, 1, 2, 2, 2] ++ w) = .ok
      { g := { gif_zero with version := GIF_VERSION_89A, width := 512, height := 512,
                             flags := GIF_FLAG_GCT,
                             gct := { num_colors := 4,
                                      colors := some [0, 0, 0, 255, 255, 255, 1, 1, 1, 2, 2, 2] } }
        frame := frame_zero
        is_frame := 0
        v := w } := by
  have e1 : (1 : Nat) <<< ((129 &&& 7) + 1) = 4 := by decide
  simp [parse_header, VEC_MUST, VEC_AT_UNSAFE, VEC_AT_U16_LE_UNSAFE,
    VEC_ADVANCE_UNSAFE, copy_bytes, set_version, UInt8.size, e1]
  rfl

theorem len_wrap_descriptor (frame : gif_frame) (w : List UInt8) :
    image_descriptor ⟨len_wrap_gif, frame, 0, [0x2C, 0, 0, 0, 0, 0, 2, 0, 2, 0] ++ w⟩ = .ok
      { g := push_image (grow_images len_wrap_gif)
               { image_zero with width := 512, height := 512 }
        img := { image_zero with width := 512, height := 512 }
        num_colors := 4
        is_interlaced := 0
        is_frame := 0
        v := w } := by
  have e1 : GIF_FLAG_GCT &&& GIF_FLAG_GCT ≠ 0 := by decide
  have e2 : ¬ (w.length + 1 + 1 + 1 + 1 + 1 + 1 + 1 + 1 + 1 + 1 < 10) := by omega
  simp [image_descriptor, VEC_MUST, VEC_AT_UNSAFE, VEC_AT_U16_LE_UNSAFE,
    VEC_ADVANCE_UNSAFE, UInt8.size, attach_frame, len_wrap_gif, grow_images, gif_zero, e1, e2]
  rfl

theorem len_wrap_data (u : Uninit) (i : ImageSetup) (n : Nat) (hn : i.num_colors = 4)
    (hw : i.img.width = 512) (hh : i.img.height = 512) (hL : 2 + 71 * n = 65535)
    (hv : i.v = [2, 2, 0x00, 0x88] ++ hack_blocks n [2, 0xF8, 0x01, 0, 0x3B]) :
    image_data u i = .error (.trap .stack) := by
  have hlen : i.v.length = 143 * n + 9 := by
    rw [hv, List.length_append, hack_blocks_length]
    simp
    omega
  unfold image_data
  have e0 : ¬ (i.v.length < 2) := by omega
  simp only [VEC_MUST, e0, if_false, bind_ok_eq]
  have e1 : VEC_AT_UNSAFE i.v 0 = .ok 2 := by rw [hv]; simp [VEC_AT_UNSAFE, UInt8.size]
  have e2 : VEC_ADVANCE_UNSAFE i.v 1
      = .ok (2 :: 0x00 :: 0x88 :: hack_blocks n [2, 0xF8, 0x01, 0, 0x3B]) := by
    rw [hv]; simp [VEC_ADVANCE_UNSAFE]
  rw [e1]
  simp only [bind_ok_eq]
  rw [e2]
  simp only [bind_ok_eq]
  have e3 : VEC_AT_UNSAFE (2 :: 0x00 :: 0x88 :: hack_blocks n [2, 0xF8, 0x01, 0, 0x3B]) 0
      = .ok 2 := by simp [VEC_AT_UNSAFE, UInt8.size]
  rw [e3]
  simp only [bind_ok_eq]
  rw [if_neg (by rw [hn]; decide), hn, hw, hh]
  have e4 : (2 :: 0x00 :: 0x88 :: hack_blocks n [2, 0xF8, 0x01, 0, 0x3B] : List UInt8).length
      + 1 = (142 * n + 7) + n + 1 + 1 := by
    rw [List.length_cons, List.length_cons, List.length_cons, hack_blocks_length]
    simp
    omega
  rw [e4]
  obtain ⟨T1, pv1, ind1, hr1, hl1, heq1⟩ := init_block u i.g (512 * 512) (142 * n + 7 + n + 1)
    (hack_blocks n [2, 0xF8, 0x01, 0, 0x3B]) (by norm_num)
    (by rw [hack_blocks_length]; simp)
  rw [heq1]
  obtain ⟨T2, pv2, ind2, hr2, hl2, heq2⟩ := blocks_loop u i.g (512 * 512) n T1 2 pv1 ind1
    (142 * n + 7 + 1) [2, 0xF8, 0x01, 0, 0x3B] hr1 (by omega) (by omega) (by simp)
  rw [show 142 * n + 7 + n + 1 = 142 * n + 7 + 1 + n by omega, heq2]
  have hb : byte [2, 0xF8, 0x01, 0, 0x3B] 0 = 2 := by decide
  rw [hb]
  rw [hL] at hr2
  exact final_block u i.g (512 * 512) T2 pv2 ind2 (142 * n + 7) [0, 0x3B] hr2 (by omega)
    (by simp)

theorem len_wrap_general (u : Uninit) (n : Nat) (hL : 2 + 71 * n = 65535) :
    gif_parse u (len_wrap_input n) = .trap .stack := by
  unfold gif_parse len_wrap_input
  rw [len_wrap_header]
  simp only []
  rw [read_block]
  have hb : block u ⟨len_wrap_gif, frame_zero, 0, [0x2C, 0, 0, 0, 0, 0, 2, 0, 2, 0]
      ++ ([2, 2, 0x00, 0x88] ++ hack_blocks n [2, 0xF8, 0x01, 0, 0x3B])⟩
      = .error (.trap .stack) := by
    rw [block_image u _ (by simp) (by simp [byte])]
    unfold parse_image
    rw [len_wrap_descriptor]
    simp only []
    rw [len_wrap_data _ _ n rfl rfl rfl hL rfl]
    rfl
  have hg : ({ gif_zero with version := GIF_VERSION_89A, width := 512, height := 512,
                             flags := GIF_FLAG_GCT,
                             gct := { num_colors := 4,
                                      colors := some [0, 0, 0, 255, 255, 255, 1, 1, 1, 2, 2, 2] } }
      : gif) = len_wrap_gif := rfl
  rw [hg, hb]

theorem code_loop_end (p : lzw_params) (u : Uninit) (g : gif) (fuel : Nat)
    (st st1 : lzw_state) (bytes bytes1 : Nat) (v v1 v2 : List UInt8) (ind : List Nat)
    (hb : bytes ≠ 0) (hr : read_bits st bytes v = .ok (st1, bytes1, v1))
    (hc : st1.code_off = st1.lzw_code_size)
    (hd : decode_code p u g st1 bytes1 v1 = .ok (.end_code_stream ind v2)) :
    code_loop p u g (fuel + 1) st bytes v = .ok (.end_code_stream ind v2) := by
  rw [code_loop]
  simp only [hb, if_false, hr, hc, if_true, hd]

theorem decode_eoi (u : Uninit) (g : gif) (nc req : Nat) (T : Nat → gif_code)
    (fc sz pv co bo nx : Nat) (ind : List Nat) (bytes : Nat) (v : List UInt8)
    (hb : bytes ≠ 0) (hv : bytes ≤ v.length) :
    decode_code ⟨2, nc, req⟩ u g ⟨T, fc, sz, pv, 5, co, bo, nx, ind⟩ bytes v
      = .ok (.end_code_stream ind (v.drop bytes)) := by
  simp [decode_code, hb, VEC_ADVANCE_UNSAFE, hv]

theorem decode_fault (u : Uninit) (g : gif) (req : Nat) (T : Nat → gif_code)
    (sz pv co bo nx x y : Nat) (ind : List Nat) (bytes : Nat) (v : List UInt8)
    (h7 : T 7 = ⟨3, 7, 1, x, y⟩) (hpv : pv < 4096) (hreq : ind.length + 3 ≤ req) :
    decode_code ⟨2, 4, req⟩ u g ⟨T, 0, sz, pv, 7, co, bo, nx, ind⟩ bytes v
      = .error (.ret GIF_ERR_FAULT gif_zero) := by
  have e1 : ¬ (req < ind.length + 3) := by omega
  simp [decode_code, decode_inuse, code_table_at, h7, hpv, lzw_state.num_indices, e1,
    walk, stack_set, GIF_CODE_NO_PREFIX, gif_free]

theorem gif_parse_first_image (u : Uninit) (buf : List UInt8) (s0 : DState) (i : ImageSetup)
    (hh : parse_header buf = .ok s0) (h1 : 1 ≤ s0.v.length) (hsep : byte s0.v 0 = 0x2C)
    (hd : image_descriptor s0 = .ok i) :
    gif_parse u buf =
      match image_data u i with
      | .error e => e
      | .ok (ind, v) =>
        match image_finish u s0.frame i ind v with
        | .error e => e
        | .ok s1 => read_block u s0.v.length s1 := by
  unfold gif_parse
  rw [hh]
  simp only []
  rw [read_block, block_image u s0 h1 hsep]
  unfold parse_image
  rw [hd, parse_header_num_images hh, Uninit.image_zero]
  simp only []
  cases image_data u i with
  | error e => rfl
  | ok r =>
    obtain ⟨ind, v⟩ := r
    simp only []
    cases image_finish u s0.frame i ind v with
    | error e => rfl
    | ok s1 => rfl

theorem tb14 : take_bits 3 2 0 0 8 = (0, 3, 1) := by decide

theorem tb15 : take_bits 4 0 1 0 8 = (4, 4, 5) := by decide

theorem tb16 : take_bits 3 0 5 0 8 = (0, 3, 8) := by decide

theorem tb17 : take_bits 3 0 0 0 199 = (7, 3, 3) := by decide

theorem tb18 : take_bits 3 0 3 0 199 = (0, 3, 6) := by decide

theorem tb19 : take_bits 4 0 6 0 199 = (3, 2, 8) := by decide

theorem tb20 : take_bits 4 2 0 3 1 = (7, 4, 2) := by decide

theorem fault_data (u : Uninit) (i : ImageSetup) (w : List UInt8) (hn : i.num_colors = 4)
    (hw : i.img.width = 10) (hh : i.img.height = 1)
    (hv : i.v = 2 :: 4 :: 0x00 :: 0x08 :: 0xC7 :: 0x01 :: w) (hl : 1 ≤ w.length) :
    image_data u i = .error (.ret GIF_ERR_FAULT gif_zero) := by
  unfold image_data
  rw [hv, hn, hw, hh]
  simp only [VEC_MUST, VEC_AT_UNSAFE, VEC_ADVANCE_UNSAFE]
  simp [UInt8.size]
  have e0 : ¬ (w.length + 1 + 1 + 1 + 1 + 1 + 1 < 2) := by omega
  simp only [e0, if_false, bind_ok_eq]
  have hs : lzw_start u 2 4 = ⟨init_code_table u 4, 1, 3, 0, 0, 0, 0, 6, []⟩ := rfl
  have h0 : init_code_table u 4 0 = root 0 := by simp [init_code_table, root]
  have r1 : ∀ (T : Nat → gif_code) (ind : List Nat),
      read_bits ⟨T, 1, 3, 0, 0, 0, 0, 6, ind⟩ 4 (0x00 :: 0x08 :: 0xC7 :: 0x01 :: w)
        = .ok (⟨T, 1, 3, 0, 0, 3, 3, 6, ind⟩, 4, (0x00 :: 0x08 :: 0xC7 :: 0x01 :: w)) := by
    intro T ind
    simp [read_bits_cons, tb7, UInt8.size]
  have r2 : ∀ (T : Nat → gif_code) (ind : List Nat),
      read_bits ⟨T, 0, 3, 0, 0, 0, 3, 6, ind⟩ 4 (0x00 :: 0x08 :: 0xC7 :: 0x01 :: w)
        = .ok (⟨T, 0, 3, 0, 0, 3, 6, 6, ind⟩, 4, (0x00 :: 0x08 :: 0xC7 :: 0x01 :: w)) := by
    intro T ind
    simp [read_bits_cons, tb8, UInt8.size]
  have r3 : ∀ (T : Nat → gif_code) (ind : List Nat),
      read_bits ⟨T, 0, 3, 0, 0, 0, 6, 7, ind⟩ 4 (0x00 :: 0x08 :: 0xC7 :: 0x01 :: w)
        = .ok (⟨T, 0, 3, 0, 0, 2, 0, 7, ind⟩, 3, (0x08 :: 0xC7 :: 0x01 :: w)) := by
    intro T ind
    simp [read_bits_cons, tb9, UInt8.size]
  have r4 : ∀ (T : Nat → gif_code) (ind : List Nat),
      read_bits ⟨T, 0, 3, 0, 0, 2, 0, 7, ind⟩ 3 (0x08 :: 0xC7 :: 0x01 :: w)
        = .ok (⟨T, 0, 3, 0, 0, 3, 1, 7, ind⟩, 3, (0x08 :: 0xC7 :: 0x01 :: w)) := by
    intro T ind
    simp [read_bits_cons, tb14, UInt8.size]
  have r5 : ∀ (T : Nat → gif_code) (ind : List Nat),
      read_bits ⟨T, 0, 4, 0, 0, 0, 1, 8, ind⟩ 3 (0x08 :: 0xC7 :: 0x01 :: w)
        = .ok (⟨T, 0, 4, 0, 4, 4, 5, 8, ind⟩, 3, (0x08 :: 0xC7 :: 0x01 :: w)) := by
    intro T ind
    simp [read_bits_cons, tb15, UInt8.size]
  have r6 : ∀ (T : Nat → gif_code) (ind : List Nat),
      read_bits ⟨T, 1, 3, 0, 0, 0, 5, 6, ind⟩ 3 (0x08 :: 0xC7 :: 0x01 :: w)
        = .ok (⟨T, 1, 3, 0, 0, 3, 0, 6, ind⟩, 2, (0xC7 :: 0x01 :: w)) := by
    intro T ind
    simp [read_bits_cons, tb16, UInt8.size]
  have r7 : ∀ (T : Nat → gif_code) (ind : List Nat),
      read_bits ⟨T, 0, 3, 0, 0, 0, 0, 6, ind⟩ 2 (0xC7 :: 0x01 :: w)
        = .ok (⟨T, 0, 3, 0, 7, 3, 3, 6, ind⟩, 2, (0xC7 :: 0x01 :: w)) := by
    intro T ind
    simp [read_bits_cons, tb17, UInt8.size]
  have r8 : ∀ (T : Nat → gif_code) (ind : List Nat),
      read_bits ⟨T, 0, 3, 7, 0, 0, 3, 7, ind⟩ 2 (0xC7 :: 0x01 :: w)
        = .ok (⟨T, 0, 3, 7, 0, 3, 6, 7, ind⟩, 2, (0xC7 :: 0x01 :: w)) := by
    intro T ind
    simp [read_bits_cons, tb18, UInt8.size]
  have r9 : ∀ (T : Nat → gif_code) (ind : List Nat),
      read_bits ⟨T, 0, 4, 0, 0, 0, 6, 8, ind⟩ 2 (0xC7 :: 0x01 :: w)
        = .ok (⟨T, 0, 4, 0, 3, 2, 0, 8, ind⟩, 1, (0x01 :: w)) := by
    intro T ind
    simp [read_bits_cons, tb19, UInt8.size]
  have r10 : ∀ (T : Nat → gif_code) (ind : List Nat),
      read_bits ⟨T, 0, 4, 0, 3, 2, 0, 8, ind⟩ 1 (0x01 :: w)
        = .ok (⟨T, 0, 4, 0, 7, 4, 2, 8, ind⟩, 1, (0x01 :: w)) := by
    intro T ind
    simp [read_bits_cons, tb20, UInt8.size]
  have h1 : upd (init_code_table u 4) 6
      ⟨((init_code_table u 4 0).len + 1) % 65536, 0, 1, 0,
        (init_code_table u 4 0).first_index⟩ 0 = root 0 := by
    simp [upd, h0]
  rw [sub_blocks_succ _ u _ _ _ 4 4 _ (by decide) (by simp; omega), hs,
    show 8 * 4 + 1 = 32 + 1 from rfl,
    code_loop_code _ u _ 32 _ _ _ _ _ _ _ (by decide) (r1 _ _) rfl
      (decode_first u _ 10 _ 3 0 3 3 6 [] _ _ (by simp)),
    show (32 : Nat) = 31 + 1 from rfl,
    code_loop_code _ u _ 31 _ _ _ _ _ _ _ (by decide) (r2 _ _) rfl
      (decode_root u _ 10 _ 0 3 6 6 _ _ _ h0 (by decide) (Or.inl rfl) (by simp))]
  simp only [show ¬ ((6 : Nat) = 7) by decide, if_false, show (6 : Nat) + 1 = 7 from rfl]
  rw [show (31 : Nat) = 30 + 1 from rfl,
    code_loop_part _ u _ 30 _ _ _ _ _ _ (by decide) (r3 _ _) (by simp),
    show (30 : Nat) = 29 + 1 from rfl,
    code_loop_code _ u _ 29 _ _ _ _ _ _ _ (by decide) (r4 _ _) rfl
      (decode_root u _ 10 _ 0 3 1 7 _ _ _ h1 (by decide) (Or.inr rfl) (by simp))]
  simp only [if_true, show (7 : Nat) + 1 = 8 from rfl]
  rw [show (29 : Nat) = 28 + 1 from rfl,
    code_loop_code _ u _ 28 _ _ _ _ _ _ _ (by decide) (r5 _ _) rfl
      (decode_clear u _ 10 _ 0 4 0 4 5 8 _ _ _),
    show (28 : Nat) = 27 + 1 from rfl,
    code_loop_code _ u _ 27 _ _ _ _ _ _ _ (by decide) (r6 _ _) rfl
      (decode_first u _ 10 _ 3 0 3 0 6 _ _ _ (by simp)),
    show (27 : Nat) = 26 + 1 from rfl,
    code_loop_code _ u _ 26 _ _ _ _ _ _ _ (by decide) (r7 _ _) rfl
      (decode_hack u _ 10 _ 3 3 _ _ _ (by simp [clear_code_table, upd, h0])
        (by simp [clear_code_table, upd]) (by simp)),
    show (26 : Nat) = 25 + 1 from rfl,
    code_loop_code _ u _ 25 _ _ _ _ _ _ _ (by decide) (r8 _ _) rfl
      (decode_root u _ 10 _ 7 3 6 7 _ _ _ (by simp [clear_code_table, upd, h0]) (by decide)
        (Or.inr rfl) (by simp))]
  simp only [if_true, show (7 : Nat) + 1 = 8 from rfl]
  rw [show (25 : Nat) = 24 + 1 from rfl,
    code_loop_part _ u _ 24 _ _ _ _ _ _ (by decide) (r9 _ _) (by simp),
    show (24 : Nat) = 23 + 1 from rfl,
    code_loop_error _ u _ 23 _ _ _ _ _ _ _ (by decide) (r10 _ _) rfl
      (decode_fault u _ 10 _ 4 0 4 2 8 0 0 _ _ _
        (by simp [clear_code_table, upd, h0, root]) (by decide) (by simp))]

theorem tb21 : take_bits 3 0 0 0 120 = (0, 3, 3) := by decide

theorem tb22 : take_bits 3 0 3 0 120 = (7, 3, 6) := by decide

theorem tb23 : take_bits 3 0 6 0 120 = (1, 2, 8) := by decide

theorem tb24 : take_bits 3 2 0 1 1 = (5, 3, 1) := by decide

theorem unassigned_data (u : Uninit) (i : ImageSetup) (w : List UInt8) (hn : i.num_colors = 4)
    (hw : i.img.width = 3) (hh : i.img.height = 1)
    (hv : i.v = 2 :: 2 :: 0x78 :: 0x01 :: w) (hl : 1 ≤ w.length) :
    image_data u i = .ok ([0, 0, 0], w) := by
  unfold image_data
  rw [hv, hn, hw, hh]
  simp only [VEC_MUST, VEC_AT_UNSAFE, VEC_ADVANCE_UNSAFE]
  simp [UInt8.size]
  have e0 : ¬ (w.length + 1 + 1 + 1 + 1 < 2) := by omega
  simp only [e0, if_false, bind_ok_eq]
  have hs : lzw_start u 2 4 = ⟨init_code_table u 4, 1, 3, 0, 0, 0, 0, 6, []⟩ := rfl
  have h0 : init_code_table u 4 0 = root 0 := by simp [init_code_table, root]
  have h7 : (init_code_table u 4 7).inuse = 0 := by simp [init_code_table]
  have r1 : ∀ (T : Nat → gif_code) (ind : List Nat),
      read_bits ⟨T, 1, 3, 0, 0, 0, 0, 6, ind⟩ 2 (0x78 :: 0x01 :: w)
        = .ok (⟨T, 1, 3, 0, 0, 3, 3, 6, ind⟩, 2, (0x78 :: 0x01 :: w)) := by
    intro T ind
    simp [read_bits_cons, tb21, UInt8.size]
  have r2 : ∀ (T : Nat → gif_code) (ind : List Nat),
      read_bits ⟨T, 0, 3, 0, 0, 0, 3, 6, ind⟩ 2 (0x78 :: 0x01 :: w)
        = .ok (⟨T, 0, 3, 0, 7, 3, 6, 6, ind⟩, 2, (0x78 :: 0x01 :: w)) := by
    intro T ind
    simp [read_bits_cons, tb22, UInt8.size]
  have r3 : ∀ (T : Nat → gif_code) (ind : List Nat),
      read_bits ⟨T, 0, 3, 7, 0, 0, 6, 7, ind⟩ 2 (0x78 :: 0x01 :: w)
        = .ok (⟨T, 0, 3, 7, 1, 2, 0, 7, ind⟩, 1, (0x01 :: w)) := by
    intro T ind
    simp [read_bits_cons, tb23, UInt8.size]
  have r4 : ∀ (T : Nat → gif_code) (ind : List Nat),
      read_bits ⟨T, 0, 3, 7, 1, 2, 0, 7, ind⟩ 1 (0x01 :: w)
        = .ok (⟨T, 0, 3, 7, 5, 3, 1, 7, ind⟩, 1, (0x01 :: w)) := by
    intro T ind
    simp [read_bits_cons, tb24, UInt8.size]
  rw [sub_blocks_succ _ u _ _ _ 2 2 _ (by decide) (by simp; omega), hs,
    show 8 * 2 + 1 = 16 + 1 from rfl,
    code_loop_code _ u _ 16 _ _ _ _ _ _ _ (by decide) (r1 _ _) rfl
      (decode_first u _ 3 _ 3 0 3 3 6 [] _ _ (by simp)),
    show (16 : Nat) = 15 + 1 from rfl,
    code_loop_code _ u _ 15 _ _ _ _ _ _ _ (by decide) (r2 _ _) rfl
      (decode_hack u _ 3 _ 3 6 _ _ _ h0 h7 (by simp)),
    show (15 : Nat) = 14 + 1 from rfl,
    code_loop_part _ u _ 14 _ _ _ _ _ _ (by decide) (r3 _ _) (by simp),
    show (14 : Nat) = 13 + 1 from rfl,
    code_loop_end _ u _ 13 _ _ _ _ _ _ _ _ (by decide) (r4 _ _) rfl
      (decode_eoi u _ 4 3 _ 0 3 7 3 1 7 _ 1 _ (by decide) (by simp))]
  rfl

theorem decode_clear_any (u : Uninit) (g : gif) (nc req : Nat) (T : Nat → gif_code)
    (fc sz pv co bo nx : Nat) (ind : List Nat) (bytes : Nat) (v : List UInt8) :
    decode_code ⟨2, nc, req⟩ u g ⟨T, fc, sz, pv, 4, co, bo, nx, ind⟩ bytes v
      = .ok (.next ⟨clear_code_table T nc, 1, 3, pv, 0, 0, bo, 6, ind⟩) := by
  simp [decode_code]

theorem decode_first_one (u : Uninit) (g : gif) (req : Nat) (T : Nat → gif_code)
    (sz pv co bo nx : Nat) (ind : List Nat) (bytes : Nat) (v : List UInt8)
    (hreq : ind.length < req) :
    decode_code ⟨2, 2, req⟩ u g ⟨T, 1, sz, pv, 1, co, bo, nx, ind⟩ bytes v
      = .ok (.next ⟨T, 0, sz, 1, 0, 0, bo, nx, ind ++ [1]⟩) := by
  have e1 : ¬ (req ≤ ind.length) := by omega
  simp [decode_code, lzw_state.num_indices, indices_put, end_code, e1, hreq]

theorem tb25 : take_bits 3 0 0 0 76 = (4, 3, 3) := by decide

theorem tb26 : take_bits 3 0 3 0 76 = (1, 3, 6) := by decide

theorem tb27 : take_bits 3 0 6 0 76 = (1, 2, 8) := by decide

theorem one_pixel_data (u : Uninit) (i : ImageSetup) (w : List UInt8)
    (hn : i.num_colors = 2) (hw : i.img.width = 1) (hh : i.img.height = 1)
    (hv : i.v = 2 :: 2 :: 0x4C :: 0x01 :: w) (hl : 1 ≤ w.length) :
    image_data u i = .ok ([1], w) := by
  unfold image_data
  rw [hv, hn, hw, hh]
  simp only [VEC_MUST, VEC_AT_UNSAFE, VEC_ADVANCE_UNSAFE]
  simp [UInt8.size]
  have hs : lzw_start u 2 2 = ⟨init_code_table u 2, 1, 3, 0, 0, 0, 0, 6, []⟩ := rfl
  have r1 : ∀ (T : Nat → gif_code) (ind : List Nat),
      read_bits ⟨T, 1, 3, 0, 0, 0, 0, 6, ind⟩ 2 (0x4C :: 0x01 :: w)
        = .ok (⟨T, 1, 3, 0, 4, 3, 3, 6, ind⟩, 2, 0x4C :: 0x01 :: w) := by
    intro T ind
    simp [read_bits_cons, tb25, UInt8.size]
  have r2 : ∀ (T : Nat → gif_code) (ind : List Nat),
      read_bits ⟨T, 1, 3, 0, 0, 0, 3, 6, ind⟩ 2 (0x4C :: 0x01 :: w)
        = .ok (⟨T, 1, 3, 0, 1, 3, 6, 6, ind⟩, 2, 0x4C :: 0x01 :: w) := by
    intro T ind
    simp [read_bits_cons, tb26, UInt8.size]
  have r3 : ∀ (T : Nat → gif_code) (ind : List Nat),
      read_bits ⟨T, 0, 3, 1, 0, 0, 6, 6, ind⟩ 2 (0x4C :: 0x01 :: w)
        = .ok (⟨T, 0, 3, 1, 1, 2, 0, 6, ind⟩, 1, 0x01 :: w) := by
    intro T ind
    simp [read_bits_cons, tb27, UInt8.size]
  have r4 : ∀ (T : Nat → gif_code) (ind : List Nat),
      read_bits ⟨T, 0, 3, 1, 1, 2, 0, 6, ind⟩ 1 (0x01 :: w)
        = .ok (⟨T, 0, 3, 1, 5, 3, 1, 6, ind⟩, 1, 0x01 :: w) := by
    intro T ind
    simp [read_bits_cons, tb24, UInt8.size]
  have e0 : ¬ (w.length + 1 + 1 + 1 + 1 < 2) := by omega
  simp only [e0, if_false, bind_ok_eq]
  rw [sub_blocks_succ _ u _ _ _ 2 2 _ (by decide) (by simp; omega), hs,
    show 8 * 2 + 1 = 16 + 1 from rfl,
    code_loop_code _ u _ 16 _ _ _ _ _ _ _ (by decide) (r1 _ _) rfl
      (decode_clear_any u _ 2 1 _ 1 3 0 3 3 6 _ _ _),
    show (16 : Nat) = 15 + 1 from rfl,
    code_loop_code _ u _ 15 _ _ _ _ _ _ _ (by decide) (r2 _ _) rfl
      (decode_first_one u _ 1 _ 3 0 3 6 6 [] _ _ (by simp)),
    show (15 : Nat) = 14 + 1 from rfl,
    code_loop_part _ u _ 14 _ _ _ _ _ _ (by decide) (r3 _ _) (by simp),
    show (14 : Nat) = 13 + 1 from rfl,
    code_loop_end _ u _ 13 _ _ _ _ _ _ _ _ (by decide) (r4 _ _) rfl
      (decode_eoi u _ 2 1 _ 0 3 1 3 1 6 _ 1 _ (by decide) (by simp))]
  rfl

theorem block_image_ok (u : Uninit) (s s1 : DState) (i : ImageSetup) (ind : List Nat)
    (v : List UInt8) (h1 : 1 ≤ s.v.length) (hsep : byte s.v 0 = 0x2C)
    (hd : image_descriptor s = .ok i)
    (hi : image_data (u.image s.g.num_images) i = .ok (ind, v))
    (hf : image_finish (u.image s.g.num_images) s.frame i ind v = .ok s1) :
    block u s = .ok (some s1) := by
  rw [block_image u s h1 hsep]
  unfold parse_image
  rw [hd]
  simp only []
  rw [hi]
  simp only []
  rw [hf]
  rfl

/-! ## Headers, frames, rows and appended input: what the stages do -/

theorem set_version_zero (b : Nat) :
    set_version gif_zero b
      = { gif_zero with version := if b = 0x39 then GIF_VERSION_89A else GIF_VERSION_87A } := by
  unfold set_version
  by_cases h7 : b = 0x37
  · subst h7
    rfl
  · by_cases h9 : b = 0x39
    · subst h9
      rfl
    · rw [if_neg h7, if_neg h9, if_neg h9]
      rfl

theorem parse_header_eq (buf : List UInt8) :
    parse_header buf =
      if buf.length < 13 then .error (.ret GIF_ERR_EOF gif_zero)
      else if ¬ signature_ok buf then .error (.ret GIF_ERR_BAD_DATA gif_zero)
      else if byte buf 10 &&& 0x80 ≠ 0 then
        if byte buf 11 ≥ 1 <<< ((byte buf 10 &&& 7) + 1) then
          .error (.ret GIF_ERR_BAD_DATA
            { header_gif buf with
              flags := GIF_FLAG_GCT
              gct := { num_colors := 1 <<< ((byte buf 10 &&& 7) + 1), colors := none } })
        else if buf.length < 13 + 1 <<< ((byte buf 10 &&& 7) + 1) * 3 then
          .error (.ret GIF_ERR_EOF gif_zero)
        else
          .ok { g := { header_gif buf with
                       flags := GIF_FLAG_GCT
                       gct := { num_colors := 1 <<< ((byte buf 10 &&& 7) + 1)
                                colors := some ((buf.drop 13).take
                                  (1 <<< ((byte buf 10 &&& 7) + 1) * 3)) } }
                frame := frame_zero, is_frame := 0
                v := (buf.drop 13).drop (1 <<< ((byte buf 10 &&& 7) + 1) * 3) }
      else .ok { g := header_gif buf, frame := frame_zero, is_frame := 0, v := buf.drop 13 } := by
  unfold parse_header
  by_cases h : buf.length < 13
  · simp only [VEC_MUST, h, if_true, bind_error_eq]
    rfl
  · have hd : (buf.drop 13).length = buf.length - 13 := by simp
    simp (disch := omega) only [VEC_MUST, h, VEC_AT_UNSAFE_ok, VEC_AT_U16_LE_UNSAFE_ok,
      VEC_ADVANCE_UNSAFE_ok, bind_ok_eq, pure_eq_ok, if_false, set_version_zero]
    by_cases hs : signature_ok buf
    · have hs' := hs
      obtain ⟨h0, h1, h2, h3, h4, h5⟩ := hs'
      have e1 : ¬ (byte buf 0 ≠ 0x47 ∨ byte buf 1 ≠ 0x49 ∨ byte buf 2 ≠ 0x46
          ∨ byte buf 3 ≠ 0x38 ∨ (byte buf 4 ≠ 0x37 ∧ byte buf 4 ≠ 0x39)
          ∨ byte buf 5 ≠ 0x61) := by
        rcases h4 with h4 | h4 <;> simp [h0, h1, h2, h3, h4, h5]
      rw [if_neg e1, if_neg (not_not.mpr hs)]
      by_cases hp : byte buf 10 &&& 0x80 ≠ 0
      · rw [if_pos hp, if_pos hp]
        by_cases hb : byte buf 11 ≥ 1 <<< ((byte buf 10 &&& 7) + 1)
        · rw [if_pos hb, if_pos hb]
          rfl
        · rw [if_neg hb, if_neg hb]
          by_cases hl : buf.length < 13 + 1 <<< ((byte buf 10 &&& 7) + 1) * 3
          · have hl2 : (buf.drop 13).length < 1 <<< ((byte buf 10 &&& 7) + 1) * 3 := by
              rw [hd]; omega
            rw [if_pos hl]
            simp only [hl2, if_true, bind_error_eq]
            rfl
          · have hl2 : ¬ (buf.drop 13).length < 1 <<< ((byte buf 10 &&& 7) + 1) * 3 := by
              rw [hd]; omega
            rw [if_neg hl]
            simp (disch := omega) only [hl2, if_false, bind_ok_eq, copy_bytes_ok,
              VEC_ADVANCE_UNSAFE_ok]
            rfl
      · rw [if_neg hp, if_neg hp]
        rfl
    · have e1 : (byte buf 0 ≠ 0x47 ∨ byte buf 1 ≠ 0x49 ∨ byte buf 2 ≠ 0x46
          ∨ byte buf 3 ≠ 0x38 ∨ (byte buf 4 ≠ 0x37 ∧ byte buf 4 ≠ 0x39)
          ∨ byte buf 5 ≠ 0x61) := by
        unfold signature_ok at hs
        by_contra hc
        apply hs
        simp only [not_or, not_and, not_not] at hc
        obtain ⟨a, b, c, d, e, f⟩ := hc
        refine ⟨a, b, c, d, ?_, f⟩
        by_cases h7 : byte buf 4 = 0x37
        · exact Or.inl h7
        · exact Or.inr (e h7)
      rw [if_pos e1, if_pos hs]

theorem trace_reaches {u : Uninit} {buf : List UInt8} {ks : List Kind} {s : DState}
    (h : Trace u buf ks s) : Reaches u buf s := by
  induction h with
  | start s hs => exact .start s hs
  | step ks s s' _ hb ih => exact .step s s' ih hb

theorem read_block_success (u : Uninit) (buf : List UInt8) :
    ∀ (fuel : Nat) (ks : List Kind) (s : DState) (g : gif), Trace u buf ks s →
      read_block u fuel s = .ret GIF_SUCCESS g →
      ∃ ks' s', Trace u buf ks' s' ∧ block u s' = .ok none ∧ s'.g = g := by
  intro fuel
  induction fuel with
  | zero =>
    intro ks s g _ h
    simp [read_block] at h
  | succ n ih =>
    intro ks s g ht h
    unfold read_block at h
    split at h
    · rename_i e he
      exact absurd h (fine_not_success (block_error he) g)
    · rename_i he
      cases h
      exact ⟨ks, s, ht, he, rfl⟩
    · rename_i s' he
      exact ih _ s' g (.step ks s s' ht he) h

theorem gif_parse_success {u : Uninit} {buf : List UInt8} {g : gif}
    (h : gif_parse u buf = .ret GIF_SUCCESS g) :
    ∃ ks s, Trace u buf ks s ∧ block u s = .ok none ∧ s.g = g := by
  unfold gif_parse at h
  split at h
  · rename_i e he
    exact absurd h (fine_not_success (parse_header_error he) g)
  · rename_i s he
    exact read_block_success u buf _ [] s g (.start s he) h

theorem reaches_sameScreen {u : Uninit} {buf : List UInt8} {s : DState}
    (h : Reaches u buf s) : ∃ s0, parse_header buf = .ok s0 ∧ SameScreen s0.g s.g := by
  induction h with
  | start s hs => exact ⟨s, hs, sameScreen_refl _⟩
  | step s s' _ hb ih =>
    obtain ⟨s0, h0, a1, a2, a3, a4, a5, a6⟩ := ih
    obtain ⟨_, ⟨b1, b2, b3, b4, b5, b6⟩, _⟩ := block_some hb
    exact ⟨s0, h0, b1.trans a1, b2.trans a2, b3.trans a3, b4.trans a4, b5.trans a5,
      b6.trans a6⟩

theorem header_ok_cases {buf : List UInt8} {s0 : DState} (h : parse_header buf = .ok s0) :
    13 ≤ buf.length ∧ signature_ok buf
      ∧ ((byte buf 10 &&& 0x80 ≠ 0 ∧ byte buf 11 < 1 <<< ((byte buf 10 &&& 7) + 1)
          ∧ 13 + 1 <<< ((byte buf 10 &&& 7) + 1) * 3 ≤ buf.length
          ∧ s0 = { g := { header_gif buf with
                       flags := GIF_FLAG_GCT
                       gct := { num_colors := 1 <<< ((byte buf 10 &&& 7) + 1)
                                colors := some ((buf.drop 13).take
                                  (1 <<< ((byte buf 10 &&& 7) + 1) * 3)) } }
                   frame := frame_zero, is_frame := 0
                   v := (buf.drop 13).drop (1 <<< ((byte buf 10 &&& 7) + 1) * 3) })
        ∨ (byte buf 10 &&& 0x80 = 0
          ∧ s0 = { g := header_gif buf, frame := frame_zero, is_frame := 0,
                   v := buf.drop 13 })) := by
  rw [parse_header_eq] at h
  split at h
  · cases h
  · rename_i h13
    split at h
    · cases h
    · rename_i hs
      split at h
      · rename_i hp
        split at h
        · cases h
        · rename_i hb
          split at h
          · cases h
          · rename_i hl
            cases h
            exact ⟨by omega, not_not.mp hs, Or.inl ⟨hp, by omega, by omega, rfl⟩⟩
      · rename_i hp
        cases h
        exact ⟨by omega, not_not.mp hs, Or.inr ⟨not_not.mp hp, rfl⟩⟩

theorem num_colors_bounds (p : Nat) :
    (∃ k, 1 ≤ k ∧ k ≤ 8 ∧ 1 <<< ((p &&& 7) + 1) = 2 ^ k)
      ∧ 2 ≤ 1 <<< ((p &&& 7) + 1) ∧ 1 <<< ((p &&& 7) + 1) ≤ 256 := by
  have h7 : p &&& 7 < 8 := Nat.and_lt_two_pow p (show 7 < 2 ^ 3 by decide)
  have hk : 1 <<< ((p &&& 7) + 1) = 2 ^ ((p &&& 7) + 1) := by
    rw [Nat.shiftLeft_eq, one_mul]
  generalize p &&& 7 = k at h7 hk
  rw [hk]
  refine ⟨⟨k + 1, by omega, by omega, rfl⟩, ?_, ?_⟩
  · calc 2 = 2 ^ 1 := rfl
      _ ≤ 2 ^ (k + 1) := Nat.pow_le_pow_right (by decide) (by omega)
  · calc 2 ^ (k + 1) ≤ 2 ^ 8 := Nat.pow_le_pow_right (by decide) (by omega)
      _ = 256 := rfl

theorem grow_images_gct (g : gif) : (grow_images g).gct = g.gct := by
  unfold grow_images; split <;> rfl

theorem attach_frame_lct (s : DState) (img : gif_image) :
    (attach_frame s img).lct = img.lct := by
  unfold attach_frame; split <;> rfl

theorem attach_frame_flag (s : DState) (img : gif_image) (h0 : img.flags = 0) :
    ((attach_frame s img).flags &&& GIF_IMAGE_FLAG_FRAME ≠ 0 ↔ s.is_frame ≠ 0)
      ∧ (s.is_frame ≠ 0 → (attach_frame s img).frame = s.frame) := by
  unfold attach_frame
  split
  · rename_i h
    refine ⟨⟨fun _ => h, fun _ => ?_⟩, fun _ => rfl⟩
    show (img.flags ||| GIF_IMAGE_FLAG_FRAME) &&& GIF_IMAGE_FLAG_FRAME ≠ 0
    rw [h0]
    decide
  · rename_i h
    refine ⟨⟨fun hf => ?_, fun hs => absurd hs h⟩, fun hs => absurd hs h⟩
    rw [h0] at hf
    exact absurd (by decide) hf

theorem image_descriptor_info {s : DState} {i : ImageSetup}
    (h : image_descriptor s = .ok i) :
    10 ≤ s.v.length ∧ i.is_frame = 0 ∧ i.g = push_image (grow_images s.g) i.img
      ∧ (i.img.flags &&& GIF_IMAGE_FLAG_FRAME ≠ 0 ↔ s.is_frame ≠ 0)
      ∧ (s.is_frame ≠ 0 → i.img.frame = s.frame)
      ∧ i.num_colors = (if byte s.v 9 &&& 0x80 ≠ 0 then i.img.lct.num_colors
                        else s.g.gct.num_colors)
      ∧ (byte s.v 9 &&& 0x80 ≠ 0 →
          i.img.lct.num_colors = 1 <<< ((byte s.v 9 &&& 7) + 1)) := by
  unfold image_descriptor at h
  by_cases hlen : s.v.length < 0xA
  · simp only [VEC_MUST, hlen, if_true, bind_error_eq] at h
    cases h
  · have h10 : 10 ≤ s.v.length := by omega
    simp (disch := omega) only [VEC_MUST, hlen, if_false, bind_ok_eq,
      VEC_AT_U16_LE_UNSAFE_ok, VEC_AT_UNSAFE_ok, VEC_ADVANCE_UNSAFE_ok, pure_eq_ok] at h
    have hf : (if s.is_frame ≠ 0 then 0 else s.is_frame) = 0 := by
      split
      · rfl
      · rename_i h0
        exact not_not.mp h0
    split at h
    · cases h
    · have hd : (s.v.drop 10).length = s.v.length - 10 := by simp
      split at h
      · rename_i hp
        by_cases hl2 : (s.v.drop 10).length < 1 <<< ((byte s.v 9 &&& 7) + 1) * 3
        · simp only [hl2, if_true, bind_error_eq] at h
          cases h
        · simp (disch := omega) only [hl2, if_false, bind_ok_eq, copy_bytes_ok,
            VEC_ADVANCE_UNSAFE_ok] at h
          cases h
          refine ⟨h10, hf, rfl, (attach_frame_flag s _ rfl).1, (attach_frame_flag s _ rfl).2,
            ?_, ?_⟩
          · rw [if_pos hp, attach_frame_lct]
          · intro _
            rw [attach_frame_lct]
      · rename_i hp
        split at h
        · cases h
        · cases h
          refine ⟨h10, hf, rfl, (attach_frame_flag s _ rfl).1, (attach_frame_flag s _ rfl).2,
            ?_, ?_⟩
          · rw [if_neg hp]
            exact congrArg gif_color_table.num_colors (grow_images_gct s.g)
          · intro h'
            exact absurd h' hp

theorem image_data_bad_parameters (u : Uninit) (i : ImageSetup) (h2 : 2 ≤ i.v.length)
    (hbad : byte i.v 0 < 2 ∨ byte i.v 0 > 8 ∨ i.num_colors > 1 <<< byte i.v 0
      ∨ byte i.v 1 = 0) :
    image_data u i = .error (.ret GIF_ERR_BAD_DATA gif_zero) := by
  unfold image_data
  have hlen : ¬ i.v.length < 2 := by omega
  have hd : (i.v.drop 1).length = i.v.length - 1 := by simp
  have hb : byte (i.v.drop 1) 0 = byte i.v 1 := by
    simp [byte, List.getD]
  simp (disch := omega) only [VEC_MUST, hlen, if_false, bind_ok_eq, VEC_AT_UNSAFE_ok,
    VEC_ADVANCE_UNSAFE_ok]
  rw [if_pos]
  · rfl
  · rw [hb]
    tauto

theorem bind_eq_ok {α β : Type} {x : Except Outcome α} {f : α → Except Outcome β} {b : β}
    (h : (x >>= f) = .ok b) : ∃ a, x = .ok a ∧ f a = .ok b := by
  cases x with
  | error e => cases h
  | ok a => exact ⟨a, rfl, h⟩

theorem VEC_ADVANCE_UNSAFE_suffix {v v' : List UInt8} {n : Nat}
    (h : VEC_ADVANCE_UNSAFE v n = .ok v') : v' <:+ v := by
  unfold VEC_ADVANCE_UNSAFE at h
  split at h
  · cases h
    exact List.drop_suffix _ _
  · cases h

theorem VEC_ADVANCE_suffix {g : gif} {v v' : List UInt8} {n : Nat}
    (h : VEC_ADVANCE g v n = .ok v') : v' <:+ v := by
  unfold VEC_ADVANCE at h
  split at h
  · cases h
  · cases h
    exact List.drop_suffix _ _

theorem read_bits_suffix {st st' : lzw_state} {bytes bytes' : Nat} {v v' : List UInt8}
    (h : read_bits st bytes v = .ok (st', bytes', v')) : v' <:+ v := by
  unfold read_bits at h
  simp only [] at h
  obtain ⟨b, _, h⟩ := bind_eq_ok h
  split at h
  · obtain ⟨v1, h1, h⟩ := bind_eq_ok h
    cases h
    exact VEC_ADVANCE_UNSAFE_suffix h1
  · cases h
    exact List.suffix_refl _

theorem insert_code_suffix {p : lzw_params} {st : lzw_state} {len pc index fi : Nat}
    {v v' : List UInt8} {ind : List Nat}
    (h : insert_code p st len pc index fi v = .ok (.end_code_stream ind v')) : v' = v := by
  unfold insert_code at h
  split at h
  · cases h
    rfl
  · split at h
    · cases h
    · obtain ⟨t, _, h⟩ := bind_eq_ok h
      simp only [] at h
      split at h
      · cases h
      · split at h <;> cases h

theorem decode_inuse_suffix {p : lzw_params} {u : Uninit} {g : gif} {st : lzw_state}
    {prev centry : gif_code} {v v' : List UInt8} {ind : List Nat}
    (h : decode_inuse p u g st prev centry v = .ok (.end_code_stream ind v')) : v' = v := by
  unfold decode_inuse at h
  simp only [] at h
  split at h
  · cases h
    rfl
  · obtain ⟨s1, _, h⟩ := bind_eq_ok h
    obtain ⟨s2, _, h⟩ := bind_eq_ok h
    exact insert_code_suffix h

theorem decode_unused_suffix {p : lzw_params} {u : Uninit} {g : gif} {st : lzw_state}
    {prev : gif_code} {v v' : List UInt8} {ind : List Nat}
    (h : decode_unused p u g st prev v = .ok (.end_code_stream ind v')) : v' = v := by
  unfold decode_unused at h
  simp only [] at h
  obtain ⟨s0, _, h⟩ := bind_eq_ok h
  split at h
  · cases h
    rfl
  · obtain ⟨s1, _, h⟩ := bind_eq_ok h
    obtain ⟨s2, _, h⟩ := bind_eq_ok h
    exact insert_code_suffix h

theorem decode_code_suffix {p : lzw_params} {u : Uninit} {g : gif} {st : lzw_state}
    {bytes : Nat} {v v' : List UInt8} {ind : List Nat}
    (h : decode_code p u g st bytes v = .ok (.end_code_stream ind v')) : v' <:+ v := by
  unfold decode_code at h
  split at h
  · split at h
    · obtain ⟨v1, h1, h⟩ := bind_eq_ok h
      cases h
      exact VEC_ADVANCE_UNSAFE_suffix h1
    · cases h
      exact List.suffix_refl _
  · split at h
    · cases h
    · split at h
      · split at h
        · cases h
        · split at h
          · cases h
            exact List.suffix_refl _
          · obtain ⟨i1, _, h⟩ := bind_eq_ok h
            cases h
      · obtain ⟨prev, _, h⟩ := bind_eq_ok h
        split at h
        · cases h
        · obtain ⟨centry, _, h⟩ := bind_eq_ok h
          split at h
          · have := decode_inuse_suffix h
            subst this
            exact List.suffix_refl _
          · have := decode_unused_suffix h
            subst this
            exact List.suffix_refl _

theorem code_loop_suffix (p : lzw_params) (u : Uninit) (g : gif) :
    ∀ (fuel : Nat) (st : lzw_state) (bytes : Nat) (v : List UInt8) (r : Flow),
      code_loop p u g fuel st bytes v = .ok r → r.cursor <:+ v := by
  intro fuel
  induction fuel with
  | zero => intro st bytes v r h; cases h
  | succ n ih =>
    intro st bytes v r h
    unfold code_loop at h
    split at h
    · cases h
      exact List.suffix_refl _
    · split at h
      · cases h
      · rename_i st1 b1 v1 hr
        have hs := read_bits_suffix hr
        split at h
        · split at h
          · cases h
          · rename_i ind v2 hd
            cases h
            exact (decode_code_suffix hd).trans hs
          · exact (ih _ _ _ _ h).trans hs
        · exact (ih _ _ _ _ h).trans hs

theorem sub_blocks_suffix (p : lzw_params) (u : Uninit) (g : gif) :
    ∀ (fuel : Nat) (st : lzw_state) (bytes : Nat) (v : List UInt8) (r : List Nat × List UInt8),
      sub_blocks p u g fuel st bytes v = .ok r → r.2 <:+ v := by
  intro fuel
  induction fuel with
  | zero => intro st bytes v r h; cases h
  | succ n ih =>
    intro st bytes v r h
    unfold sub_blocks at h
    split at h
    · cases h
      exact List.suffix_refl _
    · split at h
      · cases h
      · rename_i v1 hv1
        obtain ⟨_, _, hv1⟩ := bind_eq_ok hv1
        have hs := VEC_ADVANCE_UNSAFE_suffix hv1
        split at h
        · cases h
        · rename_i ind v2 hc
          cases h
          exact (code_loop_suffix p u g _ _ _ _ _ hc).trans hs
        · rename_i st2 v2 hc
          have hs2 := code_loop_suffix p u g _ _ _ _ _ hc
          split at h
          · cases h
          · exact ((ih _ _ _ _ h).trans hs2).trans hs

theorem skip_sub_blocks_suffix (g : gif) :
    ∀ (fuel bytes : Nat) (v v' : List UInt8),
      skip_sub_blocks g fuel bytes v = .ok v' → v' <:+ v := by
  intro fuel
  induction fuel with
  | zero => intro bytes v v' h; cases h
  | succ n ih =>
    intro bytes v v' h
    unfold skip_sub_blocks at h
    split at h
    · cases h
      exact List.suffix_refl _
    · split at h
      · cases h
      · rename_i v1 hv1
        obtain ⟨_, _, hv1⟩ := bind_eq_ok hv1
        have hs := VEC_ADVANCE_UNSAFE_suffix hv1
        split at h
        · cases h
        · exact (ih _ _ _ h).trans hs

theorem image_descriptor_suffix {s : DState} {i : ImageSetup}
    (h : image_descriptor s = .ok i) : i.v <:+ s.v := by
  unfold image_descriptor at h
  simp only [] at h
  obtain ⟨_, _, h⟩ := bind_eq_ok h
  obtain ⟨x, _, h⟩ := bind_eq_ok h
  obtain ⟨y, _, h⟩ := bind_eq_ok h
  obtain ⟨wd, _, h⟩ := bind_eq_ok h
  obtain ⟨ht, _, h⟩ := bind_eq_ok h
  split at h
  · cases h
  · obtain ⟨pb, _, h⟩ := bind_eq_ok h
    obtain ⟨v1, hv1, h⟩ := bind_eq_ok h
    have hs := VEC_ADVANCE_UNSAFE_suffix hv1
    split at h
    · obtain ⟨_, _, h⟩ := bind_eq_ok h
      obtain ⟨c, _, h⟩ := bind_eq_ok h
      obtain ⟨v2, hv2, h⟩ := bind_eq_ok h
      cases h
      exact (VEC_ADVANCE_UNSAFE_suffix hv2).trans hs
    · split at h
      · cases h
      · cases h
        exact hs

theorem image_data_suffix {u : Uninit} {i : ImageSetup} {r : List Nat × List UInt8}
    (h : image_data u i = .ok r) : r.2 <:+ i.v := by
  unfold image_data at h
  simp only [] at h
  obtain ⟨_, _, h⟩ := bind_eq_ok h
  obtain ⟨m, _, h⟩ := bind_eq_ok h
  obtain ⟨v1, hv1, h⟩ := bind_eq_ok h
  obtain ⟨b, _, h⟩ := bind_eq_ok h
  split at h
  · cases h
  · exact (sub_blocks_suffix _ u i.g _ _ _ _ _ h).trans (VEC_ADVANCE_UNSAFE_suffix hv1)

theorem image_finish_suffix {u : Uninit} {frame : gif_frame} {i : ImageSetup}
    {indices : List Nat} {v : List UInt8} {s' : DState}
    (h : image_finish u frame i indices v = .ok s') : s'.v <:+ v := by
  unfold image_finish at h
  simp only [] at h
  split at h
  · cases h
  · obtain ⟨v1, hv1, h⟩ := bind_eq_ok h
    split at h
    · obtain ⟨ind, _, h⟩ := bind_eq_ok h
      cases h
      exact VEC_ADVANCE_suffix hv1
    · cases h
      exact VEC_ADVANCE_suffix hv1

theorem parse_image_suffix {u : Uninit} {s s' : DState} (h : parse_image u s = .ok s') :
    s'.v <:+ s.v := by
  unfold parse_image at h
  split at h
  · cases h
  · rename_i i hd
    split at h
    · cases h
    · rename_i ind v hi
      exact ((image_finish_suffix h).trans (image_data_suffix hi)).trans
        (image_descriptor_suffix hd)

theorem graphic_control_suffix {s s' : DState} {bytes : Nat} {v : List UInt8}
    (h : graphic_control s bytes v = .ok s') : s'.v <:+ v := by
  unfold graphic_control at h
  simp only [] at h
  obtain ⟨_, _, h⟩ := bind_eq_ok h
  obtain ⟨pb, _, h⟩ := bind_eq_ok h
  obtain ⟨fr, _, h⟩ := bind_eq_ok h
  obtain ⟨d, _, h⟩ := bind_eq_ok h
  obtain ⟨v1, hv1, h⟩ := bind_eq_ok h
  obtain ⟨b, _, h⟩ := bind_eq_ok h
  split at h
  · cases h
  · obtain ⟨v2, hv2, h⟩ := bind_eq_ok h
    cases h
    exact (VEC_ADVANCE_suffix hv2).trans (VEC_ADVANCE_UNSAFE_suffix hv1)

theorem parse_extension_suffix {s s' : DState} (h : parse_extension s = .ok s') :
    s'.v <:+ s.v := by
  unfold parse_extension at h
  simp only [] at h
  obtain ⟨_, _, h⟩ := bind_eq_ok h
  obtain ⟨l, _, h⟩ := bind_eq_ok h
  obtain ⟨v1, hv1, h⟩ := bind_eq_ok h
  obtain ⟨b, _, h⟩ := bind_eq_ok h
  have hs := VEC_ADVANCE_UNSAFE_suffix hv1
  split at h
  · exact (graphic_control_suffix h).trans hs
  · obtain ⟨v2, hv2, h⟩ := bind_eq_ok h
    obtain ⟨v3, hv3, h⟩ := bind_eq_ok h
    cases h
    exact ((VEC_ADVANCE_suffix hv3).trans (skip_sub_blocks_suffix _ _ _ _ _ hv2)).trans hs

theorem block_suffix {u : Uninit} {s s' : DState} (h : block u s = .ok (some s')) :
    s'.v <:+ s.v := by
  unfold block at h
  obtain ⟨_, _, h⟩ := bind_eq_ok h
  obtain ⟨sep, _, h⟩ := bind_eq_ok h
  split at h
  · cases hp : parse_image u s with
    | error e => rw [hp] at h; cases h
    | ok a =>
      rw [hp] at h
      cases h
      exact parse_image_suffix hp
  · split at h
    · cases hp : parse_extension s with
      | error e => rw [hp] at h; cases h
      | ok a =>
        rw [hp] at h
        cases h
        exact parse_extension_suffix hp
    · split at h <;> cases h

theorem reaches_suffix {u : Uninit} {buf : List UInt8} {s : DState} (h : Reaches u buf s) :
    s.v <:+ buf := by
  induction h with
  | start s hs =>
    obtain ⟨_, _, hc⟩ := header_ok_cases hs
    rcases hc with ⟨_, _, _, e⟩ | ⟨_, e⟩
    · subst e
      exact (List.drop_suffix _ _).trans (List.drop_suffix _ _)
    · subst e
      exact List.drop_suffix _ _
  | step s s' _ hb ih => exact (block_suffix hb).trans ih

theorem reaches_drop {u : Uninit} {buf : List UInt8} {s : DState} (h : Reaches u buf s) :
    s.v = buf.drop (buf.length - s.v.length) :=
  List.suffix_iff_eq_drop.mp (reaches_suffix h)

theorem attached_append (ks l : List Kind) :
    ∀ p, attached p (ks ++ l) = attached p ks ++ attached (pending p ks) l := by
  induction ks with
  | nil => intro p; rfl
  | cons k ks ih =>
    intro p
    cases k with
    | image => simp [attached, pending, ih]
    | gce => simp [attached, pending, ih]
    | other => simp [attached, pending, ih]

theorem pending_append (ks l : List Kind) :
    ∀ p, pending p (ks ++ l) = pending (pending p ks) l := by
  induction ks with
  | nil => intro p; rfl
  | cons k ks ih =>
    intro p
    cases k with
    | image => simp [pending, ih]
    | gce => simp [pending, ih]
    | other => simp [pending, ih]

theorem attached_length (ks : List Kind) :
    ∀ p, (attached p ks).length = ks.count .image := by
  induction ks with
  | nil => intro p; rfl
  | cons k ks ih =>
    intro p
    cases k with
    | image => simp [attached, ih]
    | gce => simp [attached, ih]
    | other => simp [attached, ih]

theorem attached_segment (seg rest : List Kind) (hseg : Kind.image ∉ seg) :
    ∀ p, attached p (seg ++ .image :: rest)
      = (p || decide (Kind.gce ∈ seg)) :: attached false rest := by
  induction seg with
  | nil => intro p; simp [attached]
  | cons k seg ih =>
    intro p
    have hs : Kind.image ∉ seg := fun h => hseg (List.mem_cons_of_mem _ h)
    cases k with
    | image => exact absurd (List.mem_cons_self _ _) hseg
    | gce => simp [attached, ih hs]
    | other => simp [attached, ih hs]

theorem gce_disposal_ok (frame : gif_frame) (p : Nat) :
    DisposalOk (gce_disposal frame p).disposal_method := by
  unfold gce_disposal
  dsimp only
  split
  · exact Or.inl rfl
  · rename_i h
    have h7 : (p >>> 2) &&& 7 < 8 := Nat.and_lt_two_pow _ (show 7 < 2 ^ 3 by decide)
    have h1 : (p >>> 2) &&& 7 = 1 ∨ (p >>> 2) &&& 7 = 2 ∨ (p >>> 2) &&& 7 = 3 := by omega
    rcases h1 with h1 | h1 | h1
    · exact Or.inl h1
    · exact Or.inr (Or.inl h1)
    · exact Or.inr (Or.inr h1)

theorem gce_user_input_disposal (frame : gif_frame) (p : Nat) :
    (gce_user_input frame p).disposal_method = frame.disposal_method := by
  unfold gce_user_input; split <;> rfl

theorem gce_transparent_info (frame : gif_frame) (packed_byte : Nat) (v : List UInt8)
    (h : 5 ≤ v.length) :
    Post (gce_transparent frame packed_byte v)
      (fun f => f.disposal_method = frame.disposal_method) := by
  unfold gce_transparent
  split
  · rw [VEC_AT_UNSAFE_ok (by omega)]
    exact post_ok rfl
  · exact post_ok rfl

theorem graphic_control_info (s : DState) (v : List UInt8) :
    Post (graphic_control s 4 v) (fun s' =>
      s'.g = s.g ∧ s'.is_frame = 1
        ∧ s'.frame.disposal_method = (gce_disposal s.frame (byte v 1)).disposal_method) := by
  unfold graphic_control
  by_cases hlen : v.length < 4 + 2
  · simp only [VEC_MUST, hlen, if_true, bind_error_eq]
    exact post_ret _ _ _ (by decide)
  · have hd : (v.drop 5).length = v.length - 5 := by simp
    simp (disch := omega) only [VEC_MUST, hlen, if_false, bind_ok_eq, VEC_AT_UNSAFE_ok,
      VEC_AT_U16_LE_UNSAFE_ok, VEC_ADVANCE_UNSAFE_ok]
    refine post_bind (gce_transparent_info _ _ _ (by omega)) (fun frame hf => ?_)
    have hd2 : (v.drop (4 + 1)).length = v.length - 5 := by simp
    rw [VEC_AT_UNSAFE_ok (by omega)]
    simp only [bind_ok_eq]
    split
    · exact post_ret _ _ _ (by decide)
    · refine post_bind (VEC_ADVANCE_post _ _ _) (fun v' hv' => ?_)
      refine post_ok ⟨rfl, rfl, ?_⟩
      show frame.disposal_method = _
      rw [hf, gce_user_input_disposal]

theorem parse_extension_info (s : DState) :
    Post (parse_extension s) (fun s' => s'.g = s.g
      ∧ ((byte s.v 1 = 0xF9 ∧ byte s.v 2 = 0x4) → s'.is_frame = 1
          ∧ s'.frame.disposal_method
              = (gce_disposal s.frame (byte s.v 3)).disposal_method)
      ∧ (¬ (byte s.v 1 = 0xF9 ∧ byte s.v 2 = 0x4) →
          s'.is_frame = s.is_frame ∧ s'.frame = s.frame)) := by
  unfold parse_extension
  by_cases hlen : s.v.length < 3
  · simp only [VEC_MUST, hlen, if_true, bind_error_eq]
    exact post_ret _ _ _ (by decide)
  · have hd : (s.v.drop 2).length = s.v.length - 2 := by simp
    have hb0 : byte (s.v.drop 2) 0 = byte s.v 2 := by simp [byte, List.getD]
    have hb1 : byte (s.v.drop 2) 1 = byte s.v 3 := by simp [byte, List.getD]
    simp (disch := omega) only [VEC_MUST, hlen, if_false, bind_ok_eq, VEC_AT_UNSAFE_ok,
      VEC_ADVANCE_UNSAFE_ok]
    rw [hb0]
    split
    · rename_i h
      rw [h.2]
      refine post_mono (graphic_control_info s _) ?_
      rintro s' ⟨h1, h2, h3⟩
      rw [hb1] at h3
      exact ⟨h1, fun _ => ⟨h2, h3⟩, fun hn => absurd ⟨h.1, rfl⟩ hn⟩
    · rename_i h
      refine post_bind (skip_sub_blocks_post _ _ _ _ (Nat.lt_succ_self _)) (fun v1 hv1 => ?_)
      refine post_bind (VEC_ADVANCE_post _ _ _) (fun v2 hv2 => ?_)
      exact post_ok ⟨rfl, fun hy => absurd hy h, fun _ => ⟨rfl, rfl⟩⟩

theorem parse_image_info (u : Uninit) (s : DState) :
    Post (parse_image u s) (fun s' => s'.frame = s.frame ∧ s'.is_frame = 0
      ∧ ∃ img, s'.g.images = s.g.images ++ [img]
          ∧ (img.flags &&& GIF_IMAGE_FLAG_FRAME ≠ 0 ↔ s.is_frame ≠ 0)
          ∧ (s.is_frame ≠ 0 → img.frame = s.frame)) := by
  unfold parse_image
  have hd := image_descriptor_post s
  split
  · rename_i e he
    rw [he] at hd
    exact hd
  · rename_i i he
    obtain ⟨_, hif, hg, hfl, hfr, _, _⟩ := image_descriptor_info he
    have hdat := image_data_post (u.image s.g.num_images) i
    split
    · rename_i e he2
      rw [he2] at hdat
      exact hdat
    · rename_i ind v he2
      refine post_mono (image_finish_post (u.image s.g.num_images) s.frame i ind v) ?_
      rintro s' ⟨_, h2, h3, ind', h4, _⟩
      refine ⟨h2, h3.trans hif, { i.img with indices := ind' }, ?_, hfl, hfr⟩
      rw [h4, hg, set_imgp_indices_push]
      simp

theorem block_kind_post (u : Uninit) (s : DState) :
    Post (block u s) (fun r => ∀ s', r = some s' → KindPost s s') := by
  unfold block
  by_cases hlen : s.v.length < 1
  · simp only [VEC_MUST, hlen, if_true, bind_error_eq]
    exact post_ret _ _ _ (by decide)
  · simp (disch := omega) only [VEC_MUST, hlen, if_false, bind_ok_eq, VEC_AT_UNSAFE_ok]
    split
    · rename_i hsep
      refine post_mono (post_map_some (parse_image_info u s)) ?_
      intro r hr s' hs'
      have hk : block_kind s = .image := by simp [block_kind, hsep]
      unfold KindPost
      rw [hk]
      exact hr s' hs'
    · rename_i hsep
      split
      · rename_i hext
        refine post_mono (post_map_some (parse_extension_info s)) ?_
        intro r hr s' hs'
        obtain ⟨h1, h2, h3⟩ := hr s' hs'
        unfold KindPost
        by_cases hg : byte s.v 1 = 0xF9 ∧ byte s.v 2 = 0x4
        · have hk : block_kind s = .gce := by simp [block_kind, hsep, hext, hg]
          rw [hk]
          exact ⟨h1, (h2 hg).1, (h2 hg).2⟩
        · have hk : block_kind s = .other := by
            unfold block_kind
            rw [if_neg hsep, if_neg (fun h => hg h.2)]
          rw [hk]
          exact ⟨h1, (h3 hg).1, (h3 hg).2⟩
      · split
        · refine post_ok ?_
          intro s' hs'
          cases hs'
        · exact post_ret _ _ _ (by decide)

theorem block_kind_some {u : Uninit} {s s' : DState} (h : block u s = .ok (some s')) :
    KindPost s s' := by
  have hb := block_kind_post u s
  rw [h] at hb
  exact hb s' rfl

theorem pending_false_iff (b : Bool) (n : Nat) (h : n ≠ 0 ↔ b = true) :
    ¬ (n ≠ 0) ↔ b = false := by
  cases b <;> simp_all

theorem trace_frames {u : Uninit} {buf : List UInt8} {ks : List Kind} {s : DState}
    (h : Trace u buf ks s) :
    s.g.images.map (fun img => decide (img.flags &&& GIF_IMAGE_FLAG_FRAME ≠ 0))
        = attached false ks
      ∧ (s.is_frame ≠ 0 ↔ pending false ks = true) ∧ FramesOk s := by
  induction h with
  | start s hs =>
    obtain ⟨_, _, hc⟩ := header_ok_cases hs
    rcases hc with ⟨_, _, _, e⟩ | ⟨_, e⟩ <;> subst e <;>
      exact ⟨rfl, by simp [pending], fun h0 => absurd rfl h0, fun img hm => by cases hm⟩
  | step ks s s' _ hb ih =>
    obtain ⟨h1, h2, h3, h4⟩ := ih
    have hk := block_kind_some hb
    unfold KindPost at hk
    rw [attached_append, pending_append]
    cases hkind : block_kind s with
    | image =>
      rw [hkind] at hk
      obtain ⟨k1, k2, img, k3, k4, k5⟩ := hk
      refine ⟨?_, ?_, ?_, ?_⟩
      · rw [k3, List.map_append, h1]
        congr 1
        simp only [attached, List.map_cons, List.map_nil, List.cons.injEq, and_true]
        by_cases hf : s.is_frame ≠ 0
        · rw [h2.mp hf]
          exact decide_eq_true (k4.mpr hf)
        · rw [(pending_false_iff _ _ h2).mp hf]
          exact decide_eq_false (fun hc => hf (k4.mp hc))
      · simp [pending, k2]
      · intro h0
        exact absurd k2 h0
      · intro im hm hfl
        rw [k3] at hm
        rcases List.mem_append.mp hm with hm | hm
        · exact h4 im hm hfl
        · have e : im = img := by simpa using hm
          subst e
          have hs0 := k4.mp hfl
          rw [k5 hs0]
          exact h3 hs0
    | gce =>
      rw [hkind] at hk
      obtain ⟨k1, k2, k3⟩ := hk
      refine ⟨?_, ?_, ?_, ?_⟩
      · rw [k1, h1]
        simp [attached]
      · simp [pending, k2]
      · intro _
        rw [k3]
        exact gce_disposal_ok _ _
      · rw [k1]
        exact h4
    | other =>
      rw [hkind] at hk
      obtain ⟨k1, k2, k3⟩ := hk
      refine ⟨?_, ?_, ?_, ?_⟩
      · rw [k1, h1]
        simp [attached]
      · rw [k2]
        simpa [pending] using h2
      · rw [k2, k3]
        exact h3
      · rw [k1]
        exact h4

theorem tb29 : take_bits 3 2 0 1 10 = (1, 3, 1) := by decide

theorem decode_overrun (u : Uninit) (g : gif) (nc req : Nat) (T : Nat → gif_code)
    (sz co bo nx x y z : Nat) (ind : List Nat) (bytes : Nat) (v : List UInt8)
    (h1 : T 1 = ⟨1, x, 1, y, z⟩) (hreq : req < ind.length + 1) :
    decode_code ⟨2, nc, req⟩ u g ⟨T, 0, sz, 1, 1, co, bo, nx, ind⟩ bytes v
      = .ok (.end_code_stream ind v) := by
  simp [decode_code, decode_inuse, code_table_at, h1, lzw_state.num_indices, hreq]

theorem overrun_data (u : Uninit) (i : ImageSetup) (w : List UInt8)
    (hn : i.num_colors = 2) (hw : i.img.width = 1) (hh : i.img.height = 1)
    (hv : i.v = 2 :: 2 :: 0x4C :: 0x0A :: w) (hl : 1 ≤ w.length) :
    image_data u i = .ok ([1], 0x0A :: w) := by
  unfold image_data
  rw [hv, hn, hw, hh]
  simp only [VEC_MUST, VEC_AT_UNSAFE, VEC_ADVANCE_UNSAFE]
  simp [UInt8.size]
  have hs : lzw_start u 2 2 = ⟨init_code_table u 2, 1, 3, 0, 0, 0, 0, 6, []⟩ := rfl
  have r1 : ∀ (T : Nat → gif_code) (ind : List Nat),
      read_bits ⟨T, 1, 3, 0, 0, 0, 0, 6, ind⟩ 2 (0x4C :: 0x0A :: w)
        = .ok (⟨T, 1, 3, 0, 4, 3, 3, 6, ind⟩, 2, 0x4C :: 0x0A :: w) := by
    intro T ind
    simp [read_bits_cons, tb25, UInt8.size]
  have r2 : ∀ (T : Nat → gif_code) (ind : List Nat),
      read_bits ⟨T, 1, 3, 0, 0, 0, 3, 6, ind⟩ 2 (0x4C :: 0x0A :: w)
        = .ok (⟨T, 1, 3, 0, 1, 3, 6, 6, ind⟩, 2, 0x4C :: 0x0A :: w) := by
    intro T ind
    simp [read_bits_cons, tb26, UInt8.size]
  have r3 : ∀ (T : Nat → gif_code) (ind : List Nat),
      read_bits ⟨T, 0, 3, 1, 0, 0, 6, 6, ind⟩ 2 (0x4C :: 0x0A :: w)
        = .ok (⟨T, 0, 3, 1, 1, 2, 0, 6, ind⟩, 1, 0x0A :: w) := by
    intro T ind
    simp [read_bits_cons, tb27, UInt8.size]
  have r4 : ∀ (T : Nat → gif_code) (ind : List Nat),
      read_bits ⟨T, 0, 3, 1, 1, 2, 0, 6, ind⟩ 1 (0x0A :: w)
        = .ok (⟨T, 0, 3, 1, 1, 3, 1, 6, ind⟩, 1, 0x0A :: w) := by
    intro T ind
    simp [read_bits_cons, tb29, UInt8.size]
  have e0 : ¬ (w.length + 1 + 1 + 1 + 1 < 2) := by omega
  simp only [e0, if_false, bind_ok_eq]
  rw [sub_blocks_succ _ u _ _ _ 2 2 _ (by decide) (by simp; omega), hs,
    show 8 * 2 + 1 = 16 + 1 from rfl,
    code_loop_code _ u _ 16 _ _ _ _ _ _ _ (by decide) (r1 _ _) rfl
      (decode_clear_any u _ 2 1 _ 1 3 0 3 3 6 _ _ _),
    show (16 : Nat) = 15 + 1 from rfl,
    code_loop_code _ u _ 15 _ _ _ _ _ _ _ (by decide) (r2 _ _) rfl
      (decode_first_one u _ 1 _ 3 0 3 6 6 [] _ _ (by simp)),
    show (15 : Nat) = 14 + 1 from rfl,
    code_loop_part _ u _ 14 _ _ _ _ _ _ (by decide) (r3 _ _) (by simp),
    show (14 : Nat) = 13 + 1 from rfl,
    code_loop_end _ u _ 13 _ _ _ _ _ _ _ _ (by decide) (r4 _ _) rfl
      (decode_overrun u _ 2 1 _ 3 3 1 6 GIF_CODE_NO_PREFIX 1 1 _ 1 _
        (by simp [clear_code_table, init_code_table]) (by simp))]
  rfl

theorem ext_eof {α : Type} (f : α → α) (g : gif) (r' : Except Outcome α) :
    Ext f (.error (.ret GIF_ERR_EOF (gif_free g))) r' := Or.inl rfl

theorem ext_error {α : Type} (f : α → α) (e : Outcome) :
    Ext f (.error e : Except Outcome α) (.error e) := Or.inr rfl

theorem ext_ok {α : Type} (f : α → α) (a : α) :
    Ext f (.ok a : Except Outcome α) (.ok (f a)) := rfl

theorem ext_of_map {α : Type} (f : α → α) (r r' : Except Outcome α) (h : r' = r.map f) :
    Ext f r r' := by
  subst h
  cases r with
  | error e => exact Or.inr rfl
  | ok a => rfl

theorem ext_bind {α β : Type} {f : α → α} {g : β → β} {x x' : Except Outcome α}
    {k k' : α → Except Outcome β} (hx : Ext f x x') (hk : ∀ a, Ext g (k a) (k' (f a))) :
    Ext g (x >>= k) (x' >>= k') := by
  cases x with
  | error e =>
    rcases hx with h | h
    · exact Or.inl h
    · rw [h]
      exact Or.inr rfl
  | ok a =>
    have : x' = .ok (f a) := hx
    rw [this]
    exact hk a

theorem ext_map {α β : Type} {f : α → α} {g : β → β} {x x' : Except Outcome α}
    (m : α → β) (hx : Ext f x x') (hm : ∀ a, m (f a) = g (m a)) :
    Ext g (x.map m) (x'.map m) := by
  cases x with
  | error e =>
    rcases hx with h | h
    · exact Or.inl h
    · rw [h]
      exact Or.inr rfl
  | ok a =>
    have : x' = .ok (f a) := hx
    rw [this]
    show Except.ok (m (f a)) = Except.ok (g (m a))
    rw [hm]

theorem byte_append {v x : List UInt8} {i : Nat} (h : i < v.length) :
    byte (v ++ x) i = byte v i := by
  simp [byte, List.getD, List.getElem?_append_left h]

theorem VEC_MUST_append {g : gif} {v x : List UInt8} {n : Nat} (h : ¬ v.length < n) :
    VEC_MUST g (v ++ x) n = .ok () := by
  simp [VEC_MUST]
  omega

theorem VEC_MUST_ok {g : gif} {v : List UInt8} {n : Nat} (h : ¬ v.length < n) :
    VEC_MUST g v n = .ok () := by
  unfold VEC_MUST
  rw [if_neg h]

theorem VEC_AT_UNSAFE_append {v x : List UInt8} {i : Nat} (h : i < v.length) :
    VEC_AT_UNSAFE (v ++ x) i = .ok (byte v i) := by
  rw [VEC_AT_UNSAFE_ok (by simp; omega), byte_append h]

theorem VEC_AT_U16_LE_UNSAFE_append {v x : List UInt8} {i : Nat} (h : i + 1 < v.length) :
    VEC_AT_U16_LE_UNSAFE (v ++ x) i = .ok (byte v i + 256 * byte v (i + 1)) := by
  rw [VEC_AT_U16_LE_UNSAFE_ok (by simp; omega), byte_append (by omega), byte_append h]

theorem VEC_ADVANCE_UNSAFE_append {v x : List UInt8} {n : Nat} (h : n ≤ v.length) :
    VEC_ADVANCE_UNSAFE (v ++ x) n = .ok (v.drop n ++ x) := by
  rw [VEC_ADVANCE_UNSAFE_ok (by simp; omega), List.drop_append_of_le_length h]

theorem VEC_ADVANCE_append {g : gif} {v x : List UInt8} {n : Nat} (h : ¬ v.length < n) :
    VEC_ADVANCE g (v ++ x) n = .ok (v.drop n ++ x) := by
  unfold VEC_ADVANCE
  rw [if_neg (by simp; omega), List.drop_append_of_le_length (by omega)]

theorem VEC_ADVANCE_ok {g : gif} {v : List UInt8} {n : Nat} (h : ¬ v.length < n) :
    VEC_ADVANCE g v n = .ok (v.drop n) := by
  unfold VEC_ADVANCE
  rw [if_neg h]

theorem copy_bytes_append {v x : List UInt8} {n : Nat} (h : n ≤ v.length) :
    copy_bytes (v ++ x) n = .ok (v.take n) := by
  rw [copy_bytes_ok (by simp; omega), List.take_append_of_le_length h]

theorem parse_header_ext (buf x : List UInt8) :
    Ext (DState.ext x) (parse_header buf) (parse_header (buf ++ x)) := by
  rw [parse_header_eq buf, parse_header_eq (buf ++ x)]
  by_cases h13 : buf.length < 13
  · rw [if_pos h13]
    exact Or.inl rfl
  · have hs : signature_ok (buf ++ x) ↔ signature_ok buf := by
      unfold signature_ok
      rw [byte_append (by omega), byte_append (by omega), byte_append (by omega),
        byte_append (by omega), byte_append (by omega), byte_append (by omega)]
    have hg : header_gif (buf ++ x) = header_gif buf := by
      unfold header_gif u16_le
      rw [byte_append (by omega), byte_append (by omega), byte_append (by omega),
        byte_append (by omega), byte_append (by omega), byte_append (by omega)]
    have h13' : ¬ (buf ++ x).length < 13 := by simp; omega
    have h10 : byte (buf ++ x) 10 = byte buf 10 := byte_append (by omega)
    have h11 : byte (buf ++ x) 11 = byte buf 11 := byte_append (by omega)
    simp only [if_neg h13, if_neg h13', hs, hg, h10, h11]
    split
    · exact Or.inr rfl
    · split
      · split
        · exact Or.inr rfl
        · split
          · exact Or.inl rfl
          · rename_i hl
            have hl' : ¬ (buf ++ x).length < 13 + 1 <<< ((byte buf 10 &&& 7) + 1) * 3 := by
              simp; omega
            rw [if_neg hl']
            show _ = Except.ok _
            simp only [DState.ext]
            rw [List.drop_append_of_le_length (by omega),
              List.take_append_of_le_length (by simp; omega),
              List.drop_append_of_le_length (by simp; omega)]
      · show _ = Except.ok _
        simp only [DState.ext]
        rw [List.drop_append_of_le_length (by omega)]

theorem skip_sub_blocks_ext (g : gif) (x : List UInt8) :
    ∀ (fuel fuel' bytes : Nat) (v : List UInt8), v.length < fuel → (v ++ x).length < fuel' →
      Ext (fun v => v ++ x) (skip_sub_blocks g fuel bytes v)
        (skip_sub_blocks g fuel' bytes (v ++ x)) := by
  intro fuel
  induction fuel with
  | zero => intro _ _ _ h; omega
  | succ n ih =>
    intro fuel' bytes v hf hf'
    cases fuel' with
    | zero => omega
    | succ n' =>
      unfold skip_sub_blocks
      by_cases hb : bytes = 0
      · rw [if_pos hb, if_pos hb]
        rfl
      · rw [if_neg hb, if_neg hb]
        by_cases hl : v.length < bytes + 2
        · simp only [VEC_MUST, hl, if_true, bind_error_eq]
          exact Or.inl rfl
        · have hd : (v.drop (bytes + 1)).length = v.length - (bytes + 1) := by simp
          simp (disch := omega) only [VEC_MUST_append, VEC_ADVANCE_UNSAFE_append,
            VEC_AT_UNSAFE_append, VEC_MUST_ok, bind_ok_eq, VEC_AT_UNSAFE_ok,
            VEC_ADVANCE_UNSAFE_ok]
          refine ih n' (byte (v.drop (bytes + 1)) 0) (v.drop (bytes + 1)) (by omega) ?_
          simp only [List.length_append] at hf' ⊢
          omega

theorem gce_transparent_ext (frame : gif_frame) (p : Nat) (v x : List UInt8)
    (h : 5 ≤ v.length) : gce_transparent frame p (v ++ x) = gce_transparent frame p v := by
  unfold gce_transparent
  rw [VEC_AT_UNSAFE_append (by omega), VEC_AT_UNSAFE_ok (by omega)]

theorem graphic_control_ext (s : DState) (v x : List UInt8) :
    Ext (DState.ext x) (graphic_control s 4 v) (graphic_control (s.ext x) 4 (v ++ x)) := by
  unfold graphic_control
  by_cases hlen : v.length < 4 + 2
  · simp only [VEC_MUST, hlen, if_true, bind_error_eq]
    exact Or.inl rfl
  · have hd : (v.drop 5).length = v.length - 5 := by simp
    have hd2 : (v.drop (4 + 1)).length = v.length - 5 := by simp
    simp (disch := omega) only [VEC_MUST_append, VEC_ADVANCE_UNSAFE_append,
      VEC_AT_UNSAFE_append, VEC_AT_U16_LE_UNSAFE_append, VEC_MUST_ok,
      bind_ok_eq, VEC_AT_UNSAFE_ok, VEC_AT_U16_LE_UNSAFE_ok, VEC_ADVANCE_UNSAFE_ok,
      gce_transparent_ext, DState.ext]
    cases gce_transparent (gce_user_input (gce_disposal s.frame (byte v 1)) (byte v 1))
        (byte v 1) v with
    | error e => exact Or.inr rfl
    | ok frame =>
      simp only [bind_ok_eq]
      split
      · exact Or.inr rfl
      · have h1 : ¬ (v.drop (4 + 1)).length < 1 := by omega
        rw [VEC_ADVANCE_ok h1, VEC_ADVANCE_append h1]
        rfl

theorem parse_extension_ext (s : DState) (x : List UInt8) :
    Ext (DState.ext x) (parse_extension s) (parse_extension (s.ext x)) := by
  unfold parse_extension
  by_cases hlen : s.v.length < 3
  · simp only [VEC_MUST, hlen, if_true, bind_error_eq]
    exact Or.inl rfl
  · have hd : (s.v.drop 2).length = s.v.length - 2 := by simp
    simp (disch := omega) only [VEC_MUST_append, VEC_ADVANCE_UNSAFE_append,
      VEC_AT_UNSAFE_append, VEC_MUST_ok, bind_ok_eq, VEC_AT_UNSAFE_ok,
      VEC_ADVANCE_UNSAFE_ok, DState.ext]
    split
    · rename_i h
      rw [h.2]
      exact graphic_control_ext s _ x
    · refine ext_bind (skip_sub_blocks_ext _ x _ _ _ _ (Nat.lt_succ_self _)
        (Nat.lt_succ_self _)) (fun v1 => ?_)
      by_cases h1 : v1.length < 1
      · simp only [VEC_ADVANCE, h1, if_true, bind_error_eq]
        exact Or.inl rfl
      · rw [VEC_ADVANCE_ok h1, VEC_ADVANCE_append h1]
        rfl

theorem insert_code_ext (p : lzw_params) (st : lzw_state) (len pc index fi : Nat)
    (v x : List UInt8) :
    insert_code p st len pc index fi (v ++ x)
      = (insert_code p st len pc index fi v).map (Step.ext x) := by
  unfold insert_code
  split
  · rfl
  · split
    · rfl
    · cases code_table_set st.code_table st.next_code
          { len := len, prefix_code := pc, inuse := 1, index := index, first_index := fi } with
      | error e => rfl
      | ok t =>
        simp only [bind_ok_eq]
        split
        · rfl
        · split <;> rfl

theorem decode_inuse_ext (p : lzw_params) (u : Uninit) (g : gif) (st : lzw_state)
    (prev centry : gif_code) (v x : List UInt8) :
    decode_inuse p u g st prev centry (v ++ x)
      = (decode_inuse p u g st prev centry v).map (Step.ext x) := by
  unfold decode_inuse
  simp only []
  split
  · rfl
  · cases walk g st.code_table centry.len (centry.len + 1) (fresh_stack u st.num_indices)
      st.code 0 with
    | error e => rfl
    | ok stack =>
      simp only [bind_ok_eq]
      cases emit p.req_indices stack centry.len 0 st.indices with
      | error e => rfl
      | ok indices =>
        simp only [bind_ok_eq]
        exact insert_code_ext _ _ _ _ _ _ _ _

theorem decode_unused_ext (p : lzw_params) (u : Uninit) (g : gif) (st : lzw_state)
    (prev : gif_code) (v x : List UInt8) :
    decode_unused p u g st prev (v ++ x)
      = (decode_unused p u g st prev v).map (Step.ext x) := by
  unfold decode_unused
  simp only []
  cases stack_set (fresh_stack u st.num_indices) ((prev.len + 1) % 65536)
      ((((prev.len + 1) % 65536 : Nat) : Int) - 1) prev.first_index with
  | error e => rfl
  | ok stack =>
    simp only [bind_ok_eq]
    split
    · rfl
    · cases walk g st.code_table ((prev.len + 1) % 65536) ((prev.len + 1) % 65536 + 1) stack
          st.prev_code 1 with
      | error e => rfl
      | ok stack =>
        simp only [bind_ok_eq]
        cases emit p.req_indices stack ((prev.len + 1) % 65536) 0 st.indices with
        | error e => rfl
        | ok indices =>
          simp only [bind_ok_eq]
          exact insert_code_ext _ _ _ _ _ _ _ _

theorem decode_code_ext (p : lzw_params) (u : Uninit) (g : gif) (st : lzw_state)
    (bytes : Nat) (v x : List UInt8) (hb : bytes ≤ v.length) :
    decode_code p u g st bytes (v ++ x)
      = (decode_code p u g st bytes v).map (Step.ext x) := by
  unfold decode_code
  split
  · split
    · rw [VEC_ADVANCE_UNSAFE_append hb, VEC_ADVANCE_UNSAFE_ok hb]
      rfl
    · rfl
  · split
    · rfl
    · split
      · split
        · rfl
        · split
          · rfl
          · cases indices_put p.req_indices st.indices (st.code % 256) with
            | error e => rfl
            | ok ind => rfl
      · cases code_table_at st.code_table st.prev_code with
        | error e => rfl
        | ok prev =>
          simp only [bind_ok_eq]
          split
          · rfl
          · cases code_table_at st.code_table st.code with
            | error e => rfl
            | ok centry =>
              simp only [bind_ok_eq]
              split
              · exact decode_inuse_ext _ _ _ _ _ _ _ _
              · exact decode_unused_ext _ _ _ _ _ _ _

theorem read_bits_ext (st : lzw_state) (bytes : Nat) (v x : List UInt8)
    (hv : 1 ≤ v.length) :
    read_bits st bytes (v ++ x)
      = (read_bits st bytes v).map (fun r => (r.1, r.2.1, r.2.2 ++ x)) := by
  unfold read_bits
  simp only []
  rw [VEC_AT_UNSAFE_append (by omega), VEC_AT_UNSAFE_ok (by omega)]
  simp only [bind_ok_eq]
  split
  · rw [VEC_ADVANCE_UNSAFE_append (by omega), VEC_ADVANCE_UNSAFE_ok (by omega)]
    rfl
  · rfl

theorem read_bits_length (st : lzw_state) (bytes : Nat) (v : List UInt8) (hb : bytes ≠ 0)
    (hv : bytes + 1 ≤ v.length) :
    ∃ st' bytes' v', read_bits st bytes v = .ok (st', bytes', v')
      ∧ bytes' + 1 ≤ v'.length := by
  unfold read_bits
  simp only []
  rw [VEC_AT_UNSAFE_ok (by omega)]
  simp only [bind_ok_eq]
  split
  · rw [VEC_ADVANCE_UNSAFE_ok (by omega)]
    refine ⟨_, _, _, rfl, ?_⟩
    simp only [List.length_drop]
    omega
  · exact ⟨_, _, _, rfl, hv⟩

theorem code_loop_ext (p : lzw_params) (u : Uninit) (g : gif) (x : List UInt8) :
    ∀ (fuel : Nat) (st : lzw_state) (bytes : Nat) (v : List UInt8), bytes + 1 ≤ v.length →
      code_loop p u g fuel st bytes (v ++ x)
        = (code_loop p u g fuel st bytes v).map (Flow.ext x) := by
  intro fuel
  induction fuel with
  | zero => intro st bytes v _; rfl
  | succ n ih =>
    intro st bytes v hv
    unfold code_loop
    by_cases hb : bytes = 0
    · rw [if_pos hb, if_pos hb]
      rfl
    · rw [if_neg hb, if_neg hb]
      obtain ⟨st', bytes', v', hr, hl⟩ := read_bits_length st bytes v hb hv
      rw [read_bits_ext st bytes v x (by omega), hr]
      simp only [map_ok_eq]
      split
      · rw [decode_code_ext p u g st' bytes' v' x (by omega)]
        cases hd : decode_code p u g st' bytes' v' with
        | error e => rfl
        | ok r =>
          cases r with
          | next st2 =>
            simp only [map_ok_eq, Step.ext]
            exact ih st2 bytes' v' hl
          | end_code_stream ind v2 => rfl
      · exact ih st' bytes' v' hl

theorem sub_blocks_ext (p : lzw_params) (u : Uninit) (g : gif) (x : List UInt8)
    (hm : p.min_lzw_code_size ≤ 8) :
    ∀ (fuel fuel' : Nat) (st : lzw_state) (bytes : Nat) (v : List UInt8),
      v.length < fuel → (v ++ x).length < fuel' → st.bit_off < 8 →
      st.code_off < st.lzw_code_size →
      Ext (fun r => (r.1, r.2 ++ x)) (sub_blocks p u g fuel st bytes v)
        (sub_blocks p u g fuel' st bytes (v ++ x)) := by
  intro fuel
  induction fuel with
  | zero => intro _ _ _ _ h; omega
  | succ n ih =>
    intro fuel' st bytes v hf hf' h8 hc
    cases fuel' with
    | zero => omega
    | succ n' =>
      unfold sub_blocks
      by_cases hb : bytes = 0
      · rw [if_pos hb, if_pos hb]
        rfl
      · rw [if_neg hb, if_neg hb]
        by_cases hlen : v.length < bytes + 2
        · simp only [VEC_MUST, hlen, if_true, bind_error_eq]
          exact Or.inl rfl
        · rw [VEC_MUST_ok hlen, VEC_MUST_append hlen]
          simp only [bind_ok_eq]
          rw [VEC_ADVANCE_UNSAFE_ok (by omega), VEC_ADVANCE_UNSAFE_append (by omega)]
          simp only []
          have hd : (v.drop 1).length = v.length - 1 := by simp
          have hl := code_loop_post p u g hm (8 * bytes + 1) st bytes (v.drop 1)
            (by omega) h8 hc (by omega)
          rw [code_loop_ext p u g x (8 * bytes + 1) st bytes (v.drop 1) (by omega)]
          cases he : code_loop p u g (8 * bytes + 1) st bytes (v.drop 1) with
          | error e => exact Or.inr rfl
          | ok r =>
            cases r with
            | end_code_stream ind v2 => rfl
            | more st2 v2 =>
              rw [he] at hl
              obtain ⟨h1, h2, h3, h4⟩ := hl
              simp only [map_ok_eq, Flow.ext]
              rw [VEC_AT_UNSAFE_ok (by omega), VEC_AT_UNSAFE_append (by omega)]
              simp only []
              refine ih n' st2 _ v2 (by omega) ?_ h3 h4
              simp only [List.length_append] at hf' ⊢
              omega

theorem image_data_ext (u : Uninit) (i : ImageSetup) (x : List UInt8) :
    Ext (fun r => (r.1, r.2 ++ x)) (image_data u i) (image_data u (i.ext x)) := by
  unfold image_data
  by_cases hlen : i.v.length < 2
  · simp only [VEC_MUST, hlen, if_true, bind_error_eq]
    exact Or.inl rfl
  · have hd : (i.v.drop 1).length = i.v.length - 1 := by simp
    simp (disch := omega) only [VEC_MUST_append, VEC_ADVANCE_UNSAFE_append,
      VEC_AT_UNSAFE_append, VEC_MUST_ok, bind_ok_eq, VEC_AT_UNSAFE_ok,
      VEC_ADVANCE_UNSAFE_ok, ImageSetup.ext]
    split
    · exact Or.inr rfl
    · rename_i hc
      refine sub_blocks_ext _ u i.g x (by simp only; omega) _ _ _ _ _
        (Nat.lt_succ_self _) (Nat.lt_succ_self _) (by simp [lzw_start]) ?_
      show 0 < (byte i.v 0 + 1) % 256
      omega

theorem image_descriptor_ext (s : DState) (x : List UInt8) :
    Ext (ImageSetup.ext x) (image_descriptor s) (image_descriptor (s.ext x)) := by
  unfold image_descriptor
  by_cases hlen : s.v.length < 0xA
  · simp only [VEC_MUST, hlen, if_true, bind_error_eq]
    exact Or.inl rfl
  · have h10 : 10 ≤ s.v.length := by omega
    have hd : (s.v.drop 10).length = s.v.length - 10 := by simp
    simp (disch := omega) only [VEC_MUST_append, VEC_ADVANCE_UNSAFE_append,
      VEC_AT_UNSAFE_append, VEC_AT_U16_LE_UNSAFE_append, VEC_MUST_ok, bind_ok_eq,
      VEC_AT_UNSAFE_ok, VEC_AT_U16_LE_UNSAFE_ok, VEC_ADVANCE_UNSAFE_ok, pure_eq_ok,
      DState.ext]
    split
    · exact Or.inr rfl
    · split
      · by_cases hl2 : (s.v.drop 10).length < 1 <<< ((byte s.v 9 &&& 7) + 1) * 3
        · simp only [VEC_MUST, hl2, if_true, bind_error_eq]
          exact Or.inl rfl
        · simp (disch := omega) only [VEC_MUST_append, VEC_ADVANCE_UNSAFE_append,
            VEC_MUST_ok, bind_ok_eq, VEC_ADVANCE_UNSAFE_ok, copy_bytes_ok,
            copy_bytes_append]
          rfl
      · split
        · exact Or.inr rfl
        · rfl

theorem image_finish_ext (u : Uninit) (frame : gif_frame) (i : ImageSetup)
    (indices : List Nat) (v x : List UInt8) :
    Ext (DState.ext x) (image_finish u frame i indices v)
      (image_finish u frame (i.ext x) indices (v ++ x)) := by
  unfold image_finish
  simp only [ImageSetup.ext]
  split
  · exact Or.inr rfl
  · by_cases h1 : v.length < 1
    · simp only [VEC_ADVANCE, h1, if_true, bind_error_eq]
      exact Or.inl rfl
    · rw [VEC_ADVANCE_ok h1, VEC_ADVANCE_append h1]
      simp only [bind_ok_eq]
      split
      · cases deinterlace u i.g i.img.width i.img.height indices with
        | error e => exact Or.inr rfl
        | ok ind => rfl
      · rfl

theorem parse_image_ext (u : Uninit) (s : DState) (x : List UInt8) :
    Ext (DState.ext x) (parse_image u s) (parse_image u (s.ext x)) := by
  unfold parse_image
  have e0 : (s.ext x).g.num_images = s.g.num_images := rfl
  rw [e0]
  generalize u.image s.g.num_images = u'
  have h1 := image_descriptor_ext s x
  cases hd : image_descriptor s with
  | error e =>
    rw [hd] at h1
    rcases h1 with h1 | h1
    · exact Or.inl h1
    · rw [h1]
      exact Or.inr rfl
  | ok i =>
    rw [hd] at h1
    have h1' : image_descriptor (s.ext x) = .ok (i.ext x) := h1
    rw [h1']
    simp only []
    have h2 := image_data_ext u' i x
    cases hi : image_data u' i with
    | error e =>
      rw [hi] at h2
      rcases h2 with h2 | h2
      · exact Or.inl h2
      · rw [h2]
        exact Or.inr rfl
    | ok r =>
      rw [hi] at h2
      have h2' : image_data u' (i.ext x) = .ok (r.1, r.2 ++ x) := h2
      rw [h2']
      exact image_finish_ext u' s.frame i r.1 r.2 x

theorem block_ext (u : Uninit) (s : DState) (x : List UInt8) :
    Ext (Option.map (DState.ext x)) (block u s) (block u (s.ext x)) := by
  unfold block
  by_cases hlen : s.v.length < 1
  · simp only [VEC_MUST, hlen, if_true, bind_error_eq]
    exact Or.inl rfl
  · have e1 : (s.ext x).g = s.g := rfl
    have e2 : (s.ext x).v = s.v ++ x := rfl
    rw [e1, e2]
    simp (disch := omega) only [VEC_MUST_append, VEC_AT_UNSAFE_append, VEC_MUST_ok,
      bind_ok_eq, VEC_AT_UNSAFE_ok]
    split
    · exact ext_map some (parse_image_ext u s x) (fun _ => rfl)
    · split
      · exact ext_map some (parse_extension_ext s x) (fun _ => rfl)
      · split
        · rfl
        · exact Or.inr rfl

theorem steps_snoc {u : Uninit} {s t t' : DState} (h : Steps u s t)
    (hb : block u t = .ok (some t')) : Steps u s t' := by
  induction h with
  | refl s => exact .head s t' t' hb (.refl t')
  | head s s' t hs _ ih => exact .head s s' t' hs (ih hb)

theorem reaches_steps {u : Uninit} {buf : List UInt8} {s : DState} (h : Reaches u buf s) :
    ∃ s0, parse_header buf = .ok s0 ∧ Steps u s0 s := by
  induction h with
  | start s hs => exact ⟨s, hs, .refl s⟩
  | step s s' _ hb ih =>
    obtain ⟨s0, h0, hst⟩ := ih
    exact ⟨s0, h0, steps_snoc hst hb⟩

theorem read_block_ext (u : Uninit) (x : List UInt8) :
    ∀ (fuel fuel' : Nat) (s : DState) (g : gif), s.v.length < fuel →
      (s.v ++ x).length < fuel' → read_block u fuel s = .ret GIF_SUCCESS g →
      read_block u fuel' (s.ext x) = .ret GIF_SUCCESS g := by
  intro fuel
  induction fuel with
  | zero => intro _ _ _ h; omega
  | succ n ih =>
    intro fuel' s g hf hf' h
    cases fuel' with
    | zero => omega
    | succ n' =>
      unfold read_block at h ⊢
      have hx := block_ext u s x
      cases hb : block u s with
      | error e =>
        rw [hb] at h
        simp only [] at h
        exact absurd h (fine_not_success (block_error hb) g)
      | ok r =>
        rw [hb] at h hx
        have hx' : block u (s.ext x) = .ok (r.map (DState.ext x)) := hx
        rw [hx']
        cases r with
        | none => exact h
        | some s' =>
          simp only [Option.map] at h ⊢
          have hlt := (block_some hb).1
          refine ih n' s' g (by omega) ?_ h
          simp only [List.length_append] at hf' ⊢
          omega

theorem block_empty (u : Uninit) (s : DState) (h : s.v.length = 0) :
    block u s = .error (.ret GIF_ERR_EOF gif_zero) := by
  unfold block
  simp only [VEC_MUST, show s.v.length < 1 by omega, if_true, bind_error_eq]
  rfl

theorem truncated_steps {u : Uninit} {a f : DState} (h : Steps u a f)
    (hf : block u f = .ok none) :
    ∀ (aP : DState) (x : List UInt8), a = aP.ext x → f.v.length ≤ x.length →
      ∀ fuel, aP.v.length < fuel → read_block u fuel aP = .ret GIF_ERR_EOF gif_zero := by
  induction h with
  | refl s =>
    intro aP x ha hl fuel hfu
    subst ha
    have h0 : aP.v.length = 0 := by
      have : (aP.ext x).v.length = aP.v.length + x.length := by simp [DState.ext]
      omega
    cases fuel with
    | zero => omega
    | succ n =>
      unfold read_block
      rw [block_empty u aP h0]
  | head s s' t hb _ ih =>
    intro aP x ha hl fuel hfu
    subst ha
    have hx := block_ext u aP x
    cases fuel with
    | zero => omega
    | succ n =>
      unfold read_block
      cases hbp : block u aP with
      | error e =>
        rw [hbp] at hx
        rcases hx with hx | hx
        · exact hx
        · rw [hx] at hb
          cases hb
      | ok r =>
        rw [hbp] at hx
        have hx' : block u (aP.ext x) = .ok (r.map (DState.ext x)) := hx
        rw [hx'] at hb
        cases r with
        | none => cases hb
        | some aP' =>
          simp only [Option.map, Except.ok.injEq, Option.some.injEq] at hb
          have hlt := (block_some hbp).1
          exact ih hf aP' x hb.symm hl n (by omega)

theorem block_trailer {u : Uninit} {s : DState} (hb : block u s = .ok none) :
    byte s.v 0 = 0x3B ∧ 1 ≤ s.v.length := by
  unfold block at hb
  by_cases hl : s.v.length < 1
  · simp only [VEC_MUST, hl, if_true, bind_error_eq] at hb
    cases hb
  · simp (disch := omega) only [VEC_MUST_ok, bind_ok_eq, VEC_AT_UNSAFE_ok] at hb
    split at hb
    · cases hp : parse_image u s with
      | error e => rw [hp] at hb; cases hb
      | ok a => rw [hp] at hb; cases hb
    · split at hb
      · cases hp : parse_extension s with
        | error e => rw [hp] at hb; cases hb
        | ok a => rw [hp] at hb; cases hb
      · split at hb
        · rename_i h3
          exact ⟨h3, by omega⟩
        · cases hb

/-! ## Code width, the textbook decoder, the bit reader, replaced input: what the
stages do -/

theorem gif_free_calls_zero : gif_free_calls gif_zero = [] := rfl

theorem insert_code_next {p : lzw_params} {st st' : lzw_state} {len pc index fi : Nat}
    {v : List UInt8} (h : insert_code p st len pc index fi v = .ok (.next st')) :
    (st.next_code = 4096 ∧ st' = end_code st)
    ∨ (st.next_code < 4096
        ∧ st' = end_code { st with
            code_table := upd st.code_table st.next_code
              { len := len, prefix_code := pc, inuse := 1, index := index,
                first_index := fi }
            next_code := st.next_code + 1
            lzw_code_size :=
              if st.next_code + 1 ≠ 4096 ∧ st.next_code + 1 = 2 ^ st.lzw_code_size then
                (st.lzw_code_size + 1) % 256
              else st.lzw_code_size }) := by
  unfold insert_code at h
  split at h
  · cases h
  · split at h
    · rename_i h4
      left
      cases h
      exact ⟨h4, rfl⟩
    · rename_i h4
      obtain ⟨t, ht, h⟩ := bind_eq_ok h
      unfold code_table_set at ht
      split at ht
      · rename_i hlt
        cases ht
        right
        refine ⟨hlt, ?_⟩
        have e : (st.next_code + 1) % 65536 = st.next_code + 1 := Nat.mod_eq_of_lt (by omega)
        simp only [e, Nat.one_shiftLeft] at h
        split at h
        · rename_i h5
          cases h
          rw [if_neg (by omega)]
          rfl
        · rename_i h5
          split at h
          · rename_i h6
            cases h
            rw [if_pos ⟨h5, h6⟩]
            rfl
          · rename_i h6
            cases h
            rw [if_neg (by tauto)]
            rfl
      · cases ht

theorem decode_code_next {p : lzw_params} {u : Uninit} {g : gif} {st st' : lzw_state}
    {bytes : Nat} {v : List UInt8} (h : decode_code p u g st bytes v = .ok (.next st')) :
    (st.code = 1 <<< p.min_lzw_code_size
      ∧ st' = { st with
          first_code := 1
          lzw_code_size := (p.min_lzw_code_size + 1) % 256
          next_code := ((1 <<< p.min_lzw_code_size) + 2) % 65536
          code_table := clear_code_table st.code_table p.num_colors
          code := 0
          code_off := 0 })
    ∨ (st.code ≠ 1 <<< p.min_lzw_code_size ∧ st.first_code ≠ 0 ∧ st.code < p.num_colors
        ∧ st' = end_code { st with indices := st.indices ++ [st.code % 256],
                                   first_code := 0 })
    ∨ (st.code ≠ 1 <<< p.min_lzw_code_size ∧ st.first_code = 0
        ∧ ∃ indices len pc index fi,
            insert_code p { st with indices := indices } len pc index fi v
              = .ok (.next st')) := by
  unfold decode_code at h
  split at h
  · split at h
    · obtain ⟨_, _, h⟩ := bind_eq_ok h
      cases h
    · cases h
  · split at h
    · rename_i hc
      cases h
      exact .inl ⟨hc, rfl⟩
    · rename_i hc
      split at h
      · rename_i hf
        split at h
        · cases h
        · rename_i hn
          split at h
          · cases h
          · obtain ⟨i, hi, h⟩ := bind_eq_ok h
            unfold indices_put at hi
            split at hi
            · cases hi
              cases h
              exact .inr (.inl ⟨hc, hf, by omega, rfl⟩)
            · cases hi
      · rename_i hf
        obtain ⟨prev, _, h⟩ := bind_eq_ok h
        split at h
        · cases h
        · obtain ⟨centry, _, h⟩ := bind_eq_ok h
          refine .inr (.inr ⟨hc, by simpa using hf, ?_⟩)
          split at h
          · unfold decode_inuse at h
            simp only [] at h
            split at h
            · cases h
            · obtain ⟨s1, _, h⟩ := bind_eq_ok h
              obtain ⟨s2, _, h⟩ := bind_eq_ok h
              exact ⟨_, _, _, _, _, h⟩
          · unfold decode_unused at h
            simp only [] at h
            obtain ⟨s0, _, h⟩ := bind_eq_ok h
            split at h
            · cases h
            · obtain ⟨s1, _, h⟩ := bind_eq_ok h
              obtain ⟨s2, _, h⟩ := bind_eq_ok h
              exact ⟨_, _, _, _, _, h⟩

theorem widthInv_start (u : Uninit) {m : Nat} (nc : Nat) (hm : 2 ≤ m ∧ m ≤ 8) :
    WidthInv m (lzw_start u m nc) := by
  obtain ⟨h2, h8⟩ := hm
  have e1 : (m + 1) % 256 = m + 1 := Nat.mod_eq_of_lt (by omega)
  have hp : 2 ^ m ≤ 2 ^ 8 := Nat.pow_le_pow_right (by decide) h8
  have hq : 2 ^ 2 ≤ 2 ^ m := Nat.pow_le_pow_right (by decide) h2
  have e2 : (2 ^ m + 2) % 65536 = 2 ^ m + 2 := Nat.mod_eq_of_lt (by omega)
  unfold WidthInv lzw_start
  dsimp only
  rw [e1, Nat.one_shiftLeft, e2]
  refine ⟨le_refl _, by omega, le_refl _, by omega, .inl ?_, .inl rfl⟩
  rw [Nat.pow_succ]
  omega

theorem widthInv_insert {m : Nat} {p : lzw_params} {st st' : lzw_state}
    {len pc index fi : Nat} {v : List UInt8} (hw : WidthInv m st)
    (h : insert_code p st len pc index fi v = .ok (.next st')) :
    WidthInv m st'
      ∧ (st'.lzw_code_size = st.lzw_code_size + 1 ↔
          st'.next_code = st.next_code + 1 ∧ st'.next_code = 2 ^ st.lzw_code_size
            ∧ st'.next_code < 4096)
      ∧ (st.next_code = 4096 → st'.code_table = st.code_table ∧ st'.next_code = 4096
          ∧ st'.lzw_code_size = 12) := by
  obtain ⟨w1, w2, n1, n2, hb, hl⟩ := hw
  rcases insert_code_next h with ⟨h4, rfl⟩ | ⟨hlt, rfl⟩
  · refine ⟨⟨w1, w2, n1, n2, hb, hl⟩, ?_, ?_⟩
    · simp only [end_code]
      constructor
      · intro hh
        omega
      · rintro ⟨hh, _⟩
        omega
    · intro _
      simp only [end_code]
      rcases hb with hb | hb
      · have : 2 ^ st.lzw_code_size ≤ 2 ^ 12 := Nat.pow_le_pow_right (by decide) w2
        omega
      · exact ⟨trivial, h4, hb.2⟩
  · have hb' : st.next_code < 2 ^ st.lzw_code_size := by
      rcases hb with hb | hb
      · exact hb
      · omega
    unfold WidthInv
    dsimp only [end_code]
    by_cases hc : st.next_code + 1 ≠ 4096 ∧ st.next_code + 1 = 2 ^ st.lzw_code_size
    · rw [if_pos hc]
      have hw12 : st.lzw_code_size < 12 := by
        by_contra hcon
        have e : st.lzw_code_size = 12 := by omega
        rw [e] at hc
        omega
      have e : (st.lzw_code_size + 1) % 256 = st.lzw_code_size + 1 :=
        Nat.mod_eq_of_lt (by omega)
      rw [e]
      refine ⟨⟨by omega, by omega, by omega, by omega, .inl ?_, .inr ?_⟩, ?_, ?_⟩
      · rw [Nat.pow_succ]
        omega
      · rw [Nat.add_sub_cancel]
        omega
      · constructor
        · intro _
          exact ⟨rfl, hc.2, by omega⟩
        · intro _
          rfl
      · intro hh
        omega
    · rw [if_neg hc]
      refine ⟨⟨w1, w2, by omega, by omega, ?_, ?_⟩, ?_, ?_⟩
      · by_cases h6 : st.next_code + 1 = 4096
        · right
          refine ⟨h6, ?_⟩
          by_contra hcon
          have : 2 ^ st.lzw_code_size ≤ 2 ^ 11 :=
            Nat.pow_le_pow_right (by decide) (by omega)
          omega
        · left
          have : st.next_code + 1 ≠ 2 ^ st.lzw_code_size := by tauto
          omega
      · rcases hl with hl | hl
        · exact .inl hl
        · exact .inr (by omega)
      · constructor
        · intro hh
          omega
        · rintro ⟨_, h2, h3⟩
          exfalso
          exact hc ⟨by omega, h2⟩
      · intro hh
        omega

theorem widthInv_decode {p : lzw_params} {u : Uninit} {g : gif} {st st' : lzw_state}
    {bytes : Nat} {v : List UInt8}
    (hm : 2 ≤ p.min_lzw_code_size ∧ p.min_lzw_code_size ≤ 8)
    (hw : WidthInv p.min_lzw_code_size st)
    (h : decode_code p u g st bytes v = .ok (.next st')) :
    WidthInv p.min_lzw_code_size st'
      ∧ (st'.lzw_code_size = st.lzw_code_size + 1 ↔
          st'.next_code = st.next_code + 1 ∧ st'.next_code = 2 ^ st.lzw_code_size
            ∧ st'.next_code < 4096)
      ∧ (st.next_code = 4096 → st.code ≠ 1 <<< p.min_lzw_code_size →
          st'.code_table = st.code_table ∧ st'.next_code = 4096
            ∧ st'.lzw_code_size = 12) := by
  rcases decode_code_next h with ⟨hc, rfl⟩ | ⟨hc, hf, hn, rfl⟩ | ⟨hc, hf, i, l, pc, x, fi, hi⟩
  · have hs := widthInv_start u p.num_colors hm
    unfold lzw_start at hs
    refine ⟨hs, ?_, ?_⟩
    · obtain ⟨w1, w2, n1, n2, hb, hl⟩ := hw
      obtain ⟨h2, h8⟩ := hm
      have e1 : (p.min_lzw_code_size + 1) % 256 = p.min_lzw_code_size + 1 :=
        Nat.mod_eq_of_lt (by omega)
      have hp : 2 ^ p.min_lzw_code_size ≤ 2 ^ 8 := Nat.pow_le_pow_right (by decide) h8
      have e2 : (2 ^ p.min_lzw_code_size + 2) % 65536 = 2 ^ p.min_lzw_code_size + 2 :=
        Nat.mod_eq_of_lt (by omega)
      simp only [e1, Nat.one_shiftLeft, e2]
      constructor
      · intro hh
        omega
      · rintro ⟨hh, _⟩
        omega
    · intro _ hh
      exact absurd hc hh
  · obtain ⟨w1, w2, n1, n2, hb, hl⟩ := hw
    refine ⟨⟨w1, w2, n1, n2, hb, hl⟩, ?_, ?_⟩
    · simp only [end_code]
      constructor
      · intro hh
        omega
      · rintro ⟨hh, _⟩
        omega
    · intro h4 _
      simp only [end_code]
      rcases hb with hb | hb
      · have : 2 ^ st.lzw_code_size ≤ 2 ^ 12 := Nat.pow_le_pow_right (by decide) w2
        omega
      · exact ⟨trivial, h4, hb.2⟩
  · have := @widthInv_insert _ _ { st with indices := i } _ _ _ _ _ _ hw hi
    exact ⟨this.1, this.2.1, fun h4 _ => this.2.2 h4⟩

theorem read_bits_width {st st' : lzw_state} {bytes bytes' : Nat} {v v' : List UInt8}
    (h : read_bits st bytes v = .ok (st', bytes', v')) :
    st'.lzw_code_size = st.lzw_code_size ∧ st'.next_code = st.next_code
      ∧ st'.code_table = st.code_table := by
  unfold read_bits at h
  simp only [] at h
  obtain ⟨b, _, h⟩ := bind_eq_ok h
  split at h
  · obtain ⟨w, _, h⟩ := bind_eq_ok h
    cases h
    exact ⟨rfl, rfl, rfl⟩
  · cases h
    exact ⟨rfl, rfl, rfl⟩

theorem lzwReaches_width {p : lzw_params} {u : Uninit} {g : gif} {st : lzw_state}
    (hm : 2 ≤ p.min_lzw_code_size ∧ p.min_lzw_code_size ≤ 8) (h : LzwReaches p u g st) :
    WidthInv p.min_lzw_code_size st := by
  induction h with
  | start => exact widthInv_start u _ hm
  | bits st st' bytes bytes' v v' _ hr ih =>
    obtain ⟨e1, e2, _⟩ := read_bits_width hr
    unfold WidthInv at ih ⊢
    rw [e1, e2]
    exact ih
  | code st st' bytes v _ hd ih => exact (widthInv_decode hm ih hd).1

/-- Every state the inner loop hands on belongs to the states of the code-stream loop. -/
theorem code_loop_reaches {p : lzw_params} {u : Uninit} {g : gif} :
    ∀ (fuel : Nat) (st : lzw_state) (bytes : Nat) (v : List UInt8) (st' : lzw_state)
      (v' : List UInt8), LzwReaches p u g st →
      code_loop p u g fuel st bytes v = .ok (.more st' v') → LzwReaches p u g st' := by
  intro fuel
  induction fuel with
  | zero =>
    intro st bytes v st' v' _ h
    cases h
  | succ n ih =>
    intro st bytes v st' v' hr h
    unfold code_loop at h
    split at h
    · cases h
      exact hr
    · split at h
      · cases h
      · rename_i st1 b1 v1 h1
        have hr1 := LzwReaches.bits _ _ _ _ _ _ hr h1
        split at h
        · split at h
          · cases h
          · cases h
          · rename_i st2 h2
            exact ih _ _ _ _ _ (LzwReaches.code _ _ _ _ hr1 h2) h
        · exact ih _ _ _ _ _ hr1 h

theorem stack_set_ok (stack : Nat → Nat) (tmplen tmpi x : Nat) (h : tmpi < tmplen) :
    stack_set stack tmplen (((tmplen : Int) - (tmpi : Int)) - 1) x
      = .ok (fun j => if j = tmplen - tmpi - 1 then x else stack j) := by
  unfold stack_set
  rw [if_pos (by omega)]
  have e : (((tmplen : Int) - (tmpi : Int)) - 1).toNat = tmplen - tmpi - 1 := by omega
  rw [e]

theorem agrees_length_pos {m nc next : Nat} {t : Nat → gif_code} {strs : Nat → List Nat}
    (ha : Agrees m nc t strs next) {c : Nat} (hc : c < 4096)
    (hu : naive_in_use m nc next c) : 1 ≤ (strs c).length := by
  obtain ⟨_, _, _, _, h | h⟩ := (ha c hc).1 hu
  · rw [h.2.2.2]
    simp
  · rw [h.2.2.2]
    simp

theorem walk_string {m nc next : Nat} {t : Nat → gif_code} {strs : Nat → List Nat}
    (g : gif) (ha : Agrees m nc t strs next) :
    ∀ (fuel c k tmplen : Nat) (stack : Nat → Nat), c < 4096 → naive_in_use m nc next c →
      tmplen = k + (strs c).length → (strs c).length ≤ fuel →
      ∃ stack', walk g t tmplen fuel stack c k = .ok stack'
        ∧ (∀ i, i < (strs c).length → stack' i = (strs c).getD i 0)
        ∧ (∀ j, (strs c).length ≤ j → stack' j = stack j) := by
  intro fuel
  induction fuel with
  | zero =>
    intro c k tmplen stack hc hu _ hf
    have := agrees_length_pos ha hc hu
    omega
  | succ n ih =>
    intro c k tmplen stack hc hu hl hf
    have hpos := agrees_length_pos ha hc hu
    obtain ⟨_, _, _, _, hcase⟩ := (ha c hc).1 hu
    unfold walk
    rw [if_neg (by omega)]
    simp only [code_table_at, if_pos hc, bind_ok_eq]
    rw [stack_set_ok _ _ _ _ (by omega)]
    simp only [bind_ok_eq]
    rcases hcase with ⟨_, hp, hi, hs⟩ | ⟨_, hp, hpu, hs⟩
    · rw [if_neg (by simp [hp]), hs]
      refine ⟨_, rfl, ?_, ?_⟩
      · intro i hi'
        have e0 : i = 0 := by simpa using hi'
        have e1 : tmplen - k - 1 = 0 := by rw [hl, hs]; simp
        subst e0
        simp [e1, hi]
      · intro j hj
        have e1 : tmplen - k - 1 = 0 := by rw [hl, hs]; simp
        have : j ≠ 0 := by
          simp at hj
          omega
        simp [e1, this]
    · have hp4 : (t c).prefix_code < 4096 := by omega
      have hne : (t c).prefix_code ≠ GIF_CODE_NO_PREFIX := by
        unfold GIF_CODE_NO_PREFIX
        omega
      rw [if_pos hne]
      have hlen : (strs c).length = (strs (t c).prefix_code).length + 1 := by
        rw [hs]
        simp
      obtain ⟨stack', hw, h1, h2⟩ := ih (t c).prefix_code (k + 1) tmplen
        (fun j => if j = tmplen - k - 1 then (t c).index else stack j) hp4 hpu
        (by omega) (by omega)
      refine ⟨stack', hw, ?_, ?_⟩
      · intro i hi'
        by_cases hlt : i < (strs (t c).prefix_code).length
        · rw [h1 i hlt]
          conv => rhs; rw [hs]
          simp [List.getD, List.getElem?_append_left hlt]
        · have e : i = (strs (t c).prefix_code).length := by omega
          rw [h2 i (by omega)]
          have e1 : tmplen - k - 1 = i := by omega
          simp only [e1, if_true]
          conv => rhs; rw [hs]
          rw [e]
          simp [List.getD]
      · intro j hj
        rw [h2 j (by omega)]
        have : j ≠ tmplen - k - 1 := by omega
        simp [this]

theorem emit_string (req : Nat) (stack : Nat → Nat) :
    ∀ (s : List Nat) (i : Nat) (indices : List Nat), indices.length + s.length ≤ req →
      (∀ j, j < s.length → stack (i + j) = s.getD j 0) →
      emit req stack s.length i indices = .ok (indices ++ s) := by
  intro s
  induction s with
  | nil =>
    intro i indices _ _
    simp [emit]
  | cons a s ih =>
    intro i indices hl hs
    have h0 := hs 0 (by simp)
    simp only [List.length_cons] at hl ⊢
    unfold emit
    simp only [indices_put, if_pos (show indices.length < req by omega), bind_ok_eq]
    rw [ih (i + 1) (indices ++ [stack i]) (by simp; omega) ?_]
    · simp at h0
      simp [h0]
    · intro j hj
      have := hs (j + 1) (by simp; omega)
      rw [show i + 1 + j = i + (j + 1) by omega, this]
      simp [List.getD]

theorem insert_code_ok (p : lzw_params) (st : lzw_state) (len pc index fi : Nat)
    (v : List UInt8) (h1 : st.indices.length ≤ p.req_indices) (h2 : st.next_code ≤ 4096) :
    insert_code p st len pc index fi v = .ok (.next
      (if st.next_code = 4096 then end_code st
       else end_code { st with
          code_table := upd st.code_table st.next_code
            { len := len, prefix_code := pc, inuse := 1, index := index,
              first_index := fi }
          next_code := st.next_code + 1
          lzw_code_size :=
            if st.next_code + 1 ≠ 4096 ∧ st.next_code + 1 = 2 ^ st.lzw_code_size then
              (st.lzw_code_size + 1) % 256
            else st.lzw_code_size })) := by
  unfold insert_code
  rw [if_neg (by unfold lzw_state.num_indices; omega)]
  by_cases h4 : st.next_code = 4096
  · rw [if_pos h4, if_pos h4]
  · rw [if_neg h4, if_neg h4]
    have hlt : st.next_code < 4096 := by omega
    have e : (st.next_code + 1) % 65536 = st.next_code + 1 := Nat.mod_eq_of_lt (by omega)
    simp only [code_table_set, if_pos hlt, bind_ok_eq, e, Nat.one_shiftLeft, pure_eq_ok]
    by_cases h5 : st.next_code + 1 = 4096
    · rw [if_pos h5, if_neg (by omega)]
      rfl
    · rw [if_neg h5]
      by_cases h6 : st.next_code + 1 = 2 ^ st.lzw_code_size
      · rw [if_pos h6, if_pos ⟨h5, h6⟩]
        rfl
      · rw [if_neg h6, if_neg (by tauto)]
        rfl

theorem in_use_lt {m nc next c : Nat} (hnc : nc ≤ 2 ^ m) (hn : 2 ^ m + 2 ≤ next)
    (h : naive_in_use m nc next c) : c < next := by
  rcases h with h | h
  · omega
  · exact h.2

theorem in_use_succ {m nc next c : Nat} (h : naive_in_use m nc next c) :
    naive_in_use m nc (next + 1) c := by
  rcases h with h | h
  · exact .inl h
  · exact .inr ⟨h.1, by omega⟩

theorem agrees_insert {m nc next : Nat} {t : Nat → gif_code} {strs : Nat → List Nat}
    (ha : Agrees m nc t strs next) (hnc : nc ≤ 2 ^ m) (hn1 : 2 ^ m + 2 ≤ next)
    {q : Nat} (hq : q < 4096) (hqu : naive_in_use m nc next q) (x : Nat) :
    Agrees m nc
      (upd t next { len := (t q).len + 1, prefix_code := q, inuse := 1, index := x,
                    first_index := (t q).first_index })
      (fun j => if j = next then strs q ++ [x] else strs j) (next + 1) := by
  have hqn : q < next := in_use_lt hnc hn1 hqu
  obtain ⟨_, hql, hqb, hqh, _⟩ := (ha q hq).1 hqu
  have hqpos := agrees_length_pos ha hq hqu
  intro c hc
  constructor
  · intro hu
    by_cases hcn : c = next
    · subst hcn
      have hq' : q ≠ c := by omega
      simp only [upd, if_true, if_neg hq']
      refine ⟨by decide, by simp [hql], by omega, ?_,
        .inr ⟨by omega, hqn, in_use_succ hqu, trivial⟩⟩
      rw [List.head?_append_of_ne_nil _ (by
        intro h
        rw [h] at hqpos
        simp at hqpos)]
      exact hqh
    · have hu' : naive_in_use m nc next c := by
        rcases hu with h | h
        · exact .inl h
        · exact .inr ⟨h.1, by omega⟩
      obtain ⟨h1, h2, h3, h4, h5⟩ := (ha c hc).1 hu'
      simp only [upd, if_neg hcn]
      refine ⟨h1, h2, h3, h4, ?_⟩
      rcases h5 with h5 | ⟨h5, h6, h7, h8⟩
      · exact .inl h5
      · have : (t c).prefix_code ≠ next := by
          have := in_use_lt hnc hn1 h7
          omega
        exact .inr ⟨h5, h6, in_use_succ h7, by rw [if_neg this]; exact h8⟩
  · intro hnu
    have hcn : c ≠ next := by
      intro h
      exact hnu (.inr ⟨by omega, by omega⟩)
    simp only [upd, if_neg hcn]
    exact (ha c hc).2 (fun h => hnu (in_use_succ h))

theorem agrees_clear {m nc next : Nat} {t : Nat → gif_code} {strs : Nat → List Nat}
    (ha : Agrees m nc t strs next) :
    Agrees m nc (clear_code_table t nc) strs (2 ^ m + 2) := by
  intro c hc
  have hiff : naive_in_use m nc (2 ^ m + 2) c ↔ c < nc := by
    unfold naive_in_use
    omega
  constructor
  · intro hu
    have hlt := hiff.1 hu
    obtain ⟨h1, h2, h3, h4, h5⟩ := (ha c hc).1 (.inl hlt)
    simp only [clear_code_table, if_neg (show ¬ (nc ≤ c ∧ c < 4096) by omega)]
    refine ⟨h1, h2, h3, h4, ?_⟩
    rcases h5 with h5 | h5
    · exact .inl h5
    · omega
  · intro hnu
    have : nc ≤ c := by
      by_contra h
      exact hnu (hiff.2 (by omega))
    simp only [clear_code_table, if_pos (show nc ≤ c ∧ c < 4096 from ⟨this, hc⟩)]

theorem agrees_start (u : Uninit) {m nc : Nat} (h256 : nc ≤ 256) :
    Agrees m nc (init_code_table u nc) (fun c => [c]) (2 ^ m + 2) := by
  intro c hc
  have hiff : naive_in_use m nc (2 ^ m + 2) c ↔ c < nc := by
    unfold naive_in_use
    omega
  constructor
  · intro hu
    have hlt := hiff.1 hu
    have e : c % 256 = c := Nat.mod_eq_of_lt (by omega)
    simp only [init_code_table, if_pos hlt, e]
    exact ⟨by decide, rfl, by omega, rfl, .inl ⟨hlt, trivial, trivial, trivial⟩⟩
  · intro hnu
    have : ¬ c < nc := fun h => hnu (hiff.2 h)
    simp only [init_code_table, if_neg this, if_pos hc]

theorem feed_eoi (m nc req : Nat) (u : Uninit) (g : gif) (st : lzw_state) :
    feed_code ⟨m, nc, req⟩ u g st (2 ^ m + 1) = .ok (.end_code_stream st.indices []) := by
  unfold feed_code decode_code
  simp only [Nat.one_shiftLeft, if_true, ne_eq, not_true_eq_false, if_false, pure_eq_ok]

theorem feed_clear (m nc req : Nat) (u : Uninit) (g : gif) (st : lzw_state) :
    feed_code ⟨m, nc, req⟩ u g st (2 ^ m)
      = .ok (.next { st with
          first_code := 1
          lzw_code_size := (m + 1) % 256
          next_code := (2 ^ m + 2) % 65536
          code_table := clear_code_table st.code_table nc
          code := 0
          code_off := 0 }) := by
  unfold feed_code decode_code
  simp only [Nat.one_shiftLeft, if_true, pure_eq_ok,
    if_neg (show ¬ (2 ^ m = 2 ^ m + 1) by omega)]

theorem feed_first (m nc req : Nat) (u : Uninit) (g : gif) (st : lzw_state) (c : Nat)
    (hf : st.first_code ≠ 0) (hc : c < nc) (h256 : nc ≤ 256) (hnc : nc ≤ 2 ^ m)
    (hr : st.indices.length < req) :
    feed_code ⟨m, nc, req⟩ u g st c
      = .ok (.next (end_code { st with code := c, code_off := st.lzw_code_size,
                                       indices := st.indices ++ [c], first_code := 0 })) := by
  unfold feed_code decode_code
  have e : c % 256 = c := Nat.mod_eq_of_lt (by omega)
  simp only [Nat.one_shiftLeft, if_neg (show ¬ (c = 2 ^ m + 1) by omega),
    if_neg (show ¬ (c = 2 ^ m) by omega), if_pos hf, ge_iff_le,
    if_neg (show ¬ (nc ≤ c) by omega), lzw_state.num_indices,
    if_neg (show ¬ (req ≤ st.indices.length) by omega), indices_put, if_pos hr,
    bind_ok_eq, pure_eq_ok, e]

theorem feed_inuse (m nc req : Nat) (u : Uninit) (g : gif) (st : lzw_state)
    (strs : Nat → List Nat) (c : Nat)
    (ha : Agrees m nc st.code_table strs st.next_code) (hnc : nc ≤ 2 ^ m)
    (hn2 : st.next_code ≤ 4096) (hf : st.first_code = 0)
    (hq : st.prev_code < 4096) (hqu : naive_in_use m nc st.next_code st.prev_code)
    (hc : c < 4096) (hcu : naive_in_use m nc st.next_code c)
    (hr : st.indices.length + (strs c).length ≤ req) :
    feed_code ⟨m, nc, req⟩ u g st c = .ok (.next
      (if st.next_code = 4096 then
        end_code { st with code := c, code_off := st.lzw_code_size,
                           indices := st.indices ++ strs c }
       else end_code { st with
          code := c
          code_off := st.lzw_code_size
          indices := st.indices ++ strs c
          code_table := upd st.code_table st.next_code
            { len := (st.code_table st.prev_code).len + 1, prefix_code := st.prev_code,
              inuse := 1, index := (st.code_table c).first_index,
              first_index := (st.code_table st.prev_code).first_index }
          next_code := st.next_code + 1
          lzw_code_size :=
            if st.next_code + 1 ≠ 4096 ∧ st.next_code + 1 = 2 ^ st.lzw_code_size then
              (st.lzw_code_size + 1) % 256
            else st.lzw_code_size })) := by
  obtain ⟨hi, hl, _, _, _⟩ := (ha c hc).1 hcu
  obtain ⟨_, _, hqb, _, _⟩ := (ha _ hq).1 hqu
  have hne1 : ¬ (c = 2 ^ m + 1) := by
    rcases hcu with h | h <;> omega
  have hne2 : ¬ (c = 2 ^ m) := by
    rcases hcu with h | h <;> omega
  have e : ((st.code_table st.prev_code).len + 1) % 65536
      = (st.code_table st.prev_code).len + 1 := Nat.mod_eq_of_lt (by omega)
  obtain ⟨stack', hw, h1, _⟩ := walk_string g ha ((st.code_table c).len + 1) c 0
    (st.code_table c).len (fresh_stack u st.indices.length) hc hcu (by omega) (by omega)
  have he := emit_string req stack' (strs c) 0 st.indices hr (by
    intro j hj
    rw [Nat.zero_add]
    exact h1 j hj)
  rw [← hl] at he
  unfold feed_code decode_code
  simp only [Nat.one_shiftLeft, if_neg hne1, if_neg hne2, hf, ne_eq, not_true_eq_false,
    if_false, code_table_at, if_pos hq, if_pos hc, bind_ok_eq, gt_iff_lt,
    if_neg (show ¬ (4095 < c) by omega), hi, not_false_eq_true, if_true, decode_inuse,
    lzw_state.num_indices, if_neg (show ¬ (req < st.indices.length + (st.code_table c).len)
      by omega), hw, he, e]
  exact insert_code_ok _ _ _ _ _ _ _ (by simpa using hr) hn2

theorem feed_next (m nc req : Nat) (u : Uninit) (g : gif) (st : lzw_state)
    (strs : Nat → List Nat)
    (ha : Agrees m nc st.code_table strs st.next_code) (hnc : nc ≤ 2 ^ m)
    (hn1 : 2 ^ m + 2 ≤ st.next_code) (hn2 : st.next_code < 4096) (hf : st.first_code = 0)
    (hq : st.prev_code < 4096) (hqu : naive_in_use m nc st.next_code st.prev_code)
    (hr : st.indices.length + ((strs st.prev_code).length + 1) ≤ req) :
    feed_code ⟨m, nc, req⟩ u g st st.next_code = .ok (.next
      (end_code { st with
          code := st.next_code
          code_off := st.lzw_code_size
          indices := st.indices
            ++ (strs st.prev_code ++ [(st.code_table st.prev_code).first_index])
          code_table := upd st.code_table st.next_code
            { len := (st.code_table st.prev_code).len + 1, prefix_code := st.prev_code,
              inuse := 1, index := (st.code_table st.prev_code).first_index,
              first_index := (st.code_table st.prev_code).first_index }
          next_code := st.next_code + 1
          lzw_code_size :=
            if st.next_code + 1 ≠ 4096 ∧ st.next_code + 1 = 2 ^ st.lzw_code_size then
              (st.lzw_code_size + 1) % 256
            else st.lzw_code_size })) := by
  have hnu : ¬ naive_in_use m nc st.next_code st.next_code := by
    unfold naive_in_use
    omega
  have hi := (ha _ hn2).2 hnu
  obtain ⟨_, hql, hqb, _, _⟩ := (ha _ hq).1 hqu
  have e : ((st.code_table st.prev_code).len + 1) % 65536
      = (st.code_table st.prev_code).len + 1 := Nat.mod_eq_of_lt (by omega)
  have hs := stack_set_ok (fresh_stack u st.indices.length)
    ((st.code_table st.prev_code).len + 1) 0
    (st.code_table st.prev_code).first_index (by omega)
  simp only [Int.ofNat_zero, sub_zero, Nat.sub_zero, Nat.add_sub_cancel] at hs
  obtain ⟨stack', hw, h1, h2⟩ := walk_string g ha ((st.code_table st.prev_code).len + 1 + 1)
    st.prev_code 1 ((st.code_table st.prev_code).len + 1)
    (fun j => if j = (st.code_table st.prev_code).len then
      (st.code_table st.prev_code).first_index else fresh_stack u st.indices.length j)
    hq hqu (by omega) (by omega)
  have he := emit_string req stack'
    (strs st.prev_code ++ [(st.code_table st.prev_code).first_index]) 0 st.indices
    (by simpa using hr) (by
      intro j hj
      rw [Nat.zero_add]
      by_cases hlt : j < (strs st.prev_code).length
      · rw [h1 j hlt]
        simp [List.getD, List.getElem?_append_left hlt]
      · have ej : j = (strs st.prev_code).length := by
          simp at hj
          omega
        rw [h2 j (by omega), ej, ← hql]
        simp [List.getD, hql])
  rw [List.length_append, List.length_singleton, ← hql] at he
  unfold feed_code decode_code
  simp only [Nat.one_shiftLeft, if_neg (show ¬ (st.next_code = 2 ^ m + 1) by omega),
    if_neg (show ¬ (st.next_code = 2 ^ m) by omega), hf, ne_eq, not_true_eq_false,
    if_false, code_table_at, if_pos hq, if_pos hn2, bind_ok_eq, gt_iff_lt,
    if_neg (show ¬ (4095 < st.next_code) by omega), hi, decode_unused,
    lzw_state.num_indices, e, hs, pure_eq_ok,
    if_neg (show ¬ (req < st.indices.length + ((st.code_table st.prev_code).len + 1))
      by omega), hw, he]
  rw [insert_code_ok _ _ _ _ _ _ _ (by simpa using hr) (by exact Nat.le_of_lt hn2)]
  exact congrArg _ (congrArg _ (if_neg (by
    show ¬ (st.next_code = 4096)
    omega)))

theorem sim_start (u : Uninit) {m nc : Nat} (hm : 2 ≤ m ∧ m ≤ 8) (hnc : nc ≤ 2 ^ m) :
    Sim m nc (lzw_start u m nc) (naive_start m) := by
  have hp : 2 ^ m ≤ 2 ^ 8 := Nat.pow_le_pow_right (by decide) hm.2
  have e2 : (2 ^ m + 2) % 65536 = 2 ^ m + 2 := Nat.mod_eq_of_lt (by omega)
  refine ⟨agrees_start u (by omega), ?_, le_refl _, by
    show 2 ^ m + 2 ≤ 4096
    omega, rfl, ?_⟩
  · show ((1 <<< m) + 2) % 65536 = 2 ^ m + 2
    rw [Nat.one_shiftLeft, e2]
  · show (1 : Nat) ≠ 0
    decide

theorem sim_step (m nc req : Nat) (u : Uninit) (g : gif) (hm : 2 ≤ m ∧ m ≤ 8)
    (hnc : nc ≤ 2 ^ m) {st : lzw_state} {ns : naive_state} (hs : Sim m nc st ns) {c : Nat}
    (hc : c < 4096) :
    (∀ out, naive_step m nc ns c = .done out →
      feed_code ⟨m, nc, req⟩ u g st c = .ok (.end_code_stream out []))
    ∧ (∀ ns', naive_step m nc ns c = .next ns' → ns'.output.length ≤ req →
        ∃ st', feed_code ⟨m, nc, req⟩ u g st c = .ok (.next st') ∧ Sim m nc st' ns') := by
  obtain ⟨ha, hnx, hn1, hn2, hind, hprev⟩ := hs
  have hp8 : 2 ^ m ≤ 2 ^ 8 := Nat.pow_le_pow_right (by decide) hm.2
  have h256 : nc ≤ 256 := by omega
  by_cases h1 : c = 2 ^ m + 1
  · subst h1
    constructor
    · intro out ho
      simp only [naive_step, if_true] at ho
      cases ho
      rw [feed_eoi, hind]
    · intro ns' ho
      simp only [naive_step, if_true] at ho
      cases ho
  · by_cases h2 : c = 2 ^ m
    · subst h2
      constructor
      · intro out ho
        simp only [naive_step, if_neg h1, if_true] at ho
        cases ho
      · intro ns' ho _
        simp only [naive_step, if_neg h1, if_true] at ho
        cases ho
        refine ⟨_, feed_clear m nc req u g st, agrees_clear ha, ?_, le_refl _, ?_, hind, ?_⟩
        · show (2 ^ m + 2) % 65536 = 2 ^ m + 2
          exact Nat.mod_eq_of_lt (by omega)
        · show 2 ^ m + 2 ≤ 4096
          omega
        · show (1 : Nat) ≠ 0
          decide
    · cases hp : ns.previous with
      | none =>
        rw [hp] at hprev
        simp only [] at hprev
        constructor
        · intro out ho
          simp only [naive_step, if_neg h1, if_neg h2, hp] at ho
          split at ho <;> cases ho
        · intro ns' ho hr
          simp only [naive_step, if_neg h1, if_neg h2, hp] at ho
          split at ho
          · rename_i hlt
            cases ho
            simp only [List.length_append, List.length_singleton] at hr
            refine ⟨_, feed_first m nc req u g st c hprev hlt h256 hnc
              (by rw [hind]; omega), ha, hnx, hn1, hn2, ?_, ?_⟩
            · show st.indices ++ [c] = ns.output ++ [c]
              rw [hind]
            · exact ⟨rfl, rfl, hc, .inl hlt⟩
          · cases ho
      | some q =>
        rw [hp] at hprev
        simp only [] at hprev
        obtain ⟨hf, hpv, hq, hqu⟩ := hprev
        subst hpv
        rw [← hnx] at ha hn1 hn2 hqu
        constructor
        · intro out ho
          simp only [naive_step, if_neg h1, if_neg h2, hp] at ho
          split at ho
          · cases ho
          · split at ho <;> cases ho
        · intro ns' ho hr
          simp only [naive_step, if_neg h1, if_neg h2, hp, ← hnx] at ho
          obtain ⟨_, hql, hqb, hqh, _⟩ := (ha _ hq).1 hqu
          split at ho
          · rename_i hcu
            obtain ⟨_, hcl, _, hch, _⟩ := (ha c hc).1 hcu
            have hx : (ns.strings c).headD 0 = (st.code_table c).first_index := by
              cases hcs : ns.strings c with
              | nil =>
                rw [hcs] at hch
                cases hch
              | cons a l =>
                rw [hcs] at hch
                simp at hch
                simp [hch]
            rw [hx] at ho
            unfold naive_add at ho
            simp only [← hnx] at ho
            by_cases h4 : st.next_code = 4096
            · rw [if_pos h4] at ho
              cases ho
              simp only [List.length_append] at hr
              refine ⟨_, feed_inuse m nc req u g st ns.strings c ha hnc hn2 hf hq hqu hc hcu
                (by rw [hind]; omega), ?_⟩
              rw [if_pos h4]
              refine ⟨ha, rfl, hn1, hn2, ?_, ?_⟩
              · show st.indices ++ ns.strings c = ns.output ++ ns.strings c
                rw [hind]
              · exact ⟨hf, rfl, hc, hcu⟩
            · rw [if_neg h4] at ho
              cases ho
              simp only [List.length_append] at hr
              refine ⟨_, feed_inuse m nc req u g st ns.strings c ha hnc hn2 hf hq hqu hc hcu
                (by rw [hind]; omega), ?_⟩
              rw [if_neg h4]
              refine ⟨agrees_insert ha hnc hn1 hq hqu _, rfl, ?_, ?_, ?_, ?_⟩
              · show 2 ^ m + 2 ≤ st.next_code + 1
                omega
              · show st.next_code + 1 ≤ 4096
                omega
              · show st.indices ++ ns.strings c = ns.output ++ ns.strings c
                rw [hind]
              · exact ⟨hf, rfl, hc, in_use_succ hcu⟩
          · rename_i hcu
            split at ho
            · rename_i hcn
              subst hcn
              have hx : (ns.strings st.prev_code).headD 0
                  = (st.code_table st.prev_code).first_index := by
                cases hcs : ns.strings st.prev_code with
                | nil =>
                  rw [hcs] at hqh
                  cases hqh
                | cons a l =>
                  rw [hcs] at hqh
                  simp at hqh
                  simp [hqh]
              rw [hx] at ho
              unfold naive_add at ho
              simp only [← hnx] at ho
              rw [if_neg (show ¬ (st.next_code = 4096) by omega)] at ho
              cases ho
              simp only [List.length_append, List.length_singleton] at hr
              refine ⟨_, feed_next m nc req u g st ns.strings ha hnc hn1 hc hf hq hqu
                (by rw [hind]; omega), ?_⟩
              refine ⟨agrees_insert ha hnc hn1 hq hqu _, rfl, ?_, ?_, ?_, ?_⟩
              · show 2 ^ m + 2 ≤ st.next_code + 1
                omega
              · show st.next_code + 1 ≤ 4096
                omega
              · show st.indices ++ _ = ns.output ++ _
                rw [hind]
              · refine ⟨hf, rfl, hc, .inr ⟨hn1, ?_⟩⟩
                show st.next_code < st.next_code + 1
                omega
            · cases ho

theorem naive_step_output {m nc : Nat} {ns ns' : naive_state} {c : Nat}
    (h : naive_step m nc ns c = .next ns') : ns.output.length ≤ ns'.output.length := by
  unfold naive_step at h
  split at h
  · cases h
  · split at h
    · cases h
      exact le_refl _
    · split at h
      · split at h
        · cases h
          simp
        · cases h
      · split at h
        · cases h
          unfold naive_add
          split <;> simp
        · split at h
          · cases h
            unfold naive_add
            split <;> simp
          · cases h

theorem naive_run_output {m nc : Nat} :
    ∀ (codes : List Nat) (ns : naive_state),
      (∀ ns', naive_run m nc ns codes = .next ns' → ns.output.length ≤ ns'.output.length)
      ∧ (∀ out, naive_run m nc ns codes = .done out → ns.output.length ≤ out.length) := by
  intro codes
  induction codes with
  | nil =>
    intro ns
    constructor
    · intro ns' h
      cases h
      exact le_refl _
    · intro out h
      cases h
  | cons c cs ih =>
    intro ns
    constructor
    · intro ns' h
      unfold naive_run at h
      split at h
      · rename_i ns1 h1
        exact le_trans (naive_step_output h1) ((ih ns1).1 ns' h)
      · cases h
      · cases h
    · intro out h
      unfold naive_run at h
      split at h
      · rename_i ns1 h1
        exact le_trans (naive_step_output h1) ((ih ns1).2 out h)
      · rename_i out1 h1
        cases h
        unfold naive_step at h1
        split at h1
        · cases h1
          exact le_refl _
        · split at h1
          · cases h1
          · split at h1
            · split at h1 <;> cases h1
            · split at h1
              · cases h1
              · split at h1 <;> cases h1
      · cases h

theorem sim_run (m nc req : Nat) (u : Uninit) (g : gif) (hm : 2 ≤ m ∧ m ≤ 8)
    (hnc : nc ≤ 2 ^ m) :
    ∀ (codes : List Nat) (st : lzw_state) (ns : naive_state), Sim m nc st ns →
      (∀ c ∈ codes, c < 4096) →
      (∀ out, naive_run m nc ns codes = .done out → out.length ≤ req →
        decode_codes ⟨m, nc, req⟩ u g st codes = .ok (.end_code_stream out []))
      ∧ (∀ ns', naive_run m nc ns codes = .next ns' → ns'.output.length ≤ req →
          ∃ st', decode_codes ⟨m, nc, req⟩ u g st codes = .ok (.next st')
            ∧ Sim m nc st' ns') := by
  intro codes
  induction codes with
  | nil =>
    intro st ns hs _
    constructor
    · intro out h
      cases h
    · intro ns' h _
      cases h
      exact ⟨st, rfl, hs⟩
  | cons c cs ih =>
    intro st ns hs hc
    have hc0 : c < 4096 := hc c (by simp)
    have hcs : ∀ x ∈ cs, x < 4096 := fun x hx => hc x (by simp [hx])
    obtain ⟨s1, s2⟩ := sim_step m nc req u g hm hnc hs hc0
    constructor
    · intro out h hr
      unfold naive_run at h
      split at h
      · rename_i ns1 h1
        obtain ⟨st1, hf, hs1⟩ := s2 ns1 h1
          (le_trans ((naive_run_output cs ns1).2 out h) hr)
        unfold decode_codes
        rw [hf]
        exact (ih st1 ns1 hs1 hcs).1 out h hr
      · rename_i out1 h1
        cases h
        unfold decode_codes
        rw [s1 _ h1]
      · cases h
    · intro ns' h hr
      unfold naive_run at h
      split at h
      · rename_i ns1 h1
        obtain ⟨st1, hf, hs1⟩ := s2 ns1 h1
          (le_trans ((naive_run_output cs ns1).1 ns' h) hr)
        unfold decode_codes
        rw [hf]
        exact (ih st1 ns1 hs1 hcs).2 ns' h hr
      · cases h
      · cases h

theorem chain_string_agrees {m nc next : Nat} {t : Nat → gif_code} {strs : Nat → List Nat}
    (ha : Agrees m nc t strs next) :
    ∀ (fuel c : Nat), c < 4096 → naive_in_use m nc next c → c < fuel →
      chain_string t fuel c = strs c := by
  intro fuel
  induction fuel with
  | zero =>
    intro c _ _ h
    omega
  | succ n ih =>
    intro c hc hu hf
    obtain ⟨_, _, _, _, h | h⟩ := (ha c hc).1 hu
    · obtain ⟨_, hp, hi, hs⟩ := h
      unfold chain_string
      rw [if_pos hp, hs, hi]
    · obtain ⟨_, hp, hpu, hs⟩ := h
      have hne : (t c).prefix_code ≠ GIF_CODE_NO_PREFIX := by
        unfold GIF_CODE_NO_PREFIX
        omega
      unfold chain_string
      rw [if_neg hne, ih _ (by omega) hpu (by omega)]
      exact hs.symm

theorem decode_codes_cons (p : lzw_params) (u : Uninit) (g : gif) (st st' : lzw_state)
    (c : Nat) (cs : List Nat)
    (h : decode_code p u g { st with code := c, code_off := st.lzw_code_size } 0 []
      = .ok (.next st')) :
    decode_codes p u g st (c :: cs) = decode_codes p u g st' cs := by
  rw [decode_codes, feed_code, h]

theorem decode_first_x (u : Uninit) (g : gif) (req : Nat) (T : Nat → gif_code)
    (sz pv x co bo nx : Nat) (ind : List Nat) (bytes : Nat) (v : List UInt8)
    (hx : x = 0 ∨ x = 1) (hreq : ind.length < req) :
    decode_code ⟨2, 4, req⟩ u g ⟨T, 1, sz, pv, x, co, bo, nx, ind⟩ bytes v
      = .ok (.next ⟨T, 0, sz, x, 0, 0, bo, nx, ind ++ [x]⟩) := by
  have e1 : ¬ (req ≤ ind.length) := by omega
  rcases hx with h | h <;> subst h <;>
  simp [decode_code, lzw_state.num_indices, indices_put, end_code, e1, hreq]

theorem decode_root_x (u : Uninit) (g : gif) (req : Nat) (T : Nat → gif_code)
    (pv x co bo nx : Nat) (ind : List Nat) (bytes : Nat) (v : List UInt8)
    (hx : x = 0 ∨ x = 1) (h0 : T x = root x) (hpv : pv < 4096) (hnx : nx = 6 ∨ nx = 7)
    (hreq : ind.length + 1 ≤ req) :
    decode_code ⟨2, 4, req⟩ u g ⟨T, 0, 3, pv, x, co, bo, nx, ind⟩ bytes v
      = .ok (.next ⟨upd T nx ⟨((T pv).len + 1) % 65536, pv, 1, x, (T pv).first_index⟩, 0,
          if nx = 7 then 4 else 3, x, 0, 0, bo, nx + 1, ind ++ [x]⟩) := by
  have e1 : ¬ (req < ind.length + 1) := by omega
  have e2 : ind.length < req := by omega
  rcases hx with h | h <;> subst h <;> rcases hnx with h | h <;> subst h <;>
  simp [decode_code, decode_inuse, code_table_at, h0, root, lzw_state.num_indices, e1,
    e2, hpv, stack_set, walk, GIF_CODE_NO_PREFIX, emit, indices_put, insert_code,
    code_table_set, end_code] <;>
  rfl

theorem decode_stale (u : Uninit) (g : gif) (req : Nat) (T : Nat → gif_code)
    (x co bo : Nat) (ind : List Nat) (bytes : Nat) (v : List UInt8)
    (hx : x = 0 ∨ x = 1) (h0 : T x = root x) (h7 : T 7 = ⟨2, x, 0, x, x⟩)
    (hreq : ind.length + 3 ≤ req) :
    decode_code ⟨2, 4, req⟩ u g ⟨T, 0, 3, 7, 7, co, bo, 7, ind⟩ bytes v
      = .ok (.next ⟨upd T 7 ⟨3, 7, 1, x, x⟩, 0, 4, 7, 0, 0, bo, 8, ind ++ [x, x, x]⟩) := by
  have e1 : ¬ (req < ind.length + 3) := by omega
  have e2 : ind.length < req := by omega
  have e3 : ind.length + 1 < req := by omega
  have e4 : ind.length + 1 + 1 < req := by omega
  have e5 : ¬ (req < ind.length + 1 + 1 + 1) := by omega
  rcases hx with h | h <;> subst h <;>
  simp [decode_code, decode_unused, code_table_at, h0, h7, root, lzw_state.num_indices, e1,
    e2, e3, e4, e5, stack_set, walk, GIF_CODE_NO_PREFIX, emit, indices_put, insert_code,
    code_table_set, end_code] <;>
  rfl

theorem stale_table_root (u : Uninit) (x : Nat) (hx : x = 0 ∨ x = 1) :
    stale_table (init_code_table u 4) x x = root x := by
  rcases hx with h | h <;> subst h <;> simp [stale_table, clear_code_table, upd,
    init_code_table, root]

theorem stale_table_zero (u : Uninit) (x : Nat) :
    stale_table (init_code_table u 4) x 0 = root 0 := by
  simp [stale_table, clear_code_table, upd, init_code_table, root]

theorem stale_table_seven (T : Nat → gif_code) (x : Nat) :
    stale_table T x 7 = ⟨2, x, 0, x, x⟩ := by
  simp [stale_table, clear_code_table, upd]

theorem stale_codes_before (u : Uninit) (g : gif) (x : Nat) (hx : x = 0 ∨ x = 1) :
    decode_codes ⟨2, 4, 9⟩ u g (lzw_start u 2 4) [x, x, x, 4]
      = .ok (.next ⟨stale_table (init_code_table u 4) x, 1, 3, x, 0, 0, 0, 6,
          [x, x, x]⟩) := by
  have hs : lzw_start u 2 4 = ⟨init_code_table u 4, 1, 3, 0, 0, 0, 0, 6, []⟩ := rfl
  have hr : init_code_table u 4 x = root x := by
    rcases hx with h | h <;> subst h <;> simp [init_code_table, root]
  have hx4 : x < 4096 := by omega
  have hx6 : x ≠ 6 := by omega
  have d1 := decode_first_x u g 9 (init_code_table u 4) 3 0 x 3 0 6 [] 0 [] hx (by simp)
  have d2 := decode_root_x u g 9 (init_code_table u 4) x x 3 0 6 ([] ++ [x]) 0 [] hx hr hx4
    (.inl rfl) (by simp)
  simp only [show ¬ ((6 : Nat) = 7) by decide, if_false, show (6 : Nat) + 1 = 7 from rfl,
    hr, root, show (1 + 1) % 65536 = 2 from rfl] at d2
  have d3 := decode_root_x u g 9 (upd (init_code_table u 4) 6 ⟨2, x, 1, x, x⟩) x x 3 0 7
    ([] ++ [x] ++ [x]) 0 [] hx (by simp [upd, hx6, hr]) hx4 (.inr rfl) (by simp)
  simp only [if_true, show (7 : Nat) + 1 = 8 from rfl, upd, if_neg hx6, hr, root,
    show (1 + 1) % 65536 = 2 from rfl] at d3
  rw [hs, decode_codes_cons _ u g _ _ _ _ d1, decode_codes_cons _ u g _ _ _ _ d2,
    decode_codes_cons _ u g _ _ _ _ d3,
    decode_codes_cons _ u g _ _ _ _ (decode_clear u g 9 _ 0 4 x 4 0 8 _ 0 [])]
  rfl

theorem stale_codes_after (u : Uninit) (g : gif) (x : Nat) (hx : x = 0 ∨ x = 1) :
    decode_codes ⟨2, 4, 9⟩ u g
        ⟨stale_table (init_code_table u 4) x, 1, 3, x, 0, 0, 0, 6, [x, x, x]⟩ [0, 7, 7]
      = .ok (.next ⟨upd (upd (stale_table (init_code_table u 4) x) 6 ⟨2, 0, 1, 0, 0⟩) 7
          ⟨3, 7, 1, x, x⟩, 0, 4, 7, 0, 0, 0, 8, [x, x, x] ++ [0] ++ [0, 0] ++ [x, x, x]⟩) := by
  have d1 := decode_first_x u g 9 (stale_table (init_code_table u 4) x) 3 x 0 3 0 6
    [x, x, x] 0 [] (.inl rfl) (by simp)
  have d2 := decode_hack u g 9 (stale_table (init_code_table u 4) x) 3 0 ([x, x, x] ++ [0])
    0 [] (stale_table_zero u x) (by rw [stale_table_seven]) (by simp)
  have d3 := decode_stale u g 9 (upd (stale_table (init_code_table u 4) x) 6 ⟨2, 0, 1, 0, 0⟩)
    x 3 0 ([x, x, x] ++ [0] ++ [0, 0]) 0 [] hx
    (by
      have : x ≠ 6 := by omega
      simp [upd, this, stale_table_root u x hx])
    (by simp [upd, stale_table_seven]) (by simp)
  rw [decode_codes_cons _ u g _ _ _ _ d1, decode_codes_cons _ u g _ _ _ _ d2,
    decode_codes_cons _ u g _ _ _ _ d3]
  rfl

theorem tb40 : take_bits 3 0 0 0 73 = (1, 3, 3) := by decide

theorem tb41 : take_bits 3 0 3 0 73 = (1, 3, 6) := by decide

theorem tb42 : take_bits 3 0 6 0 73 = (1, 2, 8) := by decide

theorem tb43 : take_bits 3 2 0 1 8 = (1, 3, 1) := by decide

theorem tb44 : take_bits 3 0 0 0 127 = (7, 3, 3) := by decide

theorem tb45 : take_bits 3 0 3 0 127 = (7, 3, 6) := by decide

theorem tb46 : take_bits 4 0 6 0 127 = (1, 2, 8) := by decide

theorem tb47 : take_bits 4 2 0 1 1 = (5, 4, 2) := by decide

theorem stale_data (u : Uninit) (i : ImageSetup) (w : List UInt8) (x : Nat) (b : UInt8)
    (hx : (x = 0 ∧ b = 0x00) ∨ (x = 1 ∧ b = 0x49)) (hn : i.num_colors = 4)
    (hw : i.img.width = 9) (hh : i.img.height = 1)
    (hv : i.v = 2 :: 4 :: b :: 0x08 :: 0x7F :: 0x01 :: w) (hl : 1 ≤ w.length) :
    image_data u i = .ok ([x, x, x] ++ [0] ++ [0, 0] ++ [x, x, x], w) := by
  have hx01 : x = 0 ∨ x = 1 := by
    rcases hx with h | h
    · exact .inl h.1
    · exact .inr h.1
  unfold image_data
  rw [hv, hn, hw, hh]
  simp only [VEC_MUST, VEC_AT_UNSAFE, VEC_ADVANCE_UNSAFE]
  simp [UInt8.size]
  have e0 : ¬ (w.length + 1 + 1 + 1 + 1 + 1 + 1 < 2) := by omega
  simp only [e0, if_false, bind_ok_eq]
  have hs : lzw_start u 2 4 = ⟨init_code_table u 4, 1, 3, 0, 0, 0, 0, 6, []⟩ := rfl
  have hr : init_code_table u 4 x = root x := by
    rcases hx01 with h | h <;> subst h <;> simp [init_code_table, root]
  have hx4 : x < 4096 := by omega
  have hx6 : x ≠ 6 := by omega
  have r1 : ∀ (T : Nat → gif_code) (ind : List Nat),
      read_bits ⟨T, 1, 3, 0, 0, 0, 0, 6, ind⟩ 4 (b :: 0x08 :: 0x7F :: 0x01 :: w)
        = .ok (⟨T, 1, 3, 0, x, 3, 3, 6, ind⟩, 4, (b :: 0x08 :: 0x7F :: 0x01 :: w)) := by
    intro T ind
    rcases hx with ⟨h1, h2⟩ | ⟨h1, h2⟩ <;> subst h1 <;> subst h2
    · simp [read_bits_cons, tb7, UInt8.size]
    · simp [read_bits_cons, tb40, UInt8.size]
  have r2 : ∀ (T : Nat → gif_code) (ind : List Nat),
      read_bits ⟨T, 0, 3, x, 0, 0, 3, 6, ind⟩ 4 (b :: 0x08 :: 0x7F :: 0x01 :: w)
        = .ok (⟨T, 0, 3, x, x, 3, 6, 6, ind⟩, 4, (b :: 0x08 :: 0x7F :: 0x01 :: w)) := by
    intro T ind
    rcases hx with ⟨h1, h2⟩ | ⟨h1, h2⟩ <;> subst h1 <;> subst h2
    · simp [read_bits_cons, tb8, UInt8.size]
    · simp [read_bits_cons, tb41, UInt8.size]
  have r3 : ∀ (T : Nat → gif_code) (ind : List Nat),
      read_bits ⟨T, 0, 3, x, 0, 0, 6, 7, ind⟩ 4 (b :: 0x08 :: 0x7F :: 0x01 :: w)
        = .ok (⟨T, 0, 3, x, x, 2, 0, 7, ind⟩, 3, (0x08 :: 0x7F :: 0x01 :: w)) := by
    intro T ind
    rcases hx with ⟨h1, h2⟩ | ⟨h1, h2⟩ <;> subst h1 <;> subst h2
    · simp [read_bits_cons, tb9, UInt8.size]
    · simp [read_bits_cons, tb42, UInt8.size]
  have r4 : ∀ (T : Nat → gif_code) (ind : List Nat),
      read_bits ⟨T, 0, 3, x, x, 2, 0, 7, ind⟩ 3 (0x08 :: 0x7F :: 0x01 :: w)
        = .ok (⟨T, 0, 3, x, x, 3, 1, 7, ind⟩, 3, (0x08 :: 0x7F :: 0x01 :: w)) := by
    intro T ind
    rcases hx01 with h1 | h1 <;> subst h1
    · simp [read_bits_cons, tb14, UInt8.size]
    · simp [read_bits_cons, tb43, UInt8.size]
  have r5 : ∀ (T : Nat → gif_code) (ind : List Nat),
      read_bits ⟨T, 0, 4, x, 0, 0, 1, 8, ind⟩ 3 (0x08 :: 0x7F :: 0x01 :: w)
        = .ok (⟨T, 0, 4, x, 4, 4, 5, 8, ind⟩, 3, (0x08 :: 0x7F :: 0x01 :: w)) := by
    intro T ind
    simp [read_bits_cons, tb15, UInt8.size]
  have r6 : ∀ (T : Nat → gif_code) (ind : List Nat),
      read_bits ⟨T, 1, 3, x, 0, 0, 5, 6, ind⟩ 3 (0x08 :: 0x7F :: 0x01 :: w)
        = .ok (⟨T, 1, 3, x, 0, 3, 0, 6, ind⟩, 2, (0x7F :: 0x01 :: w)) := by
    intro T ind
    simp [read_bits_cons, tb16, UInt8.size]
  have r7 : ∀ (T : Nat → gif_code) (ind : List Nat),
      read_bits ⟨T, 0, 3, 0, 0, 0, 0, 6, ind⟩ 2 (0x7F :: 0x01 :: w)
        = .ok (⟨T, 0, 3, 0, 7, 3, 3, 6, ind⟩, 2, (0x7F :: 0x01 :: w)) := by
    intro T ind
    simp [read_bits_cons, tb44, UInt8.size]
  have r8 : ∀ (T : Nat → gif_code) (ind : List Nat),
      read_bits ⟨T, 0, 3, 7, 0, 0, 3, 7, ind⟩ 2 (0x7F :: 0x01 :: w)
        = .ok (⟨T, 0, 3, 7, 7, 3, 6, 7, ind⟩, 2, (0x7F :: 0x01 :: w)) := by
    intro T ind
    simp [read_bits_cons, tb45, UInt8.size]
  have r9 : ∀ (T : Nat → gif_code) (ind : List Nat),
      read_bits ⟨T, 0, 4, 7, 0, 0, 6, 8, ind⟩ 2 (0x7F :: 0x01 :: w)
        = .ok (⟨T, 0, 4, 7, 1, 2, 0, 8, ind⟩, 1, (0x01 :: w)) := by
    intro T ind
    simp [read_bits_cons, tb46, UInt8.size]
  have r10 : ∀ (T : Nat → gif_code) (ind : List Nat),
      read_bits ⟨T, 0, 4, 7, 1, 2, 0, 8, ind⟩ 1 (0x01 :: w)
        = .ok (⟨T, 0, 4, 7, 5, 4, 2, 8, ind⟩, 1, (0x01 :: w)) := by
    intro T ind
    simp [read_bits_cons, tb47, UInt8.size]
  have d2 := decode_root_x u i.g 9 (init_code_table u 4) x x 3 6 6 ([] ++ [x])
    4 (b :: 0x08 :: 0x7F :: 0x01 :: w) hx01 hr hx4 (.inl rfl) (by simp)
  simp only [show ¬ ((6 : Nat) = 7) by decide, if_false, show (6 : Nat) + 1 = 7 from rfl,
    hr, root, show (1 + 1) % 65536 = 2 from rfl] at d2
  have hux : upd (init_code_table u 4) 6 ⟨2, x, 1, x, x⟩ x = root x := by
    simp [upd, hx6, hr]
  have d3 := decode_root_x u i.g 9 (upd (init_code_table u 4) 6 ⟨2, x, 1, x, x⟩) x x 3 1 7
    ([] ++ [x] ++ [x]) 3 (0x08 :: 0x7F :: 0x01 :: w) hx01 hux hx4
    (.inr rfl) (by simp)
  simp only [if_true, show (7 : Nat) + 1 = 8 from rfl, hux, root,
    show (1 + 1) % 65536 = 2 from rfl] at d3
  have d4 : decode_code ⟨2, 4, 9⟩ u i.g
      ⟨upd (upd (init_code_table u 4) 6 ⟨2, x, 1, x, x⟩) 7 ⟨2, x, 1, x, x⟩,
        0, 4, x, 4, 4, 5, 8, [] ++ [x] ++ [x] ++ [x]⟩ 3
        (0x08 :: 0x7F :: 0x01 :: w)
      = .ok (.next ⟨stale_table (init_code_table u 4) x, 1, 3, x, 0, 0, 5, 6,
          [] ++ [x] ++ [x] ++ [x]⟩) :=
    decode_clear u i.g 9 _ 0 4 x 4 5 8 _ 3 _
  have d5 := decode_first_x u i.g 9 (stale_table (init_code_table u 4) x) 3 x 0 3 0 6
    ([] ++ [x] ++ [x] ++ [x]) 2 (0x7F :: 0x01 :: w) (.inl rfl) (by simp)
  have d6 := decode_hack u i.g 9 (stale_table (init_code_table u 4) x) 3 3
    ([] ++ [x] ++ [x] ++ [x] ++ [0]) 2 (0x7F :: 0x01 :: w)
    (stale_table_zero u x) (by rw [stale_table_seven]) (by simp)
  have d7 := decode_stale u i.g 9
    (upd (stale_table (init_code_table u 4) x) 6 ⟨2, 0, 1, 0, 0⟩)
    x 3 6 ([] ++ [x] ++ [x] ++ [x] ++ [0] ++ [0, 0]) 2 (0x7F :: 0x01 :: w) hx01
    (by simp [upd, hx6, stale_table_root u x hx01])
    (by simp [upd, stale_table_seven]) (by simp)
  rw [sub_blocks_succ _ u _ _ _ 4 4 _ (by decide) (by simp; omega), hs,
    show 8 * 4 + 1 = 32 + 1 from rfl,
    code_loop_code _ u _ 32 _ _ _ _ _ _ _ (by decide) (r1 _ _) rfl
      (decode_first_x u _ 9 _ 3 0 x 3 3 6 [] _ _ hx01 (by simp)),
    show (32 : Nat) = 31 + 1 from rfl,
    code_loop_code _ u _ 31 _ _ _ _ _ _ _ (by decide) (r2 _ _) rfl d2,
    show (31 : Nat) = 30 + 1 from rfl,
    code_loop_part _ u _ 30 _ _ _ _ _ _ (by decide) (r3 _ _) (by simp),
    show (30 : Nat) = 29 + 1 from rfl,
    code_loop_code _ u _ 29 _ _ _ _ _ _ _ (by decide) (r4 _ _) rfl d3,
    show (29 : Nat) = 28 + 1 from rfl,
    code_loop_code _ u _ 28 _ _ _ _ _ _ _ (by decide) (r5 _ _) rfl d4,
    show (28 : Nat) = 27 + 1 from rfl,
    code_loop_code _ u _ 27 _ _ _ _ _ _ _ (by decide) (r6 _ _) rfl d5,
    show (27 : Nat) = 26 + 1 from rfl,
    code_loop_code _ u _ 26 _ _ _ _ _ _ _ (by decide) (r7 _ _) rfl d6,
    show (26 : Nat) = 25 + 1 from rfl,
    code_loop_code _ u _ 25 _ _ _ _ _ _ _ (by decide) (r8 _ _) rfl d7,
    show (25 : Nat) = 24 + 1 from rfl,
    code_loop_part _ u _ 24 _ _ _ _ _ _ (by decide) (r9 _ _) (by simp),
    show (24 : Nat) = 23 + 1 from rfl,
    code_loop_end _ u _ 23 _ _ _ _ _ _ _ _ (by decide) (r10 _ _) rfl
      (decode_eoi u _ 4 9 _ 0 4 7 4 2 8 _ 1 _ (by decide) (by simp))]
  rfl

theorem clear_code_table_fields (t : Nat → gif_code) (nc i : Nat) :
    (clear_code_table t nc i).len = (t i).len
      ∧ (clear_code_table t nc i).prefix_code = (t i).prefix_code
      ∧ (clear_code_table t nc i).index = (t i).index
      ∧ (clear_code_table t nc i).first_index = (t i).first_index := by
  unfold clear_code_table
  by_cases h : nc ≤ i ∧ i < 4096
  · rw [if_pos h]
    exact ⟨rfl, rfl, rfl, rfl⟩
  · rw [if_neg h]
    exact ⟨rfl, rfl, rfl, rfl⟩

theorem stale_parse (u : Uninit) (buf : List UInt8) (x : Nat) (b : UInt8)
    (hx : (x = 0 ∧ b = 0x00) ∨ (x = 1 ∧ b = 0x49))
    (hh : ∃ s0 i, parse_header buf = .ok s0 ∧ 1 ≤ s0.v.length
      ∧ byte s0.v 0 = 0x2C ∧ image_descriptor s0 = .ok i ∧ i.num_colors = 4
      ∧ i.img.width = 9 ∧ i.img.height = 1
      ∧ i.v = 2 :: 4 :: b :: 0x08 :: 0x7F :: 0x01 :: [0, 0x3B]
      ∧ ∃ g img, (match image_finish u s0.frame i
            ([x, x, x] ++ [0] ++ [0, 0] ++ [x, x, x]) [0, 0x3B] with
          | .error e => e
          | .ok s1 => read_block u s0.v.length s1) = .ret GIF_SUCCESS g
        ∧ g.images = [img] ∧ img.indices = [x, x, x, 0, 0, 0, x, x, x]) :
    ∃ g img, gif_parse u buf = .ret GIF_SUCCESS g ∧ g.images = [img]
      ∧ img.indices = [x, x, x, 0, 0, 0, x, x, x] := by
  obtain ⟨s0, i, h1, h2, h3, h4, h5, h6, h7, h8, g, img, h9, h10, h11⟩ := hh
  refine ⟨g, img, ?_, h10, h11⟩
  rw [gif_parse_first_image u _ s0 i h1 h2 h3 h4, stale_data u i _ x b hx h5 h6 h7 h8 (by decide)]
  exact h9

theorem code_loop_log_snd (p : lzw_params) (u : Uninit) (g : gif) :
    ∀ (fuel : Nat) (st : lzw_state) (bytes : Nat) (v : List UInt8),
      (code_loop_log p u g fuel st bytes v).2 = code_loop p u g fuel st bytes v := by
  intro fuel
  induction fuel with
  | zero =>
    intro st bytes v
    rfl
  | succ n ih =>
    intro st bytes v
    unfold code_loop_log code_loop
    split
    · rfl
    · split
      · rfl
      · rename_i st1 b1 v1 h
        split
        · split
          · rfl
          · rfl
          · exact ih _ _ _
        · exact ih _ _ _

theorem sub_blocks_log_snd (p : lzw_params) (u : Uninit) (g : gif) :
    ∀ (fuel : Nat) (st : lzw_state) (bytes : Nat) (v : List UInt8),
      (sub_blocks_log p u g fuel st bytes v).2 = sub_blocks p u g fuel st bytes v := by
  intro fuel
  induction fuel with
  | zero =>
    intro st bytes v
    rfl
  | succ n ih =>
    intro st bytes v
    unfold sub_blocks_log sub_blocks
    split
    · rfl
    · split
      · rfl
      · rename_i v1 h
        have hc := code_loop_log_snd p u g (8 * bytes + 1) st bytes v1
        split
        · rename_i l e h2
          rw [h2] at hc
          rw [← hc]
        · rename_i l ind v2 h2
          rw [h2] at hc
          rw [← hc]
        · rename_i l st2 v2 h2
          rw [h2] at hc
          rw [← hc]
          simp only []
          split
          · rfl
          · exact ih _ _ _

theorem stream_bits_succ (P : List UInt8) (o w : Nat) :
    stream_bits P o (w + 1) = stream_bit P o + 2 * stream_bits P (o + 1) w := rfl

theorem stream_bits_lt (P : List UInt8) : ∀ (w o : Nat), stream_bits P o w < 2 ^ w := by
  intro w
  induction w with
  | zero =>
    intro o
    simp [stream_bits]
  | succ n ih =>
    intro o
    have h1 := ih (o + 1)
    have h2 : stream_bit P o < 2 := Nat.mod_lt _ (by decide)
    rw [stream_bits_succ, Nat.pow_succ]
    omega

theorem stream_bits_add (P : List UInt8) :
    ∀ (a o b : Nat),
      stream_bits P o (a + b) = stream_bits P o a + 2 ^ a * stream_bits P (o + a) b := by
  intro a
  induction a with
  | zero =>
    intro o b
    simp [stream_bits]
  | succ n ih =>
    intro o b
    rw [show n + 1 + b = (n + b) + 1 by omega, stream_bits_succ, stream_bits_succ P o n,
      ih (o + 1) b, show o + 1 + n = o + (n + 1) by omega, Nat.pow_succ]
    ring

theorem stream_bits_byte (P : List UInt8) (n : Nat) :
    ∀ (bits bo : Nat), bo + bits ≤ 8 →
      stream_bits P (8 * n + bo) bits = (byte P n >>> bo) % 2 ^ bits := by
  intro bits
  induction bits with
  | zero =>
    intro bo _
    simp [stream_bits, Nat.mod_one]
  | succ k ih =>
    intro bo h
    rw [stream_bits_succ, show 8 * n + bo + 1 = 8 * n + (bo + 1) by omega,
      ih (bo + 1) (by omega)]
    have e1 : (8 * n + bo) / 8 = n := by omega
    have e2 : (8 * n + bo) % 8 = bo := by omega
    unfold stream_bit
    rw [e1, e2, Nat.shiftRight_succ, Nat.pow_succ, Nat.mul_comm (2 ^ k) 2, Nat.mod_mul]

theorem take_bits_stream (P : List UInt8) (n o co bo bits code : Nat)
    (hc : code = stream_bits P o co) (ho : o + co = 8 * n + bo) (hb : bo + bits ≤ 8)
    (hw : co + bits ≤ 16) :
    (code ||| (((byte P n >>> bo) &&& ((1 <<< bits) - 1)) <<< co)) % 65536
      = stream_bits P o (co + bits) := by
  have h1 : code < 2 ^ co := by
    rw [hc]
    exact stream_bits_lt P co o
  rw [Nat.one_shiftLeft, Nat.and_pow_two_sub_one_eq_mod, Nat.shiftLeft_eq, Nat.lor_comm,
    Nat.mul_comm, ← Nat.mul_add_lt_is_or h1, stream_bits_add, ho, stream_bits_byte P n bits bo hb,
    ← hc, Nat.add_comm]
  apply Nat.mod_eq_of_lt
  have h2 : (byte P n >>> bo) % 2 ^ bits < 2 ^ bits := Nat.mod_lt _ (Nat.two_pow_pos bits)
  have h3 : code + 2 ^ co * ((byte P n >>> bo) % 2 ^ bits) < 2 ^ (co + bits) := by
    rw [Nat.pow_add]
    nlinarith
  have h4 : 2 ^ (co + bits) ≤ 2 ^ 16 := Nat.pow_le_pow_right (by decide) hw
  omega

theorem VEC_AT_UNSAFE_eq {v : List UInt8} {i b : Nat} (h : VEC_AT_UNSAFE v i = .ok b) :
    i < v.length ∧ b = byte v i := by
  unfold VEC_AT_UNSAFE at h
  split at h
  · rename_i x hx
    cases h
    have hl : i < v.length := by
      by_contra hc
      rw [List.getElem?_eq_none (by omega)] at hx
      cases hx
    refine ⟨hl, ?_⟩
    simp [byte, List.getD, hx]
  · cases h

theorem read_bits_spec (P : List UInt8) {st st1 : lzw_state} {bytes bytes1 : Nat}
    {v v1 : List UInt8} {n o : Nat} (h : read_bits st bytes v = .ok (st1, bytes1, v1))
    (hb : bytes ≠ 0) (hbo : st.bit_off < 8) (hco : st.code_off < st.lzw_code_size)
    (hw : st.lzw_code_size ≤ 16) (ho : o + st.code_off = 8 * n + st.bit_off)
    (hc : st.code = stream_bits P o st.code_off)
    (hP : ∀ i, i < bytes → byte P (n + i) = byte v i) :
    ∃ n1, n1 + bytes1 = n + bytes ∧ v1.drop bytes1 = v.drop bytes
      ∧ o + st1.code_off = 8 * n1 + st1.bit_off ∧ st1.bit_off < 8
      ∧ st1.code = stream_bits P o st1.code_off ∧ st1.code_off ≤ st1.lzw_code_size
      ∧ (∀ i, i < bytes1 → byte P (n1 + i) = byte v1 i)
      ∧ st1.lzw_code_size = st.lzw_code_size ∧ st1.next_code = st.next_code := by
  obtain ⟨hn1, hn2, hn3⟩ := num_bits_bounds st hbo hco
  unfold read_bits at h
  simp only [] at h
  obtain ⟨b, hb0, h⟩ := bind_eq_ok h
  obtain ⟨hv0, hbe⟩ := VEC_AT_UNSAFE_eq hb0
  have hbP : b = byte P n := by
    rw [hbe, ← hP 0 (by omega)]
    rfl
  have hcode := take_bits_stream P n o st.code_off st.bit_off (num_bits st) st.code hc ho hn2
    (by omega)
  rw [← hbP] at hcode
  split at h
  · rename_i h8
    obtain ⟨w, hw1, h⟩ := bind_eq_ok h
    unfold VEC_ADVANCE_UNSAFE at hw1
    rw [if_pos (by omega)] at hw1
    cases hw1
    cases h
    refine ⟨n + 1, by omega, ?_, by
      show o + (st.code_off + num_bits st) = 8 * (n + 1) + 0
      omega, by
      show 0 < 8
      omega, hcode, hn3, ?_, rfl, rfl⟩
    · rw [List.drop_drop]
      congr 1
      omega
    · intro i hi
      rw [show n + 1 + i = n + (i + 1) by omega, hP (i + 1) (by omega)]
      simp [byte, List.getD]
  · rename_i h8
    cases h
    refine ⟨n, rfl, rfl, by
      show o + (st.code_off + num_bits st) = 8 * n + (st.bit_off + num_bits st)
      omega, by
      show st.bit_off + num_bits st < 8
      omega, hcode, hn3, hP, rfl, rfl⟩

theorem decode_code_next_fields {p : lzw_params} {u : Uninit} {g : gif}
    {st st' : lzw_state} {bytes : Nat} {v : List UInt8}
    (h : decode_code p u g st bytes v = .ok (.next st')) :
    st'.code = 0 ∧ st'.code_off = 0 ∧ st'.bit_off = st.bit_off := by
  rcases decode_code_next h with ⟨_, rfl⟩ | ⟨_, _, _, rfl⟩ | ⟨_, _, i, l, pc, x, fi, hi⟩
  · exact ⟨rfl, rfl, rfl⟩
  · exact ⟨rfl, rfl, rfl⟩
  · rcases insert_code_next hi with ⟨_, rfl⟩ | ⟨_, rfl⟩
    · exact ⟨rfl, rfl, rfl⟩
    · exact ⟨rfl, rfl, rfl⟩

theorem code_loop_log_spec (p : lzw_params) (u : Uninit) (g : gif)
    (hm : 2 ≤ p.min_lzw_code_size ∧ p.min_lzw_code_size ≤ 8) (P : List UInt8) :
    ∀ (fuel : Nat) (st : lzw_state) (bytes : Nat) (v : List UInt8) (n o : Nat),
      WidthInv p.min_lzw_code_size st → st.bit_off < 8 → st.code_off < st.lzw_code_size →
      o + st.code_off = 8 * n + st.bit_off → st.code = stream_bits P o st.code_off →
      (∀ i, i < bytes → byte P (n + i) = byte v i) →
      LogAt P o (code_loop_log p u g fuel st bytes v).1
      ∧ ∀ st' v', (code_loop_log p u g fuel st bytes v).2 = .ok (.more st' v') →
          WidthInv p.min_lzw_code_size st' ∧ st'.bit_off < 8
          ∧ st'.code_off < st'.lzw_code_size ∧ v' = v.drop bytes
          ∧ o + log_width (code_loop_log p u g fuel st bytes v).1 + st'.code_off
              = 8 * (n + bytes) + st'.bit_off
          ∧ st'.code
              = stream_bits P (o + log_width (code_loop_log p u g fuel st bytes v).1)
                  st'.code_off := by
  intro fuel
  induction fuel with
  | zero =>
    intro st bytes v n o _ _ _ _ _ _
    refine ⟨trivial, ?_⟩
    intro st' v' h
    cases h
  | succ k ih =>
    intro st bytes v n o hwi hbo hco ho hc hP
    unfold code_loop_log
    by_cases hb : bytes = 0
    · subst hb
      rw [if_pos rfl]
      refine ⟨trivial, ?_⟩
      intro st' v' h
      cases h
      exact ⟨hwi, hbo, hco, rfl, by simpa [log_width] using ho, by simpa [log_width] using hc⟩
    · rw [if_neg hb]
      cases hr : read_bits st bytes v with
      | error e =>
        refine ⟨trivial, ?_⟩
        intro st' v' h
        cases h
      | ok r =>
        obtain ⟨st1, bytes1, v1⟩ := r
        obtain ⟨n1, e1, e2, e3, e4, e5, e6, e7, e8, e9⟩ :=
          read_bits_spec P hr hb hbo hco (by
            have := hwi.2.1
            omega) ho hc hP
        have hwi1 : WidthInv p.min_lzw_code_size st1 := by
          unfold WidthInv at hwi ⊢
          rw [e8, e9]
          exact hwi
        simp only []
        by_cases hfull : st1.code_off = st1.lzw_code_size
        · rw [if_pos hfull]
          have hhead : st1.code = stream_bits P o st1.lzw_code_size := by
            rw [← hfull]
            exact e5
          cases hd : decode_code p u g st1 bytes1 v1 with
          | error e =>
            refine ⟨⟨hhead, trivial⟩, ?_⟩
            intro st' v' h
            cases h
          | ok s =>
            cases s with
            | end_code_stream ind v2 =>
              refine ⟨⟨hhead, trivial⟩, ?_⟩
              intro st' v' h
              cases h
            | next st2 =>
              simp only []
              obtain ⟨f1, f2, f3⟩ := decode_code_next_fields hd
              have hwi2 := (widthInv_decode hm hwi1 hd).1
              have hpos : st2.code_off < st2.lzw_code_size := by
                have := hwi2.1
                omega
              obtain ⟨i1, i2⟩ := ih st2 bytes1 v1 n1 (o + st1.lzw_code_size) hwi2
                (by omega) hpos (by omega) (by rw [f1, f2]; rfl) e7
              refine ⟨⟨hhead, i1⟩, ?_⟩
              intro st' v' h
              obtain ⟨j1, j2, j3, j4, j5, j6⟩ := i2 st' v' h
              refine ⟨j1, j2, j3, by rw [j4, e2], ?_, ?_⟩
              · simp only [log_width]
                omega
              · simp only [log_width]
                rw [← Nat.add_assoc]
                exact j6
        · rw [if_neg hfull]
          exact (fun ⟨i1, i2⟩ => ⟨i1, fun st' v' h => by
            obtain ⟨j1, j2, j3, j4, j5, j6⟩ := i2 st' v' h
            exact ⟨j1, j2, j3, by rw [j4, e2], by omega, j6⟩⟩)
            (ih st1 bytes1 v1 n1 o hwi1 e4 (by omega) e3 e5 e7)

theorem logAt_append (P : List UInt8) :
    ∀ (l1 l2 : List (Nat × Nat)) (o : Nat), LogAt P o l1 → LogAt P (o + log_width l1) l2 →
      LogAt P o (l1 ++ l2) := by
  intro l1
  induction l1 with
  | nil =>
    intro l2 o _ h
    simpa [log_width] using h
  | cons a l ih =>
    intro l2 o h1 h2
    obtain ⟨c, w⟩ := a
    obtain ⟨h3, h4⟩ := h1
    refine ⟨h3, ih l2 (o + w) h4 ?_⟩
    simp only [log_width] at h2
    rw [Nat.add_assoc]
    exact h2

theorem sub_block_chain_pos (bs : List (List UInt8)) : 1 ≤ (sub_block_chain bs).length := by
  cases bs <;> simp [sub_block_chain]

theorem sub_block_chain_head (bs : List (List UInt8)) (x : List UInt8)
    (h : ∀ c ∈ bs, 1 ≤ c.length ∧ c.length ≤ 255) :
    byte (sub_block_chain bs ++ x) 0 = match bs with
      | [] => 0
      | b :: _ => b.length := by
  cases bs with
  | nil => rfl
  | cons b bs =>
    have hb := (h b (by simp)).2
    simp only [sub_block_chain, byte, List.cons_append, List.getD_cons_zero,
      UInt8.toNat_ofNat]
    exact Nat.mod_eq_of_lt (by omega)

theorem sub_block_chain_cons (b : List UInt8) (bs : List (List UInt8)) (x : List UInt8) :
    sub_block_chain (b :: bs) ++ x
      = UInt8.ofNat b.length :: (b ++ (sub_block_chain bs ++ x)) := by
  simp [sub_block_chain]

theorem sub_blocks_log_zero (p : lzw_params) (u : Uninit) (g : gif) (fuel : Nat)
    (st : lzw_state) (v : List UInt8) : (sub_blocks_log p u g fuel st 0 v).1 = [] := by
  cases fuel with
  | zero => rfl
  | succ n =>
    unfold sub_blocks_log
    rw [if_pos rfl]

theorem sub_blocks_log_step (p : lzw_params) (u : Uninit) (g : gif)
    (hm : 2 ≤ p.min_lzw_code_size ∧ p.min_lzw_code_size ≤ 8) (P pre b rest : List UInt8)
    (fuel : Nat) (st : lzw_state) (o : Nat) (hb : 1 ≤ b.length ∧ b.length ≤ 255)
    (hrest : 1 ≤ rest.length)
    (hP : ∀ i, i < b.length → byte P (pre.length + i) = byte b i)
    (hwi : WidthInv p.min_lzw_code_size st) (hbo : st.bit_off < 8)
    (hco : st.code_off < st.lzw_code_size)
    (ho : o + st.code_off = 8 * pre.length + st.bit_off)
    (hc : st.code = stream_bits P o st.code_off)
    (hrec : ∀ (st' : lzw_state) (o' : Nat), WidthInv p.min_lzw_code_size st' →
      st'.bit_off < 8 → st'.code_off < st'.lzw_code_size →
      o' + st'.code_off = 8 * (pre.length + b.length) + st'.bit_off →
      st'.code = stream_bits P o' st'.code_off →
      LogAt P o' (sub_blocks_log p u g fuel st' (byte rest 0) rest).1) :
    LogAt P o
      (sub_blocks_log p u g (fuel + 1) st b.length (UInt8.ofNat b.length :: (b ++ rest))).1 := by
  unfold sub_blocks_log
  rw [if_neg (by omega)]
  have hlen : ¬ ((b ++ rest).length + 1 < b.length + 2) := by
    simp only [List.length_append]
    omega
  simp only [VEC_MUST, if_neg hlen, bind_ok_eq, VEC_ADVANCE_UNSAFE, List.length_cons,
    show 1 ≤ (b ++ rest).length + 1 by omega, if_true, List.drop_succ_cons, List.drop_zero]
  have hspec := code_loop_log_spec p u g hm P (8 * b.length + 1) st b.length (b ++ rest)
    pre.length o hwi hbo hco ho hc (by
      intro i hi
      rw [hP i hi]
      simp [byte, List.getD, List.getElem?_append_left hi])
  revert hspec
  generalize code_loop_log p u g (8 * b.length + 1) st b.length (b ++ rest) = r
  intro hspec
  obtain ⟨l, res⟩ := r
  obtain ⟨h1, h2⟩ := hspec
  cases res with
  | error e => exact h1
  | ok f =>
    cases f with
    | end_code_stream ind v2 => exact h1
    | more st' v' =>
      obtain ⟨j1, j2, j3, j4, j5, j6⟩ := h2 st' v' rfl
      simp only [] at j4 j5 j6 ⊢
      have hv : v' = rest := by
        rw [j4]
        simp
      subst hv
      rw [VEC_AT_UNSAFE_ok (by omega)]
      simp only []
      exact logAt_append P l _ o h1 (hrec st' _ j1 j2 j3 j5 j6)

theorem sub_blocks_log_spec (p : lzw_params) (u : Uninit) (g : gif)
    (hm : 2 ≤ p.min_lzw_code_size ∧ p.min_lzw_code_size ≤ 8) (x : List UInt8) :
    ∀ (bs : List (List UInt8)) (b : List UInt8) (fuel : Nat) (st : lzw_state)
      (pre : List UInt8) (o : Nat),
      (∀ c ∈ b :: bs, 1 ≤ c.length ∧ c.length ≤ 255) →
      WidthInv p.min_lzw_code_size st → st.bit_off < 8 → st.code_off < st.lzw_code_size →
      o + st.code_off = 8 * pre.length + st.bit_off →
      st.code = stream_bits (pre ++ (b :: bs).flatten) o st.code_off →
      LogAt (pre ++ (b :: bs).flatten) o
        (sub_blocks_log p u g fuel st b.length (sub_block_chain (b :: bs) ++ x)).1 := by
  intro bs
  induction bs with
  | nil =>
    intro b fuel st pre o hl hwi hbo hco ho hc
    cases fuel with
    | zero => trivial
    | succ k =>
      have hb := hl b (by simp)
      rw [sub_block_chain_cons]
      refine sub_blocks_log_step p u g hm (pre ++ [b].flatten) pre b (sub_block_chain [] ++ x)
        k st o hb (by simp [sub_block_chain]) ?_ hwi hbo hco ho hc ?_
      · intro i hi
        simp [byte, List.getD, List.getElem?_append_right, List.getElem?_append_left hi]
      · intro st' o' _ _ _ _ _
        have e : byte (sub_block_chain [] ++ x) 0 = 0 := rfl
        rw [e, sub_blocks_log_zero]
        trivial
  | cons b' bs ih =>
    intro b fuel st pre o hl hwi hbo hco ho hc
    cases fuel with
    | zero => trivial
    | succ k =>
      have hb := hl b (by simp)
      have hl' : ∀ c ∈ b' :: bs, 1 ≤ c.length ∧ c.length ≤ 255 :=
        fun c hc => hl c (List.mem_cons_of_mem _ hc)
      rw [sub_block_chain_cons]
      refine sub_blocks_log_step p u g hm (pre ++ (b :: b' :: bs).flatten) pre b
        (sub_block_chain (b' :: bs) ++ x) k st o hb (by
          have := sub_block_chain_pos (b' :: bs)
          simp only [List.length_append]
          omega) ?_ hwi hbo hco ho hc ?_
      · intro i hi
        simp [byte, List.getD, List.getElem?_append_right, List.getElem?_append_left hi]
      · intro st' o' h1 h2 h3 h4 h5
        have e : byte (sub_block_chain (b' :: bs) ++ x) 0 = b'.length :=
          sub_block_chain_head (b' :: bs) x hl'
        rw [e]
        have hP : pre ++ (b :: b' :: bs).flatten = (pre ++ b) ++ (b' :: bs).flatten := by
          simp
        rw [hP] at h5 ⊢
        exact ih b' k st' (pre ++ b) o' hl' h1 h2 h3 (by
          rw [List.length_append]
          exact h4) h5

theorem logAt_index (P : List UInt8) :
    ∀ (l : List (Nat × Nat)) (o : Nat), LogAt P o l →
      ∀ (k c w : Nat), l[k]? = some (c, w) →
        c = stream_bits P (o + log_width (l.take k)) w := by
  intro l
  induction l with
  | nil =>
    intro o _ k c w h
    simp at h
  | cons a l ih =>
    intro o h k c w hk
    obtain ⟨c0, w0⟩ := a
    obtain ⟨h1, h2⟩ := h
    cases k with
    | zero =>
      simp only [List.getElem?_cons_zero, Option.some.injEq, Prod.mk.injEq] at hk
      obtain ⟨rfl, rfl⟩ := hk
      simpa [log_width] using h1
    | succ n =>
      simp only [List.getElem?_cons_succ] at hk
      have := ih (o + w0) h2 n c w hk
      simp only [List.take_succ_cons, log_width]
      rw [← Nat.add_assoc]
      exact this

theorem agree_mono {k j : Nat} {v v' : List UInt8} (h : Agree k v v') (hj : j ≤ k) :
    Agree j v v' :=
  ⟨h.1, fun i hi => h.2 i (by omega)⟩

theorem agree_drop {k : Nat} {v v' : List UInt8} (h : Agree k v v') (d : Nat) :
    Agree (k - d) (v.drop d) (v'.drop d) := by
  refine ⟨?_, ?_⟩
  · simp only [List.length_drop]
    have := h.1
    omega
  · intro i hi
    rw [List.getElem?_drop, List.getElem?_drop]
    exact h.2 _ (by omega)

theorem VEC_AT_UNSAFE_agree {k : Nat} {v v' : List UInt8} (h : Agree k v v') {i : Nat}
    (hi : i < k) : VEC_AT_UNSAFE v' i = VEC_AT_UNSAFE v i := by
  unfold VEC_AT_UNSAFE
  rw [h.2 i hi]

theorem VEC_AT_U16_LE_UNSAFE_agree {k : Nat} {v v' : List UInt8} (h : Agree k v v')
    {i : Nat} (hi : i + 1 < k) : VEC_AT_U16_LE_UNSAFE v' i = VEC_AT_U16_LE_UNSAFE v i := by
  unfold VEC_AT_U16_LE_UNSAFE
  rw [VEC_AT_UNSAFE_agree h (show i < k by omega), VEC_AT_UNSAFE_agree h hi]

theorem VEC_MUST_agree {g : gif} {v v' : List UInt8} {s : Nat}
    (h : VEC_MUST g v s = .ok ()) (hl : v.length ≤ v'.length) : VEC_MUST g v' s = .ok () := by
  unfold VEC_MUST at h ⊢
  split at h
  · cases h
  · rw [if_neg (by omega)]

theorem VEC_MUST_len {g : gif} {v : List UInt8} {s : Nat} {x : Unit}
    (h : VEC_MUST g v s = .ok x) : s ≤ v.length := by
  unfold VEC_MUST at h
  split at h
  · cases h
  · omega

theorem VEC_ADVANCE_UNSAFE_eq {v w : List UInt8} {n : Nat}
    (h : VEC_ADVANCE_UNSAFE v n = .ok w) : n ≤ v.length ∧ w = v.drop n := by
  unfold VEC_ADVANCE_UNSAFE at h
  split at h
  · rename_i hn
    cases h
    exact ⟨hn, rfl⟩
  · cases h

theorem VEC_ADVANCE_eq {g : gif} {v w : List UInt8} {n : Nat}
    (h : VEC_ADVANCE g v n = .ok w) : n ≤ v.length ∧ w = v.drop n := by
  unfold VEC_ADVANCE at h
  split at h
  · cases h
  · rename_i hn
    cases h
    exact ⟨by omega, rfl⟩

theorem copy_bytes_agree {k : Nat} {v v' : List UInt8} (h : Agree k v v') {n : Nat}
    (hn : n ≤ v.length) (hk : n ≤ k) : copy_bytes v' n = copy_bytes v n := by
  unfold copy_bytes
  rw [if_pos hn, if_pos (le_trans hn h.1)]
  congr 1
  apply List.ext_getElem?
  intro i
  by_cases hi : i < n
  · rw [List.getElem?_take_of_lt hi, List.getElem?_take_of_lt hi]
    exact h.2 i (by omega)
  · rw [List.getElem?_eq_none (by simp; omega), List.getElem?_eq_none (by simp; omega)]

theorem read_bits_local {st st1 : lzw_state} {bytes bytes1 k : Nat} {v v1 v' : List UInt8}
    (h : read_bits st bytes v = .ok (st1, bytes1, v1)) (ha : Agree k v v') (hk : 1 ≤ k) :
    ∃ d, d ≤ 1 ∧ d ≤ v.length ∧ v1 = v.drop d
      ∧ read_bits st bytes v' = .ok (st1, bytes1, v'.drop d) := by
  unfold read_bits at h ⊢
  simp only [] at h ⊢
  rw [VEC_AT_UNSAFE_agree ha (show 0 < k by omega)]
  obtain ⟨b, hb, h⟩ := bind_eq_ok h
  rw [hb]
  simp only [bind_ok_eq]
  split at h
  · rename_i h8
    obtain ⟨w, hw, h⟩ := bind_eq_ok h
    obtain ⟨hl, rfl⟩ := VEC_ADVANCE_UNSAFE_eq hw
    cases h
    rw [if_pos h8, VEC_ADVANCE_UNSAFE_ok (le_trans hl ha.1)]
    exact ⟨1, le_refl _, hl, rfl, rfl⟩
  · rename_i h8
    cases h
    rw [if_neg h8]
    exact ⟨0, by omega, by omega, rfl, rfl⟩

theorem insert_code_put (p : lzw_params) (st : lzw_state) (len pc index fi : Nat)
    (v w : List UInt8) :
    insert_code p st len pc index fi w
      = (insert_code p st len pc index fi v).map (Step.put w) := by
  unfold insert_code
  split
  · rfl
  · split
    · rfl
    · cases code_table_set st.code_table st.next_code
          { len := len, prefix_code := pc, inuse := 1, index := index, first_index := fi } with
      | error e => rfl
      | ok t =>
        simp only [bind_ok_eq]
        split
        · rfl
        · split <;> rfl

theorem decode_inuse_put (p : lzw_params) (u : Uninit) (g : gif) (st : lzw_state)
    (prev centry : gif_code) (v w : List UInt8) :
    decode_inuse p u g st prev centry w
      = (decode_inuse p u g st prev centry v).map (Step.put w) := by
  unfold decode_inuse
  simp only []
  split
  · rfl
  · cases walk g st.code_table centry.len (centry.len + 1) (fresh_stack u st.num_indices)
      st.code 0 with
    | error e => rfl
    | ok stack =>
      simp only [bind_ok_eq]
      cases emit p.req_indices stack centry.len 0 st.indices with
      | error e => rfl
      | ok indices =>
        simp only [bind_ok_eq]
        exact insert_code_put _ _ _ _ _ _ _ _

theorem decode_unused_put (p : lzw_params) (u : Uninit) (g : gif) (st : lzw_state)
    (prev : gif_code) (v w : List UInt8) :
    decode_unused p u g st prev w
      = (decode_unused p u g st prev v).map (Step.put w) := by
  unfold decode_unused
  simp only []
  cases stack_set (fresh_stack u st.num_indices) ((prev.len + 1) % 65536)
      (((((prev.len + 1) % 65536 : Nat) : Int)) - 1) prev.first_index with
  | error e => rfl
  | ok stack0 =>
    simp only [bind_ok_eq]
    split
    · rfl
    · cases walk g st.code_table ((prev.len + 1) % 65536) ((prev.len + 1) % 65536 + 1)
          stack0 st.prev_code 1 with
      | error e => rfl
      | ok stack =>
        simp only [bind_ok_eq]
        cases emit p.req_indices stack ((prev.len + 1) % 65536) 0 st.indices with
        | error e => rfl
        | ok indices =>
          simp only [bind_ok_eq]
          exact insert_code_put _ _ _ _ _ _ _ _

theorem decode_code_local {p : lzw_params} {u : Uninit} {g : gif} {st : lzw_state}
    {bytes : Nat} {v v' : List UInt8} {r : Step}
    (h : decode_code p u g st bytes v = .ok r) (hl : v.length ≤ v'.length) :
    decode_code p u g st bytes v' = .ok (r.move v v') := by
  unfold decode_code at h ⊢
  split at h
  · rename_i hc
    rw [if_pos hc]
    split at h
    · rename_i hb
      obtain ⟨w, hw, h⟩ := bind_eq_ok h
      obtain ⟨hn, rfl⟩ := VEC_ADVANCE_UNSAFE_eq hw
      cases h
      rw [if_pos hb, VEC_ADVANCE_UNSAFE_ok (le_trans hn hl)]
      simp only [bind_ok_eq, pure_eq_ok, List.length_drop, Step.move]
      rw [show v.length - (v.length - bytes) = bytes by omega]
    · rename_i hb
      cases h
      rw [if_neg hb]
      simp [Step.move]
  · rename_i hc
    rw [if_neg hc]
    split at h
    · rename_i hc2
      cases h
      rw [if_pos hc2]
      rfl
    · rename_i hc2
      rw [if_neg hc2]
      split at h
      · rename_i hf
        rw [if_pos hf]
        split at h
        · cases h
        · rename_i hn
          rw [if_neg hn]
          split at h
          · rename_i hr
            cases h
            rw [if_pos hr]
            simp [Step.move]
          · rename_i hr
            rw [if_neg hr]
            obtain ⟨i, hi, h⟩ := bind_eq_ok h
            cases h
            rw [hi]
            rfl
      · rename_i hf
        rw [if_neg hf]
        obtain ⟨prev, hp, h⟩ := bind_eq_ok h
        rw [hp]
        simp only [bind_ok_eq]
        split at h
        · cases h
        · rename_i h4
          rw [if_neg h4]
          obtain ⟨centry, hce, h⟩ := bind_eq_ok h
          rw [hce]
          simp only [bind_ok_eq]
          split at h
          · rename_i hi
            rw [if_pos hi, decode_inuse_put p u g st prev centry v v', h]
            cases r with
            | next st2 => rfl
            | end_code_stream ind w =>
              have := decode_inuse_suffix h
              subst this
              simp [Step.put, Step.move]
          · rename_i hi
            rw [if_neg hi, decode_unused_put p u g st prev v v', h]
            cases r with
            | next st2 => rfl
            | end_code_stream ind w =>
              have := decode_unused_suffix h
              subst this
              simp [Step.put, Step.move]

theorem code_loop_local (p : lzw_params) (u : Uninit) (g : gif) :
    ∀ (fuel : Nat) (st : lzw_state) (bytes k : Nat) (v v' : List UInt8) (r : Flow),
      code_loop p u g fuel st bytes v = .ok r → Agree k v v' →
      v.length - r.cursor.length + 1 ≤ k →
      code_loop p u g fuel st bytes v'
        = .ok (r.put (v'.drop (v.length - r.cursor.length))) := by
  intro fuel
  induction fuel with
  | zero =>
    intro st bytes k v v' r h
    cases h
  | succ n ih =>
    intro st bytes k v v' r h ha hk
    unfold code_loop at h ⊢
    split at h
    · rename_i hb
      cases h
      rw [if_pos hb]
      simp [Flow.put, Flow.cursor]
    · rename_i hb
      rw [if_neg hb]
      split at h
      · cases h
      · rename_i st1 bytes1 v1 hr
        obtain ⟨d, hd1, hd2, rfl, hr'⟩ := read_bits_local hr ha (by omega)
        rw [hr']
        simp only []
        have ha1 := agree_drop ha d
        have hl1 : (v.drop d).length = v.length - d := List.length_drop _ _
        split at h
        · rename_i hfull
          rw [if_pos hfull]
          split at h
          · cases h
          · rename_i ind w hdc
            cases h
            have hs := (decode_code_suffix hdc).length_le
            rw [decode_code_local hdc ha1.1]
            simp only [Flow.put, Flow.cursor, List.drop_drop, hl1, Step.move]
            congr 3
            omega
          · rename_i st2 hdc
            rw [decode_code_local hdc ha1.1]
            simp only [Step.move]
            have hs := (code_loop_suffix p u g n _ _ _ _ h).length_le
            rw [ih st2 bytes1 (k - d) _ _ r h ha1 (by omega), List.drop_drop, hl1]
            congr 3
            omega
        · rename_i hfull
          rw [if_neg hfull]
          have hs := (code_loop_suffix p u g n _ _ _ _ h).length_le
          rw [ih st1 bytes1 (k - d) _ _ r h ha1 (by omega), List.drop_drop, hl1]
          congr 3
          omega

theorem sub_blocks_local (p : lzw_params) (u : Uninit) (g : gif) :
    ∀ (fuel fuel' : Nat) (st : lzw_state) (bytes k : Nat) (v v' : List UInt8)
      (r : List Nat × List UInt8),
      sub_blocks p u g fuel st bytes v = .ok r → Agree k v v' →
      v.length - r.2.length + 1 ≤ k → fuel ≤ fuel' →
      sub_blocks p u g fuel' st bytes v' = .ok (r.1, v'.drop (v.length - r.2.length)) := by
  intro fuel
  induction fuel with
  | zero =>
    intro fuel' st bytes k v v' r h
    cases h
  | succ n ih =>
    intro fuel' st bytes k v v' r h ha hk hf
    cases fuel' with
    | zero => omega
    | succ n' =>
      unfold sub_blocks at h ⊢
      split at h
      · rename_i hb
        cases h
        rw [if_pos hb]
        simp
      · rename_i hb
        rw [if_neg hb]
        split at h
        · cases h
        · rename_i v1 hv1
          obtain ⟨_, hm, hv1⟩ := bind_eq_ok hv1
          obtain ⟨h1, rfl⟩ := VEC_ADVANCE_UNSAFE_eq hv1
          rw [VEC_MUST_agree hm ha.1, bind_ok_eq, VEC_ADVANCE_UNSAFE_ok (le_trans h1 ha.1)]
          simp only []
          have ha1 := agree_drop ha 1
          have hl1 : (v.drop 1).length = v.length - 1 := List.length_drop _ _
          split at h
          · cases h
          · rename_i ind w hcl
            cases h
            simp only [] at hk
            have hs := (code_loop_suffix p u g _ _ _ _ _ hcl).length_le
            simp only [Flow.cursor, hl1] at hs
            rw [code_loop_local p u g _ _ _ (k - 1) _ _ _ hcl ha1 (by
              simp only [Flow.cursor, hl1]
              omega)]
            simp only [Flow.put, Flow.cursor, List.drop_drop, hl1]
            congr 3
            omega
          · rename_i st2 v2 hcl
            have hs := (code_loop_suffix p u g _ _ _ _ _ hcl).length_le
            simp only [Flow.cursor, hl1] at hs
            split at h
            · cases h
            · rename_i bytes2 hb2
              have hs2 := (sub_blocks_suffix p u g _ _ _ _ _ h).length_le
              rw [code_loop_local p u g _ _ _ (k - 1) _ _ _ hcl ha1 (by
                simp only [Flow.cursor, hl1]
                omega)]
              simp only [Flow.put, Flow.cursor, List.drop_drop, hl1]
              have ha2 := agree_drop ha (1 + (v.length - 1 - v2.length))
              have e2 : v.drop (1 + (v.length - 1 - v2.length)) = v2 := by
                have := List.suffix_iff_eq_drop.mp (code_loop_suffix p u g _ _ _ _ _ hcl)
                simp only [Flow.cursor, List.drop_drop, hl1] at this
                exact this.symm
              rw [e2] at ha2
              rw [VEC_AT_UNSAFE_agree ha2 (by omega), hb2]
              simp only []
              rw [ih n' st2 bytes2 _ _ _ r h ha2 (by omega) (by omega), List.drop_drop]
              congr 3
              omega

theorem skip_sub_blocks_local (g : gif) :
    ∀ (fuel fuel' bytes k : Nat) (v v' w : List UInt8),
      skip_sub_blocks g fuel bytes v = .ok w → Agree k v v' →
      v.length - w.length + 1 ≤ k → fuel ≤ fuel' →
      skip_sub_blocks g fuel' bytes v' = .ok (v'.drop (v.length - w.length)) := by
  intro fuel
  induction fuel with
  | zero =>
    intro fuel' bytes k v v' w h
    cases h
  | succ n ih =>
    intro fuel' bytes k v v' w h ha hk hf
    cases fuel' with
    | zero => omega
    | succ n' =>
      unfold skip_sub_blocks at h ⊢
      split at h
      · rename_i hb
        cases h
        rw [if_pos hb]
        simp
      · rename_i hb
        rw [if_neg hb]
        split at h
        · cases h
        · rename_i v1 hv1
          obtain ⟨_, hm, hv1⟩ := bind_eq_ok hv1
          obtain ⟨h1, rfl⟩ := VEC_ADVANCE_UNSAFE_eq hv1
          rw [VEC_MUST_agree hm ha.1, bind_ok_eq, VEC_ADVANCE_UNSAFE_ok (le_trans h1 ha.1)]
          simp only []
          have ha1 := agree_drop ha (bytes + 1)
          have hl1 : (v.drop (bytes + 1)).length = v.length - (bytes + 1) :=
            List.length_drop _ _
          split at h
          · cases h
          · rename_i bytes2 hb2
            have hs2 := (skip_sub_blocks_suffix g _ _ _ _ h).length_le
            rw [VEC_AT_UNSAFE_agree ha1 (by omega), hb2]
            simp only []
            rw [ih n' bytes2 _ _ _ w h ha1 (by omega) (by omega), List.drop_drop]
            congr 2
            omega

theorem image_descriptor_local {s : DState} {i : ImageSetup} {k : Nat} {v' : List UInt8}
    (h : image_descriptor s = .ok i) (ha : Agree k s.v v')
    (hk : s.v.length - i.v.length ≤ k) :
    image_descriptor { s with v := v' }
      = .ok { i with v := v'.drop (s.v.length - i.v.length) } := by
  have hp := image_descriptor_post s
  rw [h] at hp
  obtain ⟨hlen, _, _⟩ := hp
  have hk10 : 10 ≤ k := by omega
  unfold image_descriptor at h ⊢
  simp only [] at h ⊢
  obtain ⟨_, hm, h⟩ := bind_eq_ok h
  rw [VEC_MUST_agree hm ha.1, bind_ok_eq, VEC_AT_U16_LE_UNSAFE_agree ha (by omega),
    VEC_AT_U16_LE_UNSAFE_agree ha (by omega), VEC_AT_U16_LE_UNSAFE_agree ha (by omega),
    VEC_AT_U16_LE_UNSAFE_agree ha (by omega), VEC_AT_UNSAFE_agree ha (by omega)]
  obtain ⟨x, hx, h⟩ := bind_eq_ok h
  obtain ⟨y, hy, h⟩ := bind_eq_ok h
  obtain ⟨w, hw, h⟩ := bind_eq_ok h
  obtain ⟨ht, hht, h⟩ := bind_eq_ok h
  rw [hx, hy, hw, hht]
  simp only [bind_ok_eq]
  split at h
  · cases h
  · rename_i hgeo
    rw [if_neg hgeo]
    obtain ⟨pb, hpb, h⟩ := bind_eq_ok h
    obtain ⟨v1, hv1, h⟩ := bind_eq_ok h
    obtain ⟨h10, rfl⟩ := VEC_ADVANCE_UNSAFE_eq hv1
    rw [hpb, bind_ok_eq, VEC_ADVANCE_UNSAFE_ok (le_trans h10 ha.1), bind_ok_eq]
    have ha1 := agree_drop ha 10
    have hl1 : (s.v.drop 10).length = s.v.length - 10 := List.length_drop _ _
    generalize 1 <<< ((pb &&& 7) + 1) * 3 = nb at h ⊢
    split at h
    · rename_i hlct
      rw [if_pos hlct]
      obtain ⟨_, hm2, h⟩ := bind_eq_ok h
      obtain ⟨colors, hcol, h⟩ := bind_eq_ok h
      obtain ⟨v2, hv2, h⟩ := bind_eq_ok h
      obtain ⟨hnb, rfl⟩ := VEC_ADVANCE_UNSAFE_eq hv2
      cases h
      simp only [List.length_drop] at hk hlen
      have hnb' := hnb
      rw [hl1] at hnb'
      rw [VEC_MUST_agree hm2 ha1.1, bind_ok_eq, copy_bytes_agree ha1 hnb (by omega), hcol,
        bind_ok_eq, VEC_ADVANCE_UNSAFE_ok (le_trans hnb ha1.1), bind_ok_eq]
      simp only [pure_eq_ok, List.drop_drop, List.length_drop]
      rw [show s.v.length - (s.v.length - (10 + nb)) = 10 + nb by omega]
      rfl
    · rename_i hlct
      rw [if_neg hlct]
      split at h
      · cases h
      · rename_i hgct
        rw [if_neg hgct]
        cases h
        simp only [pure_eq_ok, List.length_drop]
        rw [show s.v.length - (s.v.length - 10) = 10 by omega]
        rfl

theorem image_data_local {u : Uninit} {i : ImageSetup} {k : Nat} (v' : List UInt8)
    {r : List Nat × List UInt8}
    (h : image_data u i = .ok r) (ha : Agree k i.v v')
    (hk : i.v.length - r.2.length + 1 ≤ k) :
    image_data u { i with v := v' } = .ok (r.1, v'.drop (i.v.length - r.2.length)) := by
  unfold image_data at h ⊢
  simp only [] at h ⊢
  obtain ⟨_, hm, h⟩ := bind_eq_ok h
  have h2 := VEC_MUST_len hm
  rw [VEC_MUST_agree hm ha.1, bind_ok_eq, VEC_AT_UNSAFE_agree ha (by omega)]
  obtain ⟨m, hmin, h⟩ := bind_eq_ok h
  obtain ⟨v1, hv1, h⟩ := bind_eq_ok h
  obtain ⟨h1, rfl⟩ := VEC_ADVANCE_UNSAFE_eq hv1
  obtain ⟨bytes, hb, h⟩ := bind_eq_ok h
  have ha1 := agree_drop ha 1
  have hl1 : (i.v.drop 1).length = i.v.length - 1 := List.length_drop _ _
  rw [hmin, bind_ok_eq, VEC_ADVANCE_UNSAFE_ok (le_trans h1 ha.1), bind_ok_eq]
  split at h
  · cases h
  · rename_i hc
    have hs := (sub_blocks_suffix _ u i.g _ _ _ _ _ h).length_le
    rw [hl1] at hs
    rw [VEC_AT_UNSAFE_agree ha1 (by omega), hb, bind_ok_eq, if_neg hc,
      sub_blocks_local _ u i.g _ _ _ _ (k - 1) _ _ r h ha1 (by omega) (by
        have := ha1.1
        omega), List.drop_drop, hl1]
    congr 3
    omega

theorem image_finish_local {u : Uninit} {frame : gif_frame} {i : ImageSetup}
    {indices : List Nat} {v : List UInt8} (v' : List UInt8) {s1 : DState}
    (h : image_finish u frame i indices v = .ok s1) (hl : v.length ≤ v'.length)
    (w : List UInt8) :
    image_finish u frame { i with v := w } indices v' = .ok { s1 with v := v'.drop 1 } := by
  unfold image_finish at h ⊢
  simp only [] at h ⊢
  split at h
  · cases h
  · rename_i hn
    rw [if_neg hn]
    obtain ⟨v1, hv1, h⟩ := bind_eq_ok h
    obtain ⟨h1, rfl⟩ := VEC_ADVANCE_eq hv1
    rw [VEC_ADVANCE_ok (by omega), bind_ok_eq]
    split at h
    · rename_i hil
      rw [if_pos hil]
      obtain ⟨ind, hind, h⟩ := bind_eq_ok h
      cases h
      rw [hind]
      rfl
    · rename_i hil
      rw [if_neg hil]
      cases h
      rfl

theorem parse_image_local {u : Uninit} {s s1 : DState} {k : Nat} {v' : List UInt8}
    (h : parse_image u s = .ok s1) (ha : Agree k s.v v')
    (hk : s.v.length - s1.v.length ≤ k) :
    parse_image u { s with v := v' }
      = .ok { s1 with v := v'.drop (s.v.length - s1.v.length) } := by
  unfold parse_image at h ⊢
  split at h
  · cases h
  · rename_i i hd
    split at h
    · cases h
    · rename_i ind w hdat
      have s1' := (image_descriptor_suffix hd).length_le
      have s2' := (image_data_suffix hdat).length_le
      have hp := image_finish_post (u.image s.g.num_images) s.frame i ind w
      rw [h] at hp
      have hfl := hp.1
      simp only [] at s2'
      have e1 := List.suffix_iff_eq_drop.mp (image_descriptor_suffix hd)
      have ha1 := agree_drop ha (s.v.length - i.v.length)
      rw [← e1] at ha1
      rw [image_descriptor_local hd ha (by omega)]
      simp only []
      have hd2 := image_data_local (v'.drop (s.v.length - i.v.length)) hdat ha1
        (by
          simp only []
          omega)
      simp only [] at hd2
      rw [hd2]
      simp only []
      have hf := image_finish_local ((v'.drop (s.v.length - i.v.length)).drop
        (i.v.length - w.length)) h (by
          simp only [List.length_drop]
          have := ha.1
          omega) (v'.drop (s.v.length - i.v.length))
      rw [hf, List.drop_drop, List.drop_drop]
      congr 3
      omega

theorem gce_transparent_local {frame : gif_frame} {pb k : Nat} {v v' : List UInt8}
    (ha : Agree k v v') (hk : 5 ≤ k) :
    gce_transparent frame pb v' = gce_transparent frame pb v := by
  unfold gce_transparent
  rw [VEC_AT_UNSAFE_agree ha (show 4 < k by omega)]

theorem graphic_control_local {s s1 : DState} {k : Nat} {v v' : List UInt8}
    (h : graphic_control s 4 v = .ok s1) (ha : Agree k v v') (hk : 6 ≤ k)
    (w : List UInt8) :
    graphic_control { s with v := w } 4 v' = .ok { s1 with v := v'.drop 6 } := by
  unfold graphic_control at h ⊢
  simp only [] at h ⊢
  obtain ⟨_, hm, h⟩ := bind_eq_ok h
  have h6 := VEC_MUST_len hm
  rw [VEC_MUST_agree hm ha.1, bind_ok_eq, VEC_AT_UNSAFE_agree ha (by omega),
    VEC_AT_U16_LE_UNSAFE_agree ha (by omega)]
  obtain ⟨pb, hpb, h⟩ := bind_eq_ok h
  obtain ⟨fr, hfr, h⟩ := bind_eq_ok h
  obtain ⟨dt, hdt, h⟩ := bind_eq_ok h
  obtain ⟨v1, hv1, h⟩ := bind_eq_ok h
  obtain ⟨h5, rfl⟩ := VEC_ADVANCE_UNSAFE_eq hv1
  obtain ⟨b, hb, h⟩ := bind_eq_ok h
  have ha1 := agree_drop ha (4 + 1)
  rw [hpb, bind_ok_eq, gce_transparent_local ha (by omega), hfr, bind_ok_eq, hdt, bind_ok_eq,
    VEC_ADVANCE_UNSAFE_ok (le_trans h5 ha.1), bind_ok_eq,
    VEC_AT_UNSAFE_agree ha1 (by omega), hb, bind_ok_eq]
  split at h
  · cases h
  · rename_i hz
    rw [if_neg hz]
    obtain ⟨v2, hv2, h⟩ := bind_eq_ok h
    obtain ⟨h1, rfl⟩ := VEC_ADVANCE_eq hv2
    cases h
    have hl' : ¬ (v'.drop (4 + 1)).length < 1 := by
      have := ha1.1
      omega
    rw [VEC_ADVANCE_ok hl', bind_ok_eq, List.drop_drop]
    rfl

theorem parse_extension_local {s s1 : DState} {k : Nat} {v' : List UInt8}
    (h : parse_extension s = .ok s1) (ha : Agree k s.v v')
    (hk : s.v.length - s1.v.length ≤ k) :
    parse_extension { s with v := v' }
      = .ok { s1 with v := v'.drop (s.v.length - s1.v.length) } := by
  unfold parse_extension at h ⊢
  simp only [] at h ⊢
  obtain ⟨_, hm, h⟩ := bind_eq_ok h
  have h3 := VEC_MUST_len hm
  obtain ⟨l, hlab, h⟩ := bind_eq_ok h
  obtain ⟨v1, hv1, h⟩ := bind_eq_ok h
  obtain ⟨h2, rfl⟩ := VEC_ADVANCE_UNSAFE_eq hv1
  obtain ⟨bytes, hb, h⟩ := bind_eq_ok h
  have ha1 := agree_drop ha 2
  have hl1 : (s.v.drop 2).length = s.v.length - 2 := List.length_drop _ _
  split at h
  · rename_i hg
    have hp := graphic_control_post s (s.v.drop 2)
    rw [hg.2] at h
    rw [h] at hp
    have h6 := hp.1
    rw [hl1] at h6
    have hk8 : 8 ≤ k := by omega
    rw [VEC_MUST_agree hm ha.1, bind_ok_eq, VEC_AT_UNSAFE_agree ha (by omega), hlab, bind_ok_eq,
      VEC_ADVANCE_UNSAFE_ok (le_trans h2 ha.1), bind_ok_eq,
      VEC_AT_UNSAFE_agree ha1 (by omega), hb, bind_ok_eq, if_pos hg, hg.2,
      graphic_control_local h ha1 (by omega) v', List.drop_drop,
      show s.v.length - s1.v.length = 2 + 6 by omega]
  · rename_i hg
    obtain ⟨v2, hv2, h⟩ := bind_eq_ok h
    obtain ⟨v3, hv3, h⟩ := bind_eq_ok h
    obtain ⟨h1, rfl⟩ := VEC_ADVANCE_eq hv3
    cases h
    have hs2 := (skip_sub_blocks_suffix _ _ _ _ _ hv2).length_le
    rw [hl1] at hs2
    simp only [List.length_drop] at hk ⊢
    have hsk := skip_sub_blocks_local s.g _ ((v'.drop 2).length + 1) bytes (k - 2) _ _ _ hv2 ha1
      (by omega) (by
        have := ha1.1
        omega)
    rw [VEC_MUST_agree hm ha.1, bind_ok_eq, VEC_AT_UNSAFE_agree ha (by omega), hlab, bind_ok_eq,
      VEC_ADVANCE_UNSAFE_ok (le_trans h2 ha.1), bind_ok_eq,
      VEC_AT_UNSAFE_agree ha1 (by omega), hb, bind_ok_eq, if_neg hg, hsk, bind_ok_eq,
      VEC_ADVANCE_ok (by
        simp only [List.length_drop]
        have := ha.1
        omega), bind_ok_eq, List.drop_drop, List.drop_drop, hl1]
    simp only [pure_eq_ok]
    congr 3
    omega

theorem block_local {u : Uninit} {s s1 : DState} {k : Nat} (v' : List UInt8)
    (h : block u s = .ok (some s1)) (ha : Agree k s.v v')
    (hk : s.v.length - s1.v.length ≤ k) :
    block u { s with v := v' }
      = .ok (some { s1 with v := v'.drop (s.v.length - s1.v.length) }) := by
  have hlt := (block_some h).1
  unfold block at h ⊢
  simp only [] at h ⊢
  obtain ⟨_, hm, h⟩ := bind_eq_ok h
  obtain ⟨sep, hsep, h⟩ := bind_eq_ok h
  rw [VEC_MUST_agree hm ha.1, bind_ok_eq, VEC_AT_UNSAFE_agree ha (by omega), hsep, bind_ok_eq]
  split at h
  · rename_i h1
    rw [if_pos h1]
    cases hp : parse_image u s with
    | error e =>
      rw [hp] at h
      cases h
    | ok a =>
      rw [hp] at h
      cases h
      rw [parse_image_local hp ha hk]
      rfl
  · rename_i h1
    rw [if_neg h1]
    split at h
    · rename_i h2
      rw [if_pos h2]
      cases hp : parse_extension s with
      | error e =>
        rw [hp] at h
        cases h
      | ok a =>
        rw [hp] at h
        cases h
        rw [parse_extension_local hp ha hk]
        rfl
    · split at h <;> cases h

theorem parse_header_local {buf buf' : List UInt8} {s0 : DState} {k : Nat}
    (h : parse_header buf = .ok s0) (ha : Agree k buf buf')
    (hk : buf.length - s0.v.length ≤ k) :
    parse_header buf' = .ok { s0 with v := buf'.drop (buf.length - s0.v.length) } := by
  have hp := parse_header_post buf
  rw [h] at hp
  have h13 := hp.1
  have hk13 : 13 ≤ k := by omega
  unfold parse_header at h ⊢
  simp only [] at h ⊢
  obtain ⟨_, hm, h⟩ := bind_eq_ok h
  rw [VEC_MUST_agree hm ha.1, bind_ok_eq, VEC_AT_UNSAFE_agree ha (by omega),
    VEC_AT_UNSAFE_agree ha (by omega), VEC_AT_UNSAFE_agree ha (by omega),
    VEC_AT_UNSAFE_agree ha (by omega), VEC_AT_UNSAFE_agree ha (by omega),
    VEC_AT_UNSAFE_agree ha (by omega), VEC_AT_U16_LE_UNSAFE_agree ha (by omega),
    VEC_AT_U16_LE_UNSAFE_agree ha (by omega), VEC_AT_UNSAFE_agree ha (by omega),
    VEC_AT_UNSAFE_agree ha (by omega)]
  obtain ⟨vb, hvb, h⟩ := bind_eq_ok h
  obtain ⟨b0, hb0, h⟩ := bind_eq_ok h
  obtain ⟨b1, hb1, h⟩ := bind_eq_ok h
  obtain ⟨b2, hb2, h⟩ := bind_eq_ok h
  obtain ⟨b3, hb3, h⟩ := bind_eq_ok h
  obtain ⟨b5, hb5, h⟩ := bind_eq_ok h
  rw [hvb, bind_ok_eq, hb0, bind_ok_eq, hb1, bind_ok_eq, hb2, bind_ok_eq, hb3, bind_ok_eq,
    hb5, bind_ok_eq]
  split at h
  · cases h
  · rename_i hsig
    rw [if_neg hsig]
    obtain ⟨w, hw, h⟩ := bind_eq_ok h
    obtain ⟨ht, hht, h⟩ := bind_eq_ok h
    obtain ⟨pb, hpb, h⟩ := bind_eq_ok h
    obtain ⟨bg, hbg, h⟩ := bind_eq_ok h
    obtain ⟨v1, hv1, h⟩ := bind_eq_ok h
    obtain ⟨h13', rfl⟩ := VEC_ADVANCE_UNSAFE_eq hv1
    rw [hw, bind_ok_eq, hht, bind_ok_eq, hpb, bind_ok_eq, hbg, bind_ok_eq,
      VEC_ADVANCE_UNSAFE_ok (le_trans h13' ha.1), bind_ok_eq]
    have ha1 := agree_drop ha 13
    have hl1 : (buf.drop 13).length = buf.length - 13 := List.length_drop _ _
    generalize 1 <<< ((pb &&& 7) + 1) * 3 = nb at h ⊢
    split at h
    · rename_i hgct
      rw [if_pos hgct]
      split at h
      · cases h
      · rename_i hbgn
        rw [if_neg hbgn]
        obtain ⟨_, hm2, h⟩ := bind_eq_ok h
        obtain ⟨colors, hcol, h⟩ := bind_eq_ok h
        obtain ⟨v2, hv2, h⟩ := bind_eq_ok h
        obtain ⟨hnb, rfl⟩ := VEC_ADVANCE_UNSAFE_eq hv2
        cases h
        simp only [List.length_drop] at hk
        have hnb' := hnb
        rw [hl1] at hnb'
        rw [VEC_MUST_agree hm2 ha1.1, bind_ok_eq, copy_bytes_agree ha1 hnb (by omega), hcol,
          bind_ok_eq, VEC_ADVANCE_UNSAFE_ok (le_trans hnb ha1.1), bind_ok_eq]
        simp only [pure_eq_ok, List.drop_drop, List.length_drop]
        rw [show buf.length - (buf.length - (13 + nb)) = 13 + nb by omega]
    · rename_i hgct
      rw [if_neg hgct]
      cases h
      simp only [pure_eq_ok, List.length_drop]
      rw [show buf.length - (buf.length - 13) = 13 by omega]

theorem skip_chain (g : gif) (x : List UInt8) :
    ∀ (blocks : List (List UInt8)) (fuel : Nat),
      (∀ c ∈ blocks, 1 ≤ c.length ∧ c.length ≤ 255) → blocks.length < fuel →
      skip_sub_blocks g fuel (byte (sub_block_chain blocks ++ x) 0)
        (sub_block_chain blocks ++ x) = .ok (0 :: x) := by
  intro blocks
  induction blocks with
  | nil =>
    intro fuel _ hf
    cases fuel with
    | zero => omega
    | succ n =>
      have e : byte (sub_block_chain [] ++ x) 0 = 0 := rfl
      rw [e]
      unfold skip_sub_blocks
      rw [if_pos rfl]
      rfl
  | cons b bs ih =>
    intro fuel hl hf
    cases fuel with
    | zero => omega
    | succ n =>
      have hb := hl b (by simp)
      have hl' : ∀ c ∈ bs, 1 ≤ c.length ∧ c.length ≤ 255 :=
        fun c hc => hl c (List.mem_cons_of_mem _ hc)
      have e : byte (sub_block_chain (b :: bs) ++ x) 0 = b.length :=
        sub_block_chain_head (b :: bs) x hl
      have hpos := sub_block_chain_pos bs
      rw [e, sub_block_chain_cons]
      unfold skip_sub_blocks
      rw [if_neg (by omega)]
      have hlen : ¬ ((UInt8.ofNat b.length :: (b ++ (sub_block_chain bs ++ x))).length
          < b.length + 2) := by
        simp only [List.length_cons, List.length_append]
        omega
      have hdrop : (UInt8.ofNat b.length :: (b ++ (sub_block_chain bs ++ x))).drop
          (b.length + 1) = sub_block_chain bs ++ x := by
        simp
      rw [VEC_MUST_ok hlen, bind_ok_eq, VEC_ADVANCE_UNSAFE_ok (by
        simp only [List.length_cons, List.length_append]
        omega), hdrop]
      simp only []
      rw [VEC_AT_UNSAFE_ok (by
        simp only [List.length_append]
        omega)]
      simp only []
      exact ih n hl' (by
        simp only [List.length_cons] at hf
        omega)

theorem sub_block_chain_length (blocks : List (List UInt8)) :
    blocks.length < (sub_block_chain blocks).length := by
  induction blocks with
  | nil => simp [sub_block_chain]
  | cons b bs ih =>
    simp only [sub_block_chain, List.length_cons, List.length_append]
    omega

theorem block_skips_extension (u : Uninit) (s : DState) (label : UInt8)
    (blocks : List (List UInt8)) (x : List UInt8)
    (hl : ∀ c ∈ blocks, 1 ≤ c.length ∧ c.length ≤ 255)
    (hg : ¬ (label.toNat = 0xF9 ∧ byte (sub_block_chain blocks) 0 = 4)) :
    block u { s with v := 0x21 :: label :: sub_block_chain blocks ++ x }
      = .ok (some { s with v := x }) := by
  have hpos := sub_block_chain_pos blocks
  have hb0 : byte (sub_block_chain blocks ++ x) 0 = byte (sub_block_chain blocks) 0 := by
    simp [byte, List.getD, List.getElem?_append_left hpos]
  unfold block
  simp only []
  rw [VEC_MUST_ok (by simp), bind_ok_eq, VEC_AT_UNSAFE_ok (by simp), bind_ok_eq]
  have e0 : byte (0x21 :: label :: sub_block_chain blocks ++ x) 0 = 0x21 := rfl
  rw [e0, if_neg (by decide), if_pos rfl]
  unfold parse_extension
  simp only []
  have hlen : ¬ ((0x21 :: label :: sub_block_chain blocks ++ x).length < 3) := by
    simp only [List.cons_append, List.length_cons, List.length_append]
    omega
  have e1 : byte (0x21 :: label :: sub_block_chain blocks ++ x) 1 = label.toNat := rfl
  have hdrop : (0x21 :: label :: sub_block_chain blocks ++ x).drop 2
      = sub_block_chain blocks ++ x := rfl
  rw [VEC_MUST_ok hlen, bind_ok_eq, VEC_AT_UNSAFE_ok (by
      simp only [List.cons_append, List.length_cons]
      omega), e1, bind_ok_eq,
    VEC_ADVANCE_UNSAFE_ok (by
      simp only [List.cons_append, List.length_cons]
      omega), hdrop, bind_ok_eq,
    VEC_AT_UNSAFE_ok (by
      simp only [List.length_append]
      omega), bind_ok_eq, if_neg (by rw [hb0]; exact hg),
    skip_chain s.g x blocks _ hl (by
      have := sub_block_chain_length blocks
      simp only [List.length_append]
      omega), bind_ok_eq, VEC_ADVANCE_ok (by simp)]
  rfl

theorem reaches_replace_tail {u : Uninit} {buf : List UInt8} {s : DState}
    (h : Reaches u buf s) :
    ∀ (y : List UInt8), s.v.length ≤ y.length →
      Reaches u (buf.take (buf.length - s.v.length) ++ y) { s with v := y } := by
  induction h with
  | start s hs =>
    intro y hy
    have hp := parse_header_post buf
    rw [hs] at hp
    have h13 := hp.1
    have hsuf : s.v = buf.drop (buf.length - s.v.length) := by
      have := reaches_drop (Reaches.start (u := u) s hs)
      exact this
    have ha : Agree (buf.length - s.v.length) buf (buf.take (buf.length - s.v.length) ++ y) := by
      refine ⟨?_, ?_⟩
      · simp only [List.length_append, List.length_take]
        omega
      · intro i hi
        rw [List.getElem?_append_left (by simp; omega), List.getElem?_take_of_lt hi]
    have := parse_header_local hs ha (le_refl _)
    refine Reaches.start _ ?_
    rw [this]
    congr 2
    exact List.drop_left' (by
      simp only [List.length_take]
      omega)
  | step s s' hr hb ih =>
    intro y hy
    have hlt := (block_some hb).1
    have hs := reaches_drop hr
    have hs' := reaches_drop (Reaches.step s s' hr hb)
    have hle : s.v.length ≤ buf.length := (reaches_suffix hr).length_le
    have hc : s.v = s.v.take (s.v.length - s'.v.length) ++ s'.v := by
      have := List.suffix_iff_eq_drop.mp (block_suffix hb)
      conv => lhs; rw [← List.take_append_drop (s.v.length - s'.v.length) s.v]
      rw [← this]
    have h1 := ih (s.v.take (s.v.length - s'.v.length) ++ y) (by
      simp only [List.length_append, List.length_take]
      omega)
    have ha : Agree (s.v.length - s'.v.length) s.v
        (s.v.take (s.v.length - s'.v.length) ++ y) := by
      refine ⟨?_, ?_⟩
      · simp only [List.length_append, List.length_take]
        omega
      · intro i hi
        rw [List.getElem?_append_left (by simp; omega), List.getElem?_take_of_lt hi]
    have h2 := block_local (s.v.take (s.v.length - s'.v.length) ++ y) hb ha (le_refl _)
    have e1 : (s.v.take (s.v.length - s'.v.length) ++ y).drop (s.v.length - s'.v.length)
        = y :=
      List.drop_left' (by
        simp only [List.length_take]
        omega)
    rw [e1] at h2
    have e2 : buf.take (buf.length - s.v.length) ++ (s.v.take (s.v.length - s'.v.length) ++ y)
        = buf.take (buf.length - s'.v.length) ++ y := by
      rw [← List.append_assoc]
      congr 1
      rw [show buf.length - s'.v.length
          = (buf.length - s.v.length) + (s.v.length - s'.v.length) by omega,
        List.take_add, ← hs]
    rw [e2] at h1
    exact Reaches.step _ _ h1 h2

theorem naive_run_append (m nc : Nat) :
    ∀ (A B : List Nat) (ns : naive_state),
      naive_run m nc ns (A ++ B) = match naive_run m nc ns A with
        | .next ns1 => naive_run m nc ns1 B
        | .done out => .done out
        | .invalid => .invalid := by
  intro A
  induction A with
  | nil =>
    intro B ns
    rfl
  | cons c cs ih =>
    intro B ns
    simp only [List.cons_append, naive_run]
    cases naive_step m nc ns c with
    | next ns1 => exact ih B ns1
    | done out => rfl
    | invalid => rfl

theorem decode_codes_append (p : lzw_params) (u : Uninit) (g : gif) :
    ∀ (A B : List Nat) (st : lzw_state),
      decode_codes p u g st (A ++ B) = match decode_codes p u g st A with
        | .ok (.next st1) => decode_codes p u g st1 B
        | .ok (.end_code_stream ind v) => .ok (.end_code_stream ind v)
        | .error e => .error e := by
  intro A
  induction A with
  | nil =>
    intro B st
    rfl
  | cons c cs ih =>
    intro B st
    simp only [List.cons_append, decode_codes]
    cases feed_code p u g st c with
    | error e => rfl
    | ok r =>
      cases r with
      | next st1 => exact ih B st1
      | end_code_stream ind v => rfl

theorem naive_same_step {m nc : Nat} {a b : naive_state}
    (hs : NaiveSame m nc a b) {c : Nat} (hc : c < 4096) (Oa Ob X : List Nat)
    (ha : a.output = Oa ++ X) (hb : b.output = Ob ++ X) :
    (∀ a', naive_step m nc a c = .next a' →
      ∃ b' X', naive_step m nc b c = .next b' ∧ NaiveSame m nc a' b'
        ∧ a'.output = Oa ++ X' ∧ b'.output = Ob ++ X')
    ∧ (∀ oa, naive_step m nc a c = .done oa →
        ∃ X', naive_step m nc b c = .done (Ob ++ X') ∧ oa = Oa ++ X') := by
  obtain ⟨h1, h2, h3, h4, h5⟩ := hs
  constructor
  · intro a' h
    unfold naive_step at h ⊢
    split at h
    · cases h
    · rename_i hc1
      rw [if_neg hc1]
      split at h
      · rename_i hc2
        cases h
        rw [if_pos hc2]
        refine ⟨_, X, rfl, ⟨rfl, rfl, le_refl _, ?_, ?_⟩, ha, hb⟩
        · intro x hx
          have hx' : x < nc ∨ (2 ^ m + 2 ≤ x ∧ x < 2 ^ m + 2) := hx
          have : naive_in_use m nc a.next x := by
            rcases hx' with hx' | hx'
            · exact .inl hx'
            · omega
          exact h4 x this
        · intro q hq
          cases hq
      · rename_i hc2
        rw [if_neg hc2]
        rw [← h2, ← h1]
        cases hp : a.previous with
        | none =>
          rw [hp] at h
          simp only [] at h ⊢
          split at h
          · rename_i hlt
            cases h
            rw [if_pos hlt]
            refine ⟨_, X ++ [c], rfl, ⟨rfl, rfl, h3, h4, ?_⟩, ?_, ?_⟩
            · intro q hq
              cases hq
              exact .inl hlt
            · show a.output ++ [c] = Oa ++ (X ++ [c])
              rw [ha, List.append_assoc]
            · show b.output ++ [c] = Ob ++ (X ++ [c])
              rw [hb, List.append_assoc]
          · cases h
        | some q =>
          rw [hp] at h
          simp only [] at h ⊢
          have hq := h5 q hp
          have eq := h4 q hq
          split at h
          · rename_i hu
            rw [if_pos hu]
            have ec := h4 c hu
            cases h
            rw [← ec, ← eq]
            unfold naive_add
            simp only [← h1]
            by_cases h4096 : a.next = 4096
            · rw [if_pos h4096, if_pos h4096]
              refine ⟨_, X ++ a.strings c, rfl, ⟨rfl, rfl, h3, h4, ?_⟩, ?_, ?_⟩
              · intro q' hq'
                cases hq'
                exact hu
              · show a.output ++ a.strings c = Oa ++ (X ++ a.strings c)
                rw [ha, List.append_assoc]
              · show b.output ++ a.strings c = Ob ++ (X ++ a.strings c)
                rw [hb, List.append_assoc]
            · rw [if_neg h4096, if_neg h4096]
              refine ⟨_, X ++ a.strings c, rfl, ⟨rfl, rfl, ?_, ?_, ?_⟩, ?_, ?_⟩
              · show 2 ^ m + 2 ≤ a.next + 1
                omega
              · intro x hx
                show (if x = a.next then _ else a.strings x)
                  = (if x = a.next then _ else b.strings x)
                by_cases hxn : x = a.next
                · rw [if_pos hxn, if_pos hxn]
                · rw [if_neg hxn, if_neg hxn]
                  refine h4 x ?_
                  rcases hx with hx | hx
                  · exact .inl hx
                  · exact .inr ⟨hx.1, by
                      have : x < a.next + 1 := hx.2
                      omega⟩
              · intro q' hq'
                cases hq'
                exact in_use_succ hu
              · show a.output ++ a.strings c = Oa ++ (X ++ a.strings c)
                rw [ha, List.append_assoc]
              · show b.output ++ a.strings c = Ob ++ (X ++ a.strings c)
                rw [hb, List.append_assoc]
          · rename_i hu
            rw [if_neg hu]
            split at h
            · rename_i hcn
              rw [if_pos hcn]
              cases h
              rw [← eq]
              unfold naive_add
              simp only [← h1]
              have h4096 : ¬ (a.next = 4096) := by omega
              rw [if_neg h4096, if_neg h4096]
              refine ⟨_, X ++ (a.strings q ++ [(a.strings q).headD 0]), rfl,
                ⟨rfl, rfl, ?_, ?_, ?_⟩, ?_, ?_⟩
              · show 2 ^ m + 2 ≤ a.next + 1
                omega
              · intro x hx
                show (if x = a.next then _ else a.strings x)
                  = (if x = a.next then _ else b.strings x)
                by_cases hxn : x = a.next
                · rw [if_pos hxn, if_pos hxn]
                · rw [if_neg hxn, if_neg hxn]
                  refine h4 x ?_
                  rcases hx with hx | hx
                  · exact .inl hx
                  · exact .inr ⟨hx.1, by
                      have : x < a.next + 1 := hx.2
                      omega⟩
              · intro q' hq'
                cases hq'
                refine .inr ⟨?_, ?_⟩
                · rw [hcn]
                  exact h3
                · show c < a.next + 1
                  omega
              · show a.output ++ _ = Oa ++ (X ++ _)
                rw [ha, List.append_assoc]
              · show b.output ++ _ = Ob ++ (X ++ _)
                rw [hb, List.append_assoc]
            · cases h
  · intro oa h
    unfold naive_step at h ⊢
    split at h
    · rename_i hc1
      cases h
      rw [if_pos hc1]
      exact ⟨X, by rw [hb], ha⟩
    · split at h
      · cases h
      · split at h
        · split at h <;> cases h
        · split at h
          · cases h
          · split at h <;> cases h

theorem naive_same_run {m nc : Nat} :
    ∀ (B : List Nat) (a b : naive_state) (Oa Ob X : List Nat), NaiveSame m nc a b →
      (∀ c ∈ B, c < 4096) → a.output = Oa ++ X → b.output = Ob ++ X →
      ∀ a', naive_run m nc a B = .next a' →
        ∃ b' X', naive_run m nc b B = .next b' ∧ a'.output = Oa ++ X'
          ∧ b'.output = Ob ++ X' := by
  intro B
  induction B with
  | nil =>
    intro a b Oa Ob X _ _ ha hb a' h
    cases h
    exact ⟨b, X, rfl, ha, hb⟩
  | cons c cs ih =>
    intro a b Oa Ob X hs hc ha hb a' h
    unfold naive_run at h ⊢
    split at h
    · rename_i a1 h1
      obtain ⟨b1, X1, e1, hs1, ha1, hb1⟩ :=
        (naive_same_step hs (hc c (by simp)) Oa Ob X ha hb).1 a1 h1
      rw [e1]
      exact ih a1 b1 Oa Ob X1 hs1 (fun x hx => hc x (by simp [hx])) ha1 hb1 a' h
    · cases h
    · cases h

theorem naive_run_clear {m nc : Nat} {A : List Nat} {ns0 ns : naive_state}
    (h : naive_run m nc ns0 (A ++ [2 ^ m]) = .next ns) :
    ns.next = 2 ^ m + 2 ∧ ns.previous = none := by
  rw [naive_run_append] at h
  split at h
  · rename_i n1 _
    unfold naive_run at h
    split at h
    · rename_i n2 h2
      cases h
      unfold naive_step at h2
      rw [if_neg (by omega), if_pos rfl] at h2
      cases h2
      exact ⟨rfl, rfl⟩
    · cases h
    · cases h
  · cases h
  · cases h

/-- On codes the textbook decoder accepts the clear code does reset the decoder: for a
minimum code size in 2..8, at most `1 << m` colors and 12-bit codes, when the codes
`A, clear, B` and the codes `A', clear, B` are both accepted and their output fits the
image, the body of a completed code emits after the clear code the same indices `X` in
both runs. -/
theorem clear_resets_accepted_codes (u : Uninit) (g : gif) (m nc req : Nat)
    (A A' B : List Nat) (hm : 2 ≤ m ∧ m ≤ 8) (hnc : nc ≤ 1 <<< m)
    (hA : ∀ c ∈ A, c < 4096) (hA' : ∀ c ∈ A', c < 4096) (hB : ∀ c ∈ B, c < 4096)
    (ns ns' : naive_state)
    (h : naive_run m nc (naive_start m) ((A ++ [2 ^ m]) ++ B) = .next ns)
    (hr : ns.output.length ≤ req)
    (h' : naive_run m nc (naive_start m) ((A' ++ [2 ^ m]) ++ B) = .next ns')
    (hr' : ns'.output.length ≤ req) :
    ∃ sa sa' sb sb' X,
      decode_codes ⟨m, nc, req⟩ u g (lzw_start u m nc) (A ++ [2 ^ m]) = .ok (.next sa)
      ∧ decode_codes ⟨m, nc, req⟩ u g (lzw_start u m nc) (A' ++ [2 ^ m]) = .ok (.next sa')
      ∧ decode_codes ⟨m, nc, req⟩ u g sa B = .ok (.next sb)
      ∧ decode_codes ⟨m, nc, req⟩ u g sa' B = .ok (.next sb')
      ∧ sb.indices = sa.indices ++ X ∧ sb'.indices = sa'.indices ++ X := by
  rw [Nat.one_shiftLeft] at hnc
  have hp8 : 2 ^ m ≤ 2 ^ 8 := Nat.pow_le_pow_right (by decide) hm.2
  have hclear : ∀ c ∈ [2 ^ m], c < 4096 := by
    intro c hc
    simp only [List.mem_singleton] at hc
    omega
  have hAc : ∀ c ∈ A ++ [2 ^ m], c < 4096 := by
    intro c hc
    rcases List.mem_append.mp hc with hc | hc
    · exact hA c hc
    · exact hclear c hc
  have hAc' : ∀ c ∈ A' ++ [2 ^ m], c < 4096 := by
    intro c hc
    rcases List.mem_append.mp hc with hc | hc
    · exact hA' c hc
    · exact hclear c hc
  rw [naive_run_append] at h h'
  cases ha : naive_run m nc (naive_start m) (A ++ [2 ^ m]) with
  | done out =>
    rw [ha] at h
    cases h
  | invalid =>
    rw [ha] at h
    cases h
  | next nsa =>
    cases ha' : naive_run m nc (naive_start m) (A' ++ [2 ^ m]) with
    | done out =>
      rw [ha'] at h'
      cases h'
    | invalid =>
      rw [ha'] at h'
      cases h'
    | next nsa' =>
      rw [ha] at h
      rw [ha'] at h'
      simp only [] at h h'
      have hl := (naive_run_output B nsa).1 ns h
      have hl' := (naive_run_output B nsa').1 ns' h'
      obtain ⟨sa, hda, hsa⟩ := (sim_run m nc req u g hm hnc _ _ _ (sim_start u hm hnc) hAc).2
        nsa ha (by omega)
      obtain ⟨sa', hda', hsa'⟩ := (sim_run m nc req u g hm hnc _ _ _ (sim_start u hm hnc)
        hAc').2 nsa' ha' (by omega)
      obtain ⟨sb, hdb, hsb⟩ := (sim_run m nc req u g hm hnc B sa nsa hsa hB).2 ns h hr
      obtain ⟨sb', hdb', hsb'⟩ := (sim_run m nc req u g hm hnc B sa' nsa' hsa' hB).2 ns' h' hr'
      obtain ⟨n1, p1⟩ := naive_run_clear ha
      obtain ⟨n2, p2⟩ := naive_run_clear ha'
      have hsame : NaiveSame m nc nsa nsa' := by
        refine ⟨by rw [n1, n2], by rw [p1, p2], by omega, ?_, ?_⟩
        · intro c hc
          rw [n1] at hc
          have hlt : c < nc := by
            rcases hc with hc | hc
            · exact hc
            · omega
          have ea := (hsa.1 c (by omega)).1 (.inl hlt)
          have eb := (hsa'.1 c (by omega)).1 (.inl hlt)
          obtain ⟨_, _, _, _, ea | ea⟩ := ea
          · obtain ⟨_, _, _, _, eb | eb⟩ := eb
            · rw [ea.2.2.2, eb.2.2.2]
            · omega
          · omega
        · intro q hq
          rw [p1] at hq
          cases hq
      obtain ⟨b', X, e1, e2, e3⟩ := naive_same_run B nsa nsa' nsa.output nsa'.output []
        hsame hB (by simp) (by simp) ns h
      rw [h'] at e1
      cases e1
      refine ⟨sa, sa', sb, sb', X, hda, hda', hdb, hdb', ?_, ?_⟩
      · rw [hsb.2.2.2.2.1, hsa.2.2.2.2.1]
        exact e2
      · rw [hsb'.2.2.2.2.1, hsa'.2.2.2.2.1]
        exact e3


/-! ## Runs under one memory, runs past a code stream, runs under other memory -/

/-- With the same unspecified memory in both runs: when `gif_parse` succeeds on `buf`,
the run ends with the cursor at an offset `t` of `buf` that holds the trailer byte
`0x3B`, and `gif_parse` on the first `k` bytes of `buf` returns `GIF_ERR_EOF`, with the
container cleared, for every `k ≤ t`. -/
theorem truncation_same_memory (u : Uninit) (buf : List UInt8) (g : gif)
    (h : gif_parse u buf = .ret GIF_SUCCESS g) :
    ∃ t, t < buf.length ∧ byte buf t = 0x3B
      ∧ (∃ s, Reaches u buf s ∧ block u s = .ok none ∧ s.g = g ∧ s.v = buf.drop t)
      ∧ ∀ k, k ≤ t → gif_parse u (buf.take k) = .ret GIF_ERR_EOF gif_zero := by
  obtain ⟨ks, s, ht, hb, hg⟩ := gif_parse_success h
  have hr := trace_reaches ht
  obtain ⟨s0, h0, hst⟩ := reaches_steps hr
  have hsuf := reaches_suffix hr
  have hdrop := reaches_drop hr
  have hlen : s.v.length ≤ buf.length := hsuf.length_le
  have htr := block_trailer hb
  refine ⟨buf.length - s.v.length, by omega, ?_, ⟨s, hr, hb, hg, hdrop⟩, ?_⟩
  · have : byte (buf.drop (buf.length - s.v.length)) 0 = byte buf (buf.length - s.v.length) := by
      simp [byte, List.getD]
    rw [← this, ← hdrop]
    exact htr.1
  · intro k hk
    have hsplit : buf = buf.take k ++ buf.drop k := (List.take_append_drop k buf).symm
    have hx := parse_header_ext (buf.take k) (buf.drop k)
    rw [← hsplit, h0] at hx
    unfold gif_parse
    cases hp : parse_header (buf.take k) with
    | error e =>
      rw [hp] at hx
      rcases hx with hx | hx
      · exact hx
      · cases hx
    | ok sP =>
      rw [hp] at hx
      have hs0 : s0 = sP.ext (buf.drop k) := by
        have : Except.ok s0 = Except.ok (sP.ext (buf.drop k)) := hx
        exact Except.ok.inj this
      simp only []
      refine truncated_steps hst hb sP (buf.drop k) hs0 ?_ _ (Nat.lt_succ_self _)
      rw [List.length_drop]
      omega

/-- An instance: the 35 bytes of `input_min` end with the trailer, and every prefix of
at most 34 bytes returns `GIF_ERR_EOF`. -/
theorem truncation_same_memory_example :
    ∃ g, gif_parse Uninit.zero input_min = .ret GIF_SUCCESS g
      ∧ ∃ t, t < input_min.length ∧ byte input_min t = 0x3B
        ∧ (∃ s, Reaches Uninit.zero input_min s ∧ block Uninit.zero s = .ok none ∧ s.g = g
            ∧ s.v = input_min.drop t)
        ∧ ∀ k, k ≤ t →
            gif_parse Uninit.zero (input_min.take k) = .ret GIF_ERR_EOF gif_zero :=
  ⟨_, rfl, truncation_same_memory Uninit.zero input_min _ rfl⟩

/-- With the same unspecified memory in both runs: when `gif_parse` succeeds on `buf`
with the container `g`, it succeeds on `buf` followed by any bytes `x` with the same
container. -/
theorem trailing_bytes_same_memory (u : Uninit) (buf x : List UInt8) (g : gif)
    (h : gif_parse u buf = .ret GIF_SUCCESS g) :
    gif_parse u (buf ++ x) = .ret GIF_SUCCESS g := by
  unfold gif_parse at h ⊢
  have hx := parse_header_ext buf x
  cases hp : parse_header buf with
  | error e =>
    rw [hp] at h
    exact absurd h (fine_not_success (parse_header_error hp) g)
  | ok s =>
    rw [hp] at h hx
    have hx' : parse_header (buf ++ x) = .ok (s.ext x) := hx
    rw [hx']
    simp only [] at h ⊢
    exact read_block_ext u x _ _ s g (Nat.lt_succ_self _) (Nat.lt_succ_self _) h

/-- An instance: `input_min` followed by three bytes. -/
theorem trailing_bytes_same_memory_example :
    ∃ g, gif_parse Uninit.zero input_min = .ret GIF_SUCCESS g
      ∧ gif_parse Uninit.zero (input_min ++ [1, 2, 3]) = .ret GIF_SUCCESS g :=
  ⟨_, rfl, trailing_bytes_same_memory Uninit.zero input_min [1, 2, 3] _ rfl⟩

/-- Frames and the blocks the dispatcher reads: after a successful parse the images are
the image blocks of the run, in order, and the image whose descriptor comes after the
blocks `seg` (none of them an image) that follow the previous image descriptor, or the
header, carries `GIF_IMAGE_FLAG_FRAME` if and only if `seg` holds a Graphic Control
Extension. -/
theorem frame_attachment_of_blocks (u : Uninit) (buf : List UInt8) (g : gif)
    (h : gif_parse u buf = .ret GIF_SUCCESS g) :
    ∃ ks s, Trace u buf ks s ∧ block u s = .ok none ∧ s.g = g
      ∧ g.images.length = ks.count .image
      ∧ ∀ a seg rest, ks = a ++ seg ++ .image :: rest →
          (a = [] ∨ ∃ a', a = a' ++ [.image]) → Kind.image ∉ seg →
          ∃ img, g.images[a.count .image]? = some img
            ∧ (img.flags &&& GIF_IMAGE_FLAG_FRAME ≠ 0 ↔ Kind.gce ∈ seg) := by
  obtain ⟨ks, s, ht, hb, hg⟩ := gif_parse_success h
  obtain ⟨h1, _, _⟩ := trace_frames ht
  rw [hg] at h1
  refine ⟨ks, s, ht, hb, hg, ?_, ?_⟩
  · have := congrArg List.length h1
    rw [List.length_map, attached_length] at this
    exact this
  · intro a seg rest hks ha hseg
    have hp : pending false a = false := by
      rcases ha with ha | ⟨a', ha⟩
      · subst ha
        rfl
      · subst ha
        rw [pending_append]
        rfl
    have e : attached false ks
        = attached false a ++ decide (Kind.gce ∈ seg) :: attached false rest := by
      rw [hks, List.append_assoc, attached_append, hp, attached_segment seg rest hseg]
      simp
    rw [e] at h1
    have hlen := attached_length a false
    have hget : (g.images.map
        (fun img => decide (img.flags &&& GIF_IMAGE_FLAG_FRAME ≠ 0)))[a.count .image]?
          = some (decide (Kind.gce ∈ seg)) := by
      rw [h1, List.getElem?_append_right (by omega), hlen]
      simp
    rw [List.getElem?_map] at hget
    cases hi : g.images[a.count .image]? with
    | none =>
      rw [hi] at hget
      cases hget
    | some img =>
      rw [hi] at hget
      refine ⟨img, rfl, ?_⟩
      have hd : decide (img.flags &&& GIF_IMAGE_FLAG_FRAME ≠ 0) = decide (Kind.gce ∈ seg) := by
        simpa using hget
      constructor
      · intro hf
        have := hd ▸ decide_eq_true hf
        exact of_decide_eq_true this
      · intro hm
        have := hd.symm ▸ decide_eq_true hm
        exact of_decide_eq_true this

/-- An instance: the two frames of `input_two_frames`. -/
theorem frame_attachment_of_blocks_example :
    ∃ g, gif_parse Uninit.zero input_two_frames = .ret GIF_SUCCESS g
      ∧ ∃ ks s, Trace Uninit.zero input_two_frames ks s ∧ block Uninit.zero s = .ok none
        ∧ s.g = g ∧ g.images.length = ks.count .image
        ∧ ∀ a seg rest, ks = a ++ seg ++ .image :: rest →
            (a = [] ∨ ∃ a', a = a' ++ [.image]) → Kind.image ∉ seg →
            ∃ img, g.images[a.count .image]? = some img
              ∧ (img.flags &&& GIF_IMAGE_FLAG_FRAME ≠ 0 ↔ Kind.gce ∈ seg) :=
  ⟨_, rfl, frame_attachment_of_blocks Uninit.zero input_two_frames _ rfl⟩

/-- With the same unspecified memory in both runs: let `s` be a state of a run of
`gif_parse` on `buf` at the label `read_block`, `p` bytes into the input.  With an
extension block inserted at `p` that is made of the byte `0x21`, any label byte,
sub-blocks of 1 to 255 bytes of any contents and the zero-length sub-block, and that is
not a Graphic Control Extension of block size 4, the run reaches the same state `s`
after the inserted block, and `gif_parse` returns what it returns on `buf`. -/
theorem skipped_extension_same_memory (u : Uninit) (buf : List UInt8) (s : DState)
    (label : UInt8) (blocks : List (List UInt8)) (hr : Reaches u buf s)
    (hl : ∀ c ∈ blocks, 1 ≤ c.length ∧ c.length ≤ 255)
    (hg : ¬ (label.toNat = 0xF9 ∧ byte (sub_block_chain blocks) 0 = 4)) :
    Reaches u (buf.take (buf.length - s.v.length)
        ++ (0x21 :: label :: sub_block_chain blocks ++ s.v)) s
      ∧ gif_parse u (buf.take (buf.length - s.v.length)
          ++ (0x21 :: label :: sub_block_chain blocks ++ s.v)) = gif_parse u buf := by
  have h1 := reaches_replace_tail hr (0x21 :: label :: sub_block_chain blocks ++ s.v) (by
    simp only [List.cons_append, List.length_cons, List.length_append]
    omega)
  have h2 := block_skips_extension u s label blocks s.v hl hg
  have h3 : Reaches u (buf.take (buf.length - s.v.length)
      ++ (0x21 :: label :: sub_block_chain blocks ++ s.v)) s := Reaches.step _ _ h1 h2
  exact ⟨h3, (reaches_run h3).trans (reaches_run hr).symm⟩

/-- An instance: a comment extension with the two sub-blocks `41 42` and `43` inserted
into `input_two_frames` between the first Graphic Control Extension and its image,
where a frame is pending. -/
theorem skipped_extension_same_memory_example :
    ∃ s, Reaches Uninit.zero input_two_frames s ∧ s.is_frame = 1 ∧ s.v.length = 39
      ∧ (∀ c ∈ [[(0x41 : UInt8), 0x42], [0x43]], 1 ≤ c.length ∧ c.length ≤ 255)
      ∧ ¬ ((0xFE : UInt8).toNat = 0xF9 ∧ byte (sub_block_chain [[0x41, 0x42], [0x43]]) 0 = 4)
      ∧ Reaches Uninit.zero (input_two_frames.take (input_two_frames.length - s.v.length)
          ++ (0x21 :: 0xFE :: sub_block_chain [[0x41, 0x42], [0x43]] ++ s.v)) s
      ∧ gif_parse Uninit.zero (input_two_frames.take (input_two_frames.length - s.v.length)
          ++ (0x21 :: 0xFE :: sub_block_chain [[0x41, 0x42], [0x43]] ++ s.v))
        = gif_parse Uninit.zero input_two_frames :=
  ⟨_, Reaches.step _ _ (Reaches.start _ rfl) rfl, by decide, by decide, by decide, by decide,
    skipped_extension_same_memory Uninit.zero input_two_frames _ 0xFE
      [[0x41, 0x42], [0x43]] (Reaches.step _ _ (Reaches.start _ rfl) rfl) (by decide)
      (by decide)⟩

theorem overrun_data_any (u : Uninit) (i : ImageSetup) (b : UInt8) (w : List UInt8)
    (hn : i.num_colors = 2) (hw : i.img.width = 1) (hh : i.img.height = 1)
    (hv : i.v = 2 :: b :: 0x4C :: 0x0A :: w) (hb : 2 ≤ b.toNat)
    (hl : b.toNat ≤ w.length + 1) :
    image_data u i = .ok ([1], 0x0A :: w) := by
  unfold image_data
  rw [hv, hn, hw, hh]
  simp only [VEC_MUST, VEC_AT_UNSAFE, VEC_ADVANCE_UNSAFE]
  have hb0 : ¬ b.toNat = 0 := by omega
  simp [UInt8.size, hb0]
  have hs : lzw_start u 2 2 = ⟨init_code_table u 2, 1, 3, 0, 0, 0, 0, 6, []⟩ := rfl
  have r1 : ∀ (T : Nat → gif_code) (ind : List Nat),
      read_bits ⟨T, 1, 3, 0, 0, 0, 0, 6, ind⟩ b.toNat (0x4C :: 0x0A :: w)
        = .ok (⟨T, 1, 3, 0, 4, 3, 3, 6, ind⟩, b.toNat, 0x4C :: 0x0A :: w) := by
    intro T ind
    simp [read_bits_cons, tb25, UInt8.size]
  have r2 : ∀ (T : Nat → gif_code) (ind : List Nat),
      read_bits ⟨T, 1, 3, 0, 0, 0, 3, 6, ind⟩ b.toNat (0x4C :: 0x0A :: w)
        = .ok (⟨T, 1, 3, 0, 1, 3, 6, 6, ind⟩, b.toNat, 0x4C :: 0x0A :: w) := by
    intro T ind
    simp [read_bits_cons, tb26, UInt8.size]
  have r3 : ∀ (T : Nat → gif_code) (ind : List Nat),
      read_bits ⟨T, 0, 3, 1, 0, 0, 6, 6, ind⟩ b.toNat (0x4C :: 0x0A :: w)
        = .ok (⟨T, 0, 3, 1, 1, 2, 0, 6, ind⟩, b.toNat - 1, 0x0A :: w) := by
    intro T ind
    simp [read_bits_cons, tb27, UInt8.size]
  have r4 : ∀ (T : Nat → gif_code) (ind : List Nat),
      read_bits ⟨T, 0, 3, 1, 1, 2, 0, 6, ind⟩ (b.toNat - 1) (0x0A :: w)
        = .ok (⟨T, 0, 3, 1, 1, 3, 1, 6, ind⟩, b.toNat - 1, 0x0A :: w) := by
    intro T ind
    simp [read_bits_cons, tb29, UInt8.size]
  rw [sub_blocks_succ _ u _ _ _ b.toNat b _ hb0 (by simp; omega), hs,
    code_loop_code _ u _ (8 * b.toNat) _ _ _ _ _ _ _ hb0 (r1 _ _) rfl
      (decode_clear_any u _ 2 1 _ 1 3 0 3 3 6 _ _ _),
    show 8 * b.toNat = (8 * b.toNat - 1) + 1 by omega,
    code_loop_code _ u _ (8 * b.toNat - 1) _ _ _ _ _ _ _ hb0 (r2 _ _) rfl
      (decode_first_one u _ 1 _ 3 0 3 6 6 [] _ _ (by simp)),
    show 8 * b.toNat - 1 = (8 * b.toNat - 2) + 1 by omega,
    code_loop_part _ u _ (8 * b.toNat - 2) _ _ _ _ _ _ hb0 (r3 _ _) (by simp),
    show 8 * b.toNat - 2 = (8 * b.toNat - 3) + 1 by omega,
    code_loop_end _ u _ (8 * b.toNat - 3) _ _ _ _ _ _ _ _ (by omega) (r4 _ _) rfl
      (decode_overrun u _ 2 1 _ 3 3 1 6 GIF_CODE_NO_PREFIX 1 1 _ (b.toNat - 1) _
        (by simp [clear_code_table, init_code_table]) (by simp))]
  rfl

theorem read_block_append (u : Uninit) (x : List UInt8) :
    ∀ (fuel fuel' : Nat) (s : DState), s.v.length < fuel → (s.v ++ x).length < fuel' →
      read_block u fuel s ≠ .ret GIF_ERR_EOF gif_zero →
      read_block u fuel' (s.ext x) = read_block u fuel s := by
  intro fuel
  induction fuel with
  | zero => intro _ _ h; omega
  | succ n ih =>
    intro fuel' s hf hf' h
    cases fuel' with
    | zero => omega
    | succ n' =>
      unfold read_block at h ⊢
      have hx := block_ext u s x
      cases hb : block u s with
      | error e =>
        rw [hb] at h hx
        simp only [] at h ⊢
        rcases hx with hx | hx
        · exact absurd hx h
        · rw [hx]
      | ok r =>
        rw [hb] at h hx
        have hx' : block u (s.ext x) = .ok (r.map (DState.ext x)) := hx
        rw [hx']
        cases r with
        | none => rfl
        | some s' =>
          simp only [Option.map] at h ⊢
          have hlt := (block_some hb).1
          refine ih n' s' (by omega) ?_ h
          simp only [List.length_append] at hf' ⊢
          omega

theorem gif_parse_append (u : Uninit) (buf x : List UInt8)
    (h : gif_parse u buf ≠ .ret GIF_ERR_EOF gif_zero) :
    gif_parse u (buf ++ x) = gif_parse u buf := by
  unfold gif_parse at h ⊢
  have hx := parse_header_ext buf x
  cases hp : parse_header buf with
  | error e =>
    rw [hp] at h hx
    simp only [] at h ⊢
    rcases hx with hx | hx
    · exact absurd hx h
    · rw [hx]
  | ok s =>
    rw [hp] at h hx
    have hx' : parse_header (buf ++ x) = .ok (s.ext x) := hx
    rw [hx']
    simp only [] at h ⊢
    exact read_block_append u x _ _ s (Nat.lt_succ_self _) (Nat.lt_succ_self _) h

theorem read_zero_bit {p : lzw_params} {u : Uninit} {g : gif} :
    ∀ (n : Nat) (st : lzw_state), LzwReaches p u g st → st.code = 0 →
      st.bit_off < 8 → st.code_off + n = st.lzw_code_size →
      ∃ b, b < 8 ∧ LzwReaches p u g { st with code_off := st.lzw_code_size, bit_off := b } := by
  intro n
  induction n using Nat.strong_induction_on with
  | _ n ih =>
    intro st hr hc hb hn
    by_cases h0 : n = 0
    · subst h0
      refine ⟨st.bit_off, hb, ?_⟩
      have e : ({ st with code_off := st.lzw_code_size, bit_off := st.bit_off } : lzw_state)
          = st := by
        cases st
        simp only [] at hn ⊢
        simp only [Nat.add_zero] at hn
        rw [hn]
      rw [e]
      exact hr
    · have hnb : 1 ≤ num_bits st ∧ num_bits st ≤ n ∧ st.bit_off + num_bits st ≤ 8 := by
        unfold num_bits
        split <;> omega
      obtain ⟨k1, k2, k3⟩ := hnb
      have hz : (st.code ||| (((0 >>> st.bit_off) &&& ((1 <<< num_bits st) - 1))
          <<< st.code_off)) % 65536 = 0 := by
        rw [hc]
        simp
      by_cases h8 : st.bit_off + num_bits st = 8
      · have hrd : read_bits st 1 [0, 0]
            = .ok ({ st with code := 0, bit_off := 0,
                             code_off := st.code_off + num_bits st }, 0, [0]) := by
          unfold read_bits
          simp only [VEC_AT_UNSAFE, List.getElem?_cons_zero, bind_ok_eq, UInt8.toNat_zero,
            if_pos h8, VEC_ADVANCE_UNSAFE, List.length_cons, List.length_nil,
            List.drop_succ_cons, List.drop_zero, pure_eq_ok]
          simp only [show (0 : UInt8).toNat = 0 from rfl, hz]
          rfl
        have hr' := LzwReaches.bits _ _ _ _ _ _ hr hrd
        obtain ⟨b, hb', h⟩ := ih (n - num_bits st) (by omega) _ hr' rfl (by simp) (by
          simp only []
          omega)
        refine ⟨b, hb', ?_⟩
        show LzwReaches p u g ⟨st.code_table, st.first_code, st.lzw_code_size, st.prev_code,
          st.code, st.lzw_code_size, b, st.next_code, st.indices⟩
        rw [hc]
        exact h
      · have hrd : read_bits st 1 [0, 0]
            = .ok ({ st with code := 0, bit_off := st.bit_off + num_bits st,
                             code_off := st.code_off + num_bits st }, 1, [0, 0]) := by
          unfold read_bits
          simp only [VEC_AT_UNSAFE, List.getElem?_cons_zero, bind_ok_eq,
            if_neg h8, pure_eq_ok]
          simp only [show (0 : UInt8).toNat = 0 from rfl, hz]
        have hr' := LzwReaches.bits _ _ _ _ _ _ hr hrd
        obtain ⟨b, hb', h⟩ := ih (n - num_bits st) (by omega) _ hr' rfl (by
          simp only []
          omega) (by
          simp only []
          omega)
        refine ⟨b, hb', ?_⟩
        show LzwReaches p u g ⟨st.code_table, st.first_code, st.lzw_code_size, st.prev_code,
          st.code, st.lzw_code_size, b, st.next_code, st.indices⟩
        rw [hc]
        exact h

theorem feed_zero {m nc req : Nat} {u : Uninit} {g : gif} (hm : 2 ≤ m ∧ m ≤ 8)
    (hnc : nc ≤ 2 ^ m) {st : lzw_state} {ns ns' : naive_state}
    (hr : LzwReaches ⟨m, nc, req⟩ u g st) (hs : Sim m nc st ns) (hc : st.code = 0)
    (ho : st.code_off = 0) (hb : st.bit_off < 8)
    (hn : naive_step m nc ns 0 = .next ns') (hf : ns'.output.length ≤ req) :
    ∃ sr st', LzwReaches ⟨m, nc, req⟩ u g sr ∧ sr.code = 0 ∧ sr.next_code = st.next_code
      ∧ sr.lzw_code_size = st.lzw_code_size
      ∧ decode_code ⟨m, nc, req⟩ u g sr 0 [] = .ok (.next st')
      ∧ LzwReaches ⟨m, nc, req⟩ u g st' ∧ Sim m nc st' ns' ∧ st'.code = 0
      ∧ st'.code_off = 0 ∧ st'.bit_off < 8 := by
  obtain ⟨b, hb', hrr⟩ := read_zero_bit st.lzw_code_size st hr hc hb (by omega)
  have hs' : Sim m nc { st with code_off := st.lzw_code_size, bit_off := b } ns := hs
  obtain ⟨st', hfd, hs2⟩ := (sim_step m nc req u g hm hnc hs' (show 0 < 4096 by decide)).2
    ns' hn hf
  have hd : decode_code ⟨m, nc, req⟩ u g
      { st with code_off := st.lzw_code_size, bit_off := b } 0 [] = .ok (.next st') := by
    rw [← hfd]
    unfold feed_code
    show _ = decode_code _ u g ⟨st.code_table, st.first_code, st.lzw_code_size, st.prev_code,
      0, st.lzw_code_size, b, st.next_code, st.indices⟩ 0 []
    rw [← hc]
  obtain ⟨f1, f2, f3⟩ := decode_code_next_fields hd
  refine ⟨_, st', hrr, hc, rfl, rfl, hd, LzwReaches.code _ _ _ _ hrr hd, hs2, f1, f2, ?_⟩
  rw [f3]
  exact hb'

theorem naive_step_zero {m nc : Nat} (hm : 2 ≤ m ∧ m ≤ 8) (h1 : 1 ≤ nc)
    {ns : naive_state} (hq : ns.previous = some 0) (hz : ns.strings 0 = [0])
    (hn : 2 ^ m + 2 ≤ ns.next) :
    ∃ ns', naive_step m nc ns 0 = .next ns' ∧ ns'.previous = some 0
      ∧ ns'.strings 0 = [0] ∧ ns'.output.length = ns.output.length + 1
      ∧ ns'.next = if ns.next = 4096 then 4096 else ns.next + 1 := by
  have hp1 : 2 ^ 2 ≤ 2 ^ m := Nat.pow_le_pow_right (show 0 < 2 by decide) hm.1
  refine ⟨naive_add { ns with previous := some 0, output := ns.output ++ [0] }
    ([0] ++ [0]), ?_, ?_⟩
  · unfold naive_step
    rw [if_neg (by omega), if_neg (by omega), hq]
    simp only [hz, List.headD_cons]
    rw [if_pos (show naive_in_use m nc ns.next 0 from Or.inl (by omega))]
  · unfold naive_add
    simp only []
    split
    · rename_i h4
      refine ⟨rfl, hz, by simp, ?_⟩
      simp only []
      exact h4
    · rename_i h4
      refine ⟨rfl, ?_, by simp, rfl⟩
      simp only []
      rw [if_neg (by omega)]
      exact hz

theorem zero_codes_reach (u : Uninit) (g : gif) {m nc req : Nat} (hm : 2 ≤ m ∧ m ≤ 8)
    (hnc : nc ≤ 2 ^ m) (h1 : 1 ≤ nc) :
    ∀ k, k + 1 ≤ req → ∃ st ns, LzwReaches ⟨m, nc, req⟩ u g st ∧ Sim m nc st ns
      ∧ st.code = 0 ∧ st.code_off = 0 ∧ st.bit_off < 8 ∧ ns.previous = some 0
      ∧ ns.output.length = k + 1 ∧ ns.next = min (2 ^ m + 2 + k) 4096
      ∧ ns.strings 0 = [0] := by
  have hp1 : 2 ^ 2 ≤ 2 ^ m := Nat.pow_le_pow_right (show 0 < 2 by decide) hm.1
  have hp2 : 2 ^ m ≤ 2 ^ 8 := Nat.pow_le_pow_right (show 0 < 2 by decide) hm.2
  have hp : 4 ≤ 2 ^ m ∧ 2 ^ m ≤ 256 := ⟨hp1, hp2⟩
  intro k
  induction k with
  | zero =>
    intro hk
    have hn : naive_step m nc (naive_start m) 0
        = .next { naive_start m with previous := some 0, output := [] ++ [0] } := by
      unfold naive_step
      rw [if_neg (by omega), if_neg (by omega)]
      simp only [naive_start]
      rw [if_pos (show 0 < nc by omega)]
    obtain ⟨_, st', _, _, _, _, _, hr', hs', c1, c2, c3⟩ :=
      feed_zero hm hnc (LzwReaches.start) (sim_start u hm hnc) rfl rfl
        (show 0 < 8 by decide) hn
        (by
          show 1 ≤ req
          omega)
    refine ⟨st', _, hr', hs', c1, c2, c3, rfl, rfl, ?_, rfl⟩
    simp only [naive_start, Nat.add_zero]
    rw [Nat.min_eq_left (by omega)]
  | succ k ih =>
    intro hk
    obtain ⟨st, ns, hr, hs, c1, c2, c3, hq, hl, hnx, hz⟩ := ih (by omega)
    obtain ⟨ns', hn, a1, a2, a3, a4⟩ := naive_step_zero hm h1 hq hz (by omega)
    obtain ⟨_, st', _, _, _, _, _, hr', hs', d1, d2, d3⟩ :=
      feed_zero hm hnc hr hs c1 c2 c3 hn (by omega)
    refine ⟨st', _, hr', hs', d1, d2, d3, a1, by omega, ?_, a2⟩
    rw [a4]
    split <;> omega

theorem zero_codes_ready (u : Uninit) (g : gif) {m nc req : Nat} (hm : 2 ≤ m ∧ m ≤ 8)
    (hnc : nc ≤ 2 ^ m) (h1 : 1 ≤ nc) (k : Nat) (hk : k + 2 ≤ req) :
    ∃ st st', LzwReaches ⟨m, nc, req⟩ u g st ∧ st.code = 0
      ∧ st.next_code = min (2 ^ m + 2 + k) 4096
      ∧ decode_code ⟨m, nc, req⟩ u g st 0 [] = .ok (.next st')
      ∧ st'.next_code = min (2 ^ m + 2 + (k + 1)) 4096 := by
  have hp1 : 2 ^ 2 ≤ 2 ^ m := Nat.pow_le_pow_right (show 0 < 2 by decide) hm.1
  have hp2 : 2 ^ m ≤ 2 ^ 8 := Nat.pow_le_pow_right (show 0 < 2 by decide) hm.2
  have hk1 : k + 1 ≤ req := by omega
  obtain ⟨st, ns, hr, hs, c1, c2, c3, hq, hl, hnx, hz⟩ :=
    zero_codes_reach u g hm hnc h1 k hk1
  obtain ⟨ns', hn, a1, a2, a3, a4⟩ := naive_step_zero hm h1 hq hz (by omega)
  obtain ⟨sr, st', e1, e2, e3, e4, e5, _, hs', _⟩ :=
    feed_zero hm hnc hr hs c1 c2 c3 hn (by omega)
  refine ⟨sr, st', e1, e2, ?_, e5, ?_⟩
  · rw [e3, hs.2.1, hnx]
  · rw [hs'.2.1, a4, hnx]
    split <;> omega

theorem gce_swallowed_parse (u : Uninit) :
    ∃ g img1 img2, gif_parse u input_gce_swallowed = .ret GIF_SUCCESS g
      ∧ g.images = [img1, img2] ∧ img1.indices = [1] ∧ img2.indices = [1]
      ∧ img2.flags &&& GIF_IMAGE_FLAG_FRAME = 0 ∧ img2.frame = frame_zero := by
  have hh : ∃ s0 i1 w1 s1 s2 i2 w2 s3, parse_header input_gce_swallowed = .ok s0
      ∧ (1 ≤ s0.v.length ∧ byte s0.v 0 = 0x2C ∧ image_descriptor s0 = .ok i1
        ∧ i1.num_colors = 2 ∧ i1.img.width = 1 ∧ i1.img.height = 1
        ∧ i1.v = 2 :: 5 :: 0x4C :: 0x0A :: w1 ∧ 5 ≤ w1.length + 1
        ∧ s0.g.num_images = 0
        ∧ image_finish (u.image 0) s0.frame i1 [1] (0x0A :: w1) = .ok s1)
      ∧ block u s1 = .ok (some s2)
      ∧ (1 ≤ s2.v.length ∧ byte s2.v 0 = 0x2C ∧ image_descriptor s2 = .ok i2
        ∧ i2.num_colors = 2 ∧ i2.img.width = 1 ∧ i2.img.height = 1
        ∧ i2.v = 2 :: 2 :: 0x4C :: 0x01 :: w2 ∧ 1 ≤ w2.length
        ∧ s2.g.num_images = 1
        ∧ image_finish (u.image 1) s2.frame i2 [1] w2 = .ok s3)
      ∧ block u s3 = .ok none
      ∧ ∃ img1 img2, s3.g.images = [img1, img2] ∧ img1.indices = [1] ∧ img2.indices = [1]
        ∧ img2.flags &&& GIF_IMAGE_FLAG_FRAME = 0 ∧ img2.frame = frame_zero :=
    ⟨_, _, _, _, _, _, _, _, rfl,
      ⟨by decide, rfl, rfl, rfl, rfl, rfl, rfl, by decide, rfl, rfl⟩, rfl,
      ⟨by decide, rfl, rfl, rfl, rfl, rfl, rfl, by decide, rfl, rfl⟩, rfl,
      _, _, rfl, rfl, rfl, rfl, rfl⟩
  obtain ⟨s0, i1, w1, s1, s2, i2, w2, s3, h0,
    ⟨a1, a2, a3, a4, a5, a6, a7, a8, n0, a9⟩, b2,
    ⟨c1, c2, c3, c4, c5, c6, c7, c8, n2, c9⟩, b4, img1, img2, hi, hf⟩ := hh
  refine ⟨s3.g, img1, img2, ?_, hi, hf⟩
  have b1 : block u s0 = .ok (some s1) :=
    block_image_ok u s0 s1 i1 [1] (0x0A :: w1) a1 a2 a3
      (overrun_data_any _ i1 5 w1 a4 a5 a6 a7 (by decide) a8) (by rw [n0]; exact a9)
  have b3 : block u s2 = .ok (some s3) :=
    block_image_ok u s2 s3 i2 [1] w2 c1 c2 c3 (one_pixel_data _ i2 w2 c4 c5 c6 c7 c8)
      (by rw [n2]; exact c9)
  have hr : Reaches u input_gce_swallowed s3 :=
    .step _ _ (.step _ _ (.step _ _ (.start _ h0) b1) b2) b3
  rw [reaches_run hr]
  unfold read_block
  rw [b4]

theorem gce_forged_parse (u : Uninit) :
    ∃ g img1 img2, gif_parse u input_gce_forged = .ret GIF_SUCCESS g
      ∧ g.images = [img1, img2] ∧ img1.indices = [1] ∧ img2.indices = [1]
      ∧ img2.flags &&& GIF_IMAGE_FLAG_FRAME ≠ 0
      ∧ img2.frame = { flags := GIF_FRAME_FLAG_TRANSPARENT,
                       disposal_method := GIF_FRAME_DISPOSE_NONE, delay_time := 10,
                       transparent_index := 1 } := by
  have hh : ∃ s0 i1 w1 s1 s2 s3 i2 w2 s4, parse_header input_gce_forged = .ok s0
      ∧ (1 ≤ s0.v.length ∧ byte s0.v 0 = 0x2C ∧ image_descriptor s0 = .ok i1
        ∧ i1.num_colors = 2 ∧ i1.img.width = 1 ∧ i1.img.height = 1
        ∧ i1.v = 2 :: 13 :: 0x4C :: 0x0A :: w1 ∧ 13 ≤ w1.length + 1
        ∧ s0.g.num_images = 0
        ∧ image_finish (u.image 0) s0.frame i1 [1] (0x0A :: w1) = .ok s1)
      ∧ block u s1 = .ok (some s2)
      ∧ block u s2 = .ok (some s3)
      ∧ (1 ≤ s3.v.length ∧ byte s3.v 0 = 0x2C ∧ image_descriptor s3 = .ok i2
        ∧ i2.num_colors = 2 ∧ i2.img.width = 1 ∧ i2.img.height = 1
        ∧ i2.v = 2 :: 2 :: 0x4C :: 0x01 :: w2 ∧ 1 ≤ w2.length
        ∧ s3.g.num_images = 1
        ∧ image_finish (u.image 1) s3.frame i2 [1] w2 = .ok s4)
      ∧ block u s4 = .ok none
      ∧ ∃ img1 img2, s4.g.images = [img1, img2] ∧ img1.indices = [1] ∧ img2.indices = [1]
        ∧ img2.flags &&& GIF_IMAGE_FLAG_FRAME ≠ 0
        ∧ img2.frame = { flags := GIF_FRAME_FLAG_TRANSPARENT,
                         disposal_method := GIF_FRAME_DISPOSE_NONE, delay_time := 10,
                         transparent_index := 1 } :=
    ⟨_, _, _, _, _, _, _, _, _, rfl,
      ⟨by decide, rfl, rfl, rfl, rfl, rfl, rfl, by decide, rfl, rfl⟩, rfl, rfl,
      ⟨by decide, rfl, rfl, rfl, rfl, rfl, rfl, by decide, rfl, rfl⟩, rfl,
      _, _, rfl, rfl, rfl, by decide, rfl⟩
  obtain ⟨s0, i1, w1, s1, s2, s3, i2, w2, s4, h0,
    ⟨a1, a2, a3, a4, a5, a6, a7, a8, n0, a9⟩, b2, b3,
    ⟨c1, c2, c3, c4, c5, c6, c7, c8, n3, c9⟩, b5, img1, img2, hi, hf⟩ := hh
  refine ⟨s4.g, img1, img2, ?_, hi, hf⟩
  have b1 : block u s0 = .ok (some s1) :=
    block_image_ok u s0 s1 i1 [1] (0x0A :: w1) a1 a2 a3
      (overrun_data_any _ i1 13 w1 a4 a5 a6 a7 (by decide) a8) (by rw [n0]; exact a9)
  have b4 : block u s3 = .ok (some s4) :=
    block_image_ok u s3 s4 i2 [1] w2 c1 c2 c3 (one_pixel_data _ i2 w2 c4 c5 c6 c7 c8)
      (by rw [n3]; exact c9)
  have hr : Reaches u input_gce_forged s4 :=
    .step _ _ (.step _ _ (.step _ _ (.step _ _ (.start _ h0) b1) b2) b3) b4
  rw [reaches_run hr]
  unfold read_block
  rw [b5]

theorem chain_cut_parse :
    ∃ g img, g.images = [img] ∧ img.indices = [1]
      ∧ ∀ (u : Uninit) (k : Nat), 35 ≤ k →
          gif_parse u (input_chain_cut.take k) = .ret GIF_SUCCESS g := by
  have hh : ∃ s0 i w, parse_header (input_chain_cut.take 35) = .ok s0
      ∧ 1 ≤ s0.v.length ∧ byte s0.v 0 = 0x2C ∧ image_descriptor s0 = .ok i
      ∧ i.num_colors = 2 ∧ i.img.width = 1 ∧ i.img.height = 1
      ∧ i.v = 2 :: 3 :: 0x4C :: 0x0A :: w ∧ 3 ≤ w.length + 1
      ∧ ∃ g img, g.images = [img] ∧ img.indices = [1]
        ∧ ∀ u : Uninit, (match image_finish u s0.frame i [1] (0x0A :: w) with
          | .error e => e
          | .ok s1 => read_block u s0.v.length s1) = .ret GIF_SUCCESS g :=
    ⟨_, _, _, rfl, by decide, rfl, rfl, rfl, rfl, rfl, rfl, by decide, _, _, rfl, rfl,
      fun _ => rfl⟩
  obtain ⟨s0, i, w, h1, h2, h3, h4, h5, h6, h7, h8, h9, g, img, hi, hx, hf⟩ := hh
  refine ⟨g, img, hi, hx, ?_⟩
  intro u k hk
  have h35 : gif_parse u (input_chain_cut.take 35) = .ret GIF_SUCCESS g := by
    rw [gif_parse_first_image u _ s0 i h1 h2 h3 h4,
      overrun_data_any u i 3 w h5 h6 h7 h8 (by decide) h9]
    exact hf u
  have hs : input_chain_cut.take k
      = input_chain_cut.take 35 ++ (input_chain_cut.take k).drop 35 := by
    have := (List.take_append_drop 35 (input_chain_cut.take k)).symm
    rw [List.take_take, Nat.min_eq_left hk] at this
    exact this
  rw [hs, gif_parse_append u _ _ (by
    rw [h35]
    intro h
    injection h with hc _
    exact absurd hc (by decide)), h35]

theorem chain_cut_stop (u : Uninit) :
    ∃ s, Reaches u input_chain_cut s ∧ block u s = .ok none
      ∧ s.v = input_chain_cut.drop 33 := by
  have hh : ∃ s0 i w s1, parse_header input_chain_cut = .ok s0
      ∧ 1 ≤ s0.v.length ∧ byte s0.v 0 = 0x2C ∧ image_descriptor s0 = .ok i
      ∧ i.num_colors = 2 ∧ i.img.width = 1 ∧ i.img.height = 1
      ∧ i.v = 2 :: 3 :: 0x4C :: 0x0A :: w ∧ 3 ≤ w.length + 1
      ∧ s0.g.num_images = 0
      ∧ image_finish (u.image 0) s0.frame i [1] (0x0A :: w) = .ok s1
      ∧ block u s1 = .ok none ∧ s1.v = input_chain_cut.drop 33 :=
    ⟨_, _, _, _, rfl, by decide, rfl, rfl, rfl, rfl, rfl, rfl, by decide, rfl, rfl, rfl,
      rfl⟩
  obtain ⟨s0, i, w, s1, h1, h2, h3, h4, h5, h6, h7, h8, h9, n0, hf, hb, hv⟩ := hh
  have b1 : block u s0 = .ok (some s1) :=
    block_image_ok u s0 s1 i [1] (0x0A :: w) h2 h3 h4
      (overrun_data_any _ i 3 w h5 h6 h7 h8 (by decide) h9) (by rw [n0]; exact hf)
  exact ⟨s1, .step _ _ (.start _ h1) b1, hb, hv⟩
/-! ## The claims -/

/-- C1 (error atomicity), evaluated where it fails.  On a header whose background index
is not below the size of the global color table, `gif_parse` returns
`GIF_ERR_BAD_DATA` (gif.c 115-116, a `return` without `gif_free`) and leaves
version, width, height, flags, bg_index and gct.num_colors set: the container is not
the one `gif_free` leaves. -/
theorem bad_bg_index_keeps_fields (u : Uninit) :
    gif_parse u input_bad_bg = .ret GIF_ERR_BAD_DATA
      { gif_zero with version := GIF_VERSION_89A, width := 1, height := 1,
                      flags := GIF_FLAG_GCT, bg_index := 2,
                      gct := { num_colors := 2, colors := none } }
    ∧ gif_parse u input_bad_bg ≠ .ret GIF_ERR_BAD_DATA (gif_free gif_zero) := by
  constructor
  · rfl
  · intro h
    have h2 : (Outcome.ret GIF_ERR_BAD_DATA
        { gif_zero with version := GIF_VERSION_89A, width := 1, height := 1,
                        flags := GIF_FLAG_GCT, bg_index := 2,
                        gct := { num_colors := 2, colors := none } })
        = .ret GIF_ERR_BAD_DATA (gif_free gif_zero) := h
    revert h2
    decide

/-- C2 (palette resolution), evaluated where it fails.  `gif_parse` never sets
`GIF_IMAGE_FLAG_LCT`: on an input without a global table whose image declares a local
table the parse succeeds, whatever the unspecified memory holds, the image holds the
local table, and `gif_image_get_palette` returns NULL. -/
theorem local_palette_not_returned (u : Uninit) :
    ∃ g img, gif_parse u input_lct = .ret GIF_SUCCESS g ∧ g.images = [img]
      ∧ img.lct = { num_colors := 2, colors := some [0, 0, 0, 255, 255, 255] }
      ∧ img.flags &&& GIF_IMAGE_FLAG_LCT = 0
      ∧ gif_image_get_palette (some g) img = none := by
  have hh : ∃ s0 i, parse_header input_lct = .ok s0 ∧ 1 ≤ s0.v.length
      ∧ byte s0.v 0 = 0x2C ∧ image_descriptor s0 = .ok i ∧ i.num_colors = 2
      ∧ i.img.width = 1 ∧ i.img.height = 1
      ∧ i.v = 2 :: 2 :: 0x4C :: 0x01 :: [0, 0x3B]
      ∧ ∃ g img, (match image_finish u s0.frame i [1] [0, 0x3B] with
          | .error e => e
          | .ok s1 => read_block u s0.v.length s1) = .ret GIF_SUCCESS g
        ∧ g.images = [img]
        ∧ img.lct = { num_colors := 2, colors := some [0, 0, 0, 255, 255, 255] }
        ∧ img.flags &&& GIF_IMAGE_FLAG_LCT = 0
        ∧ gif_image_get_palette (some g) img = none :=
    ⟨_, _, rfl, by decide, rfl, rfl, rfl, rfl, rfl, rfl, _, _, rfl, rfl, rfl, rfl, rfl⟩
  obtain ⟨s0, i, h1, h2, h3, h4, h5, h6, h7, h8, g, img, h9, h10⟩ := hh
  refine ⟨g, img, ?_, h10⟩
  rw [gif_parse_first_image u _ s0 i h1 h2 h3 h4,
    one_pixel_data u i _ h5 h6 h7 h8 (by decide)]
  exact h9

/-- C3 (frame metadata is overwritten), evaluated where it fails.  The packed byte of
the Graphic Control Extension before the second image is 0, yet, whatever the
unspecified memory holds, the second image's frame carries both flags and the
transparent index of the first extension: `frame.flags` is only ever or-ed into. -/
theorem frame_flags_carry_over (u : Uninit) :
    byte input_two_frames 45 = 0
    ∧ ∃ g img1 img2, gif_parse u input_two_frames = .ret GIF_SUCCESS g
      ∧ g.images = [img1, img2]
      ∧ img2.frame = { flags := GIF_FRAME_FLAG_TRANSPARENT ||| GIF_FRAME_FLAG_USER_INPUT,
                       disposal_method := GIF_FRAME_DISPOSE_NONE, delay_time := 20,
                       transparent_index := 1 } := by
  have hh : ∃ s0 s1 i1 w1 s2 s3 i2 w2 s4, parse_header input_two_frames = .ok s0
      ∧ block u s0 = .ok (some s1)
      ∧ (1 ≤ s1.v.length ∧ byte s1.v 0 = 0x2C ∧ image_descriptor s1 = .ok i1
        ∧ i1.num_colors = 2 ∧ i1.img.width = 1 ∧ i1.img.height = 1
        ∧ i1.v = 2 :: 2 :: 0x4C :: 0x01 :: w1 ∧ 1 ≤ w1.length
        ∧ s1.g.num_images = 0
        ∧ image_finish (u.image 0) s1.frame i1 [1] w1 = .ok s2)
      ∧ block u s2 = .ok (some s3)
      ∧ (1 ≤ s3.v.length ∧ byte s3.v 0 = 0x2C ∧ image_descriptor s3 = .ok i2
        ∧ i2.num_colors = 2 ∧ i2.img.width = 1 ∧ i2.img.height = 1
        ∧ i2.v = 2 :: 2 :: 0x4C :: 0x01 :: w2 ∧ 1 ≤ w2.length
        ∧ s3.g.num_images = 1
        ∧ image_finish (u.image 1) s3.frame i2 [1] w2 = .ok s4)
      ∧ block u s4 = .ok none
      ∧ ∃ img1 img2, s4.g.images = [img1, img2]
        ∧ img2.frame = { flags := GIF_FRAME_FLAG_TRANSPARENT ||| GIF_FRAME_FLAG_USER_INPUT,
                         disposal_method := GIF_FRAME_DISPOSE_NONE, delay_time := 20,
                         transparent_index := 1 } :=
    ⟨_, _, _, _, _, _, _, _, _, rfl, rfl,
      ⟨by decide, rfl, rfl, rfl, rfl, rfl, rfl, by decide, rfl, rfl⟩, rfl,
      ⟨by decide, rfl, rfl, rfl, rfl, rfl, rfl, by decide, rfl, rfl⟩, rfl, _, _, rfl, rfl⟩
  obtain ⟨s0, s1, i1, w1, s2, s3, i2, w2, s4, h0, b1,
    ⟨a1, a2, a3, a4, a5, a6, a7, a8, n1, a9⟩, b3,
    ⟨c1, c2, c3, c4, c5, c6, c7, c8, n3, c9⟩, b5, img1, img2, hi, hf⟩ := hh
  refine ⟨by decide, s4.g, img1, img2, ?_, hi, hf⟩
  have b2 : block u s1 = .ok (some s2) :=
    block_image_ok u s1 s2 i1 [1] w1 a1 a2 a3 (one_pixel_data _ i1 w1 a4 a5 a6 a7 a8)
      (by rw [n1]; exact a9)
  have b4 : block u s3 = .ok (some s4) :=
    block_image_ok u s3 s4 i2 [1] w2 c1 c2 c3 (one_pixel_data _ i2 w2 c4 c5 c6 c7 c8)
      (by rw [n3]; exact c9)
  have hr : Reaches u input_two_frames s4 :=
    .step _ _ (.step _ _ (.step _ _ (.step _ _ (.start _ h0) b1) b2) b3) b4
  rw [reaches_run hr]
  unfold read_block
  rw [b5]

/-- C4 (index range), evaluated where it fails.  A code that is not in use is accepted
and becomes `prev_code`; the next code copies the fields `index` and `first_index` of
`code_table[7]`, which nothing has written, into the index buffer.  With the entry a
larger palette leaves there, the parse succeeds with the index 7 under a 2-color
palette. -/
theorem index_beyond_palette :
    ∃ g img, gif_parse uninit_stale input_unassigned_twice = .ret GIF_SUCCESS g
      ∧ g.images = [img]
      ∧ gif_image_get_palette (some g) img
          = some { num_colors := 2, colors := some [0, 0, 0, 255, 255, 255] }
      ∧ img.indices = [0, 0, 0, 7, 7] :=
  ⟨_, _, rfl, rfl, rfl, rfl⟩

/-- C5 (exact index count).  After a successful `gif_parse` every image owns exactly
`width * height` indices; and when the dispatcher is at an image descriptor whose code
stream reaches the label `end_code_stream` (by the chain terminator, by EOI or by a
`goto`) with fewer than `width * height` indices written, `gif_parse` returns
`GIF_ERR_BAD_DATA`. -/
theorem exact_index_count (u : Uninit) (buf : List UInt8) :
    (∀ g, gif_parse u buf = .ret GIF_SUCCESS g →
        ∀ img ∈ g.images, img.indices.length = img.width * img.height)
    ∧ (∀ s i indices v, Reaches u buf s → 1 ≤ s.v.length → byte s.v 0 = 0x2C →
        image_descriptor s = .ok i →
        image_data (u.image s.g.num_images) i = .ok (indices, v) →
        indices.length < i.img.width * i.img.height →
        gif_parse u buf = .ret GIF_ERR_BAD_DATA gif_zero) := by
  constructor
  · intro g h img hmem
    exact (gif_parse_imagesOk h img hmem).2
  · intro s i indices v hr h1 hsep hd hdat hlt
    apply run_error hr
    rw [block_image u s h1 hsep]
    unfold parse_image
    rw [hd]
    dsimp only
    rw [hdat]
    dsimp only
    unfold image_finish
    dsimp only
    rw [if_pos (by omega)]
    rfl

/-- The witness of C5: the 1x1 image is accepted with one index, and the 2x1 image
whose stream ends after one index is rejected. -/
theorem exact_index_count_witness :
    (∃ g, gif_parse Uninit.zero input_min = .ret GIF_SUCCESS g
        ∧ ∀ img ∈ g.images, img.indices.length = img.width * img.height)
    ∧ gif_parse Uninit.zero input_short = .ret GIF_ERR_BAD_DATA gif_zero :=
  ⟨⟨_, rfl, (exact_index_count Uninit.zero input_min).1 _ rfl⟩,
   (exact_index_count Uninit.zero input_short).2 _ _ [1] [0, 0x3B]
     (Reaches.start _ rfl) (by decide) (by decide) rfl rfl (by decide)⟩

/-- C6 (geometry validation).  When the dispatcher is at an image descriptor with at
least 10 bytes available whose width is 0, or height is 0, or `x + width` exceeds the
screen width, or `y + height` exceeds the screen height of the header, `gif_parse`
returns `GIF_ERR_BAD_DATA`; and every image of a successful parse lies inside the
logical screen and has a positive width and height. -/
theorem geometry_validation (u : Uninit) (buf : List UInt8) :
    (∀ s, Reaches u buf s → byte s.v 0 = 0x2C → 10 ≤ s.v.length →
        (u16_le s.v 5 = 0 ∨ u16_le s.v 7 = 0
          ∨ u16_le s.v 1 + u16_le s.v 5 > u16_le buf 6
          ∨ u16_le s.v 3 + u16_le s.v 7 > u16_le buf 8) →
        gif_parse u buf = .ret GIF_ERR_BAD_DATA gif_zero)
    ∧ (∀ g, gif_parse u buf = .ret GIF_SUCCESS g →
        ∀ img ∈ g.images, img.x + img.width ≤ g.width ∧ img.y + img.height ≤ g.height
          ∧ 0 < img.width ∧ 0 < img.height) := by
  constructor
  · intro s hr hsep h10 hbad
    apply run_error hr
    rw [block_image u s (by omega) hsep]
    unfold parse_image
    obtain ⟨hw, hh⟩ := reaches_screen hr
    rw [image_descriptor_bad_geometry s h10 (by rw [hw, hh]; exact hbad)]
    rfl
  · intro g h img hmem
    exact (gif_parse_imagesOk h img hmem).1

/-- The witness of C6: an image of width 2 on a 1x1 screen is rejected, and the image of
the accepted 1x1 input lies inside the screen. -/
theorem geometry_validation_witness :
    gif_parse Uninit.zero input_wide = .ret GIF_ERR_BAD_DATA gif_zero
    ∧ (∃ g, gif_parse Uninit.zero input_min = .ret GIF_SUCCESS g
        ∧ ∀ img ∈ g.images, img.x + img.width ≤ g.width ∧ img.y + img.height ≤ g.height
          ∧ 0 < img.width ∧ 0 < img.height) :=
  ⟨(geometry_validation Uninit.zero input_wide).1 _ (Reaches.start _ rfl) (by decide)
      (by decide) (by decide),
   ⟨_, rfl, (geometry_validation Uninit.zero input_min).2 _ rfl⟩⟩

/-- C7 (out-of-range code), evaluated where it fails.  Code 7 is read while the next
code to assign is 6; it is treated like the code equal to `next_code`, and the parse
succeeds, whatever the unspecified memory holds. -/
theorem unassigned_code_accepted (u : Uninit) :
    ∃ g img, gif_parse u input_unassigned = .ret GIF_SUCCESS g
      ∧ g.images = [img] ∧ img.indices = [0, 0, 0] := by
  have hh : ∃ s0 i, parse_header input_unassigned = .ok s0 ∧ 1 ≤ s0.v.length
      ∧ byte s0.v 0 = 0x2C ∧ image_descriptor s0 = .ok i ∧ i.num_colors = 4
      ∧ i.img.width = 3 ∧ i.img.height = 1
      ∧ i.v = 2 :: 2 :: 0x78 :: 0x01 :: [0, 0x3B]
      ∧ ∃ g img, (match image_finish u s0.frame i [0, 0, 0] [0, 0x3B] with
          | .error e => e
          | .ok s1 => read_block u s0.v.length s1) = .ret GIF_SUCCESS g
        ∧ g.images = [img] ∧ img.indices = [0, 0, 0] :=
    ⟨_, _, rfl, by decide, rfl, rfl, rfl, rfl, rfl, rfl, _, _, rfl, rfl, rfl⟩
  obtain ⟨s0, i, h1, h2, h3, h4, h5, h6, h7, h8, g, img, h9, h10, h11⟩ := hh
  refine ⟨g, img, ?_, h10, h11⟩
  rw [gif_parse_first_image u _ s0 i h1 h2 h3 h4, unassigned_data u i _ h5 h6 h7 h8 (by decide)]
  exact h9

/-- C8 (`GIF_ERR_FAULT` is unreachable), evaluated where it fails.  After a clear code
an unassigned code 7 becomes `prev_code` and is then assigned with itself as prefix;
the walk from code 7 never reaches `GIF_CODE_NO_PREFIX` and the guard
`tmpi >= tmplen` returns `GIF_ERR_FAULT`, whatever the unspecified memory holds. -/
theorem fault_is_reachable (u : Uninit) :
    gif_parse u input_fault = .ret GIF_ERR_FAULT gif_zero := by
  have hh : ∃ s0 i, parse_header input_fault = .ok s0 ∧ 1 ≤ s0.v.length
      ∧ byte s0.v 0 = 0x2C ∧ image_descriptor s0 = .ok i ∧ i.num_colors = 4
      ∧ i.img.width = 10 ∧ i.img.height = 1
      ∧ i.v = 2 :: 4 :: 0x00 :: 0x08 :: 0xC7 :: 0x01 :: [0, 0x3B] :=
    ⟨_, _, rfl, by decide, rfl, rfl, rfl, rfl, rfl, rfl⟩
  obtain ⟨s0, i, h1, h2, h3, h4, h5, h6, h7, h8⟩ := hh
  rw [gif_parse_first_image u _ s0 i h1 h2 h3 h4, fault_data u i _ h5 h6 h7 h8 (by decide)]

/-- C9 (bounds safety of the LZW stage), evaluated where it fails.  On
`input_len_wrap`, whatever the unspecified memory holds, the decoder stores a length
of 65535 in entry 7 (every round reads the unassigned code 7, which becomes `prev_code`,
and then assigns entry 7 with length `code_table[7].len + 1`); with `prev_code = 7`
the next unassigned code computes `tmplen = 65535 + 1 = 0` in 16 bits, and
`stack[tmplen - 1] = index` (gif.c 383) writes before the start of the array. -/
theorem stack_write_below_array (u : Uninit) :
    gif_parse u input_len_wrap = .trap .stack :=
  len_wrap_general u 923 (by norm_num)

/-- The same write on a five-pixel image, when the length of the unwritten entry
`code_table[7]` is read as `0xFFFF` from unspecified memory. -/
theorem unwritten_length_wraps :
    gif_parse uninit_len_max input_unassigned_twice = .trap .stack := rfl

/-- C10 (input reads stay in bounds).  On every input buffer, and whatever the
unspecified memory holds, no read of the input in `gif_parse` is at an offset beyond
the end of the buffer, and no unchecked advance moves the cursor beyond it. -/
theorem input_reads_in_bounds (u : Uninit) (buf : List UInt8) :
    gif_parse u buf ≠ .trap .input ∧ gif_parse u buf ≠ .trap .advance :=
  ⟨(gif_parse_benign u buf).1, (gif_parse_benign u buf).2.1⟩

/-- C11 (truncation), evaluated where it fails.  With one content of the unspecified
memory in both runs, a successful parse of `buf` ends at an offset `t` that holds the
trailer byte, and every prefix of at most `t` bytes returns `GIF_ERR_EOF`.  A cut inside
a sub-block chain need not be such a prefix: in `input_chain_cut` the third code leaves
the code stream by `goto end_code_stream`, the dispatcher reads the byte `3B` at offset
33 inside the chain, and every prefix of 35 or more bytes, among them the cuts at 35, 36
and 37 inside the chain, is parsed with success, whatever the memory holds.  And the
memory of the second run need not be that of the first: `input_unassigned_twice` is
parsed with success under `uninit_stale`, and its first 34 bytes, all but the trailer,
return `GIF_ERR_FAULT` under zeroed memory and `GIF_ERR_BAD_DATA` under the memory the
successful run leaves. -/
theorem truncation_is_not_always_eof (u : Uninit) :
    (∀ buf g, gif_parse u buf = .ret GIF_SUCCESS g →
      ∃ t, t < buf.length ∧ byte buf t = 0x3B
        ∧ (∃ s, Reaches u buf s ∧ block u s = .ok none ∧ s.g = g ∧ s.v = buf.drop t)
        ∧ ∀ k, k ≤ t → gif_parse u (buf.take k) = .ret GIF_ERR_EOF gif_zero)
    ∧ (input_chain_cut.drop 29
          = 2 :: (sub_block_chain [[0x4C, 0x0A, 0x3B], [0, 0]] ++ [0x3B])
        ∧ byte input_chain_cut 33 = 0x3B
        ∧ (∀ u' : Uninit, ∃ s, Reaches u' input_chain_cut s ∧ block u' s = .ok none
            ∧ s.v = input_chain_cut.drop 33)
        ∧ ∃ g img, g.images = [img] ∧ img.indices = [1]
          ∧ ∀ (u' : Uninit) (k : Nat), 35 ≤ k →
              gif_parse u' (input_chain_cut.take k) = .ret GIF_SUCCESS g)
    ∧ (∃ g, gif_parse uninit_stale input_unassigned_twice = .ret GIF_SUCCESS g
        ∧ input_unassigned_twice.length = 35 ∧ byte input_unassigned_twice 34 = 0x3B
        ∧ gif_parse Uninit.zero (input_unassigned_twice.take 34)
            = .ret GIF_ERR_FAULT gif_zero
        ∧ gif_parse uninit_left (input_unassigned_twice.take 34)
            = .ret GIF_ERR_BAD_DATA gif_zero) :=
  ⟨fun buf g h => truncation_same_memory u buf g h,
    ⟨by decide, by decide, chain_cut_stop, chain_cut_parse⟩,
    ⟨_, rfl, rfl, by decide, rfl, rfl⟩⟩

/-- C14 (output overrun), evaluated where it fails.  On `input_overrun` one index has
been written when the third code would write a second one; the code stream stage
leaves at once, with the cursor on the byte `0A` that holds the rest of the stream, two
bytes before the terminator's successor; the count check passes, one byte is skipped,
and the dispatcher reads the chain's terminator `00` as a block separator and returns
`GIF_ERR_BAD_DATA`, whatever the unspecified memory holds.  The byte after the
terminator is the trailer. -/
theorem overrun_leaves_cursor_in_chain (u : Uninit) :
    (∃ s i, parse_header input_overrun = .ok s ∧ image_descriptor s = .ok i
        ∧ i.img.width * i.img.height = 1
        ∧ i.v = [2, 2, 0x4C, 0x0A, 0, 0x3B]
        ∧ image_data u i = .ok ([1], [0x0A, 0, 0x3B]))
    ∧ gif_parse u input_overrun = .ret GIF_ERR_BAD_DATA gif_zero := by
  have hh : ∃ s0 i, parse_header input_overrun = .ok s0 ∧ 1 ≤ s0.v.length
      ∧ byte s0.v 0 = 0x2C ∧ image_descriptor s0 = .ok i ∧ i.num_colors = 2
      ∧ i.img.width = 1 ∧ i.img.height = 1
      ∧ i.v = 2 :: 2 :: 0x4C :: 0x0A :: [0, 0x3B]
      ∧ (match image_finish u s0.frame i [1] [0x0A, 0, 0x3B] with
          | .error e => e
          | .ok s1 => read_block u s0.v.length s1) = .ret GIF_ERR_BAD_DATA gif_zero :=
    ⟨_, _, rfl, by decide, rfl, rfl, rfl, rfl, rfl, rfl, rfl⟩
  obtain ⟨s0, i, h1, h2, h3, h4, h5, h6, h7, h8, h9⟩ := hh
  have hd := overrun_data u i _ h5 h6 h7 h8 (by decide)
  refine ⟨⟨s0, i, h1, h4, by rw [h6, h7], h8, hd⟩, ?_⟩
  rw [gif_parse_first_image u _ s0 i h1 h2 h3 h4, hd]
  exact h9

/-- C15 (EOI drains the image data), evaluated where it fails.  On `input_eoi_more` the
end-of-information code is read in the first sub-block; the cursor moves to the size
byte `01` of the second sub-block, that one byte is skipped, and the dispatcher reads
the data byte `00` of the second sub-block as a block separator and returns
`GIF_ERR_BAD_DATA`, whatever the unspecified memory holds.  The byte after the chain's
terminator is the trailer. -/
theorem eoi_skips_one_byte (u : Uninit) :
    (∃ s i, parse_header input_eoi_more = .ok s ∧ image_descriptor s = .ok i
        ∧ i.img.width * i.img.height = 1
        ∧ i.v = [2, 2, 0x4C, 0x01, 1, 0x00, 0, 0x3B]
        ∧ image_data u i = .ok ([1], [1, 0x00, 0, 0x3B]))
    ∧ gif_parse u input_eoi_more = .ret GIF_ERR_BAD_DATA gif_zero := by
  have hh : ∃ s0 i, parse_header input_eoi_more = .ok s0 ∧ 1 ≤ s0.v.length
      ∧ byte s0.v 0 = 0x2C ∧ image_descriptor s0 = .ok i ∧ i.num_colors = 2
      ∧ i.img.width = 1 ∧ i.img.height = 1
      ∧ i.v = 2 :: 2 :: 0x4C :: 0x01 :: [1, 0x00, 0, 0x3B]
      ∧ (match image_finish u s0.frame i [1] [1, 0x00, 0, 0x3B] with
          | .error e => e
          | .ok s1 => read_block u s0.v.length s1) = .ret GIF_ERR_BAD_DATA gif_zero :=
    ⟨_, _, rfl, by decide, rfl, rfl, rfl, rfl, rfl, rfl, rfl⟩
  obtain ⟨s0, i, h1, h2, h3, h4, h5, h6, h7, h8, h9⟩ := hh
  have hd := one_pixel_data u i _ h5 h6 h7 h8 (by decide)
  refine ⟨⟨s0, i, h1, h4, by rw [h6, h7], h8, hd⟩, ?_⟩
  rw [gif_parse_first_image u _ s0 i h1 h2 h3 h4, hd]
  exact h9

/-- C16 (frame attachment), evaluated where it fails.  After a successful parse an image
carries `GIF_IMAGE_FLAG_FRAME` if and only if a Graphic Control Extension is among the
blocks the dispatcher has read since the previous image, and these are not the blocks
of the stream once a code stream has been left by `goto end_code_stream`.  In
`input_gce_swallowed` a Graphic Control Extension stands between the chain of the first
image and the descriptor of the second, and the second image has no frame: the
dispatcher reads `21 FE 08` inside the first chain as an extension whose sub-block holds
the extension.  In `input_gce_forged` there is no Graphic Control Extension, and the
second image has the frame that the bytes `21 F9 04 05 0A 00 01 00` inside the first
chain describe.  Both parses succeed, whatever the unspecified memory holds. -/
theorem frame_attachment_follows_cursor (u : Uninit) :
    (∀ buf g, gif_parse u buf = .ret GIF_SUCCESS g →
      ∃ ks s, Trace u buf ks s ∧ block u s = .ok none ∧ s.g = g
        ∧ g.images.length = ks.count .image
        ∧ ∀ a seg rest, ks = a ++ seg ++ .image :: rest →
            (a = [] ∨ ∃ a', a = a' ++ [.image]) → Kind.image ∉ seg →
            ∃ img, g.images[a.count .image]? = some img
              ∧ (img.flags &&& GIF_IMAGE_FLAG_FRAME ≠ 0 ↔ Kind.gce ∈ seg))
    ∧ (input_gce_swallowed.drop 19
        = (0x2C :: [0, 0, 0, 0, 1, 0, 1, 0, 0]
            ++ 2 :: sub_block_chain [[0x4C, 0x0A, 0x21, 0xFE, 0x08]])
          ++ (0x21 :: 0xF9 :: sub_block_chain [[0x05, 10, 0, 1]])
          ++ (0x2C :: [0, 0, 0, 0, 1, 0, 1, 0, 0] ++ 2 :: sub_block_chain [[0x4C, 0x01]])
          ++ [0x3B]
      ∧ ∃ g img1 img2, gif_parse u input_gce_swallowed = .ret GIF_SUCCESS g
        ∧ g.images = [img1, img2] ∧ img1.indices = [1] ∧ img2.indices = [1]
        ∧ img2.flags &&& GIF_IMAGE_FLAG_FRAME = 0 ∧ img2.frame = frame_zero)
    ∧ (input_gce_forged.drop 19
        = (0x2C :: [0, 0, 0, 0, 1, 0, 1, 0, 0]
            ++ 2 :: sub_block_chain
                [[0x4C, 0x0A, 0x21, 0xF9, 4, 0x05, 10, 0, 1, 0, 0x21, 0xFE, 6]])
          ++ (0x21 :: 0xFE :: sub_block_chain [[0x41, 0x42]])
          ++ (0x2C :: [0, 0, 0, 0, 1, 0, 1, 0, 0] ++ 2 :: sub_block_chain [[0x4C, 0x01]])
          ++ [0x3B]
      ∧ ∃ g img1 img2, gif_parse u input_gce_forged = .ret GIF_SUCCESS g
        ∧ g.images = [img1, img2] ∧ img1.indices = [1] ∧ img2.indices = [1]
        ∧ img2.flags &&& GIF_IMAGE_FLAG_FRAME ≠ 0
        ∧ img2.frame = { flags := GIF_FRAME_FLAG_TRANSPARENT,
                         disposal_method := GIF_FRAME_DISPOSE_NONE, delay_time := 10,
                         transparent_index := 1 }) :=
  ⟨fun buf g h => frame_attachment_of_blocks u buf g h,
    ⟨by decide, gce_swallowed_parse u⟩, ⟨by decide, gce_forged_parse u⟩⟩

/-- C17 (disposal normalization).  For every packed byte `p` with
`raw = (p >> 2) & 7` the statements of gif.c 519-522 store `GIF_FRAME_DISPOSE_NONE`
when `raw` is 0 or 4..7 and store 1, 2, 3 for `raw` = 1, 2, 3; a pass of the dispatcher
over a Graphic Control Extension stores this value of its packed byte, the byte at
offset 3; and the frame of every image that carries `GIF_IMAGE_FLAG_FRAME` after a
successful parse holds one of the three disposal constants. -/
theorem disposal_normalization (u : Uninit) (buf : List UInt8) :
    (∀ (frame : gif_frame) (p : Nat),
        (((p >>> 2) &&& 7 = 0 ∨ 4 ≤ (p >>> 2) &&& 7) →
          (gce_disposal frame p).disposal_method = GIF_FRAME_DISPOSE_NONE)
        ∧ ((p >>> 2) &&& 7 = 1 → (gce_disposal frame p).disposal_method = 1)
        ∧ ((p >>> 2) &&& 7 = 2 → (gce_disposal frame p).disposal_method = 2)
        ∧ ((p >>> 2) &&& 7 = 3 → (gce_disposal frame p).disposal_method = 3))
    ∧ (∀ s s', block u s = .ok (some s') → block_kind s = .gce →
        s'.frame.disposal_method = (gce_disposal s.frame (byte s.v 3)).disposal_method)
    ∧ (∀ g, gif_parse u buf = .ret GIF_SUCCESS g →
        ∀ img ∈ g.images, img.flags &&& GIF_IMAGE_FLAG_FRAME ≠ 0 →
          img.frame.disposal_method = GIF_FRAME_DISPOSE_NONE
            ∨ img.frame.disposal_method = GIF_FRAME_DISPOSE_ALL
            ∨ img.frame.disposal_method = GIF_FRAME_DISPOSE_RESTORE) := by
  refine ⟨?_, ?_, ?_⟩
  · intro frame p
    unfold gce_disposal
    dsimp only
    refine ⟨?_, ?_, ?_, ?_⟩
    · intro h
      rw [if_pos (by omega)]
    · intro h
      rw [if_neg (by omega)]
      exact h
    · intro h
      rw [if_neg (by omega)]
      exact h
    · intro h
      rw [if_neg (by omega)]
      exact h
  · intro s s' hb hk
    have := block_kind_some hb
    unfold KindPost at this
    rw [hk] at this
    exact this.2.2
  · intro g h img hm hf
    obtain ⟨ks, s, ht, _, hg⟩ := gif_parse_success h
    obtain ⟨_, _, _, h4⟩ := trace_frames ht
    rw [hg] at h4
    exact h4 img hm hf
/-- The witness of C17: the packed bytes `0x00` and `0x08`, the extension at
`state_at_gce`, and the frames of `input_two_frames`. -/
theorem disposal_normalization_witness :
    (gce_disposal frame_zero 0x00).disposal_method = GIF_FRAME_DISPOSE_NONE
    ∧ (gce_disposal frame_zero 0x08).disposal_method = 2
    ∧ (∃ s', block Uninit.zero state_at_gce = .ok (some s')
        ∧ s'.frame.disposal_method
            = (gce_disposal state_at_gce.frame (byte state_at_gce.v 3)).disposal_method)
    ∧ (∃ g, gif_parse Uninit.zero input_two_frames = .ret GIF_SUCCESS g
        ∧ ∀ img ∈ g.images, img.flags &&& GIF_IMAGE_FLAG_FRAME ≠ 0 →
            img.frame.disposal_method = GIF_FRAME_DISPOSE_NONE
              ∨ img.frame.disposal_method = GIF_FRAME_DISPOSE_ALL
              ∨ img.frame.disposal_method = GIF_FRAME_DISPOSE_RESTORE) :=
  ⟨((disposal_normalization Uninit.zero input_two_frames).1 frame_zero 0x00).1
      (Or.inl (by decide)),
   ((disposal_normalization Uninit.zero input_two_frames).1 frame_zero 0x08).2.2.1
      (by decide),
   ⟨_, rfl, (disposal_normalization Uninit.zero input_two_frames).2.1 state_at_gce _ rfl
      (by decide)⟩,
   ⟨_, rfl, (disposal_normalization Uninit.zero input_two_frames).2.2 _ rfl⟩⟩

/-- C18 (header parsing).  An input shorter than 13 bytes returns `GIF_ERR_EOF`; an input
of 13 bytes or more whose first six bytes are not `G I F 8 (7|9) a` returns
`GIF_ERR_BAD_DATA`; and after a successful parse the version, the screen size and the
background index are the header's. -/
theorem header_parsing (u : Uninit) (buf : List UInt8) :
    (buf.length < 13 → gif_parse u buf = .ret GIF_ERR_EOF gif_zero)
    ∧ (13 ≤ buf.length → ¬ signature_ok buf →
        gif_parse u buf = .ret GIF_ERR_BAD_DATA gif_zero)
    ∧ (∀ g, gif_parse u buf = .ret GIF_SUCCESS g →
        (g.version = GIF_VERSION_87A ↔ byte buf 4 = 0x37)
        ∧ (g.version = GIF_VERSION_89A ↔ byte buf 4 = 0x39)
        ∧ g.width = byte buf 6 + 256 * byte buf 7
        ∧ g.height = byte buf 8 + 256 * byte buf 9
        ∧ g.bg_index = byte buf 11) := by
  refine ⟨?_, ?_, ?_⟩
  · intro h
    unfold gif_parse
    rw [parse_header_eq, if_pos h]
  · intro h hs
    unfold gif_parse
    rw [parse_header_eq, if_neg (by omega), if_pos hs]
  · intro g h
    obtain ⟨ks, s, ht, _, hg⟩ := gif_parse_success h
    obtain ⟨s0, h0, a1, a2, a3, a4, a5, a6⟩ := reaches_sameScreen (trace_reaches ht)
    obtain ⟨_, hsig, hc⟩ := header_ok_cases h0
    obtain ⟨_, _, _, _, h4, _⟩ := hsig
    have hv : s0.g.version = (if byte buf 4 = 0x39 then GIF_VERSION_89A else GIF_VERSION_87A)
        ∧ s0.g.width = u16_le buf 6 ∧ s0.g.height = u16_le buf 8
        ∧ s0.g.bg_index = byte buf 11 := by
      rcases hc with ⟨_, _, _, e⟩ | ⟨_, e⟩ <;> subst e <;> exact ⟨rfl, rfl, rfl, rfl⟩
    obtain ⟨v1, v2, v3, v4⟩ := hv
    subst hg
    rw [a1, a2, a3, a5, v1, v2, v3, v4]
    refine ⟨?_, ?_, rfl, rfl, rfl⟩
    · rcases h4 with h4 | h4 <;> rw [h4] <;> decide
    · rcases h4 with h4 | h4 <;> rw [h4] <;> decide

/-- The witness of C18: the empty input, 13 zero bytes, and the header of
`input_min`. -/
theorem header_parsing_witness :
    gif_parse Uninit.zero [] = .ret GIF_ERR_EOF gif_zero
    ∧ gif_parse Uninit.zero (List.replicate 13 0) = .ret GIF_ERR_BAD_DATA gif_zero
    ∧ (∃ g, gif_parse Uninit.zero input_min = .ret GIF_SUCCESS g
        ∧ (g.version = GIF_VERSION_87A ↔ byte input_min 4 = 0x37)
        ∧ (g.version = GIF_VERSION_89A ↔ byte input_min 4 = 0x39)
        ∧ g.width = byte input_min 6 + 256 * byte input_min 7
        ∧ g.height = byte input_min 8 + 256 * byte input_min 9
        ∧ g.bg_index = byte input_min 11) :=
  ⟨(header_parsing Uninit.zero []).1 (by decide),
   (header_parsing Uninit.zero (List.replicate 13 0)).2.1 (by decide) (by decide),
   ⟨_, rfl, (header_parsing Uninit.zero input_min).2.2 _ rfl⟩⟩

/-- C19 (global color table and background index).  With a valid header whose packed byte
has bit `0x80` set, `num_colors = 1 << ((packed & 7) + 1)` is a power of two from 2 to
256; a background index of `num_colors` or more returns `GIF_ERR_BAD_DATA`; otherwise the
run needs the `3 * num_colors` bytes after the header (`GIF_ERR_EOF` without them) and the
global table of every state the run reaches is exactly these bytes.  After every
successful parse with a global color table `bg_index < gct.num_colors`. -/
theorem global_table_and_background (u : Uninit) (buf : List UInt8) :
    (13 ≤ buf.length → signature_ok buf → byte buf 10 &&& 0x80 ≠ 0 →
      ((∃ k, 1 ≤ k ∧ k ≤ 8 ∧ 1 <<< ((byte buf 10 &&& 7) + 1) = 2 ^ k)
        ∧ 2 ≤ 1 <<< ((byte buf 10 &&& 7) + 1) ∧ 1 <<< ((byte buf 10 &&& 7) + 1) ≤ 256)
      ∧ (byte buf 11 ≥ 1 <<< ((byte buf 10 &&& 7) + 1) →
          ∃ g, gif_parse u buf = .ret GIF_ERR_BAD_DATA g)
      ∧ (byte buf 11 < 1 <<< ((byte buf 10 &&& 7) + 1) →
          (buf.length < 13 + 3 * 1 <<< ((byte buf 10 &&& 7) + 1) →
            gif_parse u buf = .ret GIF_ERR_EOF gif_zero)
          ∧ ∀ s, Reaches u buf s →
              s.g.flags &&& GIF_FLAG_GCT ≠ 0
              ∧ s.g.gct.num_colors = 1 <<< ((byte buf 10 &&& 7) + 1)
              ∧ s.g.gct.colors
                  = some ((buf.drop 13).take (3 * 1 <<< ((byte buf 10 &&& 7) + 1)))
              ∧ ((buf.drop 13).take (3 * 1 <<< ((byte buf 10 &&& 7) + 1))).length
                  = 3 * 1 <<< ((byte buf 10 &&& 7) + 1)))
    ∧ (∀ g, gif_parse u buf = .ret GIF_SUCCESS g → g.flags &&& GIF_FLAG_GCT ≠ 0 →
        g.bg_index < g.gct.num_colors) := by
  refine ⟨?_, ?_⟩
  · intro h13 hs hp
    refine ⟨num_colors_bounds _, ?_, ?_⟩
    · intro hb
      refine ⟨{ header_gif buf with
                flags := GIF_FLAG_GCT
                gct := { num_colors := 1 <<< ((byte buf 10 &&& 7) + 1), colors := none } }, ?_⟩
      unfold gif_parse
      rw [parse_header_eq, if_neg (by omega), if_neg (not_not.mpr hs), if_pos hp, if_pos hb]
    · intro hb
      refine ⟨?_, ?_⟩
      · intro hl
        unfold gif_parse
        rw [parse_header_eq, if_neg (by omega), if_neg (not_not.mpr hs), if_pos hp,
          if_neg (by omega), if_pos (by omega)]
      · intro s hr
        obtain ⟨s0, h0, a1, a2, a3, a4, a5, a6⟩ := reaches_sameScreen hr
        obtain ⟨_, _, hc⟩ := header_ok_cases h0
        rcases hc with ⟨_, _, hl, e⟩ | ⟨hp0, _⟩
        · subst e
          rw [a4, a6]
          refine ⟨?_, rfl, ?_, ?_⟩
          · show GIF_FLAG_GCT &&& GIF_FLAG_GCT ≠ 0
            decide
          · show some _ = some _
            rw [Nat.mul_comm]
          · rw [List.length_take, List.length_drop]
            omega
        · exact absurd hp0 hp
  · intro g h hf
    obtain ⟨ks, s, ht, _, hg⟩ := gif_parse_success h
    obtain ⟨s0, h0, a1, a2, a3, a4, a5, a6⟩ := reaches_sameScreen (trace_reaches ht)
    obtain ⟨_, _, hc⟩ := header_ok_cases h0
    subst hg
    rw [a5, a6]
    rw [a4] at hf
    rcases hc with ⟨_, hb, _, e⟩ | ⟨_, e⟩
    · subst e
      exact hb
    · subst e
      exact absurd (show (0 : Nat) &&& GIF_FLAG_GCT = 0 by decide) hf

/-- The witness of C19: the background index 2 under a 2-color table is rejected, and
the accepted `input_min` has its background index below the number of colors. -/
theorem global_table_and_background_witness :
    (∃ g, gif_parse Uninit.zero input_bad_bg = .ret GIF_ERR_BAD_DATA g)
    ∧ (∃ g, gif_parse Uninit.zero input_min = .ret GIF_SUCCESS g
        ∧ g.bg_index < g.gct.num_colors) :=
  ⟨((global_table_and_background Uninit.zero input_bad_bg).1 (by decide) (by decide)
      (by decide)).2.1 (by decide),
   ⟨_, rfl, (global_table_and_background Uninit.zero input_min).2 _ rfl (by decide)⟩⟩

/-- C20 (LZW parameter validation).  When the dispatcher is at an image descriptor that
is accepted and at least 2 bytes remain after it, `gif_parse` returns
`GIF_ERR_BAD_DATA` if the minimum code size is below 2 or above 8, or the number of
colors of the table in force (the local table when the descriptor declares one,
otherwise the global table) exceeds `1 << m`, or the first sub-block size is 0. -/
theorem lzw_parameter_validation (u : Uninit) (buf : List UInt8) (s : DState)
    (i : ImageSetup) (hr : Reaches u buf s) (hsep : byte s.v 0 = 0x2C)
    (hd : image_descriptor s = .ok i) (h2 : 2 ≤ i.v.length)
    (hbad : byte i.v 0 < 2 ∨ byte i.v 0 > 8 ∨ i.num_colors > 1 <<< byte i.v 0
      ∨ byte i.v 1 = 0) :
    i.num_colors = (if byte s.v 9 &&& 0x80 ≠ 0 then i.img.lct.num_colors
                    else s.g.gct.num_colors)
      ∧ gif_parse u buf = .ret GIF_ERR_BAD_DATA gif_zero := by
  obtain ⟨h10, _, _, _, _, hn, _⟩ := image_descriptor_info hd
  refine ⟨hn, run_error hr ?_⟩
  rw [block_image u s (by omega) hsep]
  unfold parse_image
  rw [hd]
  simp only []
  rw [image_data_bad_parameters _ i h2 hbad]
  rfl

/-- The witness of C20: the minimum code size 1 is rejected. -/
theorem lzw_parameter_validation_witness :
    gif_parse Uninit.zero input_bad_code_size = .ret GIF_ERR_BAD_DATA gif_zero :=
  (lzw_parameter_validation Uninit.zero input_bad_code_size _ _ (Reaches.start _ rfl)
    (by decide) rfl (by decide) (Or.inl (by decide))).2

/-- C21 (free).  Whatever the container holds, `gif_free` leaves the all-zero
container: the global table flag is clear, `num_images` and `images_cap` are 0, the
image array and the global table are absent, and the version, the screen size and the
background index are 0.  The empty container is left empty, a second `gif_free` in a
row changes nothing, and on a container that `gif_free` has left no `free` is called. -/
theorem free_empties_and_is_idempotent (g : gif) :
    gif_free g = gif_zero
      ∧ (gif_free g).flags &&& GIF_FLAG_GCT = 0
      ∧ (gif_free g).flags = 0 ∧ (gif_free g).num_images = 0
      ∧ (gif_free g).images_cap = 0 ∧ (gif_free g).images = []
      ∧ (gif_free g).gct = { num_colors := 0, colors := none }
      ∧ (gif_free g).version = 0 ∧ (gif_free g).width = 0 ∧ (gif_free g).height = 0
      ∧ (gif_free g).bg_index = 0
      ∧ gif_free gif_zero = gif_zero
      ∧ gif_free (gif_free g) = gif_free g
      ∧ gif_free_calls (gif_free g) = [] :=
  ⟨rfl, Nat.zero_and _, rfl, rfl, rfl, rfl, rfl, rfl, rfl, rfl, rfl, rfl, rfl,
    gif_free_calls_zero⟩

/-- C22 (refinement of the textbook decoder).  For a minimum code size `m` in 2..8, at
most `1 << m` colors and 12-bit codes that the textbook decoder with its dictionary of
explicit strings accepts (each code that is not the clear code, the end code or a first
code is in use or is the next code; a first code is a color) and whose output fits the
`req` indices of the image: the body of a completed code of gif.c, run on these codes
from the entry state, traps at no guard and emits exactly the textbook output, both
when the list ends at the end code and when it ends before it.  In the state then
reached the entries in use in the arena are the textbook entries in use, and for each
of them the indices along its prefix chain, root first, are its textbook string, its
`len` is the length of the chain and its `first_index` is the index of the chain
root. -/
theorem lzw_refines_naive (u : Uninit) (g : gif) (m nc req : Nat) (codes : List Nat)
    (hm : 2 ≤ m ∧ m ≤ 8) (hnc : nc ≤ 1 <<< m) (hc : ∀ c ∈ codes, c < 4096) :
    (∀ out, naive_run m nc (naive_start m) codes = .done out → out.length ≤ req →
      decode_codes ⟨m, nc, req⟩ u g (lzw_start u m nc) codes
        = .ok (.end_code_stream out []))
    ∧ (∀ ns, naive_run m nc (naive_start m) codes = .next ns → ns.output.length ≤ req →
        ∃ st, decode_codes ⟨m, nc, req⟩ u g (lzw_start u m nc) codes = .ok (.next st)
          ∧ st.indices = ns.output ∧ st.next_code = ns.next
          ∧ (∀ c, c < 4096 → naive_in_use m nc ns.next c →
              (st.code_table c).inuse ≠ 0
              ∧ chain_string st.code_table 4096 c = ns.strings c
              ∧ (st.code_table c).len = (chain_string st.code_table 4096 c).length
              ∧ (chain_string st.code_table 4096 c).head?
                  = some (st.code_table c).first_index)
          ∧ ∀ c, c < 4096 → ¬ naive_in_use m nc ns.next c →
              (st.code_table c).inuse = 0) := by
  rw [Nat.one_shiftLeft] at hnc
  obtain ⟨r1, r2⟩ := sim_run m nc req u g hm hnc codes _ _ (sim_start u hm hnc) hc
  refine ⟨r1, ?_⟩
  intro ns h hr
  obtain ⟨st, hd, ha, hnx, _, _, hind, _⟩ := r2 ns h hr
  refine ⟨st, hd, hind, hnx, ?_, fun c hc4 hu => (ha c hc4).2 hu⟩
  intro c hc4 hu
  obtain ⟨h1, h2, _, h4, _⟩ := (ha c hc4).1 hu
  have e := chain_string_agrees ha 4096 c hc4 hu hc4
  rw [e]
  exact ⟨h1, rfl, h2, h4⟩

/-- The witness of C22: the codes 0, 6, 1 and the end code 5 for `m = 2` and four
colors, where 6 is the next code when it is read. -/
theorem lzw_refines_naive_witness :
    (2 ≤ 2 ∧ 2 ≤ 8) ∧ 4 ≤ 1 <<< 2 ∧ (∀ c ∈ [0, 6, 1, 5], c < 4096)
      ∧ naive_run 2 4 (naive_start 2) [0, 6, 1, 5] = .done [0, 0, 0, 1]
      ∧ decode_codes ⟨2, 4, 4⟩ Uninit.zero gif_zero (lzw_start Uninit.zero 2 4) [0, 6, 1, 5]
          = .ok (.end_code_stream [0, 0, 0, 1] []) :=
  ⟨by decide, by decide, by decide, rfl,
    (lzw_refines_naive Uninit.zero gif_zero 2 4 4 [0, 6, 1, 5] (by decide) (by decide)
      (by decide)).1 _ rfl (by decide)⟩

/-- C23 (clear code).  The body of a completed code on the clear code sets the code
width to `m + 1`, `next_code` to `CLEAR + 2` and the first-code flag, and clears `inuse`
of every entry from `num_colors` on; `prev_code` and the fields `len`, `prefix_code`,
`index`, `first_index` of every entry stay.  The output after a clear code depends on
them: for `m = 2` and four colors the codes 0, 7, 7 after `0, 0, 0, clear` emit
0, 0, 0, 0, 0, 0 and after `1, 1, 1, clear` emit 0, 0, 0, 1, 1, 1, and `gif_parse`
succeeds on the two files `input_stale_zero` and `input_stale_one` with these indices,
whatever the unspecified memory holds. -/
theorem clear_keeps_stale_entries (u : Uninit) (g : gif) :
    (∀ (p : lzw_params) (st : lzw_state) (bytes : Nat) (v : List UInt8),
      st.code = 1 <<< p.min_lzw_code_size →
      ∃ st', decode_code p u g st bytes v = .ok (.next st')
        ∧ st'.lzw_code_size = (p.min_lzw_code_size + 1) % 256
        ∧ st'.next_code = ((1 <<< p.min_lzw_code_size) + 2) % 65536
        ∧ st'.first_code = 1
        ∧ (∀ i, p.num_colors ≤ i → i < 4096 → (st'.code_table i).inuse = 0)
        ∧ st'.prev_code = st.prev_code
        ∧ ∀ i, (st'.code_table i).len = (st.code_table i).len
            ∧ (st'.code_table i).prefix_code = (st.code_table i).prefix_code
            ∧ (st'.code_table i).index = (st.code_table i).index
            ∧ (st'.code_table i).first_index = (st.code_table i).first_index)
    ∧ (∃ sa sa' sb sb',
        decode_codes ⟨2, 4, 9⟩ u g (lzw_start u 2 4) [0, 0, 0, 4] = .ok (.next sa)
        ∧ decode_codes ⟨2, 4, 9⟩ u g (lzw_start u 2 4) [1, 1, 1, 4] = .ok (.next sa')
        ∧ sa.indices = [0, 0, 0] ∧ sa'.indices = [1, 1, 1]
        ∧ decode_codes ⟨2, 4, 9⟩ u g sa [0, 7, 7] = .ok (.next sb)
        ∧ decode_codes ⟨2, 4, 9⟩ u g sa' [0, 7, 7] = .ok (.next sb')
        ∧ sb.indices = [0, 0, 0] ++ [0, 0, 0, 0, 0, 0]
        ∧ sb'.indices = [1, 1, 1] ++ [0, 0, 0, 1, 1, 1])
    ∧ (∃ g0 img0 g1 img1,
        gif_parse u input_stale_zero = .ret GIF_SUCCESS g0 ∧ g0.images = [img0]
        ∧ img0.indices = [0, 0, 0, 0, 0, 0, 0, 0, 0]
        ∧ gif_parse u input_stale_one = .ret GIF_SUCCESS g1 ∧ g1.images = [img1]
        ∧ img1.indices = [1, 1, 1, 0, 0, 0, 1, 1, 1]) := by
  refine ⟨?_, ?_, ?_⟩
  · intro p st bytes v hc
    refine ⟨{ st with
          first_code := 1
          lzw_code_size := (p.min_lzw_code_size + 1) % 256
          next_code := ((1 <<< p.min_lzw_code_size) + 2) % 65536
          code_table := clear_code_table st.code_table p.num_colors
          code := 0
          code_off := 0 }, ?_, rfl, rfl, rfl, ?_, rfl, ?_⟩
    · unfold decode_code
      rw [if_neg (by omega), if_pos hc]
      rfl
    · intro i h1 h2
      show (clear_code_table st.code_table p.num_colors i).inuse = 0
      unfold clear_code_table
      rw [if_pos ⟨h1, h2⟩]
    · intro i
      exact clear_code_table_fields st.code_table p.num_colors i
  · exact ⟨_, _, _, _, stale_codes_before u g 0 (.inl rfl), stale_codes_before u g 1 (.inr rfl),
      rfl, rfl, stale_codes_after u g 0 (.inl rfl), stale_codes_after u g 1 (.inr rfl),
      rfl, rfl⟩
  · obtain ⟨g0, img0, a1, a2, a3⟩ := stale_parse u input_stale_zero 0 0x00 (.inl ⟨rfl, rfl⟩)
      ⟨_, _, rfl, by decide, rfl, rfl, rfl, rfl, rfl, rfl, _, _, rfl, rfl, rfl⟩
    obtain ⟨g1, img1, b1, b2, b3⟩ := stale_parse u input_stale_one 1 0x49 (.inr ⟨rfl, rfl⟩)
      ⟨_, _, rfl, by decide, rfl, rfl, rfl, rfl, rfl, rfl, _, _, rfl, rfl, rfl⟩
    exact ⟨g0, img0, g1, img1, a1, a2, a3, b1, b2, b3⟩

/-- C24 (code width and next code).  In every state `st` of the code-stream loop of an
image with minimum code size `m` in 2..8, `m + 1 ≤ w ≤ 12` and
`2^m + 2 ≤ next_code ≤ 4096`, `next_code < 2^w` unless `next_code = 4096` and `w = 12`,
and `2^(w-1) ≤ next_code` unless `w = m + 1`.  The body of a completed code raises `w`
by one exactly when it has raised `next_code` by one to `2^w` below 4096, which for
`m = 8` is at 512, 1024 and 2048; with `next_code = 4096` a code other than the clear
code leaves the table, `next_code` and `w = 12` as they are. -/
theorem width_and_next_invariant (p : lzw_params) (u : Uninit) (g : gif) (st : lzw_state)
    (hm : 2 ≤ p.min_lzw_code_size ∧ p.min_lzw_code_size ≤ 8) (h : LzwReaches p u g st) :
    WidthInv p.min_lzw_code_size st
      ∧ ∀ bytes v st', decode_code p u g st bytes v = .ok (.next st') →
          (st'.lzw_code_size = st.lzw_code_size + 1 ↔
            st'.next_code = st.next_code + 1 ∧ st'.next_code = 2 ^ st.lzw_code_size
              ∧ st'.next_code < 4096)
          ∧ (p.min_lzw_code_size = 8 → st'.lzw_code_size = st.lzw_code_size + 1 →
              st'.next_code = 512 ∨ st'.next_code = 1024 ∨ st'.next_code = 2048)
          ∧ (st.next_code = 4096 → st.code ≠ 1 <<< p.min_lzw_code_size →
              st'.code_table = st.code_table ∧ st'.next_code = 4096
                ∧ st'.lzw_code_size = 12) := by
  have hw := lzwReaches_width hm h
  refine ⟨hw, ?_⟩
  intro bytes v st' hd
  obtain ⟨hw', hiff, hfz⟩ := widthInv_decode hm hw hd
  refine ⟨hiff, ?_, hfz⟩
  intro h8 hinc
  obtain ⟨_, h2, h3⟩ := hiff.1 hinc
  obtain ⟨w1, w2, _⟩ := hw
  rw [h8] at w1
  have hlt : st.lzw_code_size < 12 := by
    by_contra hcon
    have e : st.lzw_code_size = 12 := by omega
    rw [e] at h2
    omega
  rw [h2]
  have : st.lzw_code_size = 9 ∨ st.lzw_code_size = 10 ∨ st.lzw_code_size = 11 := by omega
  rcases this with e | e | e <;> rw [e] <;> decide

/-- The witness of C24: for minimum code size 2 and four colors the code 0 is read again
and again.  The third code 0 finds `next_code = 7` at width 3 and leaves `next_code = 8`
at width 4, and the code 0 read when `next_code` is 4096 leaves the table, `next_code`
and the width 12 as they are.  For minimum code size 8 the code 0 that finds
`next_code = 511` at width 9 leaves `next_code = 512` at width 10. -/
theorem width_and_next_invariant_witness :
    (2 ≤ 2 ∧ 2 ≤ 8)
      ∧ (∃ st st', LzwReaches ⟨2, 4, 5000⟩ Uninit.zero gif_zero st
          ∧ decode_code ⟨2, 4, 5000⟩ Uninit.zero gif_zero st 0 [] = .ok (.next st')
          ∧ st.indices = [0, 0] ∧ st.code = 0
          ∧ st.lzw_code_size = 3 ∧ st.next_code = 7 ∧ WidthInv 2 st
          ∧ st'.lzw_code_size = 4 ∧ st'.next_code = 8
          ∧ (st'.lzw_code_size = st.lzw_code_size + 1 ↔
              st'.next_code = st.next_code + 1 ∧ st'.next_code = 2 ^ st.lzw_code_size
                ∧ st'.next_code < 4096))
      ∧ (∃ st st', LzwReaches ⟨2, 4, 5000⟩ Uninit.zero gif_zero st
          ∧ decode_code ⟨2, 4, 5000⟩ Uninit.zero gif_zero st 0 [] = .ok (.next st')
          ∧ st.code = 0 ∧ st.next_code = 4096 ∧ WidthInv 2 st
          ∧ st'.code_table = st.code_table ∧ st'.next_code = 4096
          ∧ st'.lzw_code_size = 12)
      ∧ (∃ st st', LzwReaches ⟨8, 4, 5000⟩ Uninit.zero gif_zero st
          ∧ decode_code ⟨8, 4, 5000⟩ Uninit.zero gif_zero st 0 [] = .ok (.next st')
          ∧ st.lzw_code_size = 9 ∧ st.next_code = 511
          ∧ st'.lzw_code_size = 10 ∧ st'.next_code = 512) := by
  refine ⟨by decide, ?_, ?_, ?_⟩
  · have pack : ∃ a1 a2 a3 a4 a5 st st',
        read_bits (lzw_start Uninit.zero 2 4) 1 [0, 0] = .ok (a1, 1, [0, 0])
        ∧ decode_code ⟨2, 4, 5000⟩ Uninit.zero gif_zero a1 1 [0, 0] = .ok (.next a2)
        ∧ read_bits a2 1 [0, 0] = .ok (a3, 1, [0, 0])
        ∧ decode_code ⟨2, 4, 5000⟩ Uninit.zero gif_zero a3 1 [0, 0] = .ok (.next a4)
        ∧ read_bits a4 1 [0, 0] = .ok (a5, 0, [0])
        ∧ read_bits a5 1 [0] = .ok (st, 1, [0])
        ∧ decode_code ⟨2, 4, 5000⟩ Uninit.zero gif_zero st 0 [] = .ok (.next st')
        ∧ st.indices = [0, 0] ∧ st.code = 0 ∧ st.lzw_code_size = 3 ∧ st.next_code = 7
        ∧ st'.lzw_code_size = 4 ∧ st'.next_code = 8 :=
      ⟨_, _, _, _, _, _, _, rfl, rfl, rfl, rfl, rfl, rfl, rfl, rfl, rfl, rfl, rfl, rfl, rfl⟩
    obtain ⟨a1, a2, a3, a4, a5, st, st', r1, d1, r2, d2, r3, r4, d3, h1, h2, h3, h4, h5, h6⟩ :=
      pack
    have hr : LzwReaches ⟨2, 4, 5000⟩ Uninit.zero gif_zero st :=
      .bits _ _ _ _ _ _ (.bits _ _ _ _ _ _ (.code _ _ _ _ (.bits _ _ _ _ _ _
        (.code _ _ _ _ (.bits _ _ _ _ _ _ .start r1) d1) r2) d2) r3) r4
    have ht := width_and_next_invariant ⟨2, 4, 5000⟩ Uninit.zero gif_zero st
      (by decide) hr
    exact ⟨st, st', hr, d3, h1, h2, h3, h4, ht.1, h5, h6, (ht.2 _ _ _ d3).1⟩
  · obtain ⟨st, st', hr, hc, hn, hd, _⟩ :=
      zero_codes_ready Uninit.zero gif_zero (show 2 ≤ 2 ∧ 2 ≤ 8 by decide)
        (show 4 ≤ 2 ^ 2 by decide) (show 1 ≤ 4 by decide) 4090
        (show 4090 + 2 ≤ 5000 by decide)
    have hn' : st.next_code = 4096 := by
      rw [hn]
      decide
    have ht := width_and_next_invariant ⟨2, 4, 5000⟩ Uninit.zero gif_zero st
      (by decide) hr
    have hz := (ht.2 _ _ _ hd).2.2 hn' (by
      rw [hc]
      decide)
    exact ⟨st, st', hr, hd, hc, hn', ht.1, hz⟩
  · obtain ⟨st, st', hr, hc, hn, hd, hn2⟩ :=
      zero_codes_ready Uninit.zero gif_zero (show 2 ≤ 8 ∧ 8 ≤ 8 by decide)
        (show 4 ≤ 2 ^ 8 by decide) (show 1 ≤ 4 by decide) 253
        (show 253 + 2 ≤ 5000 by decide)
    have hn' : st.next_code = 511 := by
      rw [hn]
      decide
    have hn2' : st'.next_code = 512 := by
      rw [hn2]
      decide
    have ht := width_and_next_invariant ⟨8, 4, 5000⟩ Uninit.zero gif_zero st
      (by decide) hr
    obtain ⟨w1, w2, _, _, hb, hl⟩ := ht.1
    have w1' : 9 ≤ st.lzw_code_size := w1
    have hl' : st.lzw_code_size = 9 ∨ 2 ^ (st.lzw_code_size - 1) ≤ st.next_code := hl
    have hw : st.lzw_code_size = 9 := by
      rcases hl' with h | h
      · exact h
      · rw [hn'] at h
        by_contra hne
        have h9 : 2 ^ 9 ≤ 2 ^ (st.lzw_code_size - 1) :=
          Nat.pow_le_pow_right (show 0 < 2 by decide) (by omega)
        have e9 : (2 : Nat) ^ 9 = 512 := by decide
        omega
    have hup := (ht.2 _ _ _ hd).1.2 ⟨by omega, by rw [hn2', hw]; decide, by omega⟩
    exact ⟨st, st', hr, hd, hw, hn', by omega, hn2'⟩

/-- C25 (bit reader).  For a chain of sub-blocks with the payloads `b :: bs` (1 to 255
bytes each, then the zero-length sub-block, then any bytes `x`) and a minimum code size
in 2..8, the outer loop started as the image data starts it hands to the body of a
completed code a list of codes `c_k` with the code width `w_k` in force such that `c_k`
is the number in the bits `[o_k, o_k + w_k)` of the concatenated payloads read as a
little-endian bit stream, where `o_0 = 0` and `o_(k+1) = o_k + w_k`; the length bytes
are not part of the stream.  The record of the codes does not change what the loop
returns. -/
theorem codes_are_stream_bits (p : lzw_params) (u : Uninit) (g : gif) (b : List UInt8)
    (bs : List (List UInt8)) (x : List UInt8) (fuel : Nat)
    (hm : 2 ≤ p.min_lzw_code_size ∧ p.min_lzw_code_size ≤ 8)
    (hl : ∀ c ∈ b :: bs, 1 ≤ c.length ∧ c.length ≤ 255) :
    (sub_blocks_log p u g fuel (lzw_start u p.min_lzw_code_size p.num_colors) b.length
        (sub_block_chain (b :: bs) ++ x)).2
      = sub_blocks p u g fuel (lzw_start u p.min_lzw_code_size p.num_colors) b.length
          (sub_block_chain (b :: bs) ++ x)
    ∧ ∀ (k c w : Nat),
        (sub_blocks_log p u g fuel (lzw_start u p.min_lzw_code_size p.num_colors) b.length
          (sub_block_chain (b :: bs) ++ x)).1[k]? = some (c, w) →
        c = stream_bits (b :: bs).flatten
              (log_width ((sub_blocks_log p u g fuel
                (lzw_start u p.min_lzw_code_size p.num_colors) b.length
                (sub_block_chain (b :: bs) ++ x)).1.take k)) w := by
  refine ⟨sub_blocks_log_snd p u g _ _ _ _, ?_⟩
  have hwi := widthInv_start u p.num_colors hm
  have h := sub_blocks_log_spec p u g hm x bs b fuel
    (lzw_start u p.min_lzw_code_size p.num_colors) [] 0 hl hwi (by
      show 0 < 8
      omega) (by
      show 0 < (p.min_lzw_code_size + 1) % 256
      rw [Nat.mod_eq_of_lt (by omega)]
      omega) rfl rfl
  rw [List.nil_append] at h
  intro k c w hk
  have := logAt_index _ _ 0 h k c w hk
  rw [Nat.zero_add] at this
  exact this

/-- The witness of C25: two sub-blocks of one byte each, `44` and `0A`, for minimum code
size 2; the third code takes its last bit from the second sub-block. -/
theorem codes_are_stream_bits_witness :
    (2 ≤ 2 ∧ 2 ≤ 8) ∧ (∀ c ∈ [[(0x44 : UInt8)], [0x0A]], 1 ≤ c.length ∧ c.length ≤ 255)
      ∧ (sub_blocks_log ⟨2, 4, 2⟩ Uninit.zero gif_zero 6 (lzw_start Uninit.zero 2 4) 1
          (sub_block_chain [[0x44], [0x0A]] ++ [0x3B])).1 = [(4, 3), (0, 3), (1, 3), (5, 3)]
      ∧ ∀ (k c w : Nat),
          (sub_blocks_log ⟨2, 4, 2⟩ Uninit.zero gif_zero 6 (lzw_start Uninit.zero 2 4) 1
            (sub_block_chain [[0x44], [0x0A]] ++ [0x3B])).1[k]? = some (c, w) →
          c = stream_bits [0x44, 0x0A]
                (log_width ((sub_blocks_log ⟨2, 4, 2⟩ Uninit.zero gif_zero 6
                  (lzw_start Uninit.zero 2 4) 1
                  (sub_block_chain [[0x44], [0x0A]] ++ [0x3B])).1.take k)) w :=
  ⟨by decide, by decide, by decide,
    (codes_are_stream_bits ⟨2, 4, 2⟩ Uninit.zero gif_zero [0x44] [[0x0A]] [0x3B] 6
      (by decide) (by decide)).2⟩

end LibGif
